import Mathlib

/-!
Triton front-end bindings, software-pipelining pass and template status codes.

A shallow embedding of `python/src/functions.h` (the IR-construction primitives
exposed to the scripting front-end), of `lib/codegen/transform/pipeline.cc` (the
software-pipelining pass) and of the status constants of
`include/atidlas/backend/templates/base.h`, together with the properties proved
about them.

The headers `triton/ir/*.h` are not among the sources, so the part of the IR core
these two files rely on is modelled from the specification (section 4.4).

Part I holds the definitions, Part II the theorems.
-/

set_option autoImplicit false

namespace triton

/-! ## Part I. Definitions -/

deriving instance DecidableEq for Except

/-- The ways a call can fail to produce a result: a `std::runtime_error` thrown by
the code itself, with its message; a step whose behaviour the language or the IR
core leaves undefined (the block shape of a type that is not a block, an index past
the end of a vector, `back()` of an empty list, the read of a field that was never
assigned); or a recursion that was still running when the fuel of the model ran out. -/
inductive error where
  | runtime_error (what : String)
  | undefined (what : String)
  | out_of_fuel
  deriving DecidableEq, Repr

/-- The value of an optional result, or the undefined step `what` when there is none. -/
def defined {α : Type} (what : String) : Option α → Except error α
  | some a => .ok a
  | none => .error (.undefined what)

/-! ### IR types -/

namespace ir

/-- Modelled from the spec: the element types of the IR core (`triton/ir/type.h` is
not among the sources): integers of a given width, floating-point types told apart
by their mantissa width, pointers to an element, and `void` standing for a kind that
is none of those. -/
inductive scalar_ty where
  | void
  | integer (bitwidth : Nat)
  | floating (mantissa_width : Nat)
  | pointer (pointee : scalar_ty)
  deriving DecidableEq, Repr

/-- Modelled from the spec: an IR type is an element type, or a block (tile) wrapping
an element type with a fixed shape (`triton/ir/type.h` is not among the sources). The
extents are `unsigned` in the code, which only compares and copies them; they are
natural numbers here. -/
inductive type where
  | scalar (ty : scalar_ty)
  | block (ty : scalar_ty) (shapes : List Nat)
  deriving DecidableEq, Repr

/-- Modelled from the spec: `type::is_floating_point_ty`. -/
def scalar_ty.is_floating_point_ty : scalar_ty → Bool
  | .floating _ => true
  | _ => false

/-- Modelled from the spec: `type::is_integer_ty`. -/
def scalar_ty.is_integer_ty : scalar_ty → Bool
  | .integer _ => true
  | _ => false

/-- Modelled from the spec: `type::is_pointer_ty`. -/
def scalar_ty.is_pointer_ty : scalar_ty → Bool
  | .pointer _ => true
  | _ => false

/-- Modelled from the spec: `type::get_fp_mantissa_width`; only ever called on a
floating-point type (the callers test `is_floating_point_ty` first). -/
def scalar_ty.get_fp_mantissa_width : scalar_ty → Nat
  | .floating w => w
  | _ => 0

/-- Modelled from the spec: `type::get_pointer_element_ty`, defined on pointers only. -/
def scalar_ty.get_pointer_element_ty : scalar_ty → Option scalar_ty
  | .pointer e => some e
  | _ => none

/-- Modelled from the spec: `type::is_block_ty`. -/
def type.is_block_ty : type → Bool
  | .block _ _ => true
  | .scalar _ => false

/-- Modelled from the spec: `type::get_scalar_ty`, the "get scalar type" projection. -/
def type.get_scalar_ty : type → scalar_ty
  | .block ty _ => ty
  | .scalar ty => ty

/-- Modelled from the spec: `type::get_block_shapes`, defined on block types only. -/
def type.get_block_shapes : type → Option (List Nat)
  | .block _ shapes => some shapes
  | .scalar _ => none

/-- Modelled from the spec: the float32 element type; 23 stands for the mantissa
width the IR core gives it. -/
def float32_ty : scalar_ty :=
  .floating 23

/-- Modelled from the spec: `block_type::get`. -/
def block_type.get (ty : scalar_ty) (shapes : List Nat) : type :=
  .block ty shapes

/-! ### IR values as seen by the front-end bindings -/

/-- Modelled from the spec: the arithmetic instructions of the builder. -/
inductive binary_op where
  | fadd | add | fsub | sub | fmul | mul | fdiv | sdiv | frem | srem | and
  deriving DecidableEq, Repr

/-- Modelled from the spec: the comparison instructions of the builder, ordered-float
and signed-integer variants. -/
inductive cmp_pred where
  | fcmpOGT | fcmpOGE | fcmpOLT | fcmpOLE
  | icmpSGT | icmpSGE | icmpSLT | icmpSLE
  deriving DecidableEq, Repr

/-- Modelled from the spec: an IR value as the bindings of `functions.h` see it. The
bindings never mutate a value, so a value is the term that defines it: a value that
exists before the call (`arg`, with its type), a constant, or an instruction with
its operands. -/
inductive value where
  | arg (id : Nat) (ty : type)
  | undef (ty : scalar_ty)
  | float32 (v : Int)
  | fp_trunc (arg : value) (ty : type)
  | splat (arg : value) (shapes : List Nat)
  | broadcast (arg : value) (shapes : List Nat)
  | reshape (arg : value) (shapes : List Nat)
  | load (ptr : value)
  | masked_load (ptr mask false_value : value)
  | dot (a b c : value)
  | select (cond x y : value)
  | gep (ptr idx : value)
  | binary (op : binary_op) (lhs rhs : value)
  | cmp (pred : cmp_pred) (lhs rhs : value)
  deriving DecidableEq

/-- Modelled from the spec: the type of the value loaded through a pointer-typed
value: the pointee, in a block of the pointer's shape when the pointer is a block. -/
def pointee_type : type → type
  | .scalar (.pointer e) => .scalar e
  | .block (.pointer e) shapes => .block e shapes
  | ty => ty

/-- Modelled from the spec: the boolean type of the shape of `ty`. -/
def bool_like : type → type
  | .scalar _ => .scalar (.integer 1)
  | .block _ shapes => .block (.integer 1) shapes

/-- Modelled from the spec: `value::get_type`. -/
def value.get_type : value → type
  | .arg _ ty => ty
  | .undef ty => .scalar ty
  | .float32 _ => .scalar float32_ty
  | .fp_trunc _ ty => ty
  | .splat x shapes => block_type.get x.get_type.get_scalar_ty shapes
  | .broadcast x shapes => block_type.get x.get_type.get_scalar_ty shapes
  | .reshape x shapes => block_type.get x.get_type.get_scalar_ty shapes
  | .load ptr => pointee_type ptr.get_type
  | .masked_load ptr _ _ => pointee_type ptr.get_type
  | .dot _ _ c => c.get_type
  | .select _ x _ => x.get_type
  | .gep ptr _ => ptr.get_type
  | .binary _ lhs _ => lhs.get_type
  | .cmp _ lhs _ => bool_like lhs.get_type

/-- Modelled from the spec: the builder as the bindings use it: every `create_*`
call allocates one instruction and inserts it at the cursor, which then stands past
it; `insts` is the stream of instructions inserted so far, oldest first. -/
structure builder where
  insts : List value
  deriving DecidableEq

/-- Modelled from the spec: `builder::insert`. -/
def builder.insert (b : builder) (v : value) : builder :=
  { insts := b.insts ++ [v] }

/-- Modelled from the spec: `builder::get_float32`, a constant (nothing is inserted). -/
def builder.get_float32 (_b : builder) (v : Int) : value :=
  .float32 v

/-- Modelled from the spec: `builder::create_fp_trunc`. -/
def builder.create_fp_trunc (b : builder) (arg : value) (ty : type) : value × builder :=
  (.fp_trunc arg ty, b.insert (.fp_trunc arg ty))

/-- Modelled from the spec: `builder::create_splat`. -/
def builder.create_splat (b : builder) (arg : value) (shapes : List Nat) : value × builder :=
  (.splat arg shapes, b.insert (.splat arg shapes))

/-- Modelled from the spec: `builder::create_broadcast`. -/
def builder.create_broadcast (b : builder) (arg : value) (shapes : List Nat) :
    value × builder :=
  (.broadcast arg shapes, b.insert (.broadcast arg shapes))

/-- Modelled from the spec: `builder::create_load`. -/
def builder.create_load (b : builder) (ptr : value) : value × builder :=
  (.load ptr, b.insert (.load ptr))

/-- Modelled from the spec: `builder::create_masked_load`. -/
def builder.create_masked_load (b : builder) (ptr mask false_value : value) :
    value × builder :=
  (.masked_load ptr mask false_value, b.insert (.masked_load ptr mask false_value))

/-- Modelled from the spec: `builder::create_dot`. -/
def builder.create_dot (b : builder) (x y c : value) : value × builder :=
  (.dot x y c, b.insert (.dot x y c))

/-- Modelled from the spec: `builder::create_select`. -/
def builder.create_select (b : builder) (cond x y : value) : value × builder :=
  (.select cond x y, b.insert (.select cond x y))

/-- Modelled from the spec: `builder::create_gep` with a single index. -/
def builder.create_gep (b : builder) (ptr idx : value) : value × builder :=
  (.gep ptr idx, b.insert (.gep ptr idx))

/-- Modelled from the spec: `builder::create_reshape`. -/
def builder.create_reshape (b : builder) (arg : value) (shapes : List Nat) : value × builder :=
  (.reshape arg shapes, b.insert (.reshape arg shapes))

/-- Modelled from the spec: the arithmetic `create_*` calls of the builder, one per
`binary_op`: `create_fadd`, `create_add`, `create_fsub`, `create_sub`, `create_fmul`,
`create_mul`, `create_fdiv`, `create_sdiv`, `create_frem`, `create_srem`, `create_and`. -/
def builder.create_binary (b : builder) (op : binary_op) (lhs rhs : value) : value × builder :=
  (.binary op lhs rhs, b.insert (.binary op lhs rhs))

/-- Modelled from the spec: the comparison `create_*` calls of the builder, one per
`cmp_pred`: `create_fcmpOGT`, `create_fcmpOGE`, `create_fcmpOLT`, `create_fcmpOLE`,
`create_icmpSGT`, `create_icmpSGE`, `create_icmpSLT`, `create_icmpSLE`. -/
def builder.create_cmp (b : builder) (pred : cmp_pred) (lhs rhs : value) : value × builder :=
  (.cmp pred lhs rhs, b.insert (.cmp pred lhs rhs))

end ir

/-! ### `python/src/functions.h` -/

open ir

/-- The message of `throw_not_implemented(key)`. -/
def not_implemented_msg (key : String) : String :=
  "Encountered unimplemented code path in `" ++ key ++ "`. This is likely a bug on our side."

/-- The function `throw_not_implemented`. -/
def throw_not_implemented (key : String) : error :=
  .runtime_error (not_implemented_msg key)

/-- The function `cast`. The front-end data type `_dtype` is given by the element
type that `_dtype.attr("make_ir")(builder->get_context())` yields. The result pairs
the outcome with the builder as the call leaves it. -/
def cast (input : value) (_dtype : scalar_ty) (b : builder) : Except error value × builder :=
  let dtype : type :=
    match input.get_type with
    | .block _ shapes => block_type.get _dtype shapes
    | .scalar _ => .scalar _dtype
  -- FP Truncation
  let src_ty := input.get_type.get_scalar_ty
  let dst_ty := dtype.get_scalar_ty
  let truncate_fp := src_ty.is_floating_point_ty &&
                     dst_ty.is_floating_point_ty &&
                     decide (src_ty.get_fp_mantissa_width > dst_ty.get_fp_mantissa_width)
  if truncate_fp then
    let r := b.create_fp_trunc input dtype
    (.ok r.1, r.2)
  else
    (.error (throw_not_implemented "cast"), b)

/-- The message of the incompatible-dimension error of `try_broadcast`. -/
def incompatible_dimensions_msg (i left right : Nat) : String :=
  "Cannot make_shape_compatible: incompatible dimensions at index " ++ toString i ++
    ": " ++ toString left ++ " and " ++ toString right

/-- The per-axis loop of `try_broadcast`, entered with ranks known to be equal: `i`
is the loop index, the two lists are what is left of `lhs_shape` and `rhs_shape`
from index `i` on, `ret_shape` is the shape built so far. -/
def try_broadcast.loop : Nat → List Nat → List Nat → List Nat → Except error (List Nat)
  | i, left :: ls, right :: rs, ret_shape =>
    if left = 1 then
      try_broadcast.loop (i + 1) ls rs (ret_shape ++ [right])
    else if right = 1 then
      try_broadcast.loop (i + 1) ls rs (ret_shape ++ [left])
    else if left = right then
      try_broadcast.loop (i + 1) ls rs (ret_shape ++ [left])
    else
      .error (.runtime_error (incompatible_dimensions_msg i left right))
  | _, _, _, ret_shape => .ok ret_shape

/-- The message of the incompatible-rank error of `try_broadcast`. -/
def incompatible_rank_msg : String :=
  "Cannot make_shape_compatible: blocks must have the same rank"

/-- The function `try_broadcast`. -/
def try_broadcast (lhs rhs : value) (b : builder) : Except error (value × value) × builder :=
  match lhs.get_type, rhs.get_type with
  -- make_shape_compatible(block, scalar)
  | .block _ lhs_shape, .scalar _ =>
    let r := b.create_splat rhs lhs_shape
    (.ok (lhs, r.1), r.2)
  -- make_shape_compatible(scalar, block)
  | .scalar _, .block _ rhs_shape =>
    let r := b.create_splat lhs rhs_shape
    (.ok (r.1, rhs), r.2)
  -- make_shape_compatible(block, block)
  | .block _ lhs_shape, .block _ rhs_shape =>
    if lhs_shape.length ≠ rhs_shape.length then
      (.error (.runtime_error incompatible_rank_msg), b)
    else
      match try_broadcast.loop 0 lhs_shape rhs_shape [] with
      | .error e => (.error e, b)
      | .ok ret_shape =>
        let l := if lhs_shape ≠ ret_shape then b.create_broadcast lhs ret_shape else (lhs, b)
        let r := if rhs_shape ≠ ret_shape then l.2.create_broadcast rhs ret_shape else (rhs, l.2)
        (.ok (l.1, r.1), r.2)
  | .scalar _, .scalar _ => (.ok (lhs, rhs), b)

/-- The function `broadcast_to`. -/
def broadcast_to (input : value) (shape : List Nat) (b : builder) :
    Except error value × builder :=
  match input.get_type with
  | .scalar _ =>
    let r := b.create_splat input shape
    (.ok r.1, r.2)
  | .block _ src_shape =>
    if src_shape.length ≠ shape.length then
      (.error (.runtime_error "Cannot broadcast"), b)
    else
      let r := b.create_broadcast input shape
      (.ok r.1, r.2)

/-- The function `load`. The call `cast(other, py::cast(elt_ty), builder)` is taken
to reach `cast` with `elt_ty` as target type. -/
def load (pointer : value) (_mask _other : Option value) (b : builder) :
    Except error value × builder :=
  match _mask, _other with
  | none, none =>
    let r := b.create_load pointer
    (.ok r.1, r.2)
  | none, some _ => (.error (.runtime_error "`other` cannot be provided without `mask`"), b)
  | some mask, _ =>
    match pointer.get_type.get_scalar_ty.get_pointer_element_ty with
    | none => (.error (.undefined "get_pointer_element_ty"), b)
    | some elt_ty =>
      let other := match _other with
        | some o => o
        | none => value.undef elt_ty
      match cast other elt_ty b with
      | (.error e, b₁) => (.error e, b₁)
      | (.ok other, b₁) =>
        match pointer.get_type.get_block_shapes with
        | none => (.error (.undefined "get_block_shapes"), b₁)
        | some shapes =>
          match broadcast_to other shapes b₁ with
          | (.error e, b₂) => (.error e, b₂)
          | (.ok other, b₂) =>
            let r := b₂.create_masked_load pointer mask other
            (.ok r.1, r.2)

/-- The function `dot`. -/
def dot (lhs rhs : value) (b : builder) : Except error value × builder :=
  let _0 := b.get_float32 0
  match lhs.get_type.get_block_shapes, rhs.get_type.get_block_shapes with
  | some lhs_shape, some rhs_shape =>
    match lhs_shape[0]?, rhs_shape[1]? with
    | some M, some N =>
      let s := b.create_splat _0 [M, N]
      let r := s.2.create_dot lhs rhs s.1
      (.ok r.1, r.2)
    | _, _ => (.error (.undefined "block_shapes_t::operator[]"), b)
  | _, _ => (.error (.undefined "get_block_shapes"), b)

/-- The function `where` (a keyword here, hence the underscore). -/
def where_ (condition x y : value) (b : builder) : Except error value × builder :=
  let r := b.create_select condition x y
  (.ok r.1, r.2)

/-- The function `add`. -/
def add (self other : value) (b : builder) : Except error value × builder :=
  let scalar_ty := self.get_type.get_scalar_ty
  -- ptr + offset
  if scalar_ty.is_pointer_ty then
    let r := b.create_gep self other
    (.ok r.1, r.2)
  -- float + float
  else if scalar_ty.is_floating_point_ty then
    let r := b.create_binary .fadd self other
    (.ok r.1, r.2)
  -- int + int
  else if scalar_ty.is_integer_ty then
    let r := b.create_binary .add self other
    (.ok r.1, r.2)
  else
    (.error (throw_not_implemented "add"), b)

/-- The function `sub`. -/
def sub (self other : value) (b : builder) : Except error value × builder :=
  let scalar_ty := self.get_type.get_scalar_ty
  -- ptr + offset
  if scalar_ty.is_pointer_ty then
    let r := b.create_gep self other
    (.ok r.1, r.2)
  -- float + float
  else if scalar_ty.is_floating_point_ty then
    let r := b.create_binary .fsub self other
    (.ok r.1, r.2)
  -- int + int
  else if scalar_ty.is_integer_ty then
    let r := b.create_binary .sub self other
    (.ok r.1, r.2)
  else
    (.error (throw_not_implemented "sub"), b)

/-- The function `mul`. -/
def mul (self other : value) (b : builder) : Except error value × builder :=
  let scalar_ty := self.get_type.get_scalar_ty
  -- float * float
  if scalar_ty.is_floating_point_ty then
    let r := b.create_binary .fmul self other
    (.ok r.1, r.2)
  -- int * int
  else if scalar_ty.is_integer_ty then
    let r := b.create_binary .mul self other
    (.ok r.1, r.2)
  else
    (.error (throw_not_implemented "mul"), b)

/-- The function `greater_than`. -/
def greater_than (self other : value) (b : builder) : Except error value × builder :=
  let scalar_ty := self.get_type.get_scalar_ty
  -- float > float
  if scalar_ty.is_floating_point_ty then
    let r := b.create_cmp .fcmpOGT self other
    (.ok r.1, r.2)
  -- int > int
  else if scalar_ty.is_integer_ty then
    let r := b.create_cmp .icmpSGT self other
    (.ok r.1, r.2)
  else
    (.error (throw_not_implemented "greater_than"), b)

/-- The function `greater_equal`. -/
def greater_equal (self other : value) (b : builder) : Except error value × builder :=
  let scalar_ty := self.get_type.get_scalar_ty
  -- float >= float
  if scalar_ty.is_floating_point_ty then
    let r := b.create_cmp .fcmpOGE self other
    (.ok r.1, r.2)
  -- int >= int
  else if scalar_ty.is_integer_ty then
    let r := b.create_cmp .icmpSGE self other
    (.ok r.1, r.2)
  else
    (.error (throw_not_implemented "greater_equal"), b)

/-- The function `less_than`. -/
def less_than (self other : value) (b : builder) : Except error value × builder :=
  let scalar_ty := self.get_type.get_scalar_ty
  -- float < float
  if scalar_ty.is_floating_point_ty then
    let r := b.create_cmp .fcmpOLT self other
    (.ok r.1, r.2)
  -- int < int
  else if scalar_ty.is_integer_ty then
    let r := b.create_cmp .icmpSLT self other
    (.ok r.1, r.2)
  else
    (.error (throw_not_implemented "less_than"), b)

/-- The function `less_equal`. -/
def less_equal (self other : value) (b : builder) : Except error value × builder :=
  let scalar_ty := self.get_type.get_scalar_ty
  -- float < float
  if scalar_ty.is_floating_point_ty then
    let r := b.create_cmp .fcmpOLE self other
    (.ok r.1, r.2)
  -- int < int
  else if scalar_ty.is_integer_ty then
    let r := b.create_cmp .icmpSLE self other
    (.ok r.1, r.2)
  else
    (.error (throw_not_implemented "less_equal"), b)

/-- The function `_div`; its NotImplemented key is `div`. -/
def _div (self other : value) (b : builder) : Except error value × builder :=
  let scalar_ty := self.get_type.get_scalar_ty
  -- float / float
  if scalar_ty.is_floating_point_ty then
    let r := b.create_binary .fdiv self other
    (.ok r.1, r.2)
  -- int / int
  else if scalar_ty.is_integer_ty then
    let r := b.create_binary .sdiv self other
    (.ok r.1, r.2)
  else
    (.error (throw_not_implemented "div"), b)

/-- The function `mod`. -/
def mod (self other : value) (b : builder) : Except error value × builder :=
  let scalar_ty := self.get_type.get_scalar_ty
  -- float % int
  if scalar_ty.is_floating_point_ty then
    let r := b.create_binary .frem self other
    (.ok r.1, r.2)
  -- int % int
  else if scalar_ty.is_integer_ty then
    let r := b.create_binary .srem self other
    (.ok r.1, r.2)
  else
    (.error (throw_not_implemented "mod"), b)

/-- The function `minimum`: `where(less_than(self, other, builder), self, other,
builder)`; an exception of `less_than` leaves before `where` is called. -/
def minimum (self other : value) (b : builder) : Except error value × builder :=
  match less_than self other b with
  | (.error e, b₁) => (.error e, b₁)
  | (.ok c, b₁) => where_ c self other b₁

/-- The enumeration `slice_mode_t`. -/
inductive slice_mode_t where
  | NEWAXIS
  | ALL
  deriving DecidableEq, Repr

/-- Modelled from the spec: a slice object handed to `subscript`, by what the two
tests of its first loop find: the axis-insertion marker (`slice.is(none)`), the
full-range marker (the test of `all.attr("__eq__")(slice)` holds), or any other
object. -/
inductive slice where
  | newaxis
  | full
  | other (id : Nat)
  deriving DecidableEq, Repr

/-- The mode the first loop of `subscript` records for a slice it accepts. -/
def slice.mode : slice → slice_mode_t
  | .newaxis => .NEWAXIS
  | _ => .ALL

/-- The first loop of `subscript`: the mode of every slice, or the invalid-slice
error. -/
def subscript.modes : List slice → List slice_mode_t → Except error (List slice_mode_t)
  | [], modes => .ok modes
  | .newaxis :: slices, modes => subscript.modes slices (modes ++ [.NEWAXIS])
  | .full :: slices, modes => subscript.modes slices (modes ++ [.ALL])
  | .other _ :: _, _ => .error (.runtime_error "slice must be None or (None, None, None)")

/-- The second loop of `subscript`: `curr` is the next dimension of `self` to carry
forward, `shape` the shape built so far. -/
def subscript.shape (self : value) :
    List slice_mode_t → Nat → List Nat → Except error (List Nat)
  | [], _, shape => .ok shape
  | .NEWAXIS :: modes, curr, shape => subscript.shape self modes curr (shape ++ [1])
  | .ALL :: modes, curr, shape =>
    match self.get_type.get_block_shapes with
    | none => .error (.undefined "get_block_shapes")
    | some block_shapes =>
      match block_shapes[curr]? with
      | none => .error (.undefined "block_shapes_t::operator[]")
      | some extent => subscript.shape self modes (curr + 1) (shape ++ [extent])

/-- The function `subscript`. -/
def subscript (self : value) (slices : List slice) (b : builder) :
    Except error value × builder :=
  match subscript.modes slices [] with
  | .error e => (.error e, b)
  | .ok modes =>
    match subscript.shape self modes 0 [] with
    | .error e => (.error e, b)
    | .ok shape =>
      let r := b.create_reshape self shape
      (.ok r.1, r.2)

/-- The shape `subscript` is specified to produce, in the words of the
specification: walking the markers in order, 1 for each axis-insertion marker and
the next not yet consumed extent of the input for each full-range marker. -/
def subscript_spec_shape : List slice → List Nat → List Nat
  | [], _ => []
  | .newaxis :: slices, extents => 1 :: subscript_spec_shape slices extents
  | .full :: slices, extent :: extents => extent :: subscript_spec_shape slices extents
  | _, _ => []

/-- Modelled from the spec: the value of one lane of an integer-typed value under the
per-lane semantics of the signed less-than comparison and of select, `env` giving the
lane of every value that exists before the call; a comparison yields 1 for true and
0 for false, select takes its second operand where the condition is not 0. -/
def lane_value (env : Nat → Int) : value → Option Int
  | .arg id _ => some (env id)
  | .cmp .icmpSLT lhs rhs =>
    match lane_value env lhs, lane_value env rhs with
    | some x, some y => some (if x < y then 1 else 0)
    | _, _ => none
  | .select cond x y =>
    match lane_value env cond, lane_value env x, lane_value env y with
    | some c, some xv, some yv => some (if c ≠ 0 then xv else yv)
    | _, _, _ => none
  | _ => none

/-! ### `include/atidlas/backend/templates/base.h`: the status codes -/

namespace atidlas

def TEMPLATE_VALID : Int := 0
def TEMPLATE_LOCAL_MEMORY_OVERFLOW : Int := -1
def TEMPLATE_WORK_GROUP_SIZE_OVERFLOW : Int := -2
def TEMPLATE_LOCAL_SIZE_0_OVERFLOW : Int := -3
def TEMPLATE_LOCAL_SIZE_1_OVERFLOW : Int := -4
def TEMPLATE_LOCAL_SIZE_2_OVERFLOW : Int := -5
def TEMPLATE_LOCAL_SIZE_NOT_WARP_MULTIPLE : Int := -6
def TEMPLATE_INVALID_SIMD_WIDTH : Int := -7
def TEMPLATE_ALIGNMENT_MUST_BE_BLOCK_SIZE_MULTIPLE : Int := -8
def TEMPLATE_INVALID_FETCHING_POLICY_TYPE : Int := -9

def TEMPLATE_GLOBAL_MEMORY_REQUIRES_ZERO_LOCAL_FETCH : Int := -10
def TEMPLATE_MS_NS_MUST_BE_SIMD_WIDTH_MULTIPLE : Int := -11
def TEMPLATE_KS_MUST_BE_SMALLER_THAN_KL : Int := -12
def TEMPLATE_SIMD_WIDTH_MUST_BE_ONE : Int := -13
def TEMPLATE_LOCAL_FETCH_PRODUCT_MUST_MATCH_LOCAL_SIZE_PRODUCT : Int := -14
def TEMPLATE_LOCAL_FETCH_0_MUST_BE_KL_MULTIPLE : Int := -15
def TEMPLATE_LOCAL_FETCH_0_MUST_BE_NL_MULTIPLE : Int := -16
def TEMPLATE_LOCAL_FETCH_1_MUST_BE_KL_MULTIPLE : Int := -17
def TEMPLATE_LOCAL_FETCH_1_MUST_BE_ML_MULTIPLE : Int := -18

/-- The error codes of `base.h`, in the order of their declaration. -/
def error_codes : List Int :=
  [TEMPLATE_LOCAL_MEMORY_OVERFLOW, TEMPLATE_WORK_GROUP_SIZE_OVERFLOW,
   TEMPLATE_LOCAL_SIZE_0_OVERFLOW, TEMPLATE_LOCAL_SIZE_1_OVERFLOW,
   TEMPLATE_LOCAL_SIZE_2_OVERFLOW, TEMPLATE_LOCAL_SIZE_NOT_WARP_MULTIPLE,
   TEMPLATE_INVALID_SIMD_WIDTH, TEMPLATE_ALIGNMENT_MUST_BE_BLOCK_SIZE_MULTIPLE,
   TEMPLATE_INVALID_FETCHING_POLICY_TYPE, TEMPLATE_GLOBAL_MEMORY_REQUIRES_ZERO_LOCAL_FETCH,
   TEMPLATE_MS_NS_MUST_BE_SIMD_WIDTH_MULTIPLE, TEMPLATE_KS_MUST_BE_SMALLER_THAN_KL,
   TEMPLATE_SIMD_WIDTH_MUST_BE_ONE, TEMPLATE_LOCAL_FETCH_PRODUCT_MUST_MATCH_LOCAL_SIZE_PRODUCT,
   TEMPLATE_LOCAL_FETCH_0_MUST_BE_KL_MULTIPLE, TEMPLATE_LOCAL_FETCH_0_MUST_BE_NL_MULTIPLE,
   TEMPLATE_LOCAL_FETCH_1_MUST_BE_KL_MULTIPLE, TEMPLATE_LOCAL_FETCH_1_MUST_BE_ML_MULTIPLE]

/-- The values the table of the specification (section 4.3) gives the error codes,
row by row. -/
def spec_table_values : List Int :=
  [-1, -2, -3, -4, -5, -6, -7, -8, -9, -10, -11, -12, -13, -14, -15, -16, -17, -18]

end atidlas

/-! ### The IR as a graph, for the pipelining pass -/

namespace codegen

/-- Modelled from the spec: an `ir::value*` as the pass sees it (`triton/ir/value.h`
is not among the sources): an instruction, named by its identity, or a value that
is not an instruction: the undefined constant of an element type, a boolean
constant, or any other value (an argument, a constant) with its type. -/
inductive value where
  | inst (id : Nat)
  | undef (ty : ir.scalar_ty)
  | int1 (v : Bool)
  | other (id : Nat) (ty : ir.type)
  deriving DecidableEq, Repr

/-- Modelled from the spec: the kind tag of an instruction, with the kinds the pass
tells apart or creates; every other instruction is `other` with its own code. -/
inductive opcode where
  | load
  | masked_load
  | phi
  | cond_branch
  | and
  | splat
  | other (code : Nat)
  deriving DecidableEq, Repr

/-- Modelled from the spec: an instruction: a typed value with an ordered operand
list and a containing basic block. For a phi node `blocks` lists the incoming
blocks, `ops` the incoming values, position by position; a load has its pointer as
operand 0 and, when masked, its mask and fallback as operands 1 and 2; a
conditional branch has its condition as operand 0. -/
structure instruction where
  op : opcode
  ty : ir.type
  ops : List value
  blocks : List Nat
  parent : Nat
  deriving DecidableEq, Repr

/-- Modelled from the spec: a basic block: its ordered instruction list and its
predecessor blocks. -/
structure basic_block where
  insts : List Nat
  preds : List Nat
  deriving DecidableEq, Repr

/-- Modelled from the spec: a module together with its builder. `insts` holds every
instruction ever allocated, an instruction's identity being its position; `blocks`
holds the basic blocks in the order `for_each_instruction` visits them, a block's
identity being its position; `insert_point` is the builder's cursor: its block and
the instruction it stands before (`none` for the end of the block). -/
structure module where
  insts : List instruction
  blocks : List basic_block
  insert_point : Option (Nat × Option Nat)
  deriving DecidableEq, Repr

/-- The instruction named `i`. -/
def module.get_inst (m : module) (i : Nat) : Except error instruction :=
  defined "no such instruction" m.insts[i]?

/-- The basic block named `b`. -/
def module.get_block (m : module) (b : Nat) : Except error basic_block :=
  defined "no such basic block" m.blocks[b]?

/-- Modelled from the spec: `value::get_type`. -/
def module.get_type (m : module) : value → ir.type
  | .inst i =>
    match m.insts[i]? with
    | some x => x.ty
    | none => .scalar .void
  | .undef ty => .scalar ty
  | .int1 _ => .scalar (.integer 1)
  | .other _ ty => ty

/-- Whether `i` names a phi node. -/
def module.is_phi (m : module) (i : Nat) : Bool :=
  match m.insts[i]? with
  | some x => x.op = .phi
  | none => false

/-- Modelled from the spec: `std::list::insert` at the cursor: `x` goes right before
the instruction `pos` the cursor stands before, or at the end. -/
def insert_at (x : Nat) : Option Nat → List Nat → List Nat
  | none, l => l ++ [x]
  | some _, [] => [x]
  | some p, a :: l => if a = p then x :: a :: l else a :: insert_at x (some p) l

/-- Modelled from the spec: `builder::set_insert_point(instruction*)`: the cursor
moves to the instruction's block, right before the instruction. -/
def module.set_insert_point (m : module) (i : Nat) : Except error module := do
  let x ← m.get_inst i
  .ok { m with insert_point := some (x.parent, some i) }

/-- Modelled from the spec: `builder::insert`: the instruction is allocated, placed
at the cursor and made a member of the cursor's block; the cursor keeps standing
before the same instruction, so the next insertion lands after this one. -/
def module.insert (m : module) (x : instruction) : Except error (Nat × module) :=
  match m.insert_point with
  | none => .error (.undefined "builder without insertion block")
  | some (b, pos) => do
    let bb ← m.get_block b
    .ok (m.insts.length,
      { m with
        insts := m.insts ++ [{ x with parent := b }]
        blocks := m.blocks.set b { bb with insts := insert_at m.insts.length pos bb.insts } })

/-- Modelled from the spec: `builder::create_and`. -/
def module.create_and (m : module) (lhs rhs : value) : Except error (Nat × module) :=
  m.insert { op := .and, ty := m.get_type lhs, ops := [lhs, rhs], blocks := [], parent := 0 }

/-- Modelled from the spec: `builder::create_splat`. -/
def module.create_splat (m : module) (arg : value) (shapes : List Nat) :
    Except error (Nat × module) :=
  m.insert { op := .splat, ty := ir.block_type.get (m.get_type arg).get_scalar_ty shapes,
             ops := [arg], blocks := [], parent := 0 }

/-- Modelled from the spec: `builder::create_masked_load`. -/
def module.create_masked_load (m : module) (ptr mask false_value : value) :
    Except error (Nat × module) :=
  m.insert { op := .masked_load, ty := ir.pointee_type (m.get_type ptr),
             ops := [ptr, mask, false_value], blocks := [], parent := 0 }

/-- Modelled from the spec: `builder::create_phi`, a phi node without incoming edges. -/
def module.create_phi (m : module) (ty : ir.type) : Except error (Nat × module) :=
  m.insert { op := .phi, ty := ty, ops := [], blocks := [], parent := 0 }

/-- Modelled from the spec: `phi_node::add_incoming`. -/
def module.add_incoming (m : module) (phi : Nat) (v : value) (block : Nat) :
    Except error module := do
  let x ← m.get_inst phi
  .ok { m with insts := m.insts.set phi { x with ops := x.ops ++ [v], blocks := x.blocks ++ [block] } }

/-- Modelled from the spec: `user::replace_uses_of_with`: every operand of the
instruction equal to `before` becomes `after`. -/
def instruction.replace_uses_of_with (x : instruction) (before after : value) : instruction :=
  { x with ops := x.ops.map fun o => if o = before then after else o }

/-- Modelled from the spec: `user::replace_uses_of_with` on the instruction named
`user` of the module. -/
def module.replace_uses_of_with (m : module) (user : Nat) (before after : value) :
    Except error module := do
  let x ← m.get_inst user
  .ok { m with insts := m.insts.set user (x.replace_uses_of_with before after) }

/-- Modelled from the spec: `value::replace_all_uses_with`: every use of `v` as an
operand, anywhere in the module, becomes a use of `target`. -/
def module.replace_all_uses_with (m : module) (v target : value) : module :=
  { m with insts := m.insts.map fun x => x.replace_uses_of_with v target }

/-- Modelled from the spec: `phi_node::find_incoming`, the position of `block` among
the incoming blocks. -/
def instruction.find_incoming (phi : instruction) (block : Nat) : Except error Nat :=
  defined "no incoming edge from the block"
    (if phi.blocks.indexOf block < phi.blocks.length then some (phi.blocks.indexOf block) else none)

/-- Modelled from the spec: `phi_node::get_incoming_value`. -/
def instruction.get_incoming_value (phi : instruction) (n : Nat) : Except error value :=
  defined "no such incoming value" phi.ops[n]?

/-- Modelled from the spec: `basic_block::get_first_non_phi`. -/
def module.get_first_non_phi (m : module) (bb : basic_block) : Option Nat :=
  bb.insts.find? fun i => !m.is_phi i

/-- Modelled from the spec: `for_each_instruction`: the instructions of the module,
block after block, each block in instruction order. -/
def module.all_insts (m : module) : List Nat :=
  (m.blocks.map fun bb => bb.insts).flatten

namespace transform

/-- The map `clones` of `_recursive_clone`. -/
abbrev clones_t := List (value × value)

/-- The call `clones.find(root)`. -/
def clones_t.find (clones : clones_t) (root : value) : Option value :=
  (List.find? (fun kv => kv.1 = root) clones).map fun kv => kv.2

/-- The call `clones.insert({root, v}).first->second`: an existing entry is kept. -/
def clones_t.insert (clones : clones_t) (root v : value) : value × clones_t :=
  match clones_t.find clones root with
  | some old => (old, clones)
  | none => (v, (root, v) :: clones)

/-- The loop of `_recursive_clone` over the operands of the cloned instruction;
`rec` is `_recursive_clone` itself. -/
def clone_ops (rec : value → clones_t → module → Except error (value × clones_t × module))
    (ret : Nat) : List value → clones_t → module → Except error (clones_t × module)
  | [], clones, m => .ok (clones, m)
  | op :: ops, clones, m => do
    let (new_op, clones, m) ← rec op clones m
    let m ← m.replace_uses_of_with ret op new_op
    clone_ops rec ret ops clones m

/-- The body of `_recursive_clone`; `rec` is `_recursive_clone` itself, called on
the operands. -/
def _recursive_clone.body
    (rec : value → clones_t → module → Except error (value × clones_t × module))
    (root : value) (clones : clones_t) (phi_block : Nat) (m : module) :
    Except error (value × clones_t × module) :=
  match clones_t.find clones root with
  | some v => .ok (v, clones, m)
  | none =>
    match root with
    | .inst i => do
      let x ← m.get_inst i
      -- if phi node, return incoming value for provided block
      if x.op = .phi then
        let n ← x.find_incoming phi_block
        let ret ← x.get_incoming_value n
        let r := clones_t.insert clones root ret
        .ok (r.1, r.2, m)
      else
        -- clone instruction by recursively cloning all operands
        let (ret, m) ← m.insert x
        let m ← m.set_insert_point ret
        let (clones, m) ← clone_ops rec ret x.ops clones m
        let r := clones_t.insert clones root (.inst ret)
        .ok (r.1, r.2, m)
    -- do not clone if not an instruction
    | _ =>
      let r := clones_t.insert clones root root
      .ok (r.1, r.2, m)

/-- The function `_recursive_clone`; `fuel` bounds the depth of the recursion. -/
def _recursive_clone : Nat → value → clones_t → Nat → module →
    Except error (value × clones_t × module)
  | 0, _, _, _, _ => .error .out_of_fuel
  | fuel + 1, root, clones, phi_block, m =>
    _recursive_clone.body (fun op clones m => _recursive_clone fuel op clones phi_block m)
      root clones phi_block m

/-- The function `recursive_clone`. -/
def recursive_clone (fuel : Nat) (root : value) (phi_block : Nat) (m : module) :
    Except error (value × module) := do
  let (v, _, m) ← _recursive_clone fuel root [] phi_block m
  .ok (v, m)

/-- The struct `pipe_info_t` of `pipeline::run`. It is declared without initialiser
(`pipe_info_t info;`), so `header`, `block`, `ptr` and `back_edge` hold nothing
(`none`) until the detection loop assigns them; `mask` and `false_value` are
assigned for every load, `none` being the null pointer of a load without mask. -/
structure pipe_info_t where
  header : Option Nat
  block : Option Nat
  load : Nat
  mask : Option value
  false_value : Option value
  ptr : Option Nat
  back_edge : Option Nat
  deriving DecidableEq, Repr

namespace pipeline

/-- The loop of `pipeline::run` over the incoming edges of the pointer phi node. -/
def scan_incoming (m : module) (phi_id : Nat) (phi : instruction) :
    List Nat → pipe_info_t → Except error pipe_info_t
  | [], info => .ok info
  | block :: rest, info => do
    let bb ← m.get_block block
    let term ← defined "back() of an empty instruction list" bb.insts.getLast?
    if block = phi.parent then
      let header ← defined "get_predecessors()[0]" bb.preds[0]?
      let info := { info with header := some header, block := some block, ptr := some phi_id }
      let t ← m.get_inst term
      if t.op = .cond_branch then
        scan_incoming m phi_id phi rest { info with back_edge := some term }
      else
        scan_incoming m phi_id phi rest info
    else
      scan_incoming m phi_id phi rest info

/-- The statement `if(auto* phi = dynamic_cast<ir::phi_node*>(ptr)) for(...)` of the
lambda: the scan of the incoming edges when the pointer is a phi node. -/
def detect (m : module) (info : pipe_info_t) : value → Except error pipe_info_t
  | .inst p => do
    let px ← m.get_inst p
    if px.op = .phi then scan_incoming m p px px.blocks info else .ok info
  | _ => .ok info

/-- The statement `if(info.back_edge) to_pipeline.push_back(info);` of the lambda.
The test reads `info.back_edge`, which holds a pointer only if the scan assigned it. -/
def record (to_pipeline : List pipe_info_t) (info : pipe_info_t) :
    Except error (List pipe_info_t) :=
  match info.back_edge with
  | some _ => .ok (to_pipeline ++ [info])
  | none => .error (.undefined "info.back_edge is read but was never assigned")

/-- The body of the lambda that `pipeline::run` applies to every instruction. -/
def visit (m : module) (to_pipeline : List pipe_info_t) (i : Nat) :
    Except error (List pipe_info_t) := do
  let x ← m.get_inst i
  if x.op = .load ∨ x.op = .masked_load then
    let ptr ← defined "get_pointer_operand" x.ops[0]?
    let mask ← if x.op = .masked_load
      then (defined "get_mask_operand" x.ops[1]?).map some else .ok none
    let false_value ← if x.op = .masked_load
      then (defined "get_false_value_operand" x.ops[2]?).map some else .ok none
    -- simple detection of pointer induction variable
    let info ← detect m
      { header := none, block := none, load := i, mask := mask, false_value := false_value,
        ptr := none, back_edge := none } ptr
    record to_pipeline info
  else
    .ok to_pipeline

/-- The first half of `pipeline::run`: the list `to_pipeline` after the visit of the
instructions `is`. -/
def collect (m : module) : List Nat → List pipe_info_t → Except error (List pipe_info_t)
  | [], to_pipeline => .ok to_pipeline
  | i :: is, to_pipeline => do
    let to_pipeline ← visit m to_pipeline i
    collect m is to_pipeline

/-- The statement `builder.set_insert_point(block->get_inst_list().back())`. -/
def set_insert_point_back (m : module) (block : Nat) : Except error module := do
  let bb ← m.get_block block
  let term ← defined "back() of an empty instruction list" bb.insts.getLast?
  m.set_insert_point term

/-- The statement `if(info.mask) mask = builder.create_and(mask, info.mask);`, `mask`
being the clone of the branch condition. -/
def and_mask (m : module) (mask : value) : Option value → Except error (value × module)
  | some info_mask => do
    let (a, m) ← m.create_and mask info_mask
    .ok (.inst a, m)
  | none => .ok (mask, m)

/-- The statement `if(!false_value) false_value = builder.create_splat(
ir::undef_value::get(ty->get_scalar_ty()), ty->get_tile_shapes());`. -/
def make_false_value (m : module) (ty : ir.type) : Option value → Except error (value × module)
  | some false_value => .ok (false_value, m)
  | none => do
    let shapes ← defined "get_tile_shapes" ty.get_block_shapes
    let (s, m) ← m.create_splat (.undef ty.get_scalar_ty) shapes
    .ok (.inst s, m)

/-- The two statements that force the mask and emit the prefetch:
`mask = builder.create_splat(builder.get_int1(true), ty->get_tile_shapes());` and
`builder.create_masked_load(ptr, mask, false_value)`. -/
def prefetch (m : module) (ty : ir.type) (ptr false_value : value) :
    Except error (Nat × module) := do
  let shapes ← defined "get_tile_shapes" ty.get_block_shapes
  let (mask, m) ← m.create_splat (.int1 true) shapes
  m.create_masked_load ptr (.inst mask) false_value

/-- The last five statements of the loop body: the phi node at the first non-phi
position of the block, its two incoming edges, and the redirection of the uses. -/
def merge (m : module) (ty : ir.type) (load first_load next_load header block : Nat) :
    Except error module := do
  let bb ← m.get_block block
  let first_non_phi ← defined "get_first_non_phi" (m.get_first_non_phi bb)
  let m ← m.set_insert_point first_non_phi
  let (new_load, m) ← m.create_phi ty
  let m ← m.add_incoming new_load (.inst first_load) header
  let m ← m.add_incoming new_load (.inst next_load) block
  .ok (m.replace_all_uses_with (.inst load) (.inst new_load))

/-- The body of the loop `for(auto info: to_pipeline)` of `pipeline::run`. -/
def rewrite (fuel : Nat) (m : module) (info : pipe_info_t) : Except error module := do
  let back_edge ← defined "info.back_edge" info.back_edge
  let header ← defined "info.header" info.header
  let block ← defined "info.block" info.block
  let ptr ← defined "info.ptr" info.ptr
  let br ← m.get_inst back_edge
  let cond ← defined "get_cond" br.ops[0]?
  let load ← m.get_inst info.load
  let ty := load.ty
  -- for first pre-fetching
  let m ← set_insert_point_back m header
  let (first_ptr, m) ← recursive_clone fuel (.inst ptr) header m
  let (first_mask, m) ← recursive_clone fuel cond header m
  let (_, m) ← and_mask m first_mask info.mask
  let (false_value, m) ← make_false_value m ty info.false_value
  let m ← set_insert_point_back m header
  let (first_load, m) ← prefetch m ty first_ptr false_value
  -- for next pre-fetching
  let m ← set_insert_point_back m block
  let (next_ptr, m) ← recursive_clone fuel (.inst ptr) block m
  let (next_mask, m) ← recursive_clone fuel cond block m
  let (_, m) ← and_mask m next_mask info.mask
  let m ← set_insert_point_back m block
  let (next_load, m) ← prefetch m ty next_ptr false_value
  -- phi node
  merge m ty info.load first_load next_load header block

/-- The second half of `pipeline::run`: the rewrites, in the order of `to_pipeline`. -/
def rewrite_all (fuel : Nat) : module → List pipe_info_t → Except error module
  | m, [] => .ok m
  | m, info :: rest => do
    let m ← rewrite fuel m info
    rewrite_all fuel m rest

/-- The function `pipeline::run`; `fuel` bounds the depth of every recursive clone. -/
def run (fuel : Nat) (mod : module) : Except error module := do
  let to_pipeline ← collect mod mod.all_insts []
  -- do the pipelining
  rewrite_all fuel mod to_pipeline

end pipeline
end transform

/-! ### Predicates used to state the properties of the pass -/

/-- Whether `i` names a load, plain or masked (what `dynamic_cast<ir::load_inst*>`
accepts). -/
def module.is_load (m : module) (i : Nat) : Bool :=
  match m.insts[i]? with
  | some x => x.op = .load || x.op = .masked_load
  | none => false

/-- Whether the load `i` is one the detection of `pipeline::run` is written for: its
pointer operand is a phi node that has an incoming edge from its own block, and that
block ends in a conditional branch. -/
def module.has_back_edge_phi (m : module) (i : Nat) : Bool :=
  match m.insts[i]? with
  | none => false
  | some x =>
    match x.ops[0]? with
    | some (value.inst p) =>
      match m.insts[p]? with
      | none => false
      | some px =>
        px.op = .phi && px.blocks.contains px.parent &&
          match m.blocks[px.parent]? with
          | none => false
          | some bb =>
            match bb.insts.getLast? with
            | none => false
            | some t =>
              match m.insts[t]? with
              | none => false
              | some tx => tx.op = .cond_branch
    | _ => false

/-- The instruction list of block `b`. -/
def module.block_insts (m : module) (b : Nat) : List Nat :=
  match m.blocks[b]? with
  | some bb => bb.insts
  | none => []

/-- The invariant of the IR core that ties instruction lists to parents: every
instruction listed in a block exists and has that block as its parent. -/
def module.listed (m : module) : Prop :=
  ∀ b, b < m.blocks.length → ∀ i ∈ m.block_insts b, (m.insts[i]?).map (fun x => x.parent) = some b

instance (m : module) : Decidable m.listed := by
  unfold module.listed; infer_instance

/-- The walk of `_recursive_clone` from `root` for the block `phi_block` stays
within depth `d`, and every phi node it meets has an incoming value for
`phi_block`: no operand cycle is followed unless it passes through a phi node. -/
def cloneable : Nat → module → Nat → value → Bool
  | 0, _, _, _ => false
  | d + 1, m, phi_block, .inst i =>
    match m.insts[i]? with
    | none => false
    | some x =>
      if x.op = .phi then
        decide (x.blocks.indexOf phi_block < x.blocks.length) &&
          (x.ops[x.blocks.indexOf phi_block]?).isSome
      else
        x.ops.all fun op => cloneable d m phi_block op
  | _ + 1, _, _, _ => true

/-- The module `m'` extends `m`: the instructions of `m` are all there, unchanged,
what was allocated since is not a phi node, and the blocks are those of `m`, with
the same predecessors and with instruction lists that lost nothing. -/
structure extends_module (m m' : module) : Prop where
  old : ∀ (i : Nat) (x : instruction), m.insts[i]? = some x → m'.insts[i]? = some x
  fresh : ∀ (i : Nat), m.insts.length ≤ i → m'.is_phi i = false
  blocks : ∀ (b : Nat) (bb : basic_block), m.blocks[b]? = some bb →
    ∃ (bb' : basic_block), m'.blocks[b]? = some bb' ∧ bb'.preds = bb.preds ∧
      ∀ i ∈ bb.insts, i ∈ bb'.insts

/-- The builder's cursor stands in a block of the module. -/
def module.cursor_ok (m : module) : Prop :=
  ∃ (b : Nat) (pos : Option Nat), m.insert_point = some (b, pos) ∧ b < m.blocks.length

/-- The value names no instruction at position `n` or later. -/
def value.below (n : Nat) : value → Bool
  | .inst a => decide (a < n)
  | _ => true

/-- Every operand that names an instruction names an instruction of the module. -/
def module.closed (m : module) : Bool :=
  m.insts.all fun x => x.ops.all fun o => o.below m.insts.length

/-- The instructions of `m` are all in `m'`, unchanged. -/
def keeps (m m' : module) : Prop :=
  ∀ (i : Nat) (x : instruction), m.insts[i]? = some x → m'.insts[i]? = some x

/-- The value is no `and` instruction allocated at position `n` or later: if it names
a position from `n` on, an instruction of another kind stands there. -/
def module.not_new_and (m : module) (n : Nat) (v : value) : Prop :=
  ∀ (a : Nat), v = .inst a → n ≤ a →
    ∃ (y : instruction), m.insts[a]? = some y ∧ y.op ≠ .and

/-- The instruction `f`, allocated at position `n` or later, is a masked load whose
mask operand is a splat, also allocated since, of the constant true to `shapes`, and
none of its operands is an `and` allocated since. -/
def module.forced_prefetch (m : module) (n : Nat) (shapes : List Nat) (f : Nat) : Prop :=
  n ≤ f ∧ ∃ (x s : instruction) (k : Nat), m.insts[f]? = some x ∧ x.op = .masked_load ∧
    x.ops[1]? = some (.inst k) ∧ n ≤ k ∧ m.insts[k]? = some s ∧ s.op = .splat ∧
    s.ops = [.int1 true] ∧ s.ty = .block (.integer 1) shapes ∧
    ∀ o ∈ x.ops, m.not_new_and n o

/-- What one rewrite of `pipeline::run` does to an operand: nothing, or an
instruction allocated before `n` is replaced by one allocated since that is no `and`. -/
def operand_step (n : Nat) (m' : module) (o o' : value) : Prop :=
  o' = o ∨ ∃ (L q : Nat) (y : instruction), o = .inst L ∧ L < n ∧ o' = .inst q ∧ n ≤ q ∧
    m'.insts[q]? = some y ∧ y.op ≠ .and

/-- What one rewrite of `pipeline::run` does to the instructions there were: each
keeps its kind, type and incoming blocks, and its operands change by `operand_step`. -/
def evolves (n : Nat) (m m' : module) : Prop :=
  ∀ (i : Nat) (x : instruction), m.insts[i]? = some x →
    ∃ (x' : instruction), m'.insts[i]? = some x' ∧ x'.op = x.op ∧ x'.ty = x.ty ∧
      x'.blocks = x.blocks ∧ List.Forall₂ (operand_step n m') x.ops x'.ops

/-- The operands of the instructions allocated before `n` are no `and` allocated
since. -/
def module.old_operands_ok (m : module) (n : Nat) : Prop :=
  ∀ (i : Nat) (x : instruction), i < n → m.insts[i]? = some x → ∀ o ∈ x.ops, m.not_new_and n o

/-- What the first half of `pipeline::run` guarantees of an entry of `to_pipeline`:
the recorded instruction is a load of the module, the recorded fallback is an
operand of it, and the recorded pointer is a phi node of the module. -/
def recorded (m : module) (info : transform.pipe_info_t) : Prop :=
  (∃ (x : instruction), m.insts[info.load]? = some x ∧
    (x.op = .load ∨ x.op = .masked_load) ∧
    ∀ (v : value), info.false_value = some v → v ∈ x.ops) ∧
  ∀ (p : Nat), info.ptr = some p → ∃ (px : instruction), m.insts[p]? = some px ∧ px.op = .phi

/-! ### Example modules -/

/-- A loop with two loads through pointer phi nodes: instruction 4 loads a block of
booleans, instruction 5 is a masked load whose mask is the value of instruction 4. -/
def example_two_loads : module :=
  { insts := [
      { op := .other 1, ty := .scalar .void, ops := [], blocks := [1], parent := 0 },
      { op := .phi, ty := .block (.pointer (.integer 1)) [4],
        ops := [.other 0 (.block (.pointer (.integer 1)) [4]), .inst 6],
        blocks := [0, 1], parent := 1 },
      { op := .phi, ty := .block (.pointer (.floating 23)) [4],
        ops := [.other 1 (.block (.pointer (.floating 23)) [4]), .inst 7],
        blocks := [0, 1], parent := 1 },
      { op := .phi, ty := .scalar (.integer 32),
        ops := [.other 2 (.scalar (.integer 32)), .inst 8], blocks := [0, 1], parent := 1 },
      { op := .load, ty := .block (.integer 1) [4], ops := [.inst 1], blocks := [],
        parent := 1 },
      { op := .masked_load, ty := .block (.floating 23) [4],
        ops := [.inst 2, .inst 4, .other 3 (.block (.floating 23) [4])], blocks := [],
        parent := 1 },
      { op := .other 2, ty := .block (.pointer (.integer 1)) [4],
        ops := [.inst 1, .other 4 (.scalar (.integer 32))], blocks := [], parent := 1 },
      { op := .other 2, ty := .block (.pointer (.floating 23)) [4],
        ops := [.inst 2, .other 4 (.scalar (.integer 32))], blocks := [], parent := 1 },
      { op := .other 3, ty := .scalar (.integer 32),
        ops := [.inst 3, .other 5 (.scalar (.integer 32))], blocks := [], parent := 1 },
      { op := .other 4, ty := .scalar (.integer 1),
        ops := [.inst 8, .other 6 (.scalar (.integer 32))], blocks := [], parent := 1 },
      { op := .other 5, ty := .block (.floating 23) [4], ops := [.inst 5], blocks := [],
        parent := 1 },
      { op := .cond_branch, ty := .scalar .void, ops := [.inst 9], blocks := [1, 2],
        parent := 1 },
      { op := .other 6, ty := .scalar .void, ops := [], blocks := [], parent := 2 } ],
    blocks := [
      { insts := [0], preds := [] },
      { insts := [1, 2, 3, 4, 5, 6, 7, 8, 9, 10, 11], preds := [0, 1] },
      { insts := [12], preds := [1] } ],
    insert_point := none }

/-- The list `to_pipeline` that `pipeline::run` collects from `example_two_loads`:
the load 4 and the masked load 5, both with header 0, loop body 1 and back-edge
branch 11. -/
def example_two_loads_worklist : List transform.pipe_info_t :=
  [{ header := some 0, block := some 1, load := 4, mask := none, false_value := none,
     ptr := some 1, back_edge := some 11 },
   { header := some 0, block := some 1, load := 5, mask := some (.inst 4),
     false_value := some (.other 3 (.block (.floating 23) [4])), ptr := some 2,
     back_edge := some 11 }]

/-- A module of one block with one load whose pointer is an argument, not a phi
node, followed by the block's terminator. -/
def example_plain_load : module :=
  { insts := [
      { op := .load, ty := .block (.floating 23) [4],
        ops := [.other 0 (.block (.pointer (.floating 23)) [4])], blocks := [], parent := 0 },
      { op := .other 6, ty := .scalar .void, ops := [], blocks := [], parent := 0 } ],
    blocks := [ { insts := [0, 1], preds := [] } ],
    insert_point := none }

/-- A loop body in which one instruction uses both a phi node and the phi node's own
incoming value: block 0 is the header, block 1 the loop body. Instruction 1 is the
pointer phi, with the increment 2 as incoming value from the body; 2 is the pointer
increment; 3 uses the phi 1 as operand 0 and the increment 2 as operand 1; 4 is the
back-edge branch. The builder stands before the branch. -/
def example_shared_operand : module :=
  { insts := [
      { op := .other 1, ty := .scalar .void, ops := [], blocks := [1], parent := 0 },
      { op := .phi, ty := .block (.pointer (.floating 23)) [4],
        ops := [.other 0 (.block (.pointer (.floating 23)) [4]), .inst 2],
        blocks := [0, 1], parent := 1 },
      { op := .other 2, ty := .block (.pointer (.floating 23)) [4],
        ops := [.inst 1, .other 2 (.scalar (.integer 32))], blocks := [], parent := 1 },
      { op := .other 7, ty := .block (.integer 32) [4], ops := [.inst 1, .inst 2],
        blocks := [], parent := 1 },
      { op := .cond_branch, ty := .scalar .void, ops := [.other 3 (.scalar (.integer 1))],
        blocks := [1, 2], parent := 1 } ],
    blocks := [
      { insts := [0], preds := [] },
      { insts := [1, 2, 3, 4], preds := [0, 1] } ],
    insert_point := some (1, some 4) }

/-- A loop body in which two operands of one instruction share a sub-expression:
block 0 is the header, block 1 the loop body. Instruction 1 is the counter phi, 2 is
computed from the phi, 3 and 4 are both computed from 2, 5 is computed from 3 and 4,
and 6 is the back-edge branch on 5. The builder stands before the branch. -/
def example_diamond : module :=
  { insts := [
      { op := .other 1, ty := .scalar .void, ops := [], blocks := [1], parent := 0 },
      { op := .phi, ty := .scalar (.integer 32),
        ops := [.other 0 (.scalar (.integer 32)), .inst 2], blocks := [0, 1], parent := 1 },
      { op := .other 2, ty := .scalar (.integer 32),
        ops := [.inst 1, .other 1 (.scalar (.integer 32))], blocks := [], parent := 1 },
      { op := .other 3, ty := .scalar (.integer 32),
        ops := [.inst 2, .other 2 (.scalar (.integer 32))], blocks := [], parent := 1 },
      { op := .other 4, ty := .scalar (.integer 32),
        ops := [.inst 2, .other 3 (.scalar (.integer 32))], blocks := [], parent := 1 },
      { op := .other 5, ty := .scalar (.integer 1), ops := [.inst 3, .inst 4], blocks := [],
        parent := 1 },
      { op := .cond_branch, ty := .scalar .void, ops := [.inst 5], blocks := [1, 2],
        parent := 1 } ],
    blocks := [
      { insts := [0], preds := [] },
      { insts := [1, 2, 3, 4, 5, 6], preds := [0, 1] } ],
    insert_point := some (1, some 6) }

/-- Whether, in the instruction list `l`, definitions precede uses among the
instructions allocated at position `n` or later: every operand of such an
instruction that is itself such an instruction stands earlier in the list. -/
def module.uses_follow_definitions (m : module) (n : Nat) (l : List Nat) : Bool :=
  (List.range l.length).all fun k =>
    match l[k]? with
    | none => true
    | some i =>
      decide (i < n) ||
        match m.insts[i]? with
        | none => true
        | some x =>
          x.ops.all fun o =>
            match o with
            | .inst j => decide (j < n) || (l.take k).contains j
            | _ => true

/-- A block whose instruction 0 is no phi node and has itself as operand: an operand
cycle that passes through no phi node. Instruction 1 is the terminator, and the
builder stands before it. -/
def example_self_operand : module :=
  { insts := [
      { op := .other 1, ty := .scalar (.integer 32),
        ops := [.inst 0, .other 0 (.scalar (.integer 32))], blocks := [], parent := 0 },
      { op := .other 6, ty := .scalar .void, ops := [], blocks := [], parent := 0 } ],
    blocks := [ { insts := [0, 1], preds := [] } ],
    insert_point := some (0, some 1) }

/-- The blocks of `m` are those of `m'`, with the same predecessors, and no
instruction has left its block or changed places with another: the instruction list
of each block of `m` is a sublist of its list in `m'`. -/
def block_frame (m m' : module) : Prop :=
  m'.blocks.length = m.blocks.length ∧
  ∀ (b : Nat) (bb : basic_block), m.blocks[b]? = some bb →
    ∃ (bb' : basic_block), m'.blocks[b]? = some bb' ∧ bb'.preds = bb.preds ∧
      bb.insts.Sublist bb'.insts

/-- What `pipeline::run` does to an operand of an instruction of `m`: nothing, or a
load of `m` is replaced by a phi node allocated by the pass. -/
def redirected_operand (m m' : module) (o o' : value) : Prop :=
  o' = o ∨ ∃ (L q : Nat), o = .inst L ∧ m.is_load L = true ∧ L < m.insts.length ∧
    o' = .inst q ∧ m.insts.length ≤ q ∧ m'.is_phi q = true

/-- Every instruction of `m` is in `m'` under the same identity, with its kind, type,
incoming blocks and parent block, and with operands that are redirected at most. -/
def instructions_kept (m m' : module) : Prop :=
  ∀ (i : Nat) (x : instruction), m.insts[i]? = some x →
    ∃ (x' : instruction), m'.insts[i]? = some x' ∧ x'.op = x.op ∧ x'.ty = x.ty ∧
      x'.blocks = x.blocks ∧ x'.parent = x.parent ∧
      List.Forall₂ (redirected_operand m m') x.ops x'.ops

/-- In the words of the specification: the non-phi instructions reachable from `v`
along operand edges without passing through a phi node, on walks of at most `d`
instructions; an instruction met on several walks is listed several times. -/
def reachable_non_phi : Nat → module → value → List Nat
  | 0, _, _ => []
  | d + 1, m, .inst i =>
    match m.insts[i]? with
    | none => []
    | some x =>
      if x.op = .phi then [] else i :: (x.ops.map fun op => reachable_non_phi d m op).flatten
  | _ + 1, _, _ => []

/-- The number of operands of the instruction `i`. -/
def module.operand_count (m : module) (i : Nat) : Nat :=
  match m.insts[i]? with
  | some x => x.ops.length
  | none => 0

/-- In the words of the specification: the number of operand edges reachable from
`v`, that is the operands of the distinct non-phi instructions reachable from `v`. -/
def operand_edges (d : Nat) (m : module) (v : value) : Nat :=
  ((reachable_non_phi d m v).dedup.map m.operand_count).sum

namespace transform

/-- The loop of `_recursive_clone` over the operands, with a count of the calls of
`_recursive_clone` made; `rec` is `_recursive_clone_counted` itself. The count is
not part of the source: it is carried along to state how many calls are made. -/
def clone_ops_counted
    (rec : value → clones_t → module → Except error (Nat × value × clones_t × module))
    (ret : Nat) : List value → clones_t → module → Except error (Nat × clones_t × module)
  | [], clones, m => .ok (0, clones, m)
  | op :: ops, clones, m => do
    let (k, new_op, clones, m) ← rec op clones m
    let m ← m.replace_uses_of_with ret op new_op
    let (k', clones, m) ← clone_ops_counted rec ret ops clones m
    .ok (k + k', clones, m)

/-- The body of `_recursive_clone`, with the count of the calls of `_recursive_clone`
this call stands for: itself and the calls made for its operands. -/
def _recursive_clone_counted.body
    (rec : value → clones_t → module → Except error (Nat × value × clones_t × module))
    (root : value) (clones : clones_t) (phi_block : Nat) (m : module) :
    Except error (Nat × value × clones_t × module) :=
  match clones_t.find clones root with
  | some v => .ok (1, v, clones, m)
  | none =>
    match root with
    | .inst i => do
      let x ← m.get_inst i
      -- if phi node, return incoming value for provided block
      if x.op = .phi then
        let n ← x.find_incoming phi_block
        let ret ← x.get_incoming_value n
        let r := clones_t.insert clones root ret
        .ok (1, r.1, r.2, m)
      else
        -- clone instruction by recursively cloning all operands
        let (ret, m) ← m.insert x
        let m ← m.set_insert_point ret
        let (k, clones, m) ← clone_ops_counted rec ret x.ops clones m
        let r := clones_t.insert clones root (.inst ret)
        .ok (1 + k, r.1, r.2, m)
    -- do not clone if not an instruction
    | _ =>
      let r := clones_t.insert clones root root
      .ok (1, r.1, r.2, m)

/-- The function `_recursive_clone`, with the count of its calls, the outermost
included. -/
def _recursive_clone_counted : Nat → value → clones_t → Nat → module →
    Except error (Nat × value × clones_t × module)
  | 0, _, _, _, _ => .error .out_of_fuel
  | fuel + 1, root, clones, phi_block, m =>
    _recursive_clone_counted.body
      (fun op clones m => _recursive_clone_counted fuel op clones phi_block m)
      root clones phi_block m

/-- The non-phi instructions of `m₀` that have an entry in the map `clones` are those
of the set `S`. -/
def memo_of (m₀ : module) (clones : clones_t) (S : Finset Nat) : Prop :=
  ∀ (i : Nat) (x : instruction), m₀.insts[i]? = some x → x.op ≠ .phi →
    ((clones_t.find clones (.inst i)).isSome = true ↔ i ∈ S)

/-- The set `S` holds, with each of its instructions, the non-phi instructions
reachable from it. -/
def closed_under_operands (m₀ : module) (S : Finset Nat) : Prop :=
  ∀ i ∈ S, ∀ (d : Nat), ∀ j ∈ reachable_non_phi d m₀ (.inst i), j ∈ S

end transform

/-- What a call of `_recursive_clone`, or a run of its loop, has done, `S` being the
set of non-phi instructions with an entry in the map before and `T` after: the map
and the set agree, the set is closed, the instructions of `m₀` are kept, as many
instructions were inserted as the set gained, and the number `k` of calls is `calls`
plus the number of operands of the instructions gained. -/
def clone_effect (m₀ : module) (S T : Finset Nat) (clones' : transform.clones_t)
    (m m' : module) (k calls : Nat) : Prop :=
  transform.memo_of m₀ clones' T ∧ transform.closed_under_operands m₀ T ∧ keeps m₀ m' ∧
  S ⊆ T ∧ m'.insts.length + S.card = m.insts.length + T.card ∧
  k + Finset.sum S m₀.operand_count = calls + Finset.sum T m₀.operand_count

namespace transform

/-- The map `clones'` holds every entry of the map `clones`. -/
def map_extends (clones clones' : clones_t) : Prop :=
  ∀ (k w : value), clones_t.find clones k = some w → clones_t.find clones' k = some w

/-- The value `w` names a clone in `m` of the instruction `x` of `m₀`: an instruction
allocated since, of the kind of `x`, whose operand is the entry of the map wherever
the operand of `x` is a non-phi instruction of `m₀`. -/
def clone_entry (m₀ : module) (clones : clones_t) (m : module) (x : instruction)
    (w : value) : Prop :=
  ∃ (ci : Nat) (y : instruction), w = .inst ci ∧ m₀.insts.length ≤ ci ∧
    m.insts[ci]? = some y ∧ y.op = x.op ∧
    ∀ (p u : Nat) (xu : instruction), x.ops[p]? = some (.inst u) →
      m₀.insts[u]? = some xu → xu.op ≠ .phi →
      ∃ (cu : Nat), clones_t.find clones (.inst u) = some (.inst cu) ∧
        y.ops[p]? = some (.inst cu)

/-- Every entry of the map for a non-phi instruction of `m₀` names a clone of it in
`m`. -/
def clone_entries (m₀ : module) (clones : clones_t) (m : module) : Prop :=
  ∀ (i : Nat) (x : instruction) (w : value), m₀.insts[i]? = some x → x.op ≠ .phi →
    clones_t.find clones (.inst i) = some w → clone_entry m₀ clones m x w

/-- No entry of the map for a non-phi instruction of `m₀` names the instruction
`ret`. -/
def no_entry_names (m₀ : module) (clones : clones_t) (ret : Nat) : Prop :=
  ∀ (i : Nat) (x : instruction) (w : value), m₀.insts[i]? = some x → x.op ≠ .phi →
    clones_t.find clones (.inst i) = some w → w ≠ .inst ret

/-- The entries of `clones'` for non-phi instructions of `m₀` that `clones` does not
hold name instructions at position `n` or later. -/
def new_entries_from (m₀ : module) (clones clones' : clones_t) (n : Nat) : Prop :=
  ∀ (i : Nat) (x : instruction) (w : value), m₀.insts[i]? = some x → x.op ≠ .phi →
    clones_t.find clones' (.inst i) = some w →
    clones_t.find clones (.inst i) = some w ∨ ∃ (ci : Nat), w = .inst ci ∧ n ≤ ci

/-- The state of the clone `ret` of `x` while its operands are processed, `done`
being the operands processed so far: an operand slot whose original operand is not
yet processed holds that operand; a slot whose original operand is processed and is
a non-phi instruction of `m₀` holds the entry of the map for it. -/
def operands_rebound (m₀ : module) (x : instruction) (ret : Nat) (done : List value)
    (clones : clones_t) (m : module) : Prop :=
  ∃ (y : instruction), m.insts[ret]? = some y ∧ y.op = x.op ∧
    ∀ (p : Nat) (o : value), x.ops[p]? = some o →
      (o ∉ done → y.ops[p]? = some o) ∧
      (o ∈ done → ∀ (u : Nat) (xu : instruction), o = .inst u → m₀.insts[u]? = some xu →
        xu.op ≠ .phi →
        ∃ (cu : Nat), clones_t.find clones (.inst u) = some (.inst cu) ∧
          y.ops[p]? = some (.inst cu))

/-- No two non-phi instructions of `m₀` have the same entry in the map. -/
def entries_injective (m₀ : module) (clones : clones_t) : Prop :=
  ∀ (i j : Nat) (x y : instruction) (w : value), m₀.insts[i]? = some x → x.op ≠ .phi →
    m₀.insts[j]? = some y → y.op ≠ .phi → clones_t.find clones (.inst i) = some w →
    clones_t.find clones (.inst j) = some w → i = j

end transform

/-- The instruction `j` is an operand of the instruction `i`, and neither of them is
a phi node. -/
def operand_edge (m : module) (i j : Nat) : Bool :=
  match m.insts[i]?, m.insts[j]? with
  | some x, some y =>
    decide (x.op ≠ .phi) && decide (y.op ≠ .phi) && decide (value.inst j ∈ x.ops)
  | _, _ => false

/-- Every cycle of the operand graph that can be reached from the root passes through
a phi node: a walk from the root along operand edges between instructions that are
no phi nodes meets no instruction twice. -/
def phi_breaks_cycles (m : module) (root : value) : Prop :=
  ∀ (r : Nat) (l : List Nat), root = .inst r →
    List.Chain (fun i j => operand_edge m i j = true) r l → (r :: l).Nodup

/-- The value can be resolved by `_recursive_clone`: an instruction it names is in
the module, and if it is a phi node it has an incoming value for `phi_block`. -/
def resolvable (m : module) (phi_block : Nat) : value → Bool
  | .inst a =>
    match m.insts[a]? with
    | none => false
    | some y =>
      if y.op = .phi then
        decide (y.blocks.indexOf phi_block < y.blocks.length) &&
          (y.ops[y.blocks.indexOf phi_block]?).isSome
      else
        true
  | _ => true

/-- The root can be resolved, and so can every operand of every instruction met on a
walk from the root along operand edges between instructions that are no phi nodes. -/
def walk_resolvable (m : module) (phi_block : Nat) (root : value) : Prop :=
  resolvable m phi_block root = true ∧
  ∀ (r : Nat) (l : List Nat) (i : Nat) (x : instruction), root = .inst r →
    List.Chain (fun i j => operand_edge m i j = true) r l → (r :: l).getLast? = some i →
    m.insts[i]? = some x → x.op ≠ .phi → ∀ o ∈ x.ops, resolvable m phi_block o = true

/-! ### The pipelining pass on several loads: what each iteration creates -/

namespace transform

/-- What one iteration of the loop `for(auto info: to_pipeline)` of `pipeline::run`
holds at its end: the load `info.load`, the blocks `info.header` and `info.block`,
and the instructions `first_load`, `next_load` and `new_load` it created. -/
structure pipelined_t where
  load : Nat
  header : Nat
  block : Nat
  first_load : Nat
  next_load : Nat
  new_load : Nat
  deriving DecidableEq, Repr

namespace pipeline

/-- The function `merge`, returning also the phi node `new_load` it creates. -/
def merge_traced (m : module) (ty : ir.type) (load first_load next_load header block : Nat) :
    Except error (Nat × module) := do
  let bb ← m.get_block block
  let first_non_phi ← defined "get_first_non_phi" (m.get_first_non_phi bb)
  let m ← m.set_insert_point first_non_phi
  let (new_load, m) ← m.create_phi ty
  let m ← m.add_incoming new_load (.inst first_load) header
  let m ← m.add_incoming new_load (.inst next_load) block
  .ok (new_load, m.replace_all_uses_with (.inst load) (.inst new_load))

/-- The function `rewrite`, the body of the loop of `pipeline::run`, returning also
the values of its local variables `first_load`, `next_load` and `new_load`. -/
def rewrite_traced (fuel : Nat) (m : module) (info : pipe_info_t) :
    Except error (pipelined_t × module) := do
  let back_edge ← defined "info.back_edge" info.back_edge
  let header ← defined "info.header" info.header
  let block ← defined "info.block" info.block
  let ptr ← defined "info.ptr" info.ptr
  let br ← m.get_inst back_edge
  let cond ← defined "get_cond" br.ops[0]?
  let load ← m.get_inst info.load
  let ty := load.ty
  -- for first pre-fetching
  let m ← set_insert_point_back m header
  let (first_ptr, m) ← recursive_clone fuel (.inst ptr) header m
  let (first_mask, m) ← recursive_clone fuel cond header m
  let (_, m) ← and_mask m first_mask info.mask
  let (false_value, m) ← make_false_value m ty info.false_value
  let m ← set_insert_point_back m header
  let (first_load, m) ← prefetch m ty first_ptr false_value
  -- for next pre-fetching
  let m ← set_insert_point_back m block
  let (next_ptr, m) ← recursive_clone fuel (.inst ptr) block m
  let (next_mask, m) ← recursive_clone fuel cond block m
  let (_, m) ← and_mask m next_mask info.mask
  let m ← set_insert_point_back m block
  let (next_load, m) ← prefetch m ty next_ptr false_value
  -- phi node
  let (new_load, m) ← merge_traced m ty info.load first_load next_load header block
  .ok ({ load := info.load, header := header, block := block, first_load := first_load,
         next_load := next_load, new_load := new_load }, m)

/-- The statements of the loop body of `pipeline::run` before the phi node, one after
the other: started on `m` for a load of type `ty` with the recorded mask `mask` and
fallback `fallback`, the pointer phi node `ptr` and the branch condition `cond`, they
emit the prefetch loads `first_load` and `next_load` and reach the module `m'`. -/
def prefetched (fuel : Nat) (m : module) (mask fallback : Option value) (ty : ir.type)
    (ptr : Nat) (cond : value) (header block first_load next_load : Nat) (m' : module) :
    Prop :=
  ∃ (m₁ m₂ m₃ m₄ m₅ m₆ m₇ m₈ m₉ m₁₀ m₁₁ m₁₂ : module)
    (first_ptr first_mask fm false_value next_ptr next_mask nm : value),
    -- for first pre-fetching
    set_insert_point_back m header = .ok m₁ ∧
    recursive_clone fuel (.inst ptr) header m₁ = .ok (first_ptr, m₂) ∧
    recursive_clone fuel cond header m₂ = .ok (first_mask, m₃) ∧
    and_mask m₃ first_mask mask = .ok (fm, m₄) ∧
    make_false_value m₄ ty fallback = .ok (false_value, m₅) ∧
    set_insert_point_back m₅ header = .ok m₆ ∧
    prefetch m₆ ty first_ptr false_value = .ok (first_load, m₇) ∧
    -- for next pre-fetching
    set_insert_point_back m₇ block = .ok m₈ ∧
    recursive_clone fuel (.inst ptr) block m₈ = .ok (next_ptr, m₉) ∧
    recursive_clone fuel cond block m₉ = .ok (next_mask, m₁₀) ∧
    and_mask m₁₀ next_mask mask = .ok (nm, m₁₁) ∧
    set_insert_point_back m₁₁ block = .ok m₁₂ ∧
    prefetch m₁₂ ty next_ptr false_value = .ok (next_load, m')

/-- The function `rewrite_all`, the second half of `pipeline::run`, returning also
what each iteration created, in the order of `to_pipeline`. -/
def rewrite_all_traced (fuel : Nat) :
    module → List pipe_info_t → Except error (List pipelined_t × module)
  | m, [] => .ok ([], m)
  | m, info :: rest => do
    let (r, m) ← rewrite_traced fuel m info
    let (rs, m) ← rewrite_all_traced fuel m rest
    .ok (r :: rs, m)

/-- The function `run`, returning also what the iteration for each load created. -/
def run_traced (fuel : Nat) (mod : module) : Except error (List pipelined_t × module) := do
  let to_pipeline ← collect mod mod.all_insts []
  -- do the pipelining
  rewrite_all_traced fuel mod to_pipeline

end pipeline

end transform

/-- The loop a load belongs to, as the detection of `pipeline::run` reads it: the
pointer phi node, the block of the phi node, the first predecessor of that block,
the conditional branch that ends the block and the condition of the branch. -/
structure loop_t where
  ptr : Nat
  block : Nat
  header : Nat
  back_edge : Nat
  cond : value
  deriving DecidableEq, Repr

/-- The loop of the load `L`, if the detection of `pipeline::run` finds one: the
pointer operand of `L` is a phi node with an incoming edge from its own block, and
that block has a first predecessor and ends in a conditional branch. -/
def module.loop_of (m : module) (L : Nat) : Option loop_t :=
  match m.insts[L]? with
  | none => none
  | some x =>
    match x.ops[0]? with
    | some (value.inst p) =>
      match m.insts[p]? with
      | none => none
      | some px =>
        if px.op = .phi ∧ px.parent ∈ px.blocks then
          match m.blocks[px.parent]? with
          | none => none
          | some bb =>
            match bb.insts.getLast?, bb.preds[0]? with
            | some t, some h =>
              match m.insts[t]? with
              | none => none
              | some tx =>
                if tx.op = .cond_branch then
                  (tx.ops[0]?).map fun c =>
                    { ptr := p, block := px.parent, header := h, back_edge := t, cond := c }
                else none
            | _, _ => none
        else none
    | _ => none

/-- The loads of the module, in the order `for_each_instruction` visits them. -/
def module.loads (m : module) : List Nat :=
  m.all_insts.filter m.is_load

/-- Whether `L'` is a masked load that has the instruction `L` as its mask or as its
fallback operand. -/
def module.feeds (m : module) (L L' : Nat) : Bool :=
  match m.insts[L']? with
  | some x =>
    x.op = .masked_load && (x.ops[1]? = some (.inst L) || x.ops[2]? = some (.inst L))
  | none => false

/-- The phi nodes at the head of the block `b`. -/
def module.leading_phis (m : module) (b : Nat) : List Nat :=
  (m.block_insts b).takeWhile m.is_phi

/-- Every block ends in an instruction that is no phi node. -/
def module.terminated (m : module) : Bool :=
  m.blocks.all fun bb =>
    match bb.insts.getLast? with
    | some t => !m.is_phi t
    | none => false

/-- The invariants of the IR core the pass relies on: every instruction listed in a
block is allocated and has that block as its parent; no instruction is listed
twice; operands that name instructions name instructions of the module; every block
ends in an instruction that is no phi node; a masked load has its three operands;
the incoming blocks of a phi node are blocks of the module. -/
def module.well_formed (m : module) : Bool :=
  decide m.listed && m.closed && decide m.all_insts.Nodup && m.terminated &&
    m.insts.all fun x =>
      (decide (x.op = .masked_load → 3 ≤ x.ops.length)) &&
        decide (x.op = .phi → ∀ b ∈ x.blocks, b < m.blocks.length)

/-- What the pass needs of a load: the detection finds its loop, the load has a block
type, and the pointer phi node and the condition of the back-edge branch can be
cloned for the header and for the loop body within depth `d`. -/
def module.ready_load (d : Nat) (m : module) (L : Nat) : Bool :=
  match m.loop_of L, m.insts[L]? with
  | some lp, some x =>
    x.ty.is_block_ty && cloneable d m lp.header (.inst lp.ptr) &&
      cloneable d m lp.header lp.cond && cloneable d m lp.block (.inst lp.ptr) &&
      cloneable d m lp.block lp.cond
  | _, _ => false

/-- Whether, if cloning the branch condition of the loop of `L` meets the load `L'`,
the load `L'` belongs to the same loop: it has the same header and the same block. -/
def module.same_loop_if_met (d : Nat) (m : module) (L' L : Nat) : Bool :=
  match m.loop_of L', m.loop_of L with
  | some lp', some lp =>
    !(decide (L' ∈ reachable_non_phi d m lp.cond)) ||
      (decide (lp'.header = lp.header) && decide (lp'.block = lp.block))
  | _, _ => true

/-- The modules `pipeline::run` is written for, `d` bounding the depth of the clones:
the module is well formed, every load is ready, and a load met when the branch
condition of a load visited later is cloned belongs to the same loop. -/
def module.pipelinable (d : Nat) (m : module) : Bool :=
  m.well_formed && m.loads.all (m.ready_load d) &&
    decide (m.loads.Pairwise fun L' L => m.same_loop_if_met d L' L = true)

/-- What the redirections of the pass make of an operand: a load that was pipelined
is replaced by its new phi node. -/
def redirect (trace : List transform.pipelined_t) : value → value
  | .inst a =>
    match trace.find? fun r => r.load = a with
    | some r => .inst r.new_load
    | none => .inst a
  | o => o

/-- The entry of `to_pipeline` the first half of `pipeline::run` records for the load
`L`: its loop, with the mask and the fallback of a masked load. -/
def module.info_of (m : module) (L : Nat) : Option transform.pipe_info_t :=
  match m.loop_of L, m.insts[L]? with
  | some lp, some x =>
    some { header := some lp.header, block := some lp.block, load := L,
           mask := if x.op = .masked_load then x.ops[1]? else none,
           false_value := if x.op = .masked_load then x.ops[2]? else none,
           ptr := some lp.ptr, back_edge := some lp.back_edge }
  | _, _ => none

/-- Between `m` and `m'` no phi node was created and none was moved: the same
instructions are phi nodes, every block has the same phi nodes at its head, and if
every block of `m` ends in an instruction that is no phi node, so does every block
of `m'`. -/
def phi_frame (m m' : module) : Prop :=
  (∀ (i : Nat), m'.is_phi i = m.is_phi i) ∧
  (∀ (b : Nat), m'.leading_phis b = m.leading_phis b) ∧
  (m.terminated = true → m'.terminated = true)

/-- The builder's cursor does not stand before a phi node. -/
def module.cursor_non_phi (m : module) : Prop :=
  ∀ (b p : Nat), m.insert_point = some (b, some p) → m.is_phi p = false

/-- No instruction of the module has the value `v` as an operand. -/
def module.unused (m : module) (v : value) : Prop :=
  ∀ x ∈ m.insts, v ∉ x.ops

namespace transform

namespace pipeline

/-- The module the statements of the phi node reach from `m`, spelled out: the phi
node is allocated last, with the two incoming edges; it stands in the block `B`
between the phi nodes `phis` and the instruction `f`; and every operand that was
the load `L` is the phi node. -/
def merged (m : module) (ty : ir.type) (L fl nl H B : Nat) (phis rest : List Nat) (f : Nat)
    (preds : List Nat) : module :=
  { insts := (m.insts ++ [instruction.mk .phi ty [.inst fl, .inst nl] [H, B] B]).map
      (fun (x : instruction) => x.replace_uses_of_with (.inst L) (.inst m.insts.length))
    blocks := m.blocks.set B (basic_block.mk (phis ++ m.insts.length :: f :: rest) preds)
    insert_point := some (B, some f) }

/-- The state of the loop of `pipeline::run` after the iterations `done`, on a module
`m₀`: what the module `m` reached holds of `m₀` and of what the iterations created. -/
structure pass_state (m₀ : module) (done : List pipelined_t) (m : module) : Prop where
  listed : m.listed
  terminated : m.terminated = true
  frame : block_frame m₀ m
  old : ∀ (i : Nat) (x : instruction), m₀.insts[i]? = some x →
    m.insts[i]? = some { x with ops := x.ops.map (redirect done) }
  loops : ∀ r ∈ done, ∃ (lp : loop_t), m₀.loop_of r.load = some lp ∧ r.header = lp.header ∧
    r.block = lp.block
  new_phi : ∀ r ∈ done, r.load < m₀.insts.length ∧ m₀.insts.length ≤ r.first_load ∧
    m₀.insts.length ≤ r.next_load ∧ m₀.insts.length ≤ r.new_load ∧
    ∃ (lx : instruction), m₀.insts[r.load]? = some lx ∧ lx.op ≠ .phi ∧
      m.insts[r.new_load]? = some (instruction.mk .phi lx.ty
        [.inst r.first_load, .inst r.next_load] [r.header, r.block] r.block)
  prefetches : ∀ r ∈ done,
    (∃ (x : instruction), m.insts[r.first_load]? = some x ∧ x.op = .masked_load ∧
      x.parent = r.header) ∧
    (∃ (x : instruction), m.insts[r.next_load]? = some x ∧ x.op = .masked_load ∧
      x.parent = r.block)
  forced : ∀ r ∈ done, ∃ (lx : instruction) (shapes : List Nat),
    m₀.insts[r.load]? = some lx ∧ lx.ty.get_block_shapes = some shapes ∧
    m.forced_prefetch m₀.insts.length shapes r.first_load ∧
    m.forced_prefetch m₀.insts.length shapes r.next_load
  old_ok : m.old_operands_ok m₀.insts.length
  phis : ∀ (i : Nat), m₀.insts.length ≤ i →
    (m.is_phi i = true ↔ i ∈ done.map fun r => r.new_load)
  heads : ∀ (b : Nat), m.leading_phis b =
    m₀.leading_phis b ++ (done.filter fun r => r.block = b).map fun r => r.new_load
  unused : ∀ (j : Nat) (r : pipelined_t), done[j]? = some r →
    (∀ (j' : Nat) (r' : pipelined_t), j < j' → done[j']? = some r' →
      m₀.feeds r.load r'.load = false) →
    m.unused (.inst r.load)
  distinct : (done.map fun r => r.new_load).Nodup

end pipeline

end transform

/-- What the iteration `r` of the loop of `pipeline::run` has left in `m` for a load of
type `ty` and tile shape `shapes`, `n` being the number of instructions before the
pass: the instruction `r.new_load` is a phi node of type `ty` allocated by the pass
whose incoming values are `r.first_load` from `r.header` and `r.next_load` from
`r.block`, and both are prefetch loads with a forced mask. -/
def module.pipelined_as (m : module) (n : Nat) (ty : ir.type) (shapes : List Nat)
    (r : transform.pipelined_t) : Prop :=
  n ≤ r.new_load ∧ ∃ (qx : instruction), m.insts[r.new_load]? = some qx ∧ qx.op = .phi ∧
    qx.ty = ty ∧ qx.ops = [.inst r.first_load, .inst r.next_load] ∧
    qx.blocks = [r.header, r.block] ∧
    m.forced_prefetch n shapes r.first_load ∧ m.forced_prefetch n shapes r.next_load

end codegen

/-! ## Part II. Theorems -/

/-! ### Helper lemmas on the per-axis loop of `try_broadcast` -/

theorem loop_ok_of_compatible (ls : List Nat) :
    ∀ (rs : List Nat) (i : Nat) (acc : List Nat), ls.length = rs.length →
      (∀ (k l r : Nat), ls[k]? = some l → rs[k]? = some r → l = r ∨ l = 1 ∨ r = 1) →
      try_broadcast.loop i ls rs acc
        = .ok (acc ++ List.zipWith (fun l r => if l = 1 then r else l) ls rs) := by
  induction ls with
  | nil =>
    intro rs i acc _ _
    cases rs <;> simp [try_broadcast.loop]
  | cons l ls ih =>
    intro rs i acc hlen hc
    cases rs with
    | nil => simp at hlen
    | cons r rs =>
      have hlen' : ls.length = rs.length := by simpa using hlen
      have hc' : ∀ (k l' r' : Nat), ls[k]? = some l' → rs[k]? = some r' → l' = r' ∨ l' = 1 ∨ r' = 1 :=
        fun k l' r' h1 h2 => hc (k + 1) l' r' (by simpa using h1) (by simpa using h2)
      have h0 := hc 0 l r (by simp) (by simp)
      unfold try_broadcast.loop
      by_cases h1 : l = 1
      · simp [h1, ih rs (i + 1) _ hlen' hc']
      · by_cases h2 : r = 1
        · simp [h1, h2, ih rs (i + 1) _ hlen' hc']
        · have h3 : l = r := by tauto
          simp [h1, h2, h3, ih rs (i + 1) _ hlen' hc']

theorem loop_error_at_first_bad (ls : List Nat) :
    ∀ (rs : List Nat) (i : Nat) (acc : List Nat) (k l r : Nat),
      ls[k]? = some l → rs[k]? = some r → l ≠ r → l ≠ 1 → r ≠ 1 →
      (∀ (j : Nat), j < k → ∀ (l' r' : Nat), ls[j]? = some l' → rs[j]? = some r' →
        l' = r' ∨ l' = 1 ∨ r' = 1) →
      try_broadcast.loop i ls rs acc
        = .error (.runtime_error (incompatible_dimensions_msg (i + k) l r)) := by
  induction ls with
  | nil => intro rs i acc k l r h; simp at h
  | cons a ls ih =>
    intro rs i acc k l r hl hr hne hl1 hr1 hfirst
    cases rs with
    | nil => simp at hr
    | cons c rs =>
      cases k with
      | zero =>
        simp at hl hr
        subst hl; subst hr
        simp [try_broadcast.loop, hne, hl1, hr1]
      | succ k =>
        have h0 := hfirst 0 (Nat.succ_pos k) a c (by simp) (by simp)
        have hl' : ls[k]? = some l := by simpa using hl
        have hr' : rs[k]? = some r := by simpa using hr
        have hfirst' : ∀ (j : Nat), j < k → ∀ (l' r' : Nat), ls[j]? = some l' → rs[j]? = some r' →
            l' = r' ∨ l' = 1 ∨ r' = 1 :=
          fun j hj l' r' h1 h2 =>
            hfirst (j + 1) (Nat.succ_lt_succ hj) l' r' (by simpa using h1) (by simpa using h2)
        have hidx : i + 1 + k = i + (k + 1) := by omega
        unfold try_broadcast.loop
        by_cases h1 : a = 1
        · simp [h1, ih rs (i + 1) _ k l r hl' hr' hne hl1 hr1 hfirst', hidx]
        · by_cases h2 : c = 1
          · simp [h1, h2, ih rs (i + 1) _ k l r hl' hr' hne hl1 hr1 hfirst', hidx]
          · have h3 : a = c := by tauto
            simp [h1, h2, h3, ih rs (i + 1) _ k l r hl' hr' hne hl1 hr1 hfirst', hidx]

theorem exists_first_bad (ls rs : List Nat) :
    ∀ (k l r : Nat), ls[k]? = some l → rs[k]? = some r → l ≠ r → l ≠ 1 → r ≠ 1 →
      ∃ (k' l' r' : Nat), ls[k']? = some l' ∧ rs[k']? = some r' ∧ l' ≠ r' ∧ l' ≠ 1 ∧ r' ≠ 1 ∧
        ∀ (j : Nat), j < k' → ∀ (a c : Nat), ls[j]? = some a → rs[j]? = some c →
          a = c ∨ a = 1 ∨ c = 1 := by
  intro k
  induction k using Nat.strong_induction_on with
  | _ k ih =>
    intro l r hl hr hne hl1 hr1
    by_cases h : ∀ (j : Nat), j < k → ∀ (a c : Nat), ls[j]? = some a → rs[j]? = some c →
        a = c ∨ a = 1 ∨ c = 1
    · exact ⟨k, l, r, hl, hr, hne, hl1, hr1, h⟩
    · push_neg at h
      obtain ⟨j, hj, a, c, ha, hc, h1, h2, h3⟩ := h
      exact ih j hj a c ha hc h1 h2 h3

theorem zipWith_broadcast_getElem? (ls rs : List Nat) (i l r : Nat)
    (hl : ls[i]? = some l) (hr : rs[i]? = some r) :
    (List.zipWith (fun l r => if l = 1 then r else l) ls rs)[i]?
      = some (if l = 1 then r else l) := by
  simp [List.getElem?_zipWith, hl, hr]

/-! ### `try_broadcast` -/

theorem try_broadcast_blocks_of_loop_ok (lhs rhs : value) (b : builder)
    (tl tr : scalar_ty) (ls rs S : List Nat)
    (hl : lhs.get_type = .block tl ls) (hr : rhs.get_type = .block tr rs)
    (hrank : ls.length = rs.length) (hloop : try_broadcast.loop 0 ls rs [] = .ok S) :
    try_broadcast lhs rhs b =
      (.ok ((if ls ≠ S then b.create_broadcast lhs S else (lhs, b)).1,
            (if rs ≠ S then
              (if ls ≠ S then b.create_broadcast lhs S else (lhs, b)).2.create_broadcast rhs S
             else (rhs, (if ls ≠ S then b.create_broadcast lhs S else (lhs, b)).2)).1),
       (if rs ≠ S then
          (if ls ≠ S then b.create_broadcast lhs S else (lhs, b)).2.create_broadcast rhs S
        else (rhs, (if ls ≠ S then b.create_broadcast lhs S else (lhs, b)).2)).2) := by
  unfold try_broadcast
  rw [hl, hr]
  simp only [hrank, ne_eq, not_true_eq_false, if_false, hloop]

theorem try_broadcast_blocks_of_loop_error (lhs rhs : value) (b : builder)
    (tl tr : scalar_ty) (ls rs : List Nat) (e : error)
    (hl : lhs.get_type = .block tl ls) (hr : rhs.get_type = .block tr rs)
    (hrank : ls.length = rs.length) (hloop : try_broadcast.loop 0 ls rs [] = .error e) :
    try_broadcast lhs rhs b = (.error e, b) := by
  unfold try_broadcast
  rw [hl, hr]
  simp only [hrank, ne_eq, not_true_eq_false, if_false, hloop]

theorem try_broadcast_blocks_of_rank_ne (lhs rhs : value) (b : builder)
    (tl tr : scalar_ty) (ls rs : List Nat)
    (hl : lhs.get_type = .block tl ls) (hr : rhs.get_type = .block tr rs)
    (hrank : ls.length ≠ rs.length) :
    try_broadcast lhs rhs b = (.error (.runtime_error incompatible_rank_msg), b) := by
  unfold try_broadcast
  rw [hl, hr]
  simp only [ne_eq, hrank, not_false_eq_true, if_true]

/-- C3: two blocks of equal rank whose extents agree or are 1 on every axis are
broadcast with success to one common shape `S`, where `S[i]` is the other side's
extent when one side's extent is 1 and the common extent otherwise; a side whose
shape is already `S` is returned unchanged. -/
theorem try_broadcast_compatible_blocks (lhs rhs : value) (b : builder)
    (tl tr : scalar_ty) (ls rs : List Nat)
    (hl : lhs.get_type = .block tl ls) (hr : rhs.get_type = .block tr rs)
    (hrank : ls.length = rs.length)
    (hcompat : ∀ (i l r : Nat), ls[i]? = some l → rs[i]? = some r → l = r ∨ l = 1 ∨ r = 1) :
    ∃ (lhs' rhs' : value) (b' : builder) (S : List Nat),
      try_broadcast lhs rhs b = (.ok (lhs', rhs'), b') ∧
      lhs'.get_type.get_block_shapes = some S ∧
      rhs'.get_type.get_block_shapes = some S ∧
      S.length = ls.length ∧
      (∀ (i l r : Nat), ls[i]? = some l → rs[i]? = some r →
        (l = 1 → S[i]? = some r) ∧ (r = 1 → S[i]? = some l) ∧ (l = r → S[i]? = some l)) ∧
      (ls = S → lhs' = lhs) ∧ (rs = S → rhs' = rhs) := by
  have hloop := loop_ok_of_compatible ls rs 0 [] hrank hcompat
  simp only [List.nil_append] at hloop
  generalize hS : List.zipWith (fun l r => if l = 1 then r else l) ls rs = S at hloop
  have hSlen : S.length = ls.length := by
    rw [← hS]; simp [hrank]
  have hSget : ∀ (i l r : Nat), ls[i]? = some l → rs[i]? = some r →
      (l = 1 → S[i]? = some r) ∧ (r = 1 → S[i]? = some l) ∧ (l = r → S[i]? = some l) := by
    intro i l r h1 h2
    have h := zipWith_broadcast_getElem? ls rs i l r h1 h2
    rw [hS] at h
    refine ⟨fun e => by simp [h, e], fun e => ?_, fun e => ?_⟩
    · by_cases e1 : l = 1
      · simp [h, e, e1]
      · simp [h, e1]
    · by_cases e1 : l = 1
      · simp [h, e1, ← e]
      · simp [h, e1]
  by_cases h1 : ls = S <;> by_cases h2 : rs = S
  · refine ⟨lhs, rhs, b, S, ?_, ?_, ?_, hSlen, hSget, fun _ => rfl, fun _ => rfl⟩
    · rw [try_broadcast_blocks_of_loop_ok lhs rhs b tl tr ls rs S hl hr hrank hloop]
      simp [h1, h2, builder.create_broadcast]
    · simp [hl, h1, type.get_block_shapes]
    · simp [hr, h2, type.get_block_shapes]
  · refine ⟨lhs, .broadcast rhs S, b.insert (.broadcast rhs S), S, ?_, ?_, ?_, hSlen, hSget,
      fun _ => rfl, fun e => absurd e h2⟩
    · rw [try_broadcast_blocks_of_loop_ok lhs rhs b tl tr ls rs S hl hr hrank hloop]
      simp [h1, h2, builder.create_broadcast]
    · simp [hl, h1, type.get_block_shapes]
    · simp [value.get_type, block_type.get, type.get_block_shapes]
  · refine ⟨.broadcast lhs S, rhs, b.insert (.broadcast lhs S), S, ?_, ?_, ?_, hSlen, hSget,
      fun e => absurd e h1, fun _ => rfl⟩
    · rw [try_broadcast_blocks_of_loop_ok lhs rhs b tl tr ls rs S hl hr hrank hloop]
      simp [h1, h2, builder.create_broadcast]
    · simp [value.get_type, block_type.get, type.get_block_shapes]
    · simp [hr, h2, type.get_block_shapes]
  · refine ⟨.broadcast lhs S, .broadcast rhs S,
      (b.insert (.broadcast lhs S)).insert (.broadcast rhs S), S, ?_, ?_, ?_, hSlen, hSget,
      fun e => absurd e h1, fun e => absurd e h2⟩
    · rw [try_broadcast_blocks_of_loop_ok lhs rhs b tl tr ls rs S hl hr hrank hloop]
      simp [h1, h2, builder.create_broadcast]
    · simp [value.get_type, block_type.get, type.get_block_shapes]
    · simp [value.get_type, block_type.get, type.get_block_shapes]

/-- Witness for C3: shapes (1,4) and (3,1) give two values of shape (3,4). -/
theorem try_broadcast_compatible_blocks_witness :
    (try_broadcast (.arg 0 (.block (.floating 23) [1, 4])) (.arg 1 (.block (.floating 23) [3, 1]))
        ⟨[]⟩).1
      = .ok (.broadcast (.arg 0 (.block (.floating 23) [1, 4])) [3, 4],
             .broadcast (.arg 1 (.block (.floating 23) [3, 1])) [3, 4]) ∧
    ∃ (lhs' rhs' : value) (b' : builder) (S : List Nat),
      try_broadcast (.arg 0 (.block (.floating 23) [1, 4]))
          (.arg 1 (.block (.floating 23) [3, 1])) ⟨[]⟩ = (.ok (lhs', rhs'), b') ∧
      lhs'.get_type.get_block_shapes = some S ∧
      rhs'.get_type.get_block_shapes = some S ∧
      S.length = [1, 4].length ∧
      (∀ (i l r : Nat), [1, 4][i]? = some l → [3, 1][i]? = some r →
        (l = 1 → S[i]? = some r) ∧ (r = 1 → S[i]? = some l) ∧ (l = r → S[i]? = some l)) ∧
      ([1, 4] = S → lhs' = .arg 0 (.block (.floating 23) [1, 4])) ∧
      ([3, 1] = S → rhs' = .arg 1 (.block (.floating 23) [3, 1])) :=
  ⟨by decide,
   try_broadcast_compatible_blocks (.arg 0 (.block (.floating 23) [1, 4]))
    (.arg 1 (.block (.floating 23) [3, 1])) ⟨[]⟩ (.floating 23) (.floating 23) [1, 4] [3, 1]
    rfl rfl rfl (by
      intro i l r h1 h2
      match i with
      | 0 => simp at h1 h2; omega
      | 1 => simp at h1 h2; omega
      | (n + 2) => simp at h1)⟩

theorem loop_ok_or_first_bad (ls rs : List Nat) (hrank : ls.length = rs.length) :
    try_broadcast.loop 0 ls rs []
        = .ok (List.zipWith (fun l r => if l = 1 then r else l) ls rs) ∨
    ∃ (k l r : Nat), ls[k]? = some l ∧ rs[k]? = some r ∧ l ≠ r ∧ l ≠ 1 ∧ r ≠ 1 ∧
      try_broadcast.loop 0 ls rs []
        = .error (.runtime_error (incompatible_dimensions_msg k l r)) := by
  by_cases h : ∀ (k l r : Nat), ls[k]? = some l → rs[k]? = some r → l = r ∨ l = 1 ∨ r = 1
  · left
    simpa using loop_ok_of_compatible ls rs 0 [] hrank h
  · right
    push_neg at h
    obtain ⟨k, l, r, hl, hr, h1, h2, h3⟩ := h
    obtain ⟨k', l', r', hl', hr', h1', h2', h3', hfirst⟩ :=
      exists_first_bad ls rs k l r hl hr h1 h2 h3
    refine ⟨k', l', r', hl', hr', h1', h2', h3', ?_⟩
    simpa using loop_error_at_first_bad ls rs 0 [] k' l' r' hl' hr' h1' h2' h3' hfirst

/-- C4: `try_broadcast` fails exactly when both operands are blocks and either their
ranks differ, which gives the incompatible-rank error, or the ranks agree and on some
axis the extents differ with neither equal to 1, which gives an
incompatible-dimension error; on every other input it returns a pair. -/
theorem try_broadcast_fails_iff (lhs rhs : value) (b : builder) :
    ((∃ (e : error), (try_broadcast lhs rhs b).1 = .error e) ↔
      ∃ (tl tr : scalar_ty) (ls rs : List Nat),
        lhs.get_type = .block tl ls ∧ rhs.get_type = .block tr rs ∧
        (ls.length ≠ rs.length ∨
          ∃ (i l r : Nat), ls[i]? = some l ∧ rs[i]? = some r ∧ l ≠ r ∧ l ≠ 1 ∧ r ≠ 1)) ∧
    (∀ (tl tr : scalar_ty) (ls rs : List Nat),
        lhs.get_type = .block tl ls → rhs.get_type = .block tr rs →
        ls.length ≠ rs.length →
        (try_broadcast lhs rhs b).1 = .error (.runtime_error incompatible_rank_msg)) ∧
    (∀ (tl tr : scalar_ty) (ls rs : List Nat),
        lhs.get_type = .block tl ls → rhs.get_type = .block tr rs →
        ls.length = rs.length →
        (∃ (i l r : Nat), ls[i]? = some l ∧ rs[i]? = some r ∧ l ≠ r ∧ l ≠ 1 ∧ r ≠ 1) →
        ∃ (i l r : Nat), ls[i]? = some l ∧ rs[i]? = some r ∧ l ≠ r ∧ l ≠ 1 ∧ r ≠ 1 ∧
          (try_broadcast lhs rhs b).1
            = .error (.runtime_error (incompatible_dimensions_msg i l r))) ∧
    ((¬ ∃ (tl tr : scalar_ty) (ls rs : List Nat),
        lhs.get_type = .block tl ls ∧ rhs.get_type = .block tr rs ∧
        (ls.length ≠ rs.length ∨
          ∃ (i l r : Nat), ls[i]? = some l ∧ rs[i]? = some r ∧ l ≠ r ∧ l ≠ 1 ∧ r ≠ 1)) →
      ∃ (p : value × value), (try_broadcast lhs rhs b).1 = .ok p) := by
  -- the dimension error, shared by the parts below
  have hdim : ∀ (tl tr : scalar_ty) (ls rs : List Nat),
      lhs.get_type = .block tl ls → rhs.get_type = .block tr rs →
      ls.length = rs.length →
      (∃ (i l r : Nat), ls[i]? = some l ∧ rs[i]? = some r ∧ l ≠ r ∧ l ≠ 1 ∧ r ≠ 1) →
      ∃ (i l r : Nat), ls[i]? = some l ∧ rs[i]? = some r ∧ l ≠ r ∧ l ≠ 1 ∧ r ≠ 1 ∧
        (try_broadcast lhs rhs b).1
          = .error (.runtime_error (incompatible_dimensions_msg i l r)) := by
    intro tl tr ls rs hl hr hrank ⟨i, l, r, h1, h2, h3, h4, h5⟩
    obtain ⟨k', l', r', hl', hr', h1', h2', h3', hfirst⟩ :=
      exists_first_bad ls rs i l r h1 h2 h3 h4 h5
    refine ⟨k', l', r', hl', hr', h1', h2', h3', ?_⟩
    have hloop := loop_error_at_first_bad ls rs 0 [] k' l' r' hl' hr' h1' h2' h3' hfirst
    simp only [Nat.zero_add] at hloop
    rw [try_broadcast_blocks_of_loop_error lhs rhs b tl tr ls rs _ hl hr hrank hloop]
  have hrk : ∀ (tl tr : scalar_ty) (ls rs : List Nat),
      lhs.get_type = .block tl ls → rhs.get_type = .block tr rs →
      ls.length ≠ rs.length →
      (try_broadcast lhs rhs b).1 = .error (.runtime_error incompatible_rank_msg) := by
    intro tl tr ls rs hl hr hrank
    rw [try_broadcast_blocks_of_rank_ne lhs rhs b tl tr ls rs hl hr hrank]
  have hiff : (∃ (e : error), (try_broadcast lhs rhs b).1 = .error e) ↔
      ∃ (tl tr : scalar_ty) (ls rs : List Nat),
        lhs.get_type = .block tl ls ∧ rhs.get_type = .block tr rs ∧
        (ls.length ≠ rs.length ∨
          ∃ (i l r : Nat), ls[i]? = some l ∧ rs[i]? = some r ∧ l ≠ r ∧ l ≠ 1 ∧ r ≠ 1) := by
    constructor
    · rintro ⟨e, he⟩
      cases hl : lhs.get_type with
      | scalar tl =>
        cases hr : rhs.get_type with
        | scalar tr => simp [try_broadcast, hl, hr] at he
        | block tr rs => simp [try_broadcast, hl, hr] at he
      | block tl ls =>
        cases hr : rhs.get_type with
        | scalar tr => simp [try_broadcast, hl, hr] at he
        | block tr rs =>
          refine ⟨tl, tr, ls, rs, rfl, rfl, ?_⟩
          by_cases hrank : ls.length = rs.length
          · right
            rcases loop_ok_or_first_bad ls rs hrank with hok | ⟨k, l, r, h1, h2, h3, h4, h5, _⟩
            · rw [try_broadcast_blocks_of_loop_ok lhs rhs b tl tr ls rs _ hl hr hrank hok] at he
              simp at he
            · exact ⟨k, l, r, h1, h2, h3, h4, h5⟩
          · exact Or.inl hrank
    · rintro ⟨tl, tr, ls, rs, hl, hr, h⟩
      by_cases hrank : ls.length = rs.length
      · rcases h with h | h
        · exact absurd hrank h
        · obtain ⟨i, l, r, _, _, _, _, _, he⟩ := hdim tl tr ls rs hl hr hrank h
          exact ⟨_, he⟩
      · exact ⟨_, hrk tl tr ls rs hl hr hrank⟩
  refine ⟨hiff, hrk, hdim, ?_⟩
  intro hno
  cases hres : (try_broadcast lhs rhs b).1 with
  | ok p => exact ⟨p, rfl⟩
  | error e => exact absurd (hiff.mp ⟨e, hres⟩) hno

/-- C5: on two blocks of equal rank, when `i` is the lowest axis at which the extents
differ and neither is 1, `try_broadcast` fails with the incompatible-dimension error
whose message names `i`, then the left extent and the right extent at that axis. -/
theorem try_broadcast_error_names_first_axis (lhs rhs : value) (b : builder)
    (tl tr : scalar_ty) (ls rs : List Nat) (i l r : Nat)
    (hl : lhs.get_type = .block tl ls) (hr : rhs.get_type = .block tr rs)
    (hrank : ls.length = rs.length)
    (hil : ls[i]? = some l) (hir : rs[i]? = some r)
    (hbad : l ≠ r ∧ l ≠ 1 ∧ r ≠ 1)
    (hfirst : ∀ (j : Nat), j < i → ∀ (l' r' : Nat), ls[j]? = some l' → rs[j]? = some r' →
      l' = r' ∨ l' = 1 ∨ r' = 1) :
    try_broadcast lhs rhs b =
      (.error (.runtime_error
        ("Cannot make_shape_compatible: incompatible dimensions at index " ++ toString i ++
          ": " ++ toString l ++ " and " ++ toString r)), b) := by
  have hloop := loop_error_at_first_bad ls rs 0 [] i l r hil hir hbad.1 hbad.2.1 hbad.2.2 hfirst
  simp only [Nat.zero_add] at hloop
  rw [try_broadcast_blocks_of_loop_error lhs rhs b tl tr ls rs _ hl hr hrank hloop]
  rfl

/-- Witness for C5: shapes (3,4) and (3,5) give an error naming axis 1, sizes 4 and 5. -/
theorem try_broadcast_error_names_first_axis_witness :
    try_broadcast (.arg 0 (.block (.floating 23) [3, 4])) (.arg 1 (.block (.floating 23) [3, 5]))
        ⟨[]⟩ =
      (.error (.runtime_error
        "Cannot make_shape_compatible: incompatible dimensions at index 1: 4 and 5"), ⟨[]⟩) :=
  try_broadcast_error_names_first_axis (.arg 0 (.block (.floating 23) [3, 4]))
    (.arg 1 (.block (.floating 23) [3, 5])) ⟨[]⟩ (.floating 23) (.floating 23) [3, 4] [3, 5]
    1 4 5 rfl rfl rfl rfl rfl (by decide) (by
      intro j hj l' r' h1 h2
      have hj0 : j = 0 := by omega
      subst hj0
      simp at h1 h2
      omega)

/-- C6: when exactly one operand is a block, `try_broadcast` returns the block
operand unchanged and replaces the scalar operand by a splat of it to the block's
shape, whichever side the scalar is on; both returned values have the block's shape. -/
theorem try_broadcast_splats_scalar_side (lhs rhs : value) (b : builder)
    (hone : lhs.get_type.is_block_ty ≠ rhs.get_type.is_block_ty) :
    ∃ (shape : List Nat),
      (if lhs.get_type.is_block_ty then lhs.get_type else rhs.get_type).get_block_shapes
        = some shape ∧
      try_broadcast lhs rhs b =
        (if lhs.get_type.is_block_ty then
          (.ok (lhs, .splat rhs shape), b.insert (.splat rhs shape))
         else
          (.ok (.splat lhs shape, rhs), b.insert (.splat lhs shape))) ∧
      (value.splat rhs shape).get_type.get_block_shapes = some shape ∧
      (value.splat lhs shape).get_type.get_block_shapes = some shape := by
  cases hl : lhs.get_type with
  | scalar tl =>
    cases hr : rhs.get_type with
    | scalar tr => simp [hl, hr, type.is_block_ty] at hone
    | block tr rs =>
      refine ⟨rs, ?_, ?_, ?_, ?_⟩
      · simp [type.is_block_ty, type.get_block_shapes]
      · simp [try_broadcast, hl, hr, type.is_block_ty, builder.create_splat]
      · simp [value.get_type, block_type.get, type.get_block_shapes]
      · simp [value.get_type, block_type.get, type.get_block_shapes]
  | block tl ls =>
    cases hr : rhs.get_type with
    | scalar tr =>
      refine ⟨ls, ?_, ?_, ?_, ?_⟩
      · simp [type.is_block_ty, type.get_block_shapes]
      · simp [try_broadcast, hl, hr, type.is_block_ty, builder.create_splat]
      · simp [value.get_type, block_type.get, type.get_block_shapes]
      · simp [value.get_type, block_type.get, type.get_block_shapes]
    | block tr rs => simp [hl, hr, type.is_block_ty] at hone

/-- Witness for C6: a block of shape (2,8) against a scalar, the scalar on the right
and on the left. -/
theorem try_broadcast_splats_scalar_side_witness :
    (∃ (shape : List Nat),
      (if (value.arg 0 (.block (.floating 23) [2, 8])).get_type.is_block_ty
        then (value.arg 0 (.block (.floating 23) [2, 8])).get_type
        else (value.arg 1 (.scalar (.floating 23))).get_type).get_block_shapes = some shape ∧
      try_broadcast (.arg 0 (.block (.floating 23) [2, 8])) (.arg 1 (.scalar (.floating 23))) ⟨[]⟩ =
        (if (value.arg 0 (.block (.floating 23) [2, 8])).get_type.is_block_ty then
          (.ok (.arg 0 (.block (.floating 23) [2, 8]),
                .splat (.arg 1 (.scalar (.floating 23))) shape),
            builder.insert ⟨[]⟩ (.splat (.arg 1 (.scalar (.floating 23))) shape))
         else
          (.ok (.splat (.arg 0 (.block (.floating 23) [2, 8])) shape,
                .arg 1 (.scalar (.floating 23))),
            builder.insert ⟨[]⟩ (.splat (.arg 0 (.block (.floating 23) [2, 8])) shape))) ∧
      (value.splat (.arg 1 (.scalar (.floating 23))) shape).get_type.get_block_shapes
        = some shape ∧
      (value.splat (.arg 0 (.block (.floating 23) [2, 8])) shape).get_type.get_block_shapes
        = some shape) ∧
    try_broadcast (.arg 1 (.scalar (.floating 23))) (.arg 0 (.block (.floating 23) [2, 8])) ⟨[]⟩ =
      (.ok (.splat (.arg 1 (.scalar (.floating 23))) [2, 8],
            .arg 0 (.block (.floating 23) [2, 8])),
        ⟨[.splat (.arg 1 (.scalar (.floating 23))) [2, 8]]⟩) :=
  ⟨try_broadcast_splats_scalar_side (.arg 0 (.block (.floating 23) [2, 8]))
      (.arg 1 (.scalar (.floating 23))) ⟨[]⟩ (by decide),
   by decide⟩

/-! ### `cast` -/

theorem cast_same_scalar_ty_fails (input : value) (b : builder) :
    cast input input.get_type.get_scalar_ty b = (.error (throw_not_implemented "cast"), b) := by
  unfold cast
  cases h : input.get_type <;> simp [type.get_scalar_ty, block_type.get]

/-- C9: `cast` emits a floating-point truncation exactly when the scalar types of the
input and of the target are both floating point and the source mantissa is strictly
wider than the target's; in every other case it fails with the NotImplemented error
naming `cast` and emits nothing; for a block input the truncation's type is the
target scalar type in the input's block shape. -/
theorem cast_truncates_iff (input : value) (_dtype : scalar_ty) (b : builder) :
    ((∃ (v : value) (b' : builder), cast input _dtype b = (.ok v, b')) ↔
      (input.get_type.get_scalar_ty.is_floating_point_ty = true ∧
       _dtype.is_floating_point_ty = true ∧
       _dtype.get_fp_mantissa_width < input.get_type.get_scalar_ty.get_fp_mantissa_width)) ∧
    ((input.get_type.get_scalar_ty.is_floating_point_ty = true ∧
       _dtype.is_floating_point_ty = true ∧
       _dtype.get_fp_mantissa_width < input.get_type.get_scalar_ty.get_fp_mantissa_width) →
      ∃ (ty : type),
        cast input _dtype b = (.ok (.fp_trunc input ty), b.insert (.fp_trunc input ty)) ∧
        (value.fp_trunc input ty).get_type = ty ∧
        ty.get_scalar_ty = _dtype ∧
        ty.get_block_shapes = input.get_type.get_block_shapes) ∧
    (¬ (input.get_type.get_scalar_ty.is_floating_point_ty = true ∧
       _dtype.is_floating_point_ty = true ∧
       _dtype.get_fp_mantissa_width < input.get_type.get_scalar_ty.get_fp_mantissa_width) →
      cast input _dtype b =
        (.error (.runtime_error
          "Encountered unimplemented code path in `cast`. This is likely a bug on our side."),
         b)) := by
  have hdst : ∀ (t : type), (match t with
        | .block _ shapes => block_type.get _dtype shapes
        | .scalar _ => type.scalar _dtype).get_scalar_ty = _dtype := by
    intro t; cases t <;> rfl
  have hshape : ∀ (t : type), (match t with
        | .block _ shapes => block_type.get _dtype shapes
        | .scalar _ => type.scalar _dtype).get_block_shapes = t.get_block_shapes := by
    intro t; cases t <;> rfl
  by_cases hc : input.get_type.get_scalar_ty.is_floating_point_ty = true ∧
       _dtype.is_floating_point_ty = true ∧
       _dtype.get_fp_mantissa_width < input.get_type.get_scalar_ty.get_fp_mantissa_width
  · have hok : cast input _dtype b =
        (.ok (.fp_trunc input (match input.get_type with
            | .block _ shapes => block_type.get _dtype shapes
            | .scalar _ => type.scalar _dtype)),
          b.insert (.fp_trunc input (match input.get_type with
            | .block _ shapes => block_type.get _dtype shapes
            | .scalar _ => type.scalar _dtype))) := by
      unfold cast
      simp only [hdst, hc.1, hc.2.1, Bool.and_self, Bool.true_and, gt_iff_lt, hc.2.2,
        decide_True, if_true, builder.create_fp_trunc]
    refine ⟨⟨fun _ => hc, fun _ => ⟨_, _, hok⟩⟩, fun _ => ⟨_, hok, rfl, hdst _, hshape _⟩,
      fun h => absurd hc h⟩
  · have herr : cast input _dtype b = (.error (throw_not_implemented "cast"), b) := by
      unfold cast
      simp only [hdst]
      have : (input.get_type.get_scalar_ty.is_floating_point_ty &&
          _dtype.is_floating_point_ty &&
          decide (input.get_type.get_scalar_ty.get_fp_mantissa_width
            > _dtype.get_fp_mantissa_width)) = false := by
        by_contra hne
        simp only [Bool.not_eq_false, Bool.and_eq_true, decide_eq_true_eq, gt_iff_lt] at hne
        exact hc ⟨hne.1.1, hne.1.2, hne.2⟩
      simp [this]
    refine ⟨⟨fun ⟨v, b', h⟩ => ?_, fun h => absurd h hc⟩, fun h => absurd h hc, fun _ => ?_⟩
    · rw [herr] at h
      simp at h
    · rw [herr]; rfl

/-! ### `load` -/

/-- C7: a masked load never reaches its masked-load instruction when the fallback is
absent or already has the pointee type: `load` then casts a value of the pointee
type to the pointee type, which `cast` rejects, so the call fails with the
NotImplemented error naming `cast` and emits nothing. -/
theorem load_masked_fails_in_cast (pointer mask : value) (b : builder) :
    (∃ (e : error), load pointer (some mask) none b = (.error e, b)) ∧
    (∀ (elt_ty : scalar_ty), pointer.get_type.get_scalar_ty = .pointer elt_ty →
      load pointer (some mask) none b = (.error (throw_not_implemented "cast"), b) ∧
      ∀ (other : value), other.get_type.get_scalar_ty = elt_ty →
        load pointer (some mask) (some other) b
          = (.error (throw_not_implemented "cast"), b)) ∧
    load (.arg 0 (.block (.pointer (.floating 23)) [4])) (some (.arg 1 (.block (.integer 1) [4])))
        none ⟨[]⟩
      = (.error (.runtime_error
          "Encountered unimplemented code path in `cast`. This is likely a bug on our side."),
         ⟨[]⟩) ∧
    load (.arg 0 (.block (.pointer (.floating 23)) [4])) (some (.arg 1 (.block (.integer 1) [4])))
        (some (.arg 2 (.block (.floating 23) [4]))) ⟨[]⟩
      = (.error (.runtime_error
          "Encountered unimplemented code path in `cast`. This is likely a bug on our side."),
         ⟨[]⟩) := by
  have hgen : ∀ (elt_ty : scalar_ty), pointer.get_type.get_scalar_ty = .pointer elt_ty →
      load pointer (some mask) none b = (.error (throw_not_implemented "cast"), b) ∧
      ∀ (other : value), other.get_type.get_scalar_ty = elt_ty →
        load pointer (some mask) (some other) b
          = (.error (throw_not_implemented "cast"), b) := by
    intro elt_ty hp
    constructor
    · have h := cast_same_scalar_ty_fails (.undef elt_ty) b
      simp only [value.get_type, type.get_scalar_ty] at h
      simp [load, hp, scalar_ty.get_pointer_element_ty, h]
    · intro other ho
      have h := cast_same_scalar_ty_fails other b
      rw [ho] at h
      simp [load, hp, scalar_ty.get_pointer_element_ty, h]
  refine ⟨?_, hgen, by decide, by decide⟩
  cases hp : pointer.get_type.get_scalar_ty with
  | pointer e => exact ⟨_, (hgen e hp).1⟩
  | void =>
    exact ⟨.undefined "get_pointer_element_ty", by
      simp [load, hp, scalar_ty.get_pointer_element_ty]⟩
  | integer w =>
    exact ⟨.undefined "get_pointer_element_ty", by
      simp [load, hp, scalar_ty.get_pointer_element_ty]⟩
  | floating w =>
    exact ⟨.undefined "get_pointer_element_ty", by
      simp [load, hp, scalar_ty.get_pointer_element_ty]⟩

/-- C8: `load` with neither mask nor fallback emits exactly one plain load of the
pointer and returns it; with a fallback but no mask it fails with the error
"`other` cannot be provided without `mask`" and emits nothing. -/
theorem load_without_mask (pointer : value) (b : builder) :
    load pointer none none b = (.ok (.load pointer), b.insert (.load pointer)) ∧
    (b.insert (.load pointer)).insts = b.insts ++ [.load pointer] ∧
    ∀ (other : value),
      load pointer none (some other) b
        = (.error (.runtime_error "`other` cannot be provided without `mask`"), b) :=
  ⟨rfl, rfl, fun _ => rfl⟩

/-! ### `dot` -/

/-- C10: for an lhs block of shape (M, K) and an rhs block of shape (K, N), `dot`
builds the accumulator seed as a splat of the float32 constant 0 to shape (M, N) and
then emits one matrix-multiply-accumulate of (lhs, rhs, seed). -/
theorem dot_builds_zero_accumulator (lhs rhs : value) (b : builder)
    (tl tr : scalar_ty) (M K N : Nat)
    (hl : lhs.get_type = .block tl [M, K]) (hr : rhs.get_type = .block tr [K, N]) :
    dot lhs rhs b =
      (.ok (.dot lhs rhs (.splat (.float32 0) [M, N])),
       (b.insert (.splat (.float32 0) [M, N])).insert
          (.dot lhs rhs (.splat (.float32 0) [M, N]))) ∧
    (value.splat (.float32 0) [M, N]).get_type = .block float32_ty [M, N] ∧
    (value.dot lhs rhs (.splat (.float32 0) [M, N])).get_type = .block float32_ty [M, N] ∧
    ((b.insert (.splat (.float32 0) [M, N])).insert
          (.dot lhs rhs (.splat (.float32 0) [M, N]))).insts
      = b.insts ++ [.splat (.float32 0) [M, N], .dot lhs rhs (.splat (.float32 0) [M, N])] := by
  refine ⟨?_, rfl, rfl, ?_⟩
  · simp [dot, hl, hr, type.get_block_shapes, builder.get_float32, builder.create_splat,
      builder.create_dot]
  · simp [builder.insert]

/-- Witness for C10: shapes (4,8) and (8,16) give a (4,16) accumulator. -/
theorem dot_builds_zero_accumulator_witness :
    dot (.arg 0 (.block (.floating 10) [4, 8])) (.arg 1 (.block (.floating 10) [8, 16])) ⟨[]⟩ =
      (.ok (.dot (.arg 0 (.block (.floating 10) [4, 8])) (.arg 1 (.block (.floating 10) [8, 16]))
              (.splat (.float32 0) [4, 16])),
       (builder.insert ⟨[]⟩ (.splat (.float32 0) [4, 16])).insert
          (.dot (.arg 0 (.block (.floating 10) [4, 8])) (.arg 1 (.block (.floating 10) [8, 16]))
              (.splat (.float32 0) [4, 16]))) :=
  (dot_builds_zero_accumulator (.arg 0 (.block (.floating 10) [4, 8]))
    (.arg 1 (.block (.floating 10) [8, 16])) ⟨[]⟩ (.floating 10) (.floating 10) 4 8 16
    rfl rfl).1

/-! ### The pipelining pass: helper lemmas on the builder -/

namespace codegen

theorem extends_module.refl (m : module) (h : ∀ i, m.insts.length ≤ i → m.is_phi i = false) :
    extends_module m m :=
  ⟨fun _ _ h => h, h, fun _ bb hb => ⟨bb, hb, rfl, fun _ hi => hi⟩⟩

theorem is_phi_of_length_le (m : module) (i : Nat) (h : m.insts.length ≤ i) :
    m.is_phi i = false := by
  simp [module.is_phi, List.getElem?_eq_none h]

theorem extends_module.rfl' (m : module) : extends_module m m :=
  extends_module.refl m (is_phi_of_length_le m)

theorem extends_module.length_le {m m' : module} (h : extends_module m m') :
    m.insts.length ≤ m'.insts.length := by
  by_contra hlt
  push_neg at hlt
  have hx : m.insts[m'.insts.length]? = some (m.insts[m'.insts.length]) :=
    List.getElem?_eq_getElem hlt
  have := h.old _ _ hx
  simp at this

theorem extends_module.trans {m₁ m₂ m₃ : module} (h₁ : extends_module m₁ m₂)
    (h₂ : extends_module m₂ m₃) : extends_module m₁ m₃ := by
  refine ⟨fun i x hx => h₂.old i x (h₁.old i x hx), ?_, ?_⟩
  · intro i hi
    by_cases hlt : m₂.insts.length ≤ i
    · exact h₂.fresh i hlt
    · push_neg at hlt
      have hx : m₂.insts[i]? = some (m₂.insts[i]) := List.getElem?_eq_getElem hlt
      have h1 := h₁.fresh i hi
      have h3 := h₂.old i _ hx
      simp only [module.is_phi, hx] at h1
      simp only [module.is_phi, h3]
      exact h1
  · intro b bb hb
    obtain ⟨bb', hb', hp', hi'⟩ := h₁.blocks b bb hb
    obtain ⟨bb'', hb'', hp'', hi''⟩ := h₂.blocks b bb' hb'
    exact ⟨bb'', hb'', hp''.trans hp', fun i hi => hi'' i (hi' i hi)⟩

theorem mem_insert_at (x : Nat) (pos : Option Nat) (l : List Nat) (i : Nat) :
    i ∈ insert_at x pos l ↔ i = x ∨ i ∈ l := by
  cases pos with
  | none => simp [insert_at]; tauto
  | some p =>
    induction l with
    | nil => simp [insert_at]
    | cons a l ih =>
      unfold insert_at
      by_cases h : a = p
      · simp [h]
      · simp [h, ih]; tauto

theorem insert_spec (m : module) (x : instruction) (b : Nat) (pos : Option Nat)
    (bb : basic_block) (hc : m.insert_point = some (b, pos)) (hb : m.blocks[b]? = some bb) :
    m.insert x = .ok (m.insts.length,
      { m with
        insts := m.insts ++ [{ x with parent := b }]
        blocks := m.blocks.set b { bb with insts := insert_at m.insts.length pos bb.insts } }) := by
  simp [module.insert, hc, module.get_block, hb, defined, bind, Except.bind]

theorem insert_inv (m : module) (x : instruction) (n : Nat) (m₁ : module)
    (h : m.insert x = .ok (n, m₁)) :
    ∃ (b : Nat) (pos : Option Nat) (bb : basic_block),
      m.insert_point = some (b, pos) ∧ m.blocks[b]? = some bb ∧ n = m.insts.length ∧
      m₁.insts = m.insts ++ [{ x with parent := b }] ∧
      m₁.blocks = m.blocks.set b { bb with insts := insert_at n pos bb.insts } ∧
      m₁.insert_point = m.insert_point := by
  cases hc : m.insert_point with
  | none => simp [module.insert, hc] at h
  | some c =>
    obtain ⟨b, pos⟩ := c
    cases hb : m.blocks[b]? with
    | none => simp [module.insert, hc, module.get_block, hb, defined, bind, Except.bind] at h
    | some bb =>
      rw [insert_spec m x b pos bb hc hb] at h
      simp only [Except.ok.injEq, Prod.mk.injEq] at h
      obtain ⟨hn, hm⟩ := h
      subst hm
      exact ⟨b, pos, bb, rfl, hb, hn.symm, rfl, by rw [← hn], hc⟩

theorem insert_succeeds (m : module) (x : instruction) (h : m.cursor_ok) :
    ∃ (n : Nat) (m₁ : module), m.insert x = .ok (n, m₁) := by
  obtain ⟨b, pos, hc, hb⟩ := h
  have hbb : m.blocks[b]? = some (m.blocks[b]) := List.getElem?_eq_getElem hb
  exact ⟨_, _, insert_spec m x b pos _ hc hbb⟩

theorem insert_get_new (m : module) (x : instruction) (n : Nat) (m₁ : module)
    (h : m.insert x = .ok (n, m₁)) :
    ∃ (b : Nat), b < m.blocks.length ∧ m₁.insts[n]? = some { x with parent := b } ∧
      n ∈ m₁.block_insts b ∧ (∃ (pos : Option Nat), m₁.insert_point = some (b, pos)) := by
  obtain ⟨b, pos, bb, hc, hb, hn, hi, hbl, hip⟩ := insert_inv m x n m₁ h
  have hlt : b < m.blocks.length := by
    by_contra hge
    push_neg at hge
    simp [List.getElem?_eq_none hge] at hb
  refine ⟨b, hlt, ?_, ?_, pos, by rw [hip, hc]⟩
  · rw [hi, hn]; simp
  · simp [module.block_insts, hbl, List.getElem?_set, hlt, mem_insert_at]

theorem insert_old (m : module) (x : instruction) (n : Nat) (m₁ : module)
    (h : m.insert x = .ok (n, m₁)) (i : Nat) (y : instruction) (hy : m.insts[i]? = some y) :
    m₁.insts[i]? = some y := by
  obtain ⟨b, pos, bb, hc, hb, hn, hi, hbl, hip⟩ := insert_inv m x n m₁ h
  have hlt : i < m.insts.length := by
    by_contra hge
    push_neg at hge
    simp [List.getElem?_eq_none hge] at hy
  rw [hi, List.getElem?_append_left hlt]
  exact hy

theorem insert_blocks (m : module) (x : instruction) (n : Nat) (m₁ : module)
    (h : m.insert x = .ok (n, m₁)) (b : Nat) (bb : basic_block) (hb : m.blocks[b]? = some bb) :
    ∃ (bb' : basic_block), m₁.blocks[b]? = some bb' ∧ bb'.preds = bb.preds ∧
      (∀ i ∈ bb.insts, i ∈ bb'.insts) ∧ (∀ i ∈ bb'.insts, i = n ∨ i ∈ bb.insts) := by
  obtain ⟨c, pos, cb, hc, hcb, hn, hi, hbl, hip⟩ := insert_inv m x n m₁ h
  have hlt : b < m.blocks.length := by
    by_contra hge
    push_neg at hge
    simp [List.getElem?_eq_none hge] at hb
  by_cases hcb' : c = b
  · subst hcb'
    rw [hb] at hcb
    cases hcb
    refine ⟨{ bb with insts := insert_at n pos bb.insts }, ?_, rfl, ?_, ?_⟩
    · rw [hbl]; simp [List.getElem?_set, hlt]
    · intro i hi'; simp [mem_insert_at, hi']
    · intro i hi'; simpa [mem_insert_at] using hi'
  · refine ⟨bb, ?_, rfl, fun _ hi' => hi', fun _ hi' => Or.inr hi'⟩
    rw [hbl]; simp [List.getElem?_set, hcb', hb]

theorem insert_extends (m : module) (x : instruction) (n : Nat) (m₁ : module)
    (h : m.insert x = .ok (n, m₁)) (hx : x.op ≠ .phi) : extends_module m m₁ := by
  obtain ⟨b, pos, bb, hc, hb, hn, hi, hbl, hip⟩ := insert_inv m x n m₁ h
  refine ⟨insert_old m x n m₁ h, ?_, ?_⟩
  · intro i hle
    rcases Nat.eq_or_lt_of_le hle with heq | hlt
    · subst heq
      simp [module.is_phi, hi, hx]
    · apply is_phi_of_length_le
      rw [hi]; simp; omega
  · intro c cb hcb
    obtain ⟨bb', h1, h2, h3, _⟩ := insert_blocks m x n m₁ h c cb hcb
    exact ⟨bb', h1, h2, h3⟩

theorem insert_blocks_length (m : module) (x : instruction) (n : Nat) (m₁ : module)
    (h : m.insert x = .ok (n, m₁)) : m₁.blocks.length = m.blocks.length := by
  obtain ⟨b, pos, bb, hc, hb, hn, hi, hbl, hip⟩ := insert_inv m x n m₁ h
  rw [hbl]; simp

theorem listed_iff (m : module) :
    m.listed ↔ ∀ (b : Nat) (bb : basic_block), m.blocks[b]? = some bb →
      ∀ i ∈ bb.insts, ∃ (x : instruction), m.insts[i]? = some x ∧ x.parent = b := by
  constructor
  · intro h b bb hb i hi
    have hlt : b < m.blocks.length := by
      by_contra hge
      push_neg at hge
      simp [List.getElem?_eq_none hge] at hb
    have := h b hlt i (by simpa [module.block_insts, hb] using hi)
    cases hx : m.insts[i]? with
    | none => simp [hx] at this
    | some x => exact ⟨x, rfl, by simpa [hx] using this⟩
  · intro h b hlt i hi
    have hbb : m.blocks[b]? = some (m.blocks[b]) := List.getElem?_eq_getElem hlt
    obtain ⟨x, hx, hp⟩ := h b _ hbb i (by simpa [module.block_insts, hbb] using hi)
    simp [hx, hp]

theorem insert_listed (m : module) (x : instruction) (n : Nat) (m₁ : module)
    (h : m.insert x = .ok (n, m₁)) (hl : m.listed) : m₁.listed := by
  rw [listed_iff] at hl ⊢
  intro b bb' hb' i hi
  obtain ⟨c, hclt, hnew, hmem, _⟩ := insert_get_new m x n m₁ h
  have hlen := insert_blocks_length m x n m₁ h
  have hlt : b < m.blocks.length := by
    by_contra hge
    push_neg at hge
    rw [← hlen] at hge
    simp [List.getElem?_eq_none hge] at hb'
  have hbb : m.blocks[b]? = some (m.blocks[b]) := List.getElem?_eq_getElem hlt
  obtain ⟨bb'', h1, _, _, h4⟩ := insert_blocks m x n m₁ h b _ hbb
  rw [hb'] at h1
  cases h1
  rcases h4 i hi with heq | hold
  · subst heq
    obtain ⟨c', pos, cb, hc, hcb, hn, hi', hbl, hip⟩ := insert_inv m x i m₁ h
    -- the new instruction sits in the cursor's block only
    by_cases hcb' : c' = b
    · subst hcb'
      refine ⟨{ x with parent := c' }, ?_, rfl⟩
      rw [hi', hn]; simp
    · exfalso
      rw [hbl] at hb'
      simp [List.getElem?_set, hcb'] at hb'
      rw [hbb] at hb'
      cases hb'
      obtain ⟨y, hy, _⟩ := hl b _ hbb i hi
      rw [hn] at hy
      simp at hy
  · obtain ⟨y, hy, hp⟩ := hl b _ hbb i hold
    exact ⟨y, insert_old m x n m₁ h i y hy, hp⟩

theorem set_insert_point_spec (m : module) (i : Nat) (x : instruction)
    (hx : m.insts[i]? = some x) :
    m.set_insert_point i = .ok { m with insert_point := some (x.parent, some i) } := by
  simp [module.set_insert_point, module.get_inst, hx, defined, bind, Except.bind]

theorem get_lt_of_some {α : Type} (l : List α) (i : Nat) (x : α) (h : l[i]? = some x) :
    i < l.length := by
  by_contra hge
  push_neg at hge
  simp [List.getElem?_eq_none hge] at h

theorem set_inst_extends (m₀ m : module) (u : Nat) (x y : instruction)
    (h : extends_module m₀ m) (hu : m₀.insts.length ≤ u) (hx : m.insts[u]? = some x)
    (hop : y.op = x.op) :
    extends_module m₀ { m with insts := m.insts.set u y } := by
  have hult := get_lt_of_some _ _ _ hx
  refine ⟨?_, ?_, h.blocks⟩
  · intro i z hz
    have hi := get_lt_of_some _ _ _ hz
    have hne : u ≠ i := by omega
    simp only [List.getElem?_set, hne, if_false]
    exact h.old i z hz
  · intro i hi
    have h1 := h.fresh i hi
    by_cases hiu : u = i
    · subst hiu
      simp only [module.is_phi, hx] at h1
      simp only [module.is_phi, List.getElem?_set, if_true, hult, hop]
      exact h1
    · simp only [module.is_phi, List.getElem?_set, hiu, if_false]
      exact h1

theorem set_inst_listed (m : module) (u : Nat) (x y : instruction)
    (hl : m.listed) (hx : m.insts[u]? = some x) (hp : y.parent = x.parent) :
    module.listed { m with insts := m.insts.set u y } := by
  rw [listed_iff] at hl ⊢
  intro b bb hb i hi
  obtain ⟨z, hz, hzp⟩ := hl b bb hb i hi
  have hult := get_lt_of_some _ _ _ hx
  by_cases hiu : u = i
  · subst hiu
    rw [hx] at hz
    cases hz
    exact ⟨y, by simp [List.getElem?_set, hult], by rw [hp, hzp]⟩
  · exact ⟨z, by simpa [List.getElem?_set, hiu] using hz, hzp⟩

theorem replace_uses_of_with_spec (m : module) (u : Nat) (x : instruction) (a b : value)
    (hx : m.insts[u]? = some x) :
    m.replace_uses_of_with u a b =
      .ok { m with insts := m.insts.set u (x.replace_uses_of_with a b) } := by
  simp [module.replace_uses_of_with, module.get_inst, hx, defined, bind, Except.bind]

theorem cloneable_extends (d : Nat) :
    ∀ (m m' : module) (blk : Nat) (root : value), extends_module m m' →
      cloneable d m blk root = true → cloneable d m' blk root = true := by
  induction d with
  | zero => intro m m' blk root _ h; simp [cloneable] at h
  | succ d ih =>
    intro m m' blk root hext h
    cases root with
    | inst i =>
      unfold cloneable at h ⊢
      cases hx : m.insts[i]? with
      | none => simp [hx] at h
      | some x =>
        rw [hext.old i x hx]
        simp only [hx] at h
        by_cases hphi : x.op = .phi
        · simpa [hphi] using h
        · simp only [hphi, if_false, List.all_eq_true] at h ⊢
          intro op hop
          exact ih m m' blk op hext (h op hop)
    | undef ty => simp [cloneable]
    | int1 v => simp [cloneable]
    | other id ty => simp [cloneable]

namespace transform

theorem cursor_ok_of_set_insts (m : module) (l : List instruction) (h : m.cursor_ok) :
    module.cursor_ok { m with insts := l } := h

theorem clone_ops_succeeds
    (rec : value → clones_t → module → Except error (value × clones_t × module))
    (d blk ret : Nat) (m₀ : module)
    (hrec : ∀ (op : value) (c : clones_t) (m : module), cloneable d m blk op = true →
      m.listed → m.cursor_ok →
      ∃ (v : value) (c' : clones_t) (m' : module), rec op c m = .ok (v, c', m') ∧
        extends_module m m' ∧ m'.listed ∧ m'.cursor_ok)
    (hret : m₀.insts.length ≤ ret) :
    ∀ (ops : List value) (clones : clones_t) (m : module),
      (∀ op ∈ ops, cloneable d m₀ blk op = true) →
      extends_module m₀ m → m.listed → m.cursor_ok → ret < m.insts.length →
      ∃ (clones' : clones_t) (m' : module), clone_ops rec ret ops clones m = .ok (clones', m') ∧
        extends_module m₀ m' ∧ m'.listed ∧ m'.cursor_ok ∧ ret < m'.insts.length := by
  intro ops
  induction ops with
  | nil =>
    intro clones m _ hext hl hc hlt
    exact ⟨clones, m, rfl, hext, hl, hc, hlt⟩
  | cons op ops ih =>
    intro clones m hops hext hl hc hlt
    have hop : cloneable d m blk op = true :=
      cloneable_extends d m₀ m blk op hext (hops op (by simp))
    obtain ⟨v, c', m₁, h1, hext1, hl1, hc1⟩ := hrec op clones m hop hl hc
    have hlt1 : ret < m₁.insts.length := lt_of_lt_of_le hlt hext1.length_le
    have hy : m₁.insts[ret]? = some (m₁.insts[ret]) := List.getElem?_eq_getElem hlt1
    have h2 := replace_uses_of_with_spec m₁ ret _ op v hy
    have hext2 := set_inst_extends m₀ m₁ ret (m₁.insts[ret])
      ((m₁.insts[ret]).replace_uses_of_with op v) (hext.trans hext1) hret hy rfl
    have hl2 := set_inst_listed m₁ ret (m₁.insts[ret])
      ((m₁.insts[ret]).replace_uses_of_with op v) hl1 hy rfl
    obtain ⟨c'', m', h3, hext3, hl3, hc3, hlt3⟩ :=
      ih c' _ (fun o ho => hops o (by simp [ho])) hext2 hl2
        (cursor_ok_of_set_insts m₁ _ hc1) (by simpa using hlt1)
    refine ⟨c'', m', ?_, hext3, hl3, hc3, hlt3⟩
    simp only [clone_ops, bind, Except.bind, h1, h2]
    exact h3

theorem _recursive_clone_succeeds (d : Nat) :
    ∀ (fuel : Nat) (root : value) (clones : clones_t) (blk : Nat) (m : module),
      d ≤ fuel → cloneable d m blk root = true → m.listed → m.cursor_ok →
      ∃ (v : value) (clones' : clones_t) (m' : module),
        _recursive_clone fuel root clones blk m = .ok (v, clones', m') ∧
        extends_module m m' ∧ m'.listed ∧ m'.cursor_ok := by
  induction d with
  | zero => intro fuel root clones blk m _ h; simp [cloneable] at h
  | succ d ih =>
    intro fuel root clones blk m hfuel hcl hl hc
    obtain ⟨f, rfl⟩ : ∃ f, fuel = f + 1 := ⟨fuel - 1, by omega⟩
    have hf : d ≤ f := by omega
    unfold _recursive_clone
    cases hfind : clones_t.find clones root with
    | some v =>
      refine ⟨v, clones, m, ?_, extends_module.rfl' m, hl, hc⟩
      simp only [_recursive_clone.body, hfind]
    | none =>
      cases root with
      | inst i =>
        unfold cloneable at hcl
        cases hx : m.insts[i]? with
        | none => simp [hx] at hcl
        | some x =>
          simp only [hx] at hcl
          by_cases hphi : x.op = .phi
          · simp only [hphi, if_true, Bool.and_eq_true, decide_eq_true_eq] at hcl
            obtain ⟨hlt, hsome⟩ := hcl
            obtain ⟨ret, hret⟩ := Option.isSome_iff_exists.mp hsome
            refine ⟨(clones_t.insert clones (.inst i) ret).1,
              (clones_t.insert clones (.inst i) ret).2, m, ?_, extends_module.rfl' m, hl, hc⟩
            simp only [_recursive_clone.body, hfind, module.get_inst, hx, defined, bind,
              Except.bind, hphi, if_true, instruction.find_incoming, hlt,
              instruction.get_incoming_value, hret]
          · simp only [hphi, if_false, List.all_eq_true] at hcl
            obtain ⟨ret, m₁, hins⟩ := insert_succeeds m x hc
            obtain ⟨b, hblt, hnew, hmem, pos, hip⟩ := insert_get_new m x ret m₁ hins
            have hretn : ret = m.insts.length := by
              obtain ⟨_, _, _, _, _, hn, _⟩ := insert_inv m x ret m₁ hins
              exact hn
            have hext1 := insert_extends m x ret m₁ hins hphi
            have hl1 := insert_listed m x ret m₁ hins hl
            have hsip := set_insert_point_spec m₁ ret _ hnew
            have hlen1 := insert_blocks_length m x ret m₁ hins
            have hext2 : extends_module m { m₁ with insert_point := some (b, some ret) } :=
              ⟨hext1.old, hext1.fresh, hext1.blocks⟩
            have hl2 : module.listed { m₁ with insert_point := some (b, some ret) } := hl1
            have hc2 : module.cursor_ok { m₁ with insert_point := some (b, some ret) } :=
              ⟨b, some ret, rfl, by simpa [hlen1] using hblt⟩
            have hlt2 : ret < (module.insts { m₁ with insert_point := some (b, some ret) }).length :=
              get_lt_of_some _ _ _ hnew
            obtain ⟨c', m', h3, hext3, hl3, hc3, _⟩ :=
              clone_ops_succeeds
                (fun op clones m => _recursive_clone f op clones blk m) d blk ret m
                (fun op c mk hop hlk hck => ih f op c blk mk hf hop hlk hck)
                (le_of_eq hretn.symm) x.ops clones _ hcl hext2 hl2 hc2 hlt2
            refine ⟨(clones_t.insert c' (.inst i) (.inst ret)).1,
              (clones_t.insert c' (.inst i) (.inst ret)).2, m', ?_, hext3, hl3, hc3⟩
            simp only [_recursive_clone.body, hfind, module.get_inst, hx, defined, bind,
              Except.bind, hphi, if_false, hins, hsip, h3]
      | undef ty =>
        refine ⟨(clones_t.insert clones (value.undef ty) (value.undef ty)).1,
          (clones_t.insert clones (value.undef ty) (value.undef ty)).2, m, ?_, extends_module.rfl' m, hl, hc⟩
        simp only [_recursive_clone.body, hfind]
      | int1 v =>
        refine ⟨(clones_t.insert clones (value.int1 v) (value.int1 v)).1,
          (clones_t.insert clones (value.int1 v) (value.int1 v)).2, m, ?_, extends_module.rfl' m, hl, hc⟩
        simp only [_recursive_clone.body, hfind]
      | other id ty =>
        refine ⟨(clones_t.insert clones (value.other id ty) (value.other id ty)).1,
          (clones_t.insert clones (value.other id ty) (value.other id ty)).2, m, ?_, extends_module.rfl' m, hl, hc⟩
        simp only [_recursive_clone.body, hfind]

theorem recursive_clone_succeeds (d fuel : Nat) (root : value) (blk : Nat) (m : module)
    (hfuel : d ≤ fuel) (hcl : cloneable d m blk root = true) (hl : m.listed)
    (hc : m.cursor_ok) :
    ∃ (v : value) (m' : module), recursive_clone fuel root blk m = .ok (v, m') ∧
      extends_module m m' ∧ m'.listed ∧ m'.cursor_ok := by
  obtain ⟨v, c, m', h, hext, hl', hc'⟩ :=
    _recursive_clone_succeeds d fuel root [] blk m hfuel hcl hl hc
  exact ⟨v, m', by simp [recursive_clone, h, bind, Except.bind], hext, hl', hc'⟩

namespace pipeline

theorem set_insert_point_back_step (m₀ m : module) (b : Nat) (bb₀ : basic_block)
    (hext : extends_module m₀ m) (hl : m.listed)
    (hb : m₀.blocks[b]? = some bb₀) (hne : bb₀.insts ≠ []) :
    ∃ (t : Nat), set_insert_point_back m b = .ok { m with insert_point := some (b, some t) } := by
  obtain ⟨bb, hbb, _, hsub⟩ := hext.blocks b bb₀ hb
  have hne' : bb.insts ≠ [] := by
    obtain ⟨a, l, hal⟩ := List.exists_cons_of_ne_nil hne
    intro h
    have := hsub a (by simp [hal])
    simp [h] at this
  have hlast : bb.insts.getLast? = some (bb.insts.getLast hne') := List.getLast?_eq_getLast _ hne'
  obtain ⟨x, hx, hp⟩ := (listed_iff m).mp hl b bb hbb _ (List.getLast_mem hne')
  refine ⟨bb.insts.getLast hne', ?_⟩
  simp only [set_insert_point_back, module.get_block, hbb, defined, bind, Except.bind, hlast,
    set_insert_point_spec m _ x hx, hp]

theorem insert_step (m : module) (x : instruction) (b : Nat) (pos : Option Nat)
    (hc : m.insert_point = some (b, pos)) (hb : b < m.blocks.length) (hx : x.op ≠ .phi)
    (hl : m.listed) :
    ∃ (m' : module), m.insert x = .ok (m.insts.length, m') ∧ extends_module m m' ∧ m'.listed ∧
      m'.insert_point = some (b, pos) ∧ m'.blocks.length = m.blocks.length ∧
      m'.insts[m.insts.length]? = some { x with parent := b } := by
  have hbb : m.blocks[b]? = some (m.blocks[b]) := List.getElem?_eq_getElem hb
  have h := insert_spec m x b pos _ hc hbb
  refine ⟨_, h, insert_extends m x _ _ h hx, insert_listed m x _ _ h hl, hc, by simp, by simp⟩

theorem and_mask_step (m : module) (v : value) (mask : Option value)
    (hc : m.cursor_ok) (hl : m.listed) :
    ∃ (v' : value) (m' : module), and_mask m v mask = .ok (v', m') ∧ extends_module m m' ∧
      m'.listed ∧ m'.cursor_ok := by
  cases mask with
  | none => exact ⟨v, m, rfl, extends_module.rfl' m, hl, hc⟩
  | some k =>
    obtain ⟨b, pos, hip, hb⟩ := hc
    obtain ⟨m', h, hext, hl', hip', hlen, _⟩ :=
      insert_step m { op := .and, ty := m.get_type v, ops := [v, k], blocks := [], parent := 0 }
        b pos hip hb (by simp) hl
    refine ⟨.inst m.insts.length, m', ?_, hext, hl', b, pos, hip', by rw [hlen]; exact hb⟩
    simp only [and_mask, module.create_and, h, bind, Except.bind]

theorem make_false_value_step (m : module) (ty : ir.type) (shapes : List Nat)
    (fv : Option value) (hty : ty.get_block_shapes = some shapes)
    (hc : m.cursor_ok) (hl : m.listed) :
    ∃ (v' : value) (m' : module), make_false_value m ty fv = .ok (v', m') ∧
      extends_module m m' ∧ m'.listed ∧ m'.cursor_ok := by
  cases fv with
  | some k => exact ⟨k, m, rfl, extends_module.rfl' m, hl, hc⟩
  | none =>
    obtain ⟨b, pos, hip, hb⟩ := hc
    obtain ⟨m', h, hext, hl', hip', hlen, _⟩ :=
      insert_step m { op := .splat,
                      ty := ir.block_type.get (m.get_type (.undef ty.get_scalar_ty)).get_scalar_ty shapes,
                      ops := [.undef ty.get_scalar_ty], blocks := [], parent := 0 }
        b pos hip hb (by simp) hl
    refine ⟨.inst m.insts.length, m', ?_, hext, hl', b, pos, hip', by rw [hlen]; exact hb⟩
    simp only [make_false_value, hty, defined, module.create_splat, h, bind, Except.bind]

theorem prefetch_step (m : module) (ty : ir.type) (shapes : List Nat) (ptr fv : value)
    (b : Nat) (pos : Option Nat) (hty : ty.get_block_shapes = some shapes)
    (hip : m.insert_point = some (b, pos)) (hb : b < m.blocks.length) (hl : m.listed) :
    ∃ (n : Nat) (m' : module), prefetch m ty ptr fv = .ok (n, m') ∧
      extends_module m m' ∧ m'.listed ∧ m'.cursor_ok ∧ m.insts.length ≤ n ∧
      ∃ (x : instruction), m'.insts[n]? = some x ∧ x.op = .masked_load ∧ x.parent = b ∧
        x.ops = [ptr, .inst m.insts.length, fv] ∧
        ∃ (s : instruction), m'.insts[m.insts.length]? = some s ∧ s.op = .splat ∧
          s.ops = [.int1 true] ∧ s.ty = .block (.integer 1) shapes := by
  obtain ⟨m₁, h1, hext1, hl1, hip1, hlen1, hnew1⟩ :=
    insert_step m { op := .splat,
                    ty := ir.block_type.get (m.get_type (.int1 true)).get_scalar_ty shapes,
                    ops := [.int1 true], blocks := [], parent := 0 }
      b pos hip hb (by simp) hl
  obtain ⟨m₂, h2, hext2, hl2, hip2, hlen2, hnew2⟩ :=
    insert_step m₁ { op := .masked_load, ty := ir.pointee_type (m₁.get_type ptr),
                     ops := [ptr, .inst m.insts.length, fv], blocks := [], parent := 0 }
      b pos hip1 (by rw [hlen1]; exact hb) (by simp) hl1
  refine ⟨m₁.insts.length, m₂, ?_, hext1.trans hext2, hl2,
    ⟨b, pos, hip2, by rw [hlen2, hlen1]; exact hb⟩, hext1.length_le, _, hnew2, rfl, rfl, rfl,
    _, hext2.old _ _ hnew1, rfl, rfl, rfl⟩
  simp only [prefetch, hty, defined, module.create_splat, h1, bind, Except.bind,
    module.create_masked_load, h2]

theorem insert_at_split (x f : Nat) (l₁ l₂ : List Nat) (hf : f ∉ l₁) :
    insert_at x (some f) (l₁ ++ f :: l₂) = l₁ ++ x :: f :: l₂ := by
  induction l₁ with
  | nil => simp [insert_at]
  | cons a l ih =>
    have ha : a ≠ f := fun h => hf (by simp [h])
    have hf' : f ∉ l := fun h => hf (by simp [h])
    simp [insert_at, ha, ih hf']

theorem block_lt_of_extends (m₀ m : module) (b : Nat) (bb₀ : basic_block)
    (hext : extends_module m₀ m) (hb : m₀.blocks[b]? = some bb₀) : b < m.blocks.length := by
  obtain ⟨bb, hbb, _, _⟩ := hext.blocks b bb₀ hb
  exact get_lt_of_some _ _ _ hbb

theorem scan_incoming_spec (m : module) (P B H br : Nat) (phi brx : instruction)
    (bb : basic_block)
    (hparent : phi.parent = B)
    (hB : m.blocks[B]? = some bb) (hlast : bb.insts.getLast? = some br)
    (hbr : m.insts[br]? = some brx) (hcb : brx.op = .cond_branch)
    (hH : bb.preds[0]? = some H) :
    ∀ (l : List Nat) (info : pipe_info_t), (∀ b ∈ l, m.block_insts b ≠ []) →
      scan_incoming m P phi l info = .ok
        (if B ∈ l then
          { info with header := some H, block := some B, ptr := some P, back_edge := some br }
         else info) := by
  intro l
  induction l with
  | nil => intro info _; simp [scan_incoming]
  | cons b l ih =>
    intro info hne
    have hne' : ∀ c ∈ l, m.block_insts c ≠ [] := fun c hc => hne c (by simp [hc])
    have hb := hne b (by simp)
    by_cases hbB : b = B
    · subst hbB
      simp only [scan_incoming, module.get_block, hB, defined, hlast, bind, Except.bind,
        hparent, if_true, hH, module.get_inst, hbr, hcb]
      rw [ih _ hne']
      simp
    · cases hcb' : m.blocks[b]? with
      | none => simp [module.block_insts, hcb'] at hb
      | some cb =>
        simp only [module.block_insts, hcb'] at hb
        have hl := List.getLast?_eq_getLast _ hb
        have hbB' : ¬ B = b := fun h => hbB h.symm
        simp only [scan_incoming, module.get_block, hcb', defined, hl, bind, Except.bind,
          hparent, hbB, if_false]
        rw [ih _ hne']
        simp [hbB']

theorem visit_not_load (m : module) (acc : List pipe_info_t) (i : Nat) (x : instruction)
    (hx : m.insts[i]? = some x) (hnl : m.is_load i = false) :
    visit m acc i = .ok acc := by
  simp only [module.is_load, hx, Bool.or_eq_false_iff, decide_eq_false_iff_not] at hnl
  simp [visit, module.get_inst, hx, defined, bind, Except.bind, hnl.1, hnl.2]

theorem visit_load (m : module) (acc : List pipe_info_t) (L P B H br : Nat)
    (load phi brx : instruction) (bb : basic_block)
    (hL : m.insts[L]? = some load) (hload : m.is_load L = true)
    (hptr : load.ops[0]? = some (.inst P))
    (hmasked : load.op = .masked_load → 3 ≤ load.ops.length)
    (hP : m.insts[P]? = some phi) (hphi : phi.op = .phi) (hparent : phi.parent = B)
    (hback : B ∈ phi.blocks) (hin : ∀ b ∈ phi.blocks, m.block_insts b ≠ [])
    (hB : m.blocks[B]? = some bb) (hlast : bb.insts.getLast? = some br)
    (hbr : m.insts[br]? = some brx) (hcb : brx.op = .cond_branch)
    (hH : bb.preds[0]? = some H) :
    visit m acc L = .ok (acc ++
      [{ header := some H, block := some B, load := L,
         mask := if load.op = .masked_load then load.ops[1]? else none,
         false_value := if load.op = .masked_load then load.ops[2]? else none,
         ptr := some P, back_edge := some br }]) := by
  have hscan := scan_incoming_spec m P B H br phi brx bb hparent hB hlast hbr hcb hH
    phi.blocks
  simp only [module.is_load, hL, Bool.or_eq_true, decide_eq_true_eq] at hload
  by_cases hm : load.op = .masked_load
  · have h3 := hmasked hm
    have h1 : load.ops[1]? = some (load.ops[1]) := List.getElem?_eq_getElem (by omega)
    have h2 : load.ops[2]? = some (load.ops[2]) := List.getElem?_eq_getElem (by omega)
    simp only [visit, detect, record, module.get_inst, hL, defined, bind, Except.bind, hm,
      or_true, if_true, hptr, h1, h2, Except.map, hP, hphi, hscan _ hin, hback]
  · have hl : load.op = .load := by tauto
    simp only [visit, detect, record, module.get_inst, hL, defined, bind, Except.bind, hl,
      true_or, if_true, hptr, Except.map, hP, hphi, hscan _ hin, hback]
    simp

theorem collect_no_loads (m : module) :
    ∀ (l : List Nat) (acc : List pipe_info_t),
      (∀ i ∈ l, ∃ (x : instruction), m.insts[i]? = some x) → l.filter m.is_load = [] →
      collect m l acc = .ok acc := by
  intro l
  induction l with
  | nil => intro acc _ _; rfl
  | cons i l ih =>
    intro acc hv hf
    obtain ⟨x, hx⟩ := hv i (by simp)
    have hnl : m.is_load i = false := by
      by_contra h
      simp only [Bool.not_eq_false] at h
      simp [List.filter, h] at hf
    have hf' : l.filter m.is_load = [] := by simpa [List.filter, hnl] using hf
    simp only [collect, visit_not_load m acc i x hx hnl, bind, Except.bind]
    exact ih acc (fun j hj => hv j (by simp [hj])) hf'

theorem all_insts_valid (m : module) (hl : m.listed) :
    ∀ i ∈ m.all_insts, ∃ (x : instruction), m.insts[i]? = some x := by
  intro i hi
  simp only [module.all_insts, List.mem_flatten, List.mem_map] at hi
  obtain ⟨l, ⟨bb, hbb, rfl⟩, hil⟩ := hi
  obtain ⟨b, hb, hget⟩ := List.getElem_of_mem hbb
  obtain ⟨x, hx, _⟩ := (listed_iff m).mp hl b bb
    (by rw [List.getElem?_eq_getElem hb, hget]) i hil
  exact ⟨x, hx⟩

theorem run_without_loads (fuel : Nat) (m : module) (hlisted : m.listed)
    (hnone : m.all_insts.filter m.is_load = []) : run fuel m = .ok m := by
  have h := collect_no_loads m m.all_insts [] (all_insts_valid m hlisted) hnone
  simp [run, h, bind, Except.bind, rewrite_all]

theorem scan_incoming_back_edge (m : module) (P : Nat) (phi : instruction) :
    ∀ (l : List Nat) (info info' : pipe_info_t),
      scan_incoming m P phi l info = .ok info' →
      info'.back_edge = info.back_edge ∨
      (phi.parent ∈ l ∧ ∃ (bb : basic_block) (t : Nat) (tx : instruction),
        m.blocks[phi.parent]? = some bb ∧ bb.insts.getLast? = some t ∧
        m.insts[t]? = some tx ∧ tx.op = .cond_branch) := by
  intro l
  induction l with
  | nil =>
    intro info info' h
    simp only [scan_incoming, Except.ok.injEq] at h
    exact Or.inl (by rw [h])
  | cons b l ih =>
    intro info info' h
    cases hbb : m.blocks[b]? with
    | none => simp [scan_incoming, module.get_block, hbb, defined, bind, Except.bind] at h
    | some bb =>
      cases hlast : bb.insts.getLast? with
      | none =>
        simp [scan_incoming, module.get_block, hbb, defined, hlast, bind, Except.bind] at h
      | some t =>
        by_cases hb : b = phi.parent
        · subst hb
          cases hpred : bb.preds[0]? with
          | none =>
            simp [scan_incoming, module.get_block, hbb, defined, hlast, bind, Except.bind,
              hpred] at h
          | some header =>
            cases htx : m.insts[t]? with
            | none =>
              simp [scan_incoming, module.get_block, hbb, defined, hlast, bind, Except.bind,
                hpred, module.get_inst, htx] at h
            | some tx =>
              by_cases hcb : tx.op = .cond_branch
              · right
                exact ⟨by simp, bb, t, tx, hbb, hlast, htx, hcb⟩
              · simp only [scan_incoming, module.get_block, hbb, defined, hlast, bind,
                  Except.bind, if_true, hpred, module.get_inst, htx, hcb, if_false] at h
                rcases ih _ _ h with h1 | ⟨h1, h2⟩
                · exact Or.inl h1
                · exact Or.inr ⟨by simp [h1], h2⟩
        · simp only [scan_incoming, module.get_block, hbb, defined, hlast, bind, Except.bind,
            hb, if_false] at h
          rcases ih _ _ h with h1 | ⟨h1, h2⟩
          · exact Or.inl h1
          · exact Or.inr ⟨by simp [h1], h2⟩

theorem detect_back_edge (m : module) (i : Nat) (x : instruction) (ptr : value)
    (info info' : pipe_info_t)
    (hx : m.insts[i]? = some x) (hp : x.ops[0]? = some ptr)
    (hno : m.has_back_edge_phi i = false) (hinfo : info.back_edge = none)
    (h : detect m info ptr = .ok info') : info'.back_edge = none := by
  cases ptr with
  | inst p =>
    cases hpx : m.insts[p]? with
    | none => simp [detect, module.get_inst, hpx, defined, bind, Except.bind] at h
    | some px =>
      by_cases hphi : px.op = .phi
      · simp only [detect, module.get_inst, hpx, defined, bind, Except.bind, hphi, if_true] at h
        rcases scan_incoming_back_edge m p px _ _ _ h with h1 | ⟨h1, bb, t, tx, h2, h3, h4, h5⟩
        · rw [h1, hinfo]
        · exfalso
          simp [module.has_back_edge_phi, hx, hp, hpx, hphi, h1, h2, h3, h4, h5] at hno
      · simp only [detect, module.get_inst, hpx, defined, bind, Except.bind, hphi, if_false,
          Except.ok.injEq] at h
        rw [← h, hinfo]
  | undef ty => simp only [detect, Except.ok.injEq] at h; rw [← h, hinfo]
  | int1 v => simp only [detect, Except.ok.injEq] at h; rw [← h, hinfo]
  | other id ty => simp only [detect, Except.ok.injEq] at h; rw [← h, hinfo]

theorem record_undefined (acc : List pipe_info_t) (info : pipe_info_t)
    (h : info.back_edge = none) : ∀ (r : List pipe_info_t), record acc info ≠ .ok r := by
  intro r hr
  simp [record, h] at hr

theorem visit_undefined_of_no_back_edge_phi (m : module) (acc : List pipe_info_t) (i : Nat)
    (hload : m.is_load i = true) (hno : m.has_back_edge_phi i = false) :
    ∀ (r : List pipe_info_t), visit m acc i ≠ .ok r := by
  intro r h
  cases hx : m.insts[i]? with
  | none => simp [module.is_load, hx] at hload
  | some x =>
    simp only [module.is_load, hx, Bool.or_eq_true, decide_eq_true_eq] at hload
    simp only [visit, module.get_inst, hx, defined, bind, Except.bind, hload, if_true] at h
    cases hp : x.ops[0]? with
    | none => simp [hp] at h
    | some ptr =>
      simp only [hp] at h
      by_cases hm : x.op = .masked_load
      · simp only [hm, if_true] at h
        cases h1 : x.ops[1]? with
        | none => simp [h1, Except.map] at h
        | some v1 =>
          cases h2 : x.ops[2]? with
          | none => simp [h1, h2, Except.map] at h
          | some v2 =>
            simp only [h1, h2, Except.map] at h
            cases hd : detect m (pipe_info_t.mk none none i (some v1) (some v2) none none) ptr with
            | error e => simp [hd] at h
            | ok info' =>
              simp only [hd] at h
              exact record_undefined acc info'
                (detect_back_edge m i x ptr _ info' hx hp hno rfl hd) r h
      · simp only [hm, if_false] at h
        cases hd : detect m (pipe_info_t.mk none none i none none none none) ptr with
        | error e => simp [hd] at h
        | ok info' =>
          simp only [hd] at h
          exact record_undefined acc info'
            (detect_back_edge m i x ptr _ info' hx hp hno rfl hd) r h

theorem collect_ok_visits (m : module) :
    ∀ (l : List Nat) (acc r : List pipe_info_t), collect m l acc = .ok r →
      ∀ i ∈ l, ∃ (acc' r' : List pipe_info_t), visit m acc' i = .ok r' := by
  intro l
  induction l with
  | nil => intro acc r _ i hi; simp at hi
  | cons j l ih =>
    intro acc r h i hi
    cases hv : visit m acc j with
    | error e => simp [collect, hv, bind, Except.bind] at h
    | ok acc₁ =>
      simp only [collect, hv, bind, Except.bind] at h
      rcases List.mem_cons.mp hi with rfl | hil
      · exact ⟨acc, acc₁, hv⟩
      · exact ih acc₁ r h i hil

/-- C2: `pipeline::run` has no defined result on a module with a load that is not of
the pipelined form, contrary to the claim that it records nothing and leaves the
module unchanged. The lambda declares `pipe_info_t info;` without initialiser,
assigns `info.back_edge` only inside the scan of a pointer phi node, at an incoming
block that is the phi's own block and ends in a conditional branch, and then tests
`info.back_edge`: for every other load the field read was never assigned. First
part: the evaluation on `example_plain_load`, whose load has an argument as pointer,
for every fuel. Second part: the same for every module and every such load. -/
theorem run_undefined_on_other_loads :
    (∀ (fuel : Nat), run fuel example_plain_load
      = .error (.undefined "info.back_edge is read but was never assigned")) ∧
    (∀ (fuel : Nat) (m : module) (i : Nat), i ∈ m.all_insts → m.is_load i = true →
      m.has_back_edge_phi i = false → ∀ (m' : module), run fuel m ≠ .ok m') := by
  constructor
  · intro fuel
    have h : collect example_plain_load example_plain_load.all_insts []
        = .error (.undefined "info.back_edge is read but was never assigned") := by decide
    simp [run, h, bind, Except.bind]
  · intro fuel m i hi hload hno m' hrun
    cases hc : collect m m.all_insts [] with
    | error e => simp [run, hc, bind, Except.bind] at hrun
    | ok r =>
      obtain ⟨acc', r', hv⟩ := collect_ok_visits m _ _ _ hc i hi
      exact visit_undefined_of_no_back_edge_phi m acc' i hload hno r' hv

end pipeline

end transform

end codegen

/-! ### `dot`, continued -/

/-- C11: `dot` does not compare the inner dimensions: on blocks of shapes (4,8) and
(7,16) it succeeds and emits the accumulator splat and the matrix multiply, and so
it does on every pair of two-dimensional blocks, whatever the two inner extents. -/
theorem dot_ignores_inner_dimensions :
    dot (.arg 0 (.block (.floating 10) [4, 8])) (.arg 1 (.block (.floating 10) [7, 16])) ⟨[]⟩ =
      (.ok (.dot (.arg 0 (.block (.floating 10) [4, 8])) (.arg 1 (.block (.floating 10) [7, 16]))
              (.splat (.float32 0) [4, 16])),
       ⟨[.splat (.float32 0) [4, 16],
         .dot (.arg 0 (.block (.floating 10) [4, 8])) (.arg 1 (.block (.floating 10) [7, 16]))
              (.splat (.float32 0) [4, 16])]⟩) ∧
    ∀ (lhs rhs : value) (b : builder) (tl tr : scalar_ty) (M K₁ K₂ N : Nat),
      lhs.get_type = .block tl [M, K₁] → rhs.get_type = .block tr [K₂, N] →
      dot lhs rhs b =
        (.ok (.dot lhs rhs (.splat (.float32 0) [M, N])),
         (b.insert (.splat (.float32 0) [M, N])).insert
            (.dot lhs rhs (.splat (.float32 0) [M, N]))) := by
  refine ⟨by decide, ?_⟩
  intro lhs rhs b tl tr M K₁ K₂ N hl hr
  simp [dot, hl, hr, type.get_block_shapes, builder.get_float32, builder.create_splat,
    builder.create_dot]

/-! ### `subscript` -/

theorem subscript_modes_of_markers (slices : List slice) :
    ∀ (modes : List slice_mode_t), (∀ s ∈ slices, s = .newaxis ∨ s = .full) →
      subscript.modes slices modes = .ok (modes ++ slices.map slice.mode) := by
  induction slices with
  | nil => intro modes _; simp [subscript.modes]
  | cons s slices ih =>
    intro modes h
    have h' : ∀ t ∈ slices, t = .newaxis ∨ t = .full := fun t ht => h t (by simp [ht])
    rcases h s (by simp) with hs | hs
    · subst hs
      simp [subscript.modes, ih _ h', slice.mode]
    · subst hs
      simp [subscript.modes, ih _ h', slice.mode]

theorem subscript_shape_of_markers (self : value) (t : scalar_ty) (extents : List Nat)
    (hself : self.get_type = .block t extents) (slices : List slice) :
    ∀ (curr : Nat) (shape : List Nat), (∀ s ∈ slices, s = .newaxis ∨ s = .full) →
      slices.count .full + curr ≤ extents.length →
      subscript.shape self (slices.map slice.mode) curr shape
        = .ok (shape ++ subscript_spec_shape slices (extents.drop curr)) := by
  induction slices with
  | nil => intro curr shape _ _; simp [subscript.shape, subscript_spec_shape]
  | cons s slices ih =>
    intro curr shape h hcount
    have h' : ∀ u ∈ slices, u = .newaxis ∨ u = .full := fun u hu => h u (by simp [hu])
    rcases h s (by simp) with hs | hs
    · subst hs
      have hc : slices.count .full + curr ≤ extents.length := by
        simpa [List.count_cons] using hcount
      simp [subscript.shape, slice.mode, subscript_spec_shape, ih curr _ h' hc]
    · subst hs
      have hc : slices.count .full + (curr + 1) ≤ extents.length := by
        simp [List.count_cons] at hcount
        omega
      have hlt : curr < extents.length := by omega
      have hget : extents[curr]? = some (extents[curr]) := List.getElem?_eq_getElem hlt
      have hdrop : extents.drop curr = extents[curr] :: extents.drop (curr + 1) :=
        List.drop_eq_getElem_cons hlt
      rw [hdrop]
      simp only [List.map_cons, slice.mode, subscript.shape, hself, type.get_block_shapes,
        hget, subscript_spec_shape, ih (curr + 1) _ h' hc, List.append_assoc,
        List.singleton_append]

/-- C12: on a block input, with markers that are all axis-insertion or full-range
markers and as many full-range markers as the input has dimensions, `subscript`
emits one reshape of the input to the shape obtained by walking the markers in order:
1 for an axis-insertion marker, the next extent of the input not yet consumed for a
full-range marker. -/
theorem subscript_reshapes_by_markers (self : value) (slices : List slice) (b : builder)
    (t : scalar_ty) (extents : List Nat)
    (hself : self.get_type = .block t extents)
    (hmarkers : ∀ s ∈ slices, s = .newaxis ∨ s = .full)
    (hcount : slices.count .full = extents.length) :
    subscript self slices b =
      (.ok (.reshape self (subscript_spec_shape slices extents)),
       b.insert (.reshape self (subscript_spec_shape slices extents))) ∧
    (value.reshape self (subscript_spec_shape slices extents)).get_type.get_block_shapes
      = some (subscript_spec_shape slices extents) := by
  have h1 := subscript_modes_of_markers slices [] hmarkers
  have h2 := subscript_shape_of_markers self t extents hself slices 0 [] hmarkers (by omega)
  simp only [List.nil_append, List.drop_zero] at h1 h2
  refine ⟨?_, rfl⟩
  simp [subscript, h1, h2, builder.create_reshape]

/-- Witness for C12: extent (8) with [axis-insert, full-range] gives (1,8), and with
[full-range, axis-insert] gives (8,1). -/
theorem subscript_reshapes_by_markers_witness :
    subscript (.arg 0 (.block (.floating 23) [8])) [.newaxis, .full] ⟨[]⟩ =
      (.ok (.reshape (.arg 0 (.block (.floating 23) [8])) [1, 8]),
       ⟨[.reshape (.arg 0 (.block (.floating 23) [8])) [1, 8]]⟩) ∧
    subscript (.arg 0 (.block (.floating 23) [8])) [.full, .newaxis] ⟨[]⟩ =
      (.ok (.reshape (.arg 0 (.block (.floating 23) [8])) [8, 1]),
       ⟨[.reshape (.arg 0 (.block (.floating 23) [8])) [8, 1]]⟩) :=
  ⟨(subscript_reshapes_by_markers (.arg 0 (.block (.floating 23) [8])) [.newaxis, .full] ⟨[]⟩
      (.floating 23) [8] rfl (by decide) (by decide)).1,
   (subscript_reshapes_by_markers (.arg 0 (.block (.floating 23) [8])) [.full, .newaxis] ⟨[]⟩
      (.floating 23) [8] rfl (by decide) (by decide)).1⟩

/-! ### `minimum` -/

/-- C13: when the scalar type of `self` is floating point or integer, `minimum`
emits what `where(less_than(self, other), self, other)` emits: the less-than
comparison of `less_than` (ordered-float or signed-integer), then a select on it with
`self` as true arm and `other` as false arm. Under the per-lane semantics of the
signed comparison and of select, a lane of the result is the lane of `self` when
that is less than the lane of `other`, and the lane of `other` otherwise, equal lanes
included. -/
theorem minimum_is_where_less_than (self other : value) (b : builder)
    (hdef : self.get_type.get_scalar_ty.is_floating_point_ty = true ∨
            self.get_type.get_scalar_ty.is_integer_ty = true) :
    ∃ (pred : cmp_pred),
      (pred = if self.get_type.get_scalar_ty.is_floating_point_ty then .fcmpOLT
              else .icmpSLT) ∧
      less_than self other b = (.ok (.cmp pred self other), b.insert (.cmp pred self other)) ∧
      minimum self other b = where_ (.cmp pred self other) self other
        (b.insert (.cmp pred self other)) ∧
      minimum self other b =
        (.ok (.select (.cmp pred self other) self other),
         (b.insert (.cmp pred self other)).insert (.select (.cmp pred self other) self other)) ∧
      ∀ (env : Nat → Int) (x y : Int),
        lane_value env self = some x → lane_value env other = some y →
        lane_value env (.select (.cmp .icmpSLT self other) self other)
          = some (if x < y then x else y) ∧
        (x = y → lane_value env (.select (.cmp .icmpSLT self other) self other)
          = lane_value env other) := by
  have hsem : ∀ (env : Nat → Int) (x y : Int),
      lane_value env self = some x → lane_value env other = some y →
      lane_value env (.select (.cmp .icmpSLT self other) self other)
        = some (if x < y then x else y) ∧
      (x = y → lane_value env (.select (.cmp .icmpSLT self other) self other)
        = lane_value env other) := by
    intro env x y hx hy
    have h : lane_value env (.select (.cmp .icmpSLT self other) self other)
        = some (if x < y then x else y) := by
      simp only [lane_value, hx, hy]
      by_cases hlt : x < y <;> simp [hlt]
    refine ⟨h, fun hxy => ?_⟩
    rw [h, hy, hxy]
    simp
  by_cases hf : self.get_type.get_scalar_ty.is_floating_point_ty = true
  · refine ⟨.fcmpOLT, by simp [hf], ?_, ?_, ?_, hsem⟩
    · simp [less_than, hf, builder.create_cmp]
    · simp [minimum, less_than, hf, builder.create_cmp]
    · simp [minimum, less_than, hf, builder.create_cmp, where_, builder.create_select]
  · have hi : self.get_type.get_scalar_ty.is_integer_ty = true := by tauto
    refine ⟨.icmpSLT, by simp [hf], ?_, ?_, ?_, hsem⟩
    · simp [less_than, hf, hi, builder.create_cmp]
    · simp [minimum, less_than, hf, hi, builder.create_cmp]
    · simp [minimum, less_than, hf, hi, builder.create_cmp, where_, builder.create_select]

/-- Witness for C13: two 32-bit integer scalars; with lanes 5 and 5 the result is the
lane of `other`, with lanes 3 and 5 it is 3. -/
theorem minimum_is_where_less_than_witness :
    minimum (.arg 0 (.scalar (.integer 32))) (.arg 1 (.scalar (.integer 32))) ⟨[]⟩ =
      (.ok (.select (.cmp .icmpSLT (.arg 0 (.scalar (.integer 32))) (.arg 1 (.scalar (.integer 32))))
              (.arg 0 (.scalar (.integer 32))) (.arg 1 (.scalar (.integer 32)))),
       ⟨[.cmp .icmpSLT (.arg 0 (.scalar (.integer 32))) (.arg 1 (.scalar (.integer 32))),
         .select (.cmp .icmpSLT (.arg 0 (.scalar (.integer 32))) (.arg 1 (.scalar (.integer 32))))
              (.arg 0 (.scalar (.integer 32))) (.arg 1 (.scalar (.integer 32)))]⟩) ∧
    lane_value (fun i => if i = 0 then 3 else 5)
      (.select (.cmp .icmpSLT (.arg 0 (.scalar (.integer 32))) (.arg 1 (.scalar (.integer 32))))
              (.arg 0 (.scalar (.integer 32))) (.arg 1 (.scalar (.integer 32)))) = some 3 ∧
    ∃ (pred : cmp_pred),
      (pred = if (value.arg 0 (.scalar (.integer 32))).get_type.get_scalar_ty.is_floating_point_ty
              then .fcmpOLT else .icmpSLT) ∧
      less_than (.arg 0 (.scalar (.integer 32))) (.arg 1 (.scalar (.integer 32))) ⟨[]⟩ =
        (.ok (.cmp pred (.arg 0 (.scalar (.integer 32))) (.arg 1 (.scalar (.integer 32)))),
         builder.insert ⟨[]⟩
           (.cmp pred (.arg 0 (.scalar (.integer 32))) (.arg 1 (.scalar (.integer 32))))) :=
  ⟨by decide, by decide,
   (minimum_is_where_less_than (.arg 0 (.scalar (.integer 32))) (.arg 1 (.scalar (.integer 32)))
      ⟨[]⟩ (Or.inr rfl)).imp fun _ h => ⟨h.1, h.2.1⟩⟩

/-! ### Arithmetic and comparison dispatch -/

/-- C14: when the scalar type of `self` is a pointer, `add` and `sub` both emit one
address computation (get-element-pointer) on `self` with `other` as index, whatever
`other` is, and nothing else: no add, subtract, fadd or fsub. -/
theorem add_sub_on_pointer_emit_gep (self other : value) (b : builder)
    (hptr : self.get_type.get_scalar_ty.is_pointer_ty = true) :
    add self other b = (.ok (.gep self other), b.insert (.gep self other)) ∧
    sub self other b = (.ok (.gep self other), b.insert (.gep self other)) ∧
    (b.insert (.gep self other)).insts = b.insts ++ [.gep self other] ∧
    ∀ (op : binary_op), value.gep self other ≠ .binary op self other := by
  refine ⟨?_, ?_, rfl, fun op h => by cases h⟩
  · simp [add, hptr, builder.create_gep]
  · simp [sub, hptr, builder.create_gep]

/-- Witness for C14: a block of pointers plus a block of integers, and minus a
floating-point scalar. -/
theorem add_sub_on_pointer_emit_gep_witness :
    add (.arg 0 (.block (.pointer (.floating 23)) [4])) (.arg 1 (.block (.integer 32) [4])) ⟨[]⟩ =
      (.ok (.gep (.arg 0 (.block (.pointer (.floating 23)) [4]))
              (.arg 1 (.block (.integer 32) [4]))),
       ⟨[.gep (.arg 0 (.block (.pointer (.floating 23)) [4]))
              (.arg 1 (.block (.integer 32) [4]))]⟩) ∧
    sub (.arg 0 (.block (.pointer (.floating 23)) [4])) (.arg 2 (.scalar (.floating 23))) ⟨[]⟩ =
      (.ok (.gep (.arg 0 (.block (.pointer (.floating 23)) [4]))
              (.arg 2 (.scalar (.floating 23)))),
       ⟨[.gep (.arg 0 (.block (.pointer (.floating 23)) [4]))
              (.arg 2 (.scalar (.floating 23)))]⟩) :=
  ⟨(add_sub_on_pointer_emit_gep (.arg 0 (.block (.pointer (.floating 23)) [4]))
      (.arg 1 (.block (.integer 32) [4])) ⟨[]⟩ rfl).1,
   (add_sub_on_pointer_emit_gep (.arg 0 (.block (.pointer (.floating 23)) [4]))
      (.arg 2 (.scalar (.floating 23))) ⟨[]⟩ rfl).2.1⟩

set_option maxRecDepth 100000 in
/-- Counterexample for C15: on a `self` of the scalar kind that is neither pointer,
floating point nor integer, `_div` fails with a message that names `div`; the name
`_div` under which the operation goes does not occur in it. -/
theorem div_message_counterexample :
    _div (.arg 0 (.scalar .void)) (.arg 1 (.scalar .void)) ⟨[]⟩ =
      (.error (.runtime_error
        "Encountered unimplemented code path in `div`. This is likely a bug on our side."),
       ⟨[]⟩) ∧
    ¬ ("_div".toList <:+:
        "Encountered unimplemented code path in `div`. This is likely a bug on our side.".toList) := by
  refine ⟨by decide, by decide⟩

/-- C15 (as amended): when the scalar type of `self` is neither pointer, floating
point nor integer, each of `add`, `sub`, `mul`, `_div` and `mod` fails with the
NotImplemented error and emits nothing; the message names `add`, `sub`, `mul`, `div`
and `mod` respectively. -/
theorem arithmetic_not_implemented (self other : value) (b : builder)
    (hp : self.get_type.get_scalar_ty.is_pointer_ty = false)
    (hf : self.get_type.get_scalar_ty.is_floating_point_ty = false)
    (hi : self.get_type.get_scalar_ty.is_integer_ty = false) :
    add self other b = (.error (.runtime_error
      "Encountered unimplemented code path in `add`. This is likely a bug on our side."), b) ∧
    sub self other b = (.error (.runtime_error
      "Encountered unimplemented code path in `sub`. This is likely a bug on our side."), b) ∧
    mul self other b = (.error (.runtime_error
      "Encountered unimplemented code path in `mul`. This is likely a bug on our side."), b) ∧
    _div self other b = (.error (.runtime_error
      "Encountered unimplemented code path in `div`. This is likely a bug on our side."), b) ∧
    mod self other b = (.error (.runtime_error
      "Encountered unimplemented code path in `mod`. This is likely a bug on our side."), b) := by
  refine ⟨?_, ?_, ?_, ?_, ?_⟩
  · simp only [add, hp, hf, hi, Bool.false_eq_true, if_false]; rfl
  · simp only [sub, hp, hf, hi, Bool.false_eq_true, if_false]; rfl
  · simp only [mul, hf, hi, Bool.false_eq_true, if_false]; rfl
  · simp only [_div, hf, hi, Bool.false_eq_true, if_false]; rfl
  · simp only [mod, hf, hi, Bool.false_eq_true, if_false]; rfl

/-- Witness for C15 (as amended): `mod` on a `self` of the `void` kind. -/
theorem arithmetic_not_implemented_witness :
    mod (.arg 0 (.scalar .void)) (.arg 1 (.scalar (.integer 32))) ⟨[]⟩ =
      (.error (.runtime_error
        "Encountered unimplemented code path in `mod`. This is likely a bug on our side."),
       ⟨[]⟩) :=
  (arithmetic_not_implemented (.arg 0 (.scalar .void)) (.arg 1 (.scalar (.integer 32))) ⟨[]⟩
    rfl rfl rfl).2.2.2.2

/-- C16: `mul`, `_div`, `mod` and the four comparisons choose their instruction by the
scalar type of `self`: floating point gives fmul, fdiv, frem, OGT, OGE, OLT, OLE;
integer gives mul, sdiv, srem, SGT, SGE, SLT, SLE; any other kind, pointers included,
fails with the NotImplemented error and emits nothing. Each operation emits exactly
one instruction, the variant of its own name. -/
theorem dispatch_by_scalar_type (self other : value) (b : builder) :
    (self.get_type.get_scalar_ty.is_floating_point_ty = true →
      mul self other b = (.ok (.binary .fmul self other), b.insert (.binary .fmul self other)) ∧
      _div self other b = (.ok (.binary .fdiv self other), b.insert (.binary .fdiv self other)) ∧
      mod self other b = (.ok (.binary .frem self other), b.insert (.binary .frem self other)) ∧
      greater_than self other b
        = (.ok (.cmp .fcmpOGT self other), b.insert (.cmp .fcmpOGT self other)) ∧
      greater_equal self other b
        = (.ok (.cmp .fcmpOGE self other), b.insert (.cmp .fcmpOGE self other)) ∧
      less_than self other b
        = (.ok (.cmp .fcmpOLT self other), b.insert (.cmp .fcmpOLT self other)) ∧
      less_equal self other b
        = (.ok (.cmp .fcmpOLE self other), b.insert (.cmp .fcmpOLE self other))) ∧
    (self.get_type.get_scalar_ty.is_integer_ty = true →
      mul self other b = (.ok (.binary .mul self other), b.insert (.binary .mul self other)) ∧
      _div self other b = (.ok (.binary .sdiv self other), b.insert (.binary .sdiv self other)) ∧
      mod self other b = (.ok (.binary .srem self other), b.insert (.binary .srem self other)) ∧
      greater_than self other b
        = (.ok (.cmp .icmpSGT self other), b.insert (.cmp .icmpSGT self other)) ∧
      greater_equal self other b
        = (.ok (.cmp .icmpSGE self other), b.insert (.cmp .icmpSGE self other)) ∧
      less_than self other b
        = (.ok (.cmp .icmpSLT self other), b.insert (.cmp .icmpSLT self other)) ∧
      less_equal self other b
        = (.ok (.cmp .icmpSLE self other), b.insert (.cmp .icmpSLE self other))) ∧
    ((self.get_type.get_scalar_ty.is_floating_point_ty = false ∧
      self.get_type.get_scalar_ty.is_integer_ty = false) →
      mul self other b = (.error (throw_not_implemented "mul"), b) ∧
      _div self other b = (.error (throw_not_implemented "div"), b) ∧
      mod self other b = (.error (throw_not_implemented "mod"), b) ∧
      greater_than self other b = (.error (throw_not_implemented "greater_than"), b) ∧
      greater_equal self other b = (.error (throw_not_implemented "greater_equal"), b) ∧
      less_than self other b = (.error (throw_not_implemented "less_than"), b) ∧
      less_equal self other b = (.error (throw_not_implemented "less_equal"), b)) ∧
    (self.get_type.get_scalar_ty.is_pointer_ty = true →
      self.get_type.get_scalar_ty.is_floating_point_ty = false ∧
      self.get_type.get_scalar_ty.is_integer_ty = false) := by
  refine ⟨fun hf => ?_, fun hi => ?_, fun ⟨hf, hi⟩ => ?_, fun hp => ?_⟩
  · simp [mul, _div, mod, greater_than, greater_equal, less_than, less_equal, hf,
      builder.create_binary, builder.create_cmp]
  · have hf : self.get_type.get_scalar_ty.is_floating_point_ty = false := by
      cases h : self.get_type.get_scalar_ty <;>
        simp [h, scalar_ty.is_integer_ty, scalar_ty.is_floating_point_ty] at hi ⊢
    simp [mul, _div, mod, greater_than, greater_equal, less_than, less_equal, hf, hi,
      builder.create_binary, builder.create_cmp]
  · simp [mul, _div, mod, greater_than, greater_equal, less_than, less_equal, hf, hi]
  · cases h : self.get_type.get_scalar_ty <;>
      simp [h, scalar_ty.is_pointer_ty, scalar_ty.is_integer_ty,
        scalar_ty.is_floating_point_ty] at hp ⊢

/-! ### `broadcast_to` -/

/-- C17: `broadcast_to` emits a splat of the input to the shape when the input is not
a block, emits a broadcast of the input to the shape when the input is a block whose
rank is the length of the shape, and fails, emitting nothing, exactly when the input
is a block whose rank differs from the length of the shape. -/
theorem broadcast_to_cases (input : value) (shape : List Nat) (b : builder) :
    (input.get_type.is_block_ty = false →
      broadcast_to input shape b = (.ok (.splat input shape), b.insert (.splat input shape))) ∧
    (∀ (t : scalar_ty) (src_shape : List Nat), input.get_type = .block t src_shape →
      src_shape.length = shape.length →
      broadcast_to input shape b
        = (.ok (.broadcast input shape), b.insert (.broadcast input shape))) ∧
    (∀ (t : scalar_ty) (src_shape : List Nat), input.get_type = .block t src_shape →
      src_shape.length ≠ shape.length →
      broadcast_to input shape b = (.error (.runtime_error "Cannot broadcast"), b)) ∧
    ((∃ (e : error), (broadcast_to input shape b).1 = .error e) ↔
      ∃ (t : scalar_ty) (src_shape : List Nat), input.get_type = .block t src_shape ∧
        src_shape.length ≠ shape.length) := by
  have h1 : input.get_type.is_block_ty = false →
      broadcast_to input shape b
        = (.ok (.splat input shape), b.insert (.splat input shape)) := by
    intro h
    cases ht : input.get_type with
    | scalar t => simp [broadcast_to, ht, builder.create_splat]
    | block t s => simp [ht, type.is_block_ty] at h
  have h2 : ∀ (t : scalar_ty) (src_shape : List Nat), input.get_type = .block t src_shape →
      src_shape.length = shape.length →
      broadcast_to input shape b
        = (.ok (.broadcast input shape), b.insert (.broadcast input shape)) := by
    intro t s ht hlen
    simp [broadcast_to, ht, hlen, builder.create_broadcast]
  have h3 : ∀ (t : scalar_ty) (src_shape : List Nat), input.get_type = .block t src_shape →
      src_shape.length ≠ shape.length →
      broadcast_to input shape b = (.error (.runtime_error "Cannot broadcast"), b) := by
    intro t s ht hlen
    simp [broadcast_to, ht, hlen]
  refine ⟨h1, h2, h3, ?_⟩
  constructor
  · rintro ⟨e, he⟩
    cases ht : input.get_type with
    | scalar t =>
      rw [h1 (by simp [ht, type.is_block_ty])] at he
      simp at he
    | block t s =>
      by_cases hlen : s.length = shape.length
      · rw [h2 t s ht hlen] at he
        simp at he
      · exact ⟨t, s, rfl, hlen⟩
  · rintro ⟨t, s, ht, hlen⟩
    exact ⟨_, by rw [h3 t s ht hlen]⟩

/-! ### The status codes of `base.h` -/

/-- C18: the status constants have the literal values of the table of the
specification: `TEMPLATE_VALID` is 0 and the eighteen error codes, in the order of
the table, are -1 down to -18; every error code is negative and no two of them are
equal. -/
theorem template_codes_match_table :
    atidlas.TEMPLATE_VALID = 0 ∧
    atidlas.error_codes = atidlas.spec_table_values ∧
    atidlas.error_codes = (List.range 18).map (fun i => -((i : Int) + 1)) ∧
    atidlas.TEMPLATE_LOCAL_MEMORY_OVERFLOW = -1 ∧
    atidlas.TEMPLATE_LOCAL_FETCH_1_MUST_BE_ML_MULTIPLE = -18 ∧
    (∀ c ∈ atidlas.error_codes, c < 0) ∧
    atidlas.error_codes.Nodup ∧
    atidlas.TEMPLATE_VALID ∉ atidlas.error_codes := by
  refine ⟨rfl, by decide, by decide, rfl, rfl, by decide, by decide, by decide⟩

/-! ### `recursive_clone` -/

namespace codegen

namespace transform

theorem recursive_clone_of_phi (fuel blk : Nat) (m : module) (p : Nat) (px : instruction)
    (v : value) (hp : m.insts[p]? = some px) (hphi : px.op = .phi)
    (hlt : px.blocks.indexOf blk < px.blocks.length)
    (hv : px.ops[px.blocks.indexOf blk]? = some v) :
    recursive_clone (fuel + 1) (.inst p) blk m = .ok (v, m) := by
  simp [recursive_clone, _recursive_clone, _recursive_clone.body, clones_t.find,
    module.get_inst, hp, defined, bind, Except.bind, hphi, instruction.find_incoming, hlt,
    instruction.get_incoming_value, hv, clones_t.insert]

/-- C20: `recursive_clone` returns a root that is not an instruction as it is, and for
a phi node the incoming value for `phi_block`, the module being left as it was (no
clone of the phi node, none of the incoming value). For another instruction the
operands of the clone are not always the clones of the root's operands: the loop
rewrites the clone with `replace_uses_of_with(op, new_op)`, which replaces by value.
In `example_shared_operand` the root 3 has the phi node 1 as operand 0 and the phi's
incoming value 2 as operand 1; `recursive_clone` of operand 0 is the instruction 2
itself, yet the clone 5 of the root has the clone 6 of the instruction 2 as operand 0
as well as operand 1. -/
theorem recursive_clone_replaces_by_value :
    (∀ (fuel blk : Nat) (m : module) (ty : ir.scalar_ty),
      recursive_clone (fuel + 1) (.undef ty) blk m = .ok (.undef ty, m)) ∧
    (∀ (fuel blk : Nat) (m : module) (v : Bool),
      recursive_clone (fuel + 1) (.int1 v) blk m = .ok (.int1 v, m)) ∧
    (∀ (fuel blk : Nat) (m : module) (id : Nat) (ty : ir.type),
      recursive_clone (fuel + 1) (.other id ty) blk m = .ok (.other id ty, m)) ∧
    (∀ (fuel blk : Nat) (m : module) (p : Nat) (px : instruction) (v : value),
      m.insts[p]? = some px → px.op = .phi → px.blocks.indexOf blk < px.blocks.length →
      px.ops[px.blocks.indexOf blk]? = some v →
      recursive_clone (fuel + 1) (.inst p) blk m = .ok (v, m)) ∧
    (example_shared_operand.insts[3]?).map (fun x => (x.op, x.ops))
      = some (.other 7, [.inst 1, .inst 2]) ∧
    recursive_clone 3 (.inst 1) 1 example_shared_operand
      = .ok (.inst 2, example_shared_operand) ∧
    (recursive_clone 3 (.inst 2) 1 example_shared_operand).toOption.map
        (fun r => (r.1, (r.2.insts[5]?).map fun x => (x.op, x.ops)))
      = some (.inst 5, some (.other 2, [.inst 2, .other 2 (.scalar (.integer 32))])) ∧
    (recursive_clone 3 (.inst 3) 1 example_shared_operand).toOption.map
        (fun r => (r.1, r.2.insts.length, r.2.block_insts 1))
      = some (.inst 5, 7, [1, 2, 3, 6, 5, 4]) ∧
    (recursive_clone 3 (.inst 3) 1 example_shared_operand).toOption.map
        (fun r => ((r.2.insts[5]?).map fun x => (x.op, x.ops),
          (r.2.insts[6]?).map fun x => (x.op, x.ops)))
      = some (some (.other 7, [.inst 6, .inst 6]),
          some (.other 2, [.inst 2, .other 2 (.scalar (.integer 32))])) := by
  refine ⟨?_, ?_, ?_, ?_, by decide, by decide, by decide, by decide, by decide⟩
  · intro fuel blk m ty
    simp [recursive_clone, _recursive_clone, _recursive_clone.body, clones_t.find,
      clones_t.insert, bind, Except.bind]
  · intro fuel blk m v
    simp [recursive_clone, _recursive_clone, _recursive_clone.body, clones_t.find,
      clones_t.insert, bind, Except.bind]
  · intro fuel blk m id ty
    simp [recursive_clone, _recursive_clone, _recursive_clone.body, clones_t.find,
      clones_t.insert, bind, Except.bind]
  · intro fuel blk m p px v hp hphi hlt hv
    exact recursive_clone_of_phi fuel blk m p px v hp hphi hlt hv

end transform

end codegen

/-! ### The pipelining pass read backwards: what a returned result tells -/

namespace codegen

theorem bind_ok_inv {α β : Type} (x : Except error α) (f : α → Except error β) (b : β)
    (h : (x >>= f) = .ok b) : ∃ (a : α), x = .ok a ∧ f a = .ok b := by
  cases x with
  | error e => simp [bind, Except.bind] at h
  | ok a => exact ⟨a, rfl, h⟩

theorem defined_ok_inv {α : Type} (what : String) (o : Option α) (a : α)
    (h : defined what o = .ok a) : o = some a := by
  cases o with
  | none => simp [defined] at h
  | some b => simpa [defined] using h

theorem keeps.of_self (m : module) : keeps m m := fun _ _ h => h

theorem keeps.chain {m₁ m₂ m₃ : module} (h₁ : keeps m₁ m₂) (h₂ : keeps m₂ m₃) : keeps m₁ m₃ :=
  fun i x hx => h₂ i x (h₁ i x hx)

theorem keeps.grows {m m' : module} (h : keeps m m') : m.insts.length ≤ m'.insts.length := by
  by_contra hlt
  push_neg at hlt
  have hx : m.insts[m'.insts.length]? = some (m.insts[m'.insts.length]) :=
    List.getElem?_eq_getElem hlt
  have := h _ _ hx
  simp at this

theorem keeps_of_insts_eq {m m' : module} (h : m'.insts = m.insts) : keeps m m' := by
  intro i x hx
  rw [h]
  exact hx

theorem set_insert_point_insts (m m' : module) (i : Nat)
    (h : m.set_insert_point i = .ok m') : m'.insts = m.insts := by
  unfold module.set_insert_point at h
  obtain ⟨x, _, h⟩ := bind_ok_inv _ _ _ h
  cases h
  rfl

theorem insert_keeps (m : module) (x : instruction) (n : Nat) (m₁ : module)
    (h : m.insert x = .ok (n, m₁)) : keeps m m₁ :=
  insert_old m x n m₁ h

theorem insert_new (m : module) (x : instruction) (n : Nat) (m₁ : module)
    (h : m.insert x = .ok (n, m₁)) :
    n = m.insts.length ∧ m₁.insts.length = m.insts.length + 1 ∧
    ∃ (b : Nat), m₁.insts[n]? = some { x with parent := b } := by
  obtain ⟨b, pos, bb, hc, hb, hn, hi, hbl, hip⟩ := insert_inv m x n m₁ h
  refine ⟨hn, by rw [hi]; simp, b, ?_⟩
  rw [hi, hn]
  simp

theorem replace_uses_of_with_inv (m m' : module) (u : Nat) (a b : value)
    (h : m.replace_uses_of_with u a b = .ok m') :
    ∃ (x : instruction), m.insts[u]? = some x ∧
      m'.insts = m.insts.set u (x.replace_uses_of_with a b) := by
  unfold module.replace_uses_of_with at h
  obtain ⟨x, hx, h⟩ := bind_ok_inv _ _ _ h
  cases h
  exact ⟨x, defined_ok_inv _ _ _ hx, rfl⟩

namespace transform

theorem clone_ops_keeps
    (rec : value → clones_t → module → Except error (value × clones_t × module))
    (hrec : ∀ (op : value) (c : clones_t) (m : module) (v : value) (c' : clones_t)
      (m' : module), rec op c m = .ok (v, c', m') → keeps m m')
    (ret : Nat) (m₀ : module) (hret : m₀.insts.length ≤ ret) :
    ∀ (ops : List value) (clones : clones_t) (m : module) (c' : clones_t) (m' : module),
      keeps m₀ m → clone_ops rec ret ops clones m = .ok (c', m') → keeps m₀ m' := by
  intro ops
  induction ops with
  | nil =>
    intro clones m c' m' hk h
    simp only [clone_ops, Except.ok.injEq, Prod.mk.injEq] at h
    rw [← h.2]
    exact hk
  | cons op ops ih =>
    intro clones m c' m' hk h
    unfold clone_ops at h
    obtain ⟨r, hr, h⟩ := bind_ok_inv _ _ _ h
    obtain ⟨new_op, c₁, m₁⟩ := r
    dsimp only at h
    obtain ⟨m₂, h2, h⟩ := bind_ok_inv _ _ _ h
    obtain ⟨y, hy, hset⟩ := replace_uses_of_with_inv _ _ _ _ _ h2
    refine ih c₁ m₂ c' m' ?_ h
    intro i x hx
    have hi := get_lt_of_some _ _ _ hx
    have hne : ret ≠ i := by omega
    rw [hset]
    simp only [List.getElem?_set, hne, if_false]
    exact hrec op clones m new_op c₁ m₁ hr i x (hk i x hx)

theorem _recursive_clone_keeps :
    ∀ (fuel : Nat) (root : value) (clones : clones_t) (blk : Nat) (m : module) (v : value)
      (c' : clones_t) (m' : module),
      _recursive_clone fuel root clones blk m = .ok (v, c', m') → keeps m m' := by
  intro fuel
  induction fuel with
  | zero => intro root clones blk m v c' m' h; simp [_recursive_clone] at h
  | succ f ih =>
    intro root clones blk m v c' m' h
    unfold _recursive_clone at h
    unfold _recursive_clone.body at h
    cases hfind : clones_t.find clones root with
    | some w =>
      simp only [hfind, Except.ok.injEq, Prod.mk.injEq] at h
      rw [← h.2.2]
      exact keeps.of_self m
    | none =>
      simp only [hfind] at h
      cases root with
      | inst i =>
        dsimp only at h
        obtain ⟨x, hx, h⟩ := bind_ok_inv _ _ _ h
        by_cases hphi : x.op = .phi
        · simp only [hphi, if_true] at h
          obtain ⟨n, _, h⟩ := bind_ok_inv _ _ _ h
          obtain ⟨ret, _, h⟩ := bind_ok_inv _ _ _ h
          simp only [Except.ok.injEq, Prod.mk.injEq] at h
          rw [← h.2.2]
          exact keeps.of_self m
        · simp only [hphi, if_false] at h
          obtain ⟨r, hins, h⟩ := bind_ok_inv _ _ _ h
          obtain ⟨ret, m₁⟩ := r
          dsimp only at h
          obtain ⟨m₂, hsip, h⟩ := bind_ok_inv _ _ _ h
          obtain ⟨r, hops, h⟩ := bind_ok_inv _ _ _ h
          obtain ⟨c₁, m₃⟩ := r
          simp only [Except.ok.injEq, Prod.mk.injEq] at h
          rw [← h.2.2]
          have hk₁ := insert_keeps m x ret m₁ hins
          have hk₂ : keeps m m₂ :=
            hk₁.chain (keeps_of_insts_eq (set_insert_point_insts m₁ m₂ ret hsip))
          have hret := (insert_new m x ret m₁ hins).1
          exact clone_ops_keeps (fun op clones m => _recursive_clone f op clones blk m)
            (fun op c mk w c'' mk' hrec => ih op c blk mk w c'' mk' hrec)
            ret m (le_of_eq hret.symm) x.ops clones m₂ c₁ m₃ hk₂ hops
      | undef ty =>
        simp only [Except.ok.injEq, Prod.mk.injEq] at h
        rw [← h.2.2]
        exact keeps.of_self m
      | int1 w =>
        simp only [Except.ok.injEq, Prod.mk.injEq] at h
        rw [← h.2.2]
        exact keeps.of_self m
      | other id ty =>
        simp only [Except.ok.injEq, Prod.mk.injEq] at h
        rw [← h.2.2]
        exact keeps.of_self m

theorem recursive_clone_keeps (fuel : Nat) (root : value) (blk : Nat) (m : module) (v : value)
    (m' : module) (h : recursive_clone fuel root blk m = .ok (v, m')) : keeps m m' := by
  unfold recursive_clone at h
  obtain ⟨r, hr, h⟩ := bind_ok_inv _ _ _ h
  obtain ⟨w, c, m₁⟩ := r
  simp only [Except.ok.injEq, Prod.mk.injEq] at h
  rw [← h.2]
  exact _recursive_clone_keeps fuel root [] blk m w c m₁ hr

theorem recursive_clone_phi_inv (fuel : Nat) (blk : Nat) (m : module) (p : Nat)
    (px : instruction) (v : value) (m' : module) (hp : m.insts[p]? = some px)
    (hphi : px.op = .phi) (h : recursive_clone fuel (.inst p) blk m = .ok (v, m')) :
    v ∈ px.ops ∧ m' = m := by
  cases fuel with
  | zero => simp [recursive_clone, _recursive_clone, bind, Except.bind] at h
  | succ f =>
    by_cases hlt : px.blocks.indexOf blk < px.blocks.length
    · cases hv : px.ops[px.blocks.indexOf blk]? with
      | none =>
        simp [recursive_clone, _recursive_clone, _recursive_clone.body, clones_t.find,
          module.get_inst, hp, defined, bind, Except.bind, hphi, instruction.find_incoming, hlt,
          instruction.get_incoming_value, hv] at h
      | some w =>
        rw [recursive_clone_of_phi f blk m p px w hp hphi hlt hv] at h
        simp only [Except.ok.injEq, Prod.mk.injEq] at h
        refine ⟨?_, h.2.symm⟩
        rw [← h.1]
        exact List.getElem?_mem hv
    · simp [recursive_clone, _recursive_clone, _recursive_clone.body, clones_t.find,
        module.get_inst, hp, defined, bind, Except.bind, hphi, instruction.find_incoming, hlt] at h

namespace pipeline

theorem set_insert_point_back_insts (m m' : module) (b : Nat)
    (h : set_insert_point_back m b = .ok m') : m'.insts = m.insts := by
  unfold set_insert_point_back at h
  obtain ⟨bb, _, h⟩ := bind_ok_inv _ _ _ h
  obtain ⟨t, _, h⟩ := bind_ok_inv _ _ _ h
  exact set_insert_point_insts m m' t h

theorem and_mask_keeps (m m' : module) (v v' : value) (mask : Option value)
    (h : and_mask m v mask = .ok (v', m')) : keeps m m' := by
  cases mask with
  | none =>
    simp only [and_mask, Except.ok.injEq, Prod.mk.injEq] at h
    rw [← h.2]
    exact keeps.of_self m
  | some k =>
    unfold and_mask at h
    obtain ⟨r, hr, h⟩ := bind_ok_inv _ _ _ h
    obtain ⟨a, m₁⟩ := r
    simp only [Except.ok.injEq, Prod.mk.injEq] at h
    rw [← h.2]
    exact insert_keeps m _ a m₁ hr

theorem make_false_value_inv (m m' : module) (ty : ir.type) (fv : Option value) (v' : value)
    (h : make_false_value m ty fv = .ok (v', m')) :
    keeps m m' ∧ (fv = some v' ∨ ∃ (s : Nat) (y : instruction), v' = .inst s ∧
      m.insts.length ≤ s ∧ m'.insts[s]? = some y ∧ y.op = .splat) := by
  cases fv with
  | some k =>
    simp only [make_false_value, Except.ok.injEq, Prod.mk.injEq] at h
    rw [← h.2, ← h.1]
    exact ⟨keeps.of_self m, Or.inl rfl⟩
  | none =>
    unfold make_false_value at h
    obtain ⟨shapes, _, h⟩ := bind_ok_inv _ _ _ h
    obtain ⟨r, hr, h⟩ := bind_ok_inv _ _ _ h
    obtain ⟨s, m₁⟩ := r
    simp only [Except.ok.injEq, Prod.mk.injEq] at h
    rw [← h.2, ← h.1]
    obtain ⟨hn, _, b, hnew⟩ := insert_new m _ s m₁ hr
    exact ⟨insert_keeps m _ s m₁ hr, Or.inr ⟨s, _, rfl, le_of_eq hn.symm, hnew, rfl⟩⟩

theorem prefetch_inv (m m' : module) (ty : ir.type) (ptr fv : value) (f : Nat)
    (h : prefetch m ty ptr fv = .ok (f, m')) :
    ∃ (shapes : List Nat) (x s : instruction), ty.get_block_shapes = some shapes ∧ keeps m m' ∧
      m.insts.length ≤ f ∧ m'.insts[f]? = some x ∧ x.op = .masked_load ∧
      x.ops = [ptr, .inst m.insts.length, fv] ∧
      m'.insts[m.insts.length]? = some s ∧ s.op = .splat ∧ s.ops = [.int1 true] ∧
      s.ty = .block (.integer 1) shapes := by
  unfold prefetch at h
  obtain ⟨shapes, hshapes, h⟩ := bind_ok_inv _ _ _ h
  obtain ⟨r, hr, h⟩ := bind_ok_inv _ _ _ h
  obtain ⟨k, m₁⟩ := r
  dsimp only at h
  obtain ⟨hk, hlen₁, b₁, hnew₁⟩ := insert_new m _ k m₁ hr
  obtain ⟨hf, _, b₂, hnew₂⟩ := insert_new m₁ _ f m' h
  have hk₁ := insert_keeps m _ k m₁ hr
  have hk₂ := insert_keeps m₁ _ f m' h
  subst hk
  refine ⟨shapes, _, _, defined_ok_inv _ _ _ hshapes, hk₁.chain hk₂, by omega, hnew₂, rfl, rfl,
    hk₂ _ _ hnew₁, rfl, rfl, rfl⟩

theorem merge_inv (m m' : module) (ty : ir.type) (L fl nl H B : Nat)
    (h : merge m ty L fl nl H B = .ok m') :
    ∃ (b : Nat), m'.insts =
      (m.insts ++ [({ op := .phi, ty := ty, ops := [.inst fl, .inst nl], blocks := [H, B],
                      parent := b } : instruction)]).map
        (fun (x : instruction) => x.replace_uses_of_with (.inst L) (.inst m.insts.length)) := by
  unfold merge at h
  obtain ⟨bb, _, h⟩ := bind_ok_inv _ _ _ h
  obtain ⟨first_non_phi, _, h⟩ := bind_ok_inv _ _ _ h
  obtain ⟨m₁, h1, h⟩ := bind_ok_inv _ _ _ h
  obtain ⟨r, h2, h⟩ := bind_ok_inv _ _ _ h
  obtain ⟨q, m₂⟩ := r
  dsimp only at h
  obtain ⟨m₃, h3, h⟩ := bind_ok_inv _ _ _ h
  obtain ⟨m₄, h4, h⟩ := bind_ok_inv _ _ _ h
  have e₁ := set_insert_point_insts m m₁ _ h1
  obtain ⟨b, pos, bb₂, _, _, hq, e₂, _, _⟩ := insert_inv m₁ _ q m₂ h2
  rw [e₁] at e₂ hq
  subst hq
  unfold module.add_incoming at h3 h4
  obtain ⟨x₃, hx₃, h3⟩ := bind_ok_inv _ _ _ h3
  have hx₃ := defined_ok_inv _ _ _ hx₃
  rw [e₂] at hx₃
  simp only [List.getElem?_concat_length, Option.some.injEq] at hx₃
  subst hx₃
  simp only [Except.ok.injEq] at h3
  subst h3
  obtain ⟨x₄, hx₄, h4⟩ := bind_ok_inv _ _ _ h4
  have hx₄ := defined_ok_inv _ _ _ hx₄
  simp only [e₂, List.set_append_right, le_refl, Nat.sub_self, List.set_cons_zero,
    List.getElem?_concat_length, Option.some.injEq] at hx₄
  subst hx₄
  simp only [Except.ok.injEq] at h4
  subst h4
  simp only [Except.ok.injEq] at h
  subst h
  refine ⟨b, ?_⟩
  simp [module.replace_all_uses_with, e₂]

theorem scan_incoming_inv (m : module) (p : Nat) (px : instruction) :
    ∀ (l : List Nat) (info info' : pipe_info_t), scan_incoming m p px l info = .ok info' →
      info'.load = info.load ∧ info'.false_value = info.false_value ∧
      (info'.ptr = info.ptr ∨ info'.ptr = some p) := by
  intro l
  induction l with
  | nil =>
    intro info info' h
    simp only [scan_incoming, Except.ok.injEq] at h
    subst h
    exact ⟨rfl, rfl, Or.inl rfl⟩
  | cons block rest ih =>
    intro info info' h
    unfold scan_incoming at h
    obtain ⟨bb, _, h⟩ := bind_ok_inv _ _ _ h
    obtain ⟨term, _, h⟩ := bind_ok_inv _ _ _ h
    by_cases hb : block = px.parent
    · simp only [hb, if_true] at h
      obtain ⟨header, _, h⟩ := bind_ok_inv _ _ _ h
      obtain ⟨t, _, h⟩ := bind_ok_inv _ _ _ h
      by_cases hcb : t.op = .cond_branch
      · simp only [hcb, if_true] at h
        obtain ⟨h1, h2, h3⟩ := ih _ _ h
        exact ⟨h1, h2, Or.inr (by rcases h3 with h3 | h3 <;> exact h3)⟩
      · simp only [hcb, if_false] at h
        obtain ⟨h1, h2, h3⟩ := ih _ _ h
        exact ⟨h1, h2, Or.inr (by rcases h3 with h3 | h3 <;> exact h3)⟩
    · simp only [hb, if_false] at h
      exact ih _ _ h

theorem detect_inv (m : module) (info info' : pipe_info_t) (v : value)
    (hnone : info.ptr = none) (h : detect m info v = .ok info') :
    info'.load = info.load ∧ info'.false_value = info.false_value ∧
    ∀ (p : Nat), info'.ptr = some p →
      ∃ (px : instruction), m.insts[p]? = some px ∧ px.op = .phi := by
  have hsame : info' = info → info'.load = info.load ∧ info'.false_value = info.false_value ∧
      ∀ (p : Nat), info'.ptr = some p →
        ∃ (px : instruction), m.insts[p]? = some px ∧ px.op = .phi := by
    intro he
    subst he
    exact ⟨rfl, rfl, fun p hp => by rw [hnone] at hp; cases hp⟩
  cases v with
  | inst q =>
    unfold detect at h
    obtain ⟨px, hpx, h⟩ := bind_ok_inv _ _ _ h
    have hpx := defined_ok_inv _ _ _ hpx
    by_cases hphi : px.op = .phi
    · simp only [hphi, if_true] at h
      obtain ⟨h1, h2, h3⟩ := scan_incoming_inv m q px _ _ _ h
      refine ⟨h1, h2, fun p hp => ?_⟩
      rcases h3 with h3 | h3
      · rw [h3, hnone] at hp
        cases hp
      · rw [h3] at hp
        cases hp
        exact ⟨px, hpx, hphi⟩
    · simp only [hphi, if_false, Except.ok.injEq] at h
      exact hsame h.symm
  | undef ty =>
    simp only [detect, Except.ok.injEq] at h
    exact hsame h.symm
  | int1 w =>
    simp only [detect, Except.ok.injEq] at h
    exact hsame h.symm
  | other id ty =>
    simp only [detect, Except.ok.injEq] at h
    exact hsame h.symm

theorem visit_inv (m : module) (acc r : List pipe_info_t) (i : Nat)
    (h : visit m acc i = .ok r) :
    r = acc ∨ ∃ (info : pipe_info_t), r = acc ++ [info] ∧ recorded m info := by
  unfold visit at h
  obtain ⟨x, hx, h⟩ := bind_ok_inv _ _ _ h
  have hx := defined_ok_inv _ _ _ hx
  have tail : ∀ (ptr : value) (mask fv : Option value), (∀ (v : value), fv = some v → v ∈ x.ops) →
      (detect m { header := none, block := none, load := i, mask := mask, false_value := fv,
                  ptr := none, back_edge := none } ptr >>= fun info => record acc info) = .ok r →
      (x.op = .load ∨ x.op = .masked_load) →
      ∃ (info : pipe_info_t), r = acc ++ [info] ∧ recorded m info := by
    intro ptr mask fv hfv h hload
    obtain ⟨info, hinfo, h⟩ := bind_ok_inv _ _ _ h
    obtain ⟨h1, h2, h3⟩ := detect_inv m _ info ptr rfl hinfo
    refine ⟨info, ?_, ⟨x, by rw [h1]; exact hx, hload, ?_⟩, h3⟩
    · unfold record at h
      cases hbe : info.back_edge with
      | none => simp [hbe] at h
      | some t =>
        simp only [hbe, Except.ok.injEq] at h
        exact h.symm
    · intro v hv
      rw [h2] at hv
      exact hfv v hv
  by_cases hload : x.op = .load ∨ x.op = .masked_load
  · simp only [hload, if_true] at h
    obtain ⟨ptr, _, h⟩ := bind_ok_inv _ _ _ h
    right
    by_cases hm : x.op = .masked_load
    · simp only [hm, if_true] at h
      obtain ⟨mask, _, h⟩ := bind_ok_inv _ _ _ h
      obtain ⟨fv, hfv, h⟩ := bind_ok_inv _ _ _ h
      refine tail ptr mask fv ?_ h hload
      intro v hv
      subst hv
      cases ho : x.ops[2]? with
      | none => simp [ho, defined, Except.map] at hfv
      | some w =>
        simp only [ho, defined, Except.map, Except.ok.injEq, Option.some.injEq] at hfv
        rw [← hfv]
        exact List.getElem?_mem ho
    · simp only [hm, if_false] at h
      obtain ⟨mask, _, h⟩ := bind_ok_inv _ _ _ h
      obtain ⟨fv, hfv, h⟩ := bind_ok_inv _ _ _ h
      refine tail ptr mask fv ?_ h hload
      intro v hv
      subst hv
      cases hfv
  · simp only [hload, if_false, Except.ok.injEq] at h
    exact Or.inl h.symm

theorem collect_recorded (m : module) :
    ∀ (l : List Nat) (acc r : List pipe_info_t), collect m l acc = .ok r →
      (∀ info ∈ acc, recorded m info) → ∀ info ∈ r, recorded m info := by
  intro l
  induction l with
  | nil =>
    intro acc r h hacc
    simp only [collect, Except.ok.injEq] at h
    subst h
    exact hacc
  | cons i rest ih =>
    intro acc r h hacc
    unfold collect at h
    obtain ⟨acc₁, h1, h⟩ := bind_ok_inv _ _ _ h
    refine ih acc₁ r h ?_
    rcases visit_inv m acc acc₁ i h1 with he | ⟨info, he, hrec⟩
    · rw [he]
      exact hacc
    · intro info' hin
      rw [he] at hin
      rcases List.mem_append.mp hin with hin | hin
      · exact hacc info' hin
      · simp only [List.mem_singleton] at hin
        rw [hin]
        exact hrec

/-- What a returned `rewrite` has done: the module `m₁` reached before the merge keeps
the instructions of `m` and holds the two prefetch loads, each with the pointer
taken from the pointer phi, a splat of the constant true as mask, and the fallback;
the result is `m₁` with the new phi node, after the redirection of the uses. -/
theorem rewrite_inv (fuel : Nat) (m m' : module) (info : pipe_info_t) (p : Nat)
    (px : instruction) (hptr : info.ptr = some p) (hp : m.insts[p]? = some px)
    (hphi : px.op = .phi) (h : rewrite fuel m info = .ok m') :
    ∃ (m₁ : module) (load fx nx s₁ s₂ : instruction) (shapes : List Nat)
      (H B fl nl k₁ k₂ b : Nat) (p₁ p₂ fv : value),
      m.insts[info.load]? = some load ∧ load.ty.get_block_shapes = some shapes ∧
      info.header = some H ∧ info.block = some B ∧ keeps m m₁ ∧
      m'.insts =
        (m₁.insts ++ [({ op := .phi, ty := load.ty, ops := [.inst fl, .inst nl],
                         blocks := [H, B], parent := b } : instruction)]).map
          (fun (x : instruction) =>
            x.replace_uses_of_with (.inst info.load) (.inst m₁.insts.length)) ∧
      (m.insts.length ≤ fl ∧ m₁.insts[fl]? = some fx ∧ fx.op = .masked_load ∧
        fx.ops = [p₁, .inst k₁, fv] ∧ m.insts.length ≤ k₁ ∧ m₁.insts[k₁]? = some s₁ ∧
        s₁.op = .splat ∧ s₁.ops = [.int1 true] ∧ s₁.ty = .block (.integer 1) shapes) ∧
      (m.insts.length ≤ nl ∧ m₁.insts[nl]? = some nx ∧ nx.op = .masked_load ∧
        nx.ops = [p₂, .inst k₂, fv] ∧ m.insts.length ≤ k₂ ∧ m₁.insts[k₂]? = some s₂ ∧
        s₂.op = .splat ∧ s₂.ops = [.int1 true] ∧ s₂.ty = .block (.integer 1) shapes) ∧
      p₁ ∈ px.ops ∧ p₂ ∈ px.ops ∧
      (info.false_value = some fv ∨ ∃ (s : Nat) (y : instruction), fv = .inst s ∧
        m.insts.length ≤ s ∧ m₁.insts[s]? = some y ∧ y.op = .splat) := by
  unfold rewrite at h
  obtain ⟨back_edge, _, h⟩ := bind_ok_inv _ _ _ h
  obtain ⟨header, hheader, h⟩ := bind_ok_inv _ _ _ h
  obtain ⟨block, hblock, h⟩ := bind_ok_inv _ _ _ h
  obtain ⟨ptr, hptr', h⟩ := bind_ok_inv _ _ _ h
  obtain ⟨br, _, h⟩ := bind_ok_inv _ _ _ h
  obtain ⟨cond, _, h⟩ := bind_ok_inv _ _ _ h
  obtain ⟨load, hload, h⟩ := bind_ok_inv _ _ _ h
  dsimp only at h
  have hheader := defined_ok_inv _ _ _ hheader
  have hblock := defined_ok_inv _ _ _ hblock
  have hptr' := defined_ok_inv _ _ _ hptr'
  have hload := defined_ok_inv _ _ _ hload
  rw [hptr] at hptr'
  cases hptr'
  -- for first pre-fetching
  obtain ⟨m₁, h1, h⟩ := bind_ok_inv _ _ _ h
  obtain ⟨r, h2, h⟩ := bind_ok_inv _ _ _ h
  obtain ⟨first_ptr, m₂⟩ := r
  dsimp only at h
  obtain ⟨r, h3, h⟩ := bind_ok_inv _ _ _ h
  obtain ⟨first_mask, m₃⟩ := r
  dsimp only at h
  obtain ⟨r, h4, h⟩ := bind_ok_inv _ _ _ h
  obtain ⟨fm, m₄⟩ := r
  dsimp only at h
  obtain ⟨r, h5, h⟩ := bind_ok_inv _ _ _ h
  obtain ⟨fv, m₅⟩ := r
  dsimp only at h
  obtain ⟨m₆, h6, h⟩ := bind_ok_inv _ _ _ h
  obtain ⟨r, h7, h⟩ := bind_ok_inv _ _ _ h
  obtain ⟨fl, m₇⟩ := r
  dsimp only at h
  -- for next pre-fetching
  obtain ⟨m₈, h8, h⟩ := bind_ok_inv _ _ _ h
  obtain ⟨r, h9, h⟩ := bind_ok_inv _ _ _ h
  obtain ⟨next_ptr, m₉⟩ := r
  dsimp only at h
  obtain ⟨r, h10, h⟩ := bind_ok_inv _ _ _ h
  obtain ⟨next_mask, m₁₀⟩ := r
  dsimp only at h
  obtain ⟨r, h11, h⟩ := bind_ok_inv _ _ _ h
  obtain ⟨nm, m₁₁⟩ := r
  dsimp only at h
  obtain ⟨m₁₂, h12, h⟩ := bind_ok_inv _ _ _ h
  obtain ⟨r, h13, h⟩ := bind_ok_inv _ _ _ h
  obtain ⟨nl, m₁₃⟩ := r
  dsimp only at h
  -- the modules met on the way keep what there was
  have k₁ : keeps m m₁ := keeps_of_insts_eq (set_insert_point_back_insts m m₁ header h1)
  have hp₁ : m₁.insts[p]? = some px := k₁ p px hp
  obtain ⟨hfp, hm₂⟩ := recursive_clone_phi_inv fuel header m₁ p px first_ptr m₂ hp₁ hphi h2
  have k₂ : keeps m₁ m₂ := by rw [hm₂]; exact keeps.of_self m₁
  have k₃ : keeps m₁ m₃ :=
    k₂.chain (recursive_clone_keeps fuel cond header m₂ first_mask m₃ h3)
  have k₄ : keeps m₃ m₄ := and_mask_keeps m₃ m₄ first_mask fm info.mask h4
  obtain ⟨k₅, hfv⟩ := make_false_value_inv m₄ m₅ load.ty info.false_value fv h5
  have k₆ : keeps m₅ m₆ := keeps_of_insts_eq (set_insert_point_back_insts m₅ m₆ header h6)
  obtain ⟨shapes, fx, s₁, hshapes, k₇, hfl, hfx, hfxop, hfxops, hs₁, hs₁op, hs₁ops, hs₁ty⟩ :=
    prefetch_inv m₆ m₇ load.ty first_ptr fv fl h7
  have k₈ : keeps m₇ m₈ := keeps_of_insts_eq (set_insert_point_back_insts m₇ m₈ block h8)
  have km₈ : keeps m m₈ :=
    (((((k₁.chain k₃).chain k₄).chain k₅).chain k₆).chain k₇).chain k₈
  obtain ⟨hnp, hm₉⟩ :=
    recursive_clone_phi_inv fuel block m₈ p px next_ptr m₉ (km₈ p px hp) hphi h9
  have k₉ : keeps m₈ m₉ := by rw [hm₉]; exact keeps.of_self m₈
  have k₁₀ : keeps m₈ m₁₀ :=
    k₉.chain (recursive_clone_keeps fuel cond block m₉ next_mask m₁₀ h10)
  have k₁₁ : keeps m₁₀ m₁₁ := and_mask_keeps m₁₀ m₁₁ next_mask nm info.mask h11
  have k₁₂ : keeps m₁₁ m₁₂ := keeps_of_insts_eq (set_insert_point_back_insts m₁₁ m₁₂ block h12)
  obtain ⟨shapes', nx, s₂, hshapes', k₁₃, hnl, hnx, hnxop, hnxops, hs₂, hs₂op, hs₂ops, hs₂ty⟩ :=
    prefetch_inv m₁₂ m₁₃ load.ty next_ptr fv nl h13
  rw [hshapes] at hshapes'
  cases hshapes'
  obtain ⟨b, hmerge⟩ := merge_inv m₁₃ m' load.ty info.load fl nl header block h
  have km₅ : keeps m m₅ := (((k₁.chain k₃).chain k₄).chain k₅)
  have km₆ : keeps m m₆ := km₅.chain k₆
  have k₇₁₃ : keeps m₇ m₁₃ := (((k₈.chain k₁₀).chain k₁₁).chain k₁₂).chain k₁₃
  have km₁₂ : keeps m m₁₂ := ((km₈.chain k₁₀).chain k₁₁).chain k₁₂
  have k₅₁₃ : keeps m₅ m₁₃ := (k₆.chain k₇).chain k₇₁₃
  refine ⟨m₁₃, load, fx, nx, s₁, s₂, shapes, header, block, fl, nl, m₆.insts.length,
    m₁₂.insts.length, b, first_ptr, next_ptr, fv, hload, hshapes, hheader, hblock,
    km₁₂.chain k₁₃, hmerge, ?_, ?_, hfp, hnp, ?_⟩
  · exact ⟨le_trans km₆.grows hfl, k₇₁₃ _ _ hfx, hfxop, hfxops, km₆.grows,
      k₇₁₃ _ _ hs₁, hs₁op, hs₁ops, hs₁ty⟩
  · exact ⟨le_trans km₁₂.grows hnl, hnx, hnxop, hnxops, km₁₂.grows, hs₂, hs₂op,
      hs₂ops, hs₂ty⟩
  · rcases hfv with hfv | ⟨s, y, hs, hle, hy, hyop⟩
    · exact Or.inl hfv
    · exact Or.inr ⟨s, y, hs, le_trans ((k₁.chain k₃).chain k₄).grows hle,
        k₅₁₃ _ _ hy, hyop⟩

theorem forall₂_getElem? {α : Type} (R : α → α → Prop) (l l' : List α)
    (h : List.Forall₂ R l l') :
    ∀ (j : Nat) (o : α), l[j]? = some o → ∃ (o' : α), l'[j]? = some o' ∧ R o o' := by
  induction h with
  | nil => intro j o ho; simp at ho
  | cons hab _ ih =>
    intro j o ho
    cases j with
    | zero =>
      simp only [List.getElem?_cons_zero, Option.some.injEq] at ho
      subst ho
      exact ⟨_, by simp, hab⟩
    | succ j =>
      simp only [List.getElem?_cons_succ] at ho
      obtain ⟨o', ho', hr⟩ := ih j o ho
      exact ⟨o', by simpa using ho', hr⟩

theorem forall₂_mem_right {α : Type} (R : α → α → Prop) (l l' : List α)
    (h : List.Forall₂ R l l') : ∀ o' ∈ l', ∃ o ∈ l, R o o' := by
  induction h with
  | nil => intro o' ho'; simp at ho'
  | cons hab _ ih =>
    intro o' ho'
    rcases List.mem_cons.mp ho' with he | hin
    · subst he
      exact ⟨_, by simp, hab⟩
    · obtain ⟨o, ho, hr⟩ := ih o' hin
      exact ⟨o, by simp [ho], hr⟩

theorem evolves_length_le (n : Nat) (m m' : module) (h : evolves n m m') :
    m.insts.length ≤ m'.insts.length := by
  by_contra hlt
  push_neg at hlt
  have hx : m.insts[m'.insts.length]? = some (m.insts[m'.insts.length]) :=
    List.getElem?_eq_getElem hlt
  obtain ⟨x', hx', _⟩ := h _ _ hx
  simp at hx'

theorem not_new_and_evolves (n : Nat) (m m' : module) (o : value) (h : evolves n m m')
    (ho : m.not_new_and n o) : m'.not_new_and n o := by
  intro a ha hle
  obtain ⟨y, hy, hyop⟩ := ho a ha hle
  obtain ⟨y', hy', hop, _⟩ := h a y hy
  exact ⟨y', hy', by rw [hop]; exact hyop⟩

theorem not_new_and_step (n : Nat) (m m' : module) (o o' : value) (h : evolves n m m')
    (hs : operand_step n m' o o') (ho : m.not_new_and n o) : m'.not_new_and n o' := by
  rcases hs with he | ⟨L, q, y, _, _, ho', _, hy, hyop⟩
  · rw [he]
    exact not_new_and_evolves n m m' o h ho
  · intro a ha _
    rw [ho'] at ha
    cases ha
    exact ⟨y, hy, hyop⟩

theorem operand_step_new (n : Nat) (m' : module) (k : Nat) (o' : value) (hk : n ≤ k)
    (hs : operand_step n m' (.inst k) o') : o' = .inst k := by
  rcases hs with he | ⟨L, q, y, hL, hlt, _⟩
  · exact he
  · cases hL
    omega

theorem forced_prefetch_evolves (n : Nat) (m m' : module) (shapes : List Nat) (f : Nat)
    (h : evolves n m m') (hf : m.forced_prefetch n shapes f) : m'.forced_prefetch n shapes f := by
  obtain ⟨hle, x, s, k, hx, hxop, hmask, hk, hs, hsop, hsops, hsty, hall⟩ := hf
  obtain ⟨x', hx', hxop', _, _, hxops'⟩ := h f x hx
  obtain ⟨s', hs', hsop', hsty', _, hsops'⟩ := h k s hs
  obtain ⟨o', ho', hstep⟩ := forall₂_getElem? _ _ _ hxops' 1 _ hmask
  rw [operand_step_new n m' k o' hk hstep] at ho'
  refine ⟨hle, x', s', k, hx', by rw [hxop', hxop], ho', hk, hs', by rw [hsop', hsop], ?_,
    by rw [hsty', hsty], ?_⟩
  · rw [hsops] at hsops'
    obtain ⟨b, l, hab, htl, hl⟩ := List.forall₂_cons_left_iff.mp hsops'
    rw [hl, List.forall₂_nil_left_iff.mp htl]
    rcases hab with he | ⟨L, q, y, hL, _⟩
    · rw [he]
    · cases hL
  · intro o₁ ho₁
    obtain ⟨o, ho, hr⟩ := forall₂_mem_right _ _ _ hxops' o₁ ho₁
    exact not_new_and_step n m m' o o₁ h hr (hall o ho)

theorem old_operands_ok_evolves (n : Nat) (m m' : module) (h : evolves n m m')
    (hn : n ≤ m.insts.length) (ho : m.old_operands_ok n) : m'.old_operands_ok n := by
  intro i x' hi hx' o' ho'
  have hlt : i < m.insts.length := by omega
  have hx : m.insts[i]? = some (m.insts[i]) := List.getElem?_eq_getElem hlt
  obtain ⟨x'', hx'', _, _, _, hops⟩ := h i _ hx
  rw [hx'] at hx''
  cases hx''
  obtain ⟨o, hoin, hr⟩ := forall₂_mem_right _ _ _ hops o' ho'
  exact not_new_and_step n m m' o o' h hr (ho i _ hi hx o hoin)

theorem not_new_and_keeps (n : Nat) (m m' : module) (o : value) (h : keeps m m')
    (ho : m.not_new_and n o) : m'.not_new_and n o := by
  intro a ha hle
  obtain ⟨y, hy, hyop⟩ := ho a ha hle
  exact ⟨y, h a y hy, hyop⟩

theorem not_new_and_of_below (n : Nat) (m : module) (o : value) (h : o.below n = true) :
    m.not_new_and n o := by
  intro a ha hle
  subst ha
  simp only [value.below, decide_eq_true_eq] at h
  omega

theorem replaced_evolves (n : Nat) (m₁ m' : module) (L : Nat) (phi : instruction)
    (hL : L < n) (hn : n ≤ m₁.insts.length) (hphi : phi.op ≠ .and)
    (hm : m'.insts = (m₁.insts ++ [phi]).map
      (fun (x : instruction) => x.replace_uses_of_with (.inst L) (.inst m₁.insts.length))) :
    evolves n m₁ m' := by
  intro i x hx
  have hi := get_lt_of_some _ _ _ hx
  refine ⟨x.replace_uses_of_with (.inst L) (.inst m₁.insts.length), ?_, rfl, rfl, rfl, ?_⟩
  · rw [hm, List.getElem?_map, List.getElem?_append_left hi, hx]
    rfl
  · simp only [instruction.replace_uses_of_with, List.forall₂_map_right_iff, List.forall₂_same]
    intro o _
    by_cases ho : o = .inst L
    · right
      refine ⟨L, m₁.insts.length, phi.replace_uses_of_with (.inst L) (.inst m₁.insts.length),
        ho, hL, by simp [ho], hn, ?_, hphi⟩
      rw [hm, List.getElem?_map, List.getElem?_concat_length]
      rfl
    · left
      simp [ho]

theorem evolves_of_keeps (n : Nat) (m m₁ m' : module) (hk : keeps m m₁)
    (h : evolves n m₁ m') : evolves n m m' :=
  fun i x hx => h i x (hk i x hx)

theorem rewrite_ptr_some (fuel : Nat) (m m' : module) (info : pipe_info_t)
    (h : rewrite fuel m info = .ok m') : ∃ (p : Nat), info.ptr = some p := by
  unfold rewrite at h
  obtain ⟨back_edge, _, h⟩ := bind_ok_inv _ _ _ h
  obtain ⟨header, _, h⟩ := bind_ok_inv _ _ _ h
  obtain ⟨block, _, h⟩ := bind_ok_inv _ _ _ h
  obtain ⟨ptr, hptr, h⟩ := bind_ok_inv _ _ _ h
  exact ⟨ptr, defined_ok_inv _ _ _ hptr⟩

theorem closed_below (m : module) (i : Nat) (x : instruction) (o : value)
    (hc : m.closed = true) (hx : m.insts[i]? = some x) (ho : o ∈ x.ops) :
    o.below m.insts.length = true := by
  simp only [module.closed, List.all_eq_true] at hc
  exact hc x (List.getElem?_mem hx) o ho

theorem closed_old_operands_ok (m : module) (hc : m.closed = true) :
    m.old_operands_ok m.insts.length :=
  fun i x _ hx o ho => not_new_and_of_below _ m o (closed_below m i x o hc hx ho)

theorem length_le_of_same_kinds (m₀ m : module)
    (hsame : ∀ (i : Nat) (x : instruction), m₀.insts[i]? = some x →
      ∃ (x' : instruction), m.insts[i]? = some x' ∧ x'.op = x.op ∧ x'.ty = x.ty) :
    m₀.insts.length ≤ m.insts.length := by
  by_contra hlt
  push_neg at hlt
  have hx : m₀.insts[m.insts.length]? = some (m₀.insts[m.insts.length]) :=
    List.getElem?_eq_getElem hlt
  obtain ⟨x', hx', _⟩ := hsame _ _ hx
  simp at hx'

end pipeline

end transform

end codegen

/-! ### Pointer subtraction -/

/-- C23: when the scalar type of `self` is a pointer, `sub` emits what `add` emits: the
get-element-pointer of `self` with the index `other` as it was passed; nothing
negates the offset. -/
theorem sub_on_pointer_is_add (self other : value) (b : builder)
    (hptr : self.get_type.get_scalar_ty.is_pointer_ty = true) :
    sub self other b = add self other b ∧
    sub self other b = (.ok (.gep self other), b.insert (.gep self other)) := by
  have h1 : sub self other b = (.ok (.gep self other), b.insert (.gep self other)) := by
    simp [sub, hptr, builder.create_gep]
  have h2 : add self other b = (.ok (.gep self other), b.insert (.gep self other)) := by
    simp [add, hptr, builder.create_gep]
  exact ⟨by rw [h1, h2], h1⟩

/-- Witness for C23: a block of pointers and a block of integer offsets. -/
theorem sub_on_pointer_is_add_witness :
    sub (.arg 0 (.block (.pointer (.floating 23)) [4])) (.arg 1 (.block (.integer 32) [4])) ⟨[]⟩
      = add (.arg 0 (.block (.pointer (.floating 23)) [4])) (.arg 1 (.block (.integer 32) [4]))
          ⟨[]⟩ ∧
    sub (.arg 0 (.block (.pointer (.floating 23)) [4])) (.arg 1 (.block (.integer 32) [4])) ⟨[]⟩
      = (.ok (.gep (.arg 0 (.block (.pointer (.floating 23)) [4]))
              (.arg 1 (.block (.integer 32) [4]))),
         ⟨[.gep (.arg 0 (.block (.pointer (.floating 23)) [4]))
              (.arg 1 (.block (.integer 32) [4]))]⟩) :=
  sub_on_pointer_is_add (.arg 0 (.block (.pointer (.floating 23)) [4]))
    (.arg 1 (.block (.integer 32) [4])) ⟨[]⟩ rfl

/-! ### `subscript`, continued -/

theorem subscript_shape_past_the_end (self : value) (t : scalar_ty) (extents : List Nat)
    (hself : self.get_type = .block t extents) (slices : List slice) :
    ∀ (curr : Nat) (shape : List Nat), (∀ s ∈ slices, s = .newaxis ∨ s = .full) →
      curr ≤ extents.length → extents.length < slices.count .full + curr →
      subscript.shape self (slices.map slice.mode) curr shape
        = .error (.undefined "block_shapes_t::operator[]") := by
  induction slices with
  | nil =>
    intro curr shape _ hle h
    simp at h
    omega
  | cons s slices ih =>
    intro curr shape h hle hcount
    have h' : ∀ u ∈ slices, u = .newaxis ∨ u = .full := fun u hu => h u (by simp [hu])
    rcases h s (by simp) with hs | hs
    · subst hs
      have hc : extents.length < slices.count .full + curr := by
        simpa [List.count_cons] using hcount
      simp [subscript.shape, slice.mode, ih curr _ h' hle hc]
    · subst hs
      by_cases hlt : curr < extents.length
      · have hc' : extents.length < slices.count .full + (curr + 1) := by
          simp [List.count_cons] at hcount
          omega
        have hget : extents[curr]? = some (extents[curr]) := List.getElem?_eq_getElem hlt
        simp only [List.map_cons, slice.mode, subscript.shape, hself, type.get_block_shapes,
          hget, ih (curr + 1) _ h' (by omega) hc']
      · have hget : extents[curr]? = none := List.getElem?_eq_none (by omega)
        simp only [List.map_cons, slice.mode, subscript.shape, hself, type.get_block_shapes,
          hget]

/-- C25: on a block input and a list of axis-insertion and full-range markers, every
lookup `get_block_shapes()[curr++]` of `subscript` is within the shape exactly when
the list has at most as many full-range markers as the input has dimensions; with
more full-range markers the call is not rejected with the invalid-slice error: it
reads the shape past its end, and nothing is emitted. -/
theorem subscript_lookup_in_bounds_iff (self : value) (slices : List slice) (b : builder)
    (t : scalar_ty) (extents : List Nat)
    (hself : self.get_type = .block t extents)
    (hmarkers : ∀ s ∈ slices, s = .newaxis ∨ s = .full) :
    ((∃ (shape : List Nat),
        subscript.shape self (slices.map slice.mode) 0 [] = .ok shape) ↔
      slices.count .full ≤ extents.length) ∧
    (slices.count .full ≤ extents.length →
      subscript self slices b =
        (.ok (.reshape self (subscript_spec_shape slices extents)),
         b.insert (.reshape self (subscript_spec_shape slices extents)))) ∧
    (extents.length < slices.count .full →
      subscript.modes slices [] = .ok (slices.map slice.mode) ∧
      subscript self slices b = (.error (.undefined "block_shapes_t::operator[]"), b) ∧
      subscript self slices b
        ≠ (.error (.runtime_error "slice must be None or (None, None, None)"), b)) := by
  have h1 := subscript_modes_of_markers slices [] hmarkers
  simp only [List.nil_append] at h1
  have hok : slices.count .full ≤ extents.length →
      subscript.shape self (slices.map slice.mode) 0 []
        = .ok (subscript_spec_shape slices extents) := by
    intro hle
    have h2 := subscript_shape_of_markers self t extents hself slices 0 [] hmarkers (by omega)
    simpa using h2
  have hbad : extents.length < slices.count .full →
      subscript.shape self (slices.map slice.mode) 0 []
        = .error (.undefined "block_shapes_t::operator[]") :=
    fun hlt => subscript_shape_past_the_end self t extents hself slices 0 [] hmarkers
      (by omega) (by omega)
  refine ⟨⟨?_, fun hle => ⟨_, hok hle⟩⟩, ?_, ?_⟩
  · rintro ⟨shape, hshape⟩
    by_contra hlt
    push_neg at hlt
    rw [hbad hlt] at hshape
    cases hshape
  · intro hle
    simp [subscript, h1, hok hle, builder.create_reshape]
  · intro hlt
    have h3 : subscript self slices b
        = (.error (.undefined "block_shapes_t::operator[]"), b) := by
      simp [subscript, h1, hbad hlt]
    refine ⟨h1, h3, ?_⟩
    rw [h3]
    simp

/-- Witness for C25: a block of one dimension with two full-range markers, and with
one. -/
theorem subscript_lookup_in_bounds_iff_witness :
    subscript (.arg 0 (.block (.floating 23) [8])) [.full, .full] ⟨[]⟩
      = (.error (.undefined "block_shapes_t::operator[]"), ⟨[]⟩) ∧
    subscript (.arg 0 (.block (.floating 23) [8])) [.full, .newaxis] ⟨[]⟩
      = (.ok (.reshape (.arg 0 (.block (.floating 23) [8])) [8, 1]),
         ⟨[.reshape (.arg 0 (.block (.floating 23) [8])) [8, 1]]⟩) :=
  ⟨((subscript_lookup_in_bounds_iff (.arg 0 (.block (.floating 23) [8])) [.full, .full] ⟨[]⟩
      (.floating 23) [8] rfl (by decide)).2.2 (by decide)).2.1,
   (subscript_lookup_in_bounds_iff (.arg 0 (.block (.floating 23) [8])) [.full, .newaxis] ⟨[]⟩
      (.floating 23) [8] rfl (by decide)).2.1 (by decide)⟩

/-! ### `try_broadcast`, continued -/

/-- C27: whenever `try_broadcast` fails, the builder is what it was before the call:
no splat and no broadcast has been emitted. Both errors are thrown before the first
`create_broadcast`, which comes after the loop over the axes. -/
theorem try_broadcast_atomic_on_failure (lhs rhs : value) (b : builder) (e : error)
    (hfail : (try_broadcast lhs rhs b).1 = .error e) :
    try_broadcast lhs rhs b = (.error e, b) := by
  unfold try_broadcast at hfail ⊢
  cases hl : lhs.get_type with
  | scalar tl =>
    cases hr : rhs.get_type with
    | scalar tr => simp [hl, hr] at hfail
    | block tr rs => simp [hl, hr] at hfail
  | block tl ls =>
    cases hr : rhs.get_type with
    | scalar tr => simp [hl, hr] at hfail
    | block tr rs =>
      simp only [hl, hr] at hfail ⊢
      by_cases hrank : ls.length = rs.length
      · simp only [hrank, ne_eq, not_true_eq_false, if_false] at hfail ⊢
        cases hloop : try_broadcast.loop 0 ls rs [] with
        | error e' =>
          simp only [hloop] at hfail ⊢
          cases hfail
          rfl
        | ok S => simp [hloop] at hfail
      · simp only [ne_eq, hrank, not_false_eq_true, if_true] at hfail ⊢
        cases hfail
        rfl

/-- Witness for C27: shapes (1,4) and (3,5): axis 0 alone would have the left operand
broadcast, axis 1 is incompatible; the builder keeps its one earlier instruction. -/
theorem try_broadcast_atomic_on_failure_witness :
    (try_broadcast.loop 0 [1] [3] [] = .ok [3]) ∧
    try_broadcast (.arg 0 (.block (.floating 23) [1, 4])) (.arg 1 (.block (.floating 23) [3, 5]))
        ⟨[.float32 0]⟩
      = (.error (.runtime_error
          "Cannot make_shape_compatible: incompatible dimensions at index 1: 4 and 5"),
         ⟨[.float32 0]⟩) :=
  ⟨by decide,
   try_broadcast_atomic_on_failure (.arg 0 (.block (.floating 23) [1, 4]))
    (.arg 1 (.block (.floating 23) [3, 5])) ⟨[.float32 0]⟩ _ (by decide)⟩

theorem loop_on_equal_shapes (S : List Nat) :
    ∀ (i : Nat) (acc : List Nat), try_broadcast.loop i S S acc = .ok (acc ++ S) := by
  induction S with
  | nil => intro i acc; simp [try_broadcast.loop]
  | cons s S ih =>
    intro i acc
    unfold try_broadcast.loop
    by_cases h1 : s = 1
    · simp [h1, ih]
    · simp [h1, ih]

theorem try_broadcast_on_equal_shapes (lhs rhs : value) (b : builder) (tl tr : scalar_ty)
    (S : List Nat) (hl : lhs.get_type = .block tl S) (hr : rhs.get_type = .block tr S) :
    try_broadcast lhs rhs b = (.ok (lhs, rhs), b) := by
  have h := try_broadcast_blocks_of_loop_ok lhs rhs b tl tr S S S hl hr rfl
    (by simpa using loop_on_equal_shapes S 0 [])
  simpa using h

/-- C28: on every pair on which `try_broadcast` succeeds, a second call on the pair it
returned emits nothing and returns that pair again: the two values returned are both
scalars or both blocks of one shape. -/
theorem try_broadcast_idempotent (lhs rhs lhs' rhs' : value) (b b' : builder)
    (hok : try_broadcast lhs rhs b = (.ok (lhs', rhs'), b')) :
    try_broadcast lhs' rhs' b' = (.ok (lhs', rhs'), b') ∧
    ((lhs'.get_type.is_block_ty = false ∧ rhs'.get_type.is_block_ty = false) ∨
      ∃ (S : List Nat), lhs'.get_type.get_block_shapes = some S ∧
        rhs'.get_type.get_block_shapes = some S) := by
  have hblocks : ∀ (tl tr : scalar_ty) (S : List Nat), lhs'.get_type = .block tl S →
      rhs'.get_type = .block tr S →
      try_broadcast lhs' rhs' b' = (.ok (lhs', rhs'), b') ∧
      ((lhs'.get_type.is_block_ty = false ∧ rhs'.get_type.is_block_ty = false) ∨
        ∃ (S : List Nat), lhs'.get_type.get_block_shapes = some S ∧
          rhs'.get_type.get_block_shapes = some S) := by
    intro tl tr S h1 h2
    refine ⟨try_broadcast_on_equal_shapes lhs' rhs' b' tl tr S h1 h2, Or.inr ⟨S, ?_, ?_⟩⟩
    · rw [h1]; rfl
    · rw [h2]; rfl
  cases hl : lhs.get_type with
  | scalar tl =>
    cases hr : rhs.get_type with
    | scalar tr =>
      simp only [try_broadcast, hl, hr, Prod.mk.injEq, Except.ok.injEq] at hok
      obtain ⟨⟨h1, h2⟩, h3⟩ := hok
      subst h1; subst h2; subst h3
      refine ⟨by simp [try_broadcast, hl, hr], Or.inl ⟨by simp [hl, type.is_block_ty],
        by simp [hr, type.is_block_ty]⟩⟩
    | block tr rs =>
      simp only [try_broadcast, hl, hr, builder.create_splat, Prod.mk.injEq,
        Except.ok.injEq] at hok
      obtain ⟨⟨h1, h2⟩, h3⟩ := hok
      subst h1; subst h2; subst h3
      exact hblocks tl tr rs (by simp [value.get_type, hl, type.get_scalar_ty, block_type.get]) hr
  | block tl ls =>
    cases hr : rhs.get_type with
    | scalar tr =>
      simp only [try_broadcast, hl, hr, builder.create_splat, Prod.mk.injEq,
        Except.ok.injEq] at hok
      obtain ⟨⟨h1, h2⟩, h3⟩ := hok
      subst h1; subst h2; subst h3
      exact hblocks tl tr ls hl (by simp [value.get_type, hr, type.get_scalar_ty, block_type.get])
    | block tr rs =>
      by_cases hrank : ls.length = rs.length
      · cases hloop : try_broadcast.loop 0 ls rs [] with
        | error e =>
          rw [try_broadcast_blocks_of_loop_error lhs rhs b tl tr ls rs e hl hr hrank hloop] at hok
          simp at hok
        | ok S =>
          rw [try_broadcast_blocks_of_loop_ok lhs rhs b tl tr ls rs S hl hr hrank hloop] at hok
          simp only [Prod.mk.injEq, Except.ok.injEq] at hok
          obtain ⟨⟨h1, h2⟩, _⟩ := hok
          have hl' : lhs'.get_type = .block tl S := by
            rw [← h1]
            by_cases hne : ls = S
            · subst hne
              simp [hl]
            · simp [hne, builder.create_broadcast, value.get_type, hl, type.get_scalar_ty,
                block_type.get]
          have hr' : rhs'.get_type = .block tr S := by
            rw [← h2]
            by_cases hne : rs = S
            · subst hne
              simp [hr]
            · simp [hne, builder.create_broadcast, value.get_type, hr, type.get_scalar_ty,
                block_type.get]
          exact hblocks tl tr S hl' hr'
      · rw [try_broadcast_blocks_of_rank_ne lhs rhs b tl tr ls rs hl hr hrank] at hok
        simp at hok

/-- Witness for C28: shapes (1,4) and (3,1), on which the first call broadcasts both
operands to (3,4). -/
theorem try_broadcast_idempotent_witness :
    try_broadcast (.arg 0 (.block (.floating 23) [1, 4])) (.arg 1 (.block (.floating 23) [3, 1]))
        ⟨[]⟩
      = (.ok (.broadcast (.arg 0 (.block (.floating 23) [1, 4])) [3, 4],
              .broadcast (.arg 1 (.block (.floating 23) [3, 1])) [3, 4]),
         ⟨[.broadcast (.arg 0 (.block (.floating 23) [1, 4])) [3, 4],
           .broadcast (.arg 1 (.block (.floating 23) [3, 1])) [3, 4]]⟩) ∧
    try_broadcast (.broadcast (.arg 0 (.block (.floating 23) [1, 4])) [3, 4])
        (.broadcast (.arg 1 (.block (.floating 23) [3, 1])) [3, 4])
        ⟨[.broadcast (.arg 0 (.block (.floating 23) [1, 4])) [3, 4],
          .broadcast (.arg 1 (.block (.floating 23) [3, 1])) [3, 4]]⟩
      = (.ok (.broadcast (.arg 0 (.block (.floating 23) [1, 4])) [3, 4],
              .broadcast (.arg 1 (.block (.floating 23) [3, 1])) [3, 4]),
         ⟨[.broadcast (.arg 0 (.block (.floating 23) [1, 4])) [3, 4],
           .broadcast (.arg 1 (.block (.floating 23) [3, 1])) [3, 4]]⟩) :=
  ⟨by decide,
   (try_broadcast_idempotent (.arg 0 (.block (.floating 23) [1, 4]))
    (.arg 1 (.block (.floating 23) [3, 1])) _ _ ⟨[]⟩ _ (by decide)).1⟩

/-! ### `recursive_clone`: where the clones are placed -/

namespace codegen

namespace transform

/-- C22: the clones that `recursive_clone` inserts do not always stand after the
clones of their operands. In `example_diamond` the root 5 has the operands 3 and 4,
which both use the instruction 2. The clone 7 of the root goes before the branch, the
clone 8 of 3 before 7, the clone 9 of 2 before 8; the builder is then left standing
before 9, so the clone 10 of the operand 4 is inserted there: it has the clone 9 as
operand 0 and stands before it. Without the shared instruction (the root 3, whose
operands form a chain) definitions precede uses. -/
theorem recursive_clone_places_use_before_definition :
    (recursive_clone 4 (.inst 5) 1 example_diamond).toOption.map
        (fun r => (r.1, r.2.block_insts 1))
      = some (.inst 7, [1, 2, 3, 4, 5, 10, 9, 8, 7, 6]) ∧
    (recursive_clone 4 (.inst 5) 1 example_diamond).toOption.map
        (fun r => ((r.2.insts[10]?).map fun x => (x.op, x.ops),
          (r.2.insts[9]?).map fun x => (x.op, x.ops)))
      = some (some (.other 4, [.inst 9, .other 3 (.scalar (.integer 32))]),
          some (.other 2, [.inst 2, .other 1 (.scalar (.integer 32))])) ∧
    (recursive_clone 4 (.inst 5) 1 example_diamond).toOption.map
        (fun r => r.2.uses_follow_definitions example_diamond.insts.length (r.2.block_insts 1))
      = some false ∧
    (recursive_clone 4 (.inst 3) 1 example_diamond).toOption.map
        (fun r => (r.2.block_insts 1,
          r.2.uses_follow_definitions example_diamond.insts.length (r.2.block_insts 1)))
      = some ([1, 2, 3, 4, 5, 8, 7, 6], true) := by
  refine ⟨by decide, by decide, by decide, by decide⟩

end transform

end codegen

/-! ### The pipelining pass: what it leaves in place -/

namespace codegen

theorem block_frame.same (m : module) : block_frame m m :=
  ⟨rfl, fun _ bb hb => ⟨bb, hb, rfl, List.Sublist.refl _⟩⟩

theorem block_frame.of_blocks_eq {m m' : module} (h : m'.blocks = m.blocks) :
    block_frame m m' := by
  refine ⟨by rw [h], fun b bb hb => ⟨bb, by rw [h]; exact hb, rfl, List.Sublist.refl _⟩⟩

theorem block_frame.followed {m₁ m₂ m₃ : module} (h₁ : block_frame m₁ m₂)
    (h₂ : block_frame m₂ m₃) : block_frame m₁ m₃ := by
  refine ⟨by rw [h₂.1, h₁.1], fun b bb hb => ?_⟩
  obtain ⟨bb', hb', hp', hs'⟩ := h₁.2 b bb hb
  obtain ⟨bb'', hb'', hp'', hs''⟩ := h₂.2 b bb' hb'
  exact ⟨bb'', hb'', hp''.trans hp', hs'.trans hs''⟩

theorem sublist_insert_at (x : Nat) (pos : Option Nat) (l : List Nat) :
    l.Sublist (insert_at x pos l) := by
  cases pos with
  | none => simp [insert_at]
  | some p =>
    induction l with
    | nil => simp [insert_at]
    | cons a l ih =>
      unfold insert_at
      by_cases h : a = p
      · simp [h]
      · simp only [h, if_false]
        exact List.Sublist.cons₂ a ih

theorem insert_block_frame (m : module) (x : instruction) (n : Nat) (m₁ : module)
    (h : m.insert x = .ok (n, m₁)) : block_frame m m₁ := by
  obtain ⟨c, pos, cb, hc, hcb, hn, hi, hbl, hip⟩ := insert_inv m x n m₁ h
  refine ⟨by rw [hbl]; simp, fun b bb hb => ?_⟩
  have hlt := get_lt_of_some _ _ _ hb
  by_cases hcb' : c = b
  · subst hcb'
    rw [hb] at hcb
    have hbb : cb = bb := (Option.some.inj hcb).symm
    rw [hbb] at hbl
    refine ⟨{ bb with insts := insert_at n pos bb.insts }, ?_, rfl, sublist_insert_at _ _ _⟩
    rw [hbl]
    simp [List.getElem?_set, hlt]
  · refine ⟨bb, ?_, rfl, List.Sublist.refl _⟩
    rw [hbl]
    simp [List.getElem?_set, hcb', hb]

theorem set_insert_point_blocks (m m' : module) (i : Nat)
    (h : m.set_insert_point i = .ok m') : m'.blocks = m.blocks := by
  unfold module.set_insert_point at h
  obtain ⟨x, _, h⟩ := bind_ok_inv _ _ _ h
  cases h
  rfl

theorem replace_uses_of_with_blocks (m m' : module) (u : Nat) (a b : value)
    (h : m.replace_uses_of_with u a b = .ok m') : m'.blocks = m.blocks := by
  unfold module.replace_uses_of_with at h
  obtain ⟨x, _, h⟩ := bind_ok_inv _ _ _ h
  cases h
  rfl

theorem add_incoming_blocks (m m' : module) (phi : Nat) (v : value) (block : Nat)
    (h : m.add_incoming phi v block = .ok m') : m'.blocks = m.blocks := by
  unfold module.add_incoming at h
  obtain ⟨x, _, h⟩ := bind_ok_inv _ _ _ h
  cases h
  rfl

namespace transform

theorem clone_ops_block_frame
    (rec : value → clones_t → module → Except error (value × clones_t × module))
    (hrec : ∀ (op : value) (c : clones_t) (m : module) (v : value) (c' : clones_t)
      (m' : module), rec op c m = .ok (v, c', m') → block_frame m m')
    (ret : Nat) :
    ∀ (ops : List value) (clones : clones_t) (m : module) (c' : clones_t) (m' : module),
      clone_ops rec ret ops clones m = .ok (c', m') → block_frame m m' := by
  intro ops
  induction ops with
  | nil =>
    intro clones m c' m' h
    simp only [clone_ops, Except.ok.injEq, Prod.mk.injEq] at h
    rw [← h.2]
    exact block_frame.same m
  | cons op ops ih =>
    intro clones m c' m' h
    unfold clone_ops at h
    obtain ⟨r, hr, h⟩ := bind_ok_inv _ _ _ h
    obtain ⟨new_op, c₁, m₁⟩ := r
    dsimp only at h
    obtain ⟨m₂, h2, h⟩ := bind_ok_inv _ _ _ h
    exact ((hrec op clones m new_op c₁ m₁ hr).followed
      (block_frame.of_blocks_eq (replace_uses_of_with_blocks _ _ _ _ _ h2))).followed
      (ih c₁ m₂ c' m' h)

theorem _recursive_clone_block_frame :
    ∀ (fuel : Nat) (root : value) (clones : clones_t) (blk : Nat) (m : module) (v : value)
      (c' : clones_t) (m' : module),
      _recursive_clone fuel root clones blk m = .ok (v, c', m') → block_frame m m' := by
  intro fuel
  induction fuel with
  | zero => intro root clones blk m v c' m' h; simp [_recursive_clone] at h
  | succ f ih =>
    intro root clones blk m v c' m' h
    unfold _recursive_clone at h
    unfold _recursive_clone.body at h
    cases hfind : clones_t.find clones root with
    | some w =>
      simp only [hfind, Except.ok.injEq, Prod.mk.injEq] at h
      rw [← h.2.2]
      exact block_frame.same m
    | none =>
      simp only [hfind] at h
      cases root with
      | inst i =>
        dsimp only at h
        obtain ⟨x, hx, h⟩ := bind_ok_inv _ _ _ h
        by_cases hphi : x.op = .phi
        · simp only [hphi, if_true] at h
          obtain ⟨n, _, h⟩ := bind_ok_inv _ _ _ h
          obtain ⟨ret, _, h⟩ := bind_ok_inv _ _ _ h
          simp only [Except.ok.injEq, Prod.mk.injEq] at h
          rw [← h.2.2]
          exact block_frame.same m
        · simp only [hphi, if_false] at h
          obtain ⟨r, hins, h⟩ := bind_ok_inv _ _ _ h
          obtain ⟨ret, m₁⟩ := r
          dsimp only at h
          obtain ⟨m₂, hsip, h⟩ := bind_ok_inv _ _ _ h
          obtain ⟨r, hops, h⟩ := bind_ok_inv _ _ _ h
          obtain ⟨c₁, m₃⟩ := r
          simp only [Except.ok.injEq, Prod.mk.injEq] at h
          rw [← h.2.2]
          exact ((insert_block_frame m x ret m₁ hins).followed
            (block_frame.of_blocks_eq (set_insert_point_blocks m₁ m₂ ret hsip))).followed
            (clone_ops_block_frame (fun op clones m => _recursive_clone f op clones blk m)
              (fun op c mk w c'' mk' hrec => ih op c blk mk w c'' mk' hrec)
              ret x.ops clones m₂ c₁ m₃ hops)
      | undef ty =>
        simp only [Except.ok.injEq, Prod.mk.injEq] at h
        rw [← h.2.2]
        exact block_frame.same m
      | int1 w =>
        simp only [Except.ok.injEq, Prod.mk.injEq] at h
        rw [← h.2.2]
        exact block_frame.same m
      | other id ty =>
        simp only [Except.ok.injEq, Prod.mk.injEq] at h
        rw [← h.2.2]
        exact block_frame.same m

theorem recursive_clone_block_frame (fuel : Nat) (root : value) (blk : Nat) (m : module)
    (v : value) (m' : module) (h : recursive_clone fuel root blk m = .ok (v, m')) :
    block_frame m m' := by
  unfold recursive_clone at h
  obtain ⟨r, hr, h⟩ := bind_ok_inv _ _ _ h
  obtain ⟨w, c, m₁⟩ := r
  simp only [Except.ok.injEq, Prod.mk.injEq] at h
  rw [← h.2]
  exact _recursive_clone_block_frame fuel root [] blk m w c m₁ hr

namespace pipeline

theorem set_insert_point_back_blocks (m m' : module) (b : Nat)
    (h : set_insert_point_back m b = .ok m') : m'.blocks = m.blocks := by
  unfold set_insert_point_back at h
  obtain ⟨bb, _, h⟩ := bind_ok_inv _ _ _ h
  obtain ⟨t, _, h⟩ := bind_ok_inv _ _ _ h
  exact set_insert_point_blocks m m' t h

theorem and_mask_block_frame (m m' : module) (v v' : value) (mask : Option value)
    (h : and_mask m v mask = .ok (v', m')) : block_frame m m' := by
  cases mask with
  | none =>
    simp only [and_mask, Except.ok.injEq, Prod.mk.injEq] at h
    rw [← h.2]
    exact block_frame.same m
  | some k =>
    unfold and_mask at h
    obtain ⟨r, hr, h⟩ := bind_ok_inv _ _ _ h
    obtain ⟨a, m₁⟩ := r
    simp only [Except.ok.injEq, Prod.mk.injEq] at h
    rw [← h.2]
    exact insert_block_frame m _ a m₁ hr

theorem make_false_value_block_frame (m m' : module) (ty : ir.type) (fv : Option value)
    (v' : value) (h : make_false_value m ty fv = .ok (v', m')) : block_frame m m' := by
  cases fv with
  | some k =>
    simp only [make_false_value, Except.ok.injEq, Prod.mk.injEq] at h
    rw [← h.2]
    exact block_frame.same m
  | none =>
    unfold make_false_value at h
    obtain ⟨shapes, _, h⟩ := bind_ok_inv _ _ _ h
    obtain ⟨r, hr, h⟩ := bind_ok_inv _ _ _ h
    obtain ⟨s, m₁⟩ := r
    simp only [Except.ok.injEq, Prod.mk.injEq] at h
    rw [← h.2]
    exact insert_block_frame m _ s m₁ hr

theorem prefetch_block_frame (m m' : module) (ty : ir.type) (ptr fv : value) (f : Nat)
    (h : prefetch m ty ptr fv = .ok (f, m')) : block_frame m m' := by
  unfold prefetch at h
  obtain ⟨shapes, _, h⟩ := bind_ok_inv _ _ _ h
  obtain ⟨r, hr, h⟩ := bind_ok_inv _ _ _ h
  obtain ⟨k, m₁⟩ := r
  dsimp only at h
  exact (insert_block_frame m _ k m₁ hr).followed (insert_block_frame m₁ _ f m' h)

theorem merge_block_frame (m m' : module) (ty : ir.type) (L fl nl H B : Nat)
    (h : merge m ty L fl nl H B = .ok m') : block_frame m m' := by
  unfold merge at h
  obtain ⟨bb, _, h⟩ := bind_ok_inv _ _ _ h
  obtain ⟨first_non_phi, _, h⟩ := bind_ok_inv _ _ _ h
  obtain ⟨m₁, h1, h⟩ := bind_ok_inv _ _ _ h
  obtain ⟨r, h2, h⟩ := bind_ok_inv _ _ _ h
  obtain ⟨q, m₂⟩ := r
  dsimp only at h
  obtain ⟨m₃, h3, h⟩ := bind_ok_inv _ _ _ h
  obtain ⟨m₄, h4, h⟩ := bind_ok_inv _ _ _ h
  simp only [Except.ok.injEq] at h
  rw [← h]
  exact ((((block_frame.of_blocks_eq (set_insert_point_blocks m m₁ _ h1)).followed
    (insert_block_frame m₁ _ q m₂ h2)).followed
    (block_frame.of_blocks_eq (add_incoming_blocks m₂ m₃ _ _ _ h3))).followed
    (block_frame.of_blocks_eq (add_incoming_blocks m₃ m₄ _ _ _ h4))).followed
    (block_frame.of_blocks_eq rfl)

theorem rewrite_shape (fuel : Nat) (m m' : module) (info : pipe_info_t)
    (h : rewrite fuel m info = .ok m') :
    ∃ (m₁ : module) (phi : instruction), keeps m m₁ ∧ block_frame m m' ∧ phi.op = .phi ∧
      info.load < m.insts.length ∧
      m'.insts = (m₁.insts ++ [phi]).map
        (fun (x : instruction) =>
          x.replace_uses_of_with (.inst info.load) (.inst m₁.insts.length)) := by
  unfold rewrite at h
  obtain ⟨back_edge, _, h⟩ := bind_ok_inv _ _ _ h
  obtain ⟨header, _, h⟩ := bind_ok_inv _ _ _ h
  obtain ⟨block, _, h⟩ := bind_ok_inv _ _ _ h
  obtain ⟨ptr, _, h⟩ := bind_ok_inv _ _ _ h
  obtain ⟨br, _, h⟩ := bind_ok_inv _ _ _ h
  obtain ⟨cond, _, h⟩ := bind_ok_inv _ _ _ h
  obtain ⟨load, hload, h⟩ := bind_ok_inv _ _ _ h
  dsimp only at h
  have hload := defined_ok_inv _ _ _ hload
  obtain ⟨m₁, h1, h⟩ := bind_ok_inv _ _ _ h
  obtain ⟨r, h2, h⟩ := bind_ok_inv _ _ _ h
  obtain ⟨first_ptr, m₂⟩ := r
  dsimp only at h
  obtain ⟨r, h3, h⟩ := bind_ok_inv _ _ _ h
  obtain ⟨first_mask, m₃⟩ := r
  dsimp only at h
  obtain ⟨r, h4, h⟩ := bind_ok_inv _ _ _ h
  obtain ⟨fm, m₄⟩ := r
  dsimp only at h
  obtain ⟨r, h5, h⟩ := bind_ok_inv _ _ _ h
  obtain ⟨fv, m₅⟩ := r
  dsimp only at h
  obtain ⟨m₆, h6, h⟩ := bind_ok_inv _ _ _ h
  obtain ⟨r, h7, h⟩ := bind_ok_inv _ _ _ h
  obtain ⟨fl, m₇⟩ := r
  dsimp only at h
  obtain ⟨m₈, h8, h⟩ := bind_ok_inv _ _ _ h
  obtain ⟨r, h9, h⟩ := bind_ok_inv _ _ _ h
  obtain ⟨next_ptr, m₉⟩ := r
  dsimp only at h
  obtain ⟨r, h10, h⟩ := bind_ok_inv _ _ _ h
  obtain ⟨next_mask, m₁₀⟩ := r
  dsimp only at h
  obtain ⟨r, h11, h⟩ := bind_ok_inv _ _ _ h
  obtain ⟨nm, m₁₁⟩ := r
  dsimp only at h
  obtain ⟨m₁₂, h12, h⟩ := bind_ok_inv _ _ _ h
  obtain ⟨r, h13, h⟩ := bind_ok_inv _ _ _ h
  obtain ⟨nl, m₁₃⟩ := r
  dsimp only at h
  have k : keeps m m₁₃ :=
    ((((((((((((keeps_of_insts_eq (set_insert_point_back_insts m m₁ header h1)).chain
      (recursive_clone_keeps fuel _ header m₁ first_ptr m₂ h2)).chain
      (recursive_clone_keeps fuel cond header m₂ first_mask m₃ h3)).chain
      (and_mask_keeps m₃ m₄ first_mask fm info.mask h4)).chain
      (make_false_value_inv m₄ m₅ load.ty info.false_value fv h5).1).chain
      (keeps_of_insts_eq (set_insert_point_back_insts m₅ m₆ header h6))).chain
      (by obtain ⟨_, _, _, _, hk, _⟩ := prefetch_inv m₆ m₇ load.ty first_ptr fv fl h7
          exact hk)).chain
      (keeps_of_insts_eq (set_insert_point_back_insts m₇ m₈ block h8))).chain
      (recursive_clone_keeps fuel _ block m₈ next_ptr m₉ h9)).chain
      (recursive_clone_keeps fuel cond block m₉ next_mask m₁₀ h10)).chain
      (and_mask_keeps m₁₀ m₁₁ next_mask nm info.mask h11)).chain
      (keeps_of_insts_eq (set_insert_point_back_insts m₁₁ m₁₂ block h12))).chain
      (by obtain ⟨_, _, _, _, hk, _⟩ := prefetch_inv m₁₂ m₁₃ load.ty next_ptr fv nl h13
          exact hk)
  have f : block_frame m m' :=
    (((((((((((((block_frame.of_blocks_eq (set_insert_point_back_blocks m m₁ header h1)).followed
      (recursive_clone_block_frame fuel _ header m₁ first_ptr m₂ h2)).followed
      (recursive_clone_block_frame fuel cond header m₂ first_mask m₃ h3)).followed
      (and_mask_block_frame m₃ m₄ first_mask fm info.mask h4)).followed
      (make_false_value_block_frame m₄ m₅ load.ty info.false_value fv h5)).followed
      (block_frame.of_blocks_eq (set_insert_point_back_blocks m₅ m₆ header h6))).followed
      (prefetch_block_frame m₆ m₇ load.ty first_ptr fv fl h7)).followed
      (block_frame.of_blocks_eq (set_insert_point_back_blocks m₇ m₈ block h8))).followed
      (recursive_clone_block_frame fuel _ block m₈ next_ptr m₉ h9)).followed
      (recursive_clone_block_frame fuel cond block m₉ next_mask m₁₀ h10)).followed
      (and_mask_block_frame m₁₀ m₁₁ next_mask nm info.mask h11)).followed
      (block_frame.of_blocks_eq (set_insert_point_back_blocks m₁₁ m₁₂ block h12))).followed
      (prefetch_block_frame m₁₂ m₁₃ load.ty next_ptr fv nl h13)).followed
      (merge_block_frame m₁₃ m' load.ty info.load fl nl header block h)
  obtain ⟨b, hmerge⟩ := merge_inv m₁₃ m' load.ty info.load fl nl header block h
  exact ⟨m₁₃, _, k, f, rfl, get_lt_of_some _ _ _ hload, hmerge⟩

theorem instructions_kept_grows {m m' : module} (h : instructions_kept m m') :
    m.insts.length ≤ m'.insts.length := by
  by_contra hlt
  push_neg at hlt
  have hx : m.insts[m'.insts.length]? = some (m.insts[m'.insts.length]) :=
    List.getElem?_eq_getElem hlt
  obtain ⟨x', hx', _⟩ := h _ _ hx
  simp at hx'

theorem instructions_kept_same (m : module) : instructions_kept m m :=
  fun _ x hx => ⟨x, hx, rfl, rfl, rfl, rfl, List.forall₂_same.mpr fun _ _ => Or.inl rfl⟩

theorem instructions_kept_step (m₀ m m₁ m' : module) (L : Nat) (phi : instruction)
    (hkept : instructions_kept m₀ m) (hk : keeps m m₁) (hphi : phi.op = .phi)
    (hload : m₀.is_load L = true) (hL : L < m₀.insts.length)
    (hm : m'.insts = (m₁.insts ++ [phi]).map
      (fun (x : instruction) => x.replace_uses_of_with (.inst L) (.inst m₁.insts.length))) :
    instructions_kept m₀ m' := by
  have hn : m₀.insts.length ≤ m₁.insts.length := le_trans (instructions_kept_grows hkept) hk.grows
  have hold : ∀ (i : Nat) (y : instruction), m₁.insts[i]? = some y →
      m'.insts[i]? = some (y.replace_uses_of_with (.inst L) (.inst m₁.insts.length)) := by
    intro i y hy
    rw [hm, List.getElem?_map, List.getElem?_append_left (get_lt_of_some _ _ _ hy), hy]
    rfl
  have hq : m'.is_phi m₁.insts.length = true := by
    simp [module.is_phi, hm, List.getElem?_map, List.getElem?_concat_length,
      instruction.replace_uses_of_with, hphi]
  intro i x hx
  obtain ⟨x', hx', hop, hty, hbl, hpar, hops⟩ := hkept i x hx
  refine ⟨x'.replace_uses_of_with (.inst L) (.inst m₁.insts.length), hold i x' (hk i x' hx'),
    hop, hty, hbl, hpar, ?_⟩
  simp only [instruction.replace_uses_of_with, List.forall₂_map_right_iff]
  refine hops.imp ?_
  intro o o' hstep
  rcases hstep with he | ⟨L₀, q₀, ho, hl₀, hlt₀, ho', hq₀, hphi₀⟩
  · subst he
    by_cases hoL : o' = .inst L
    · right
      exact ⟨L, m₁.insts.length, hoL, hload, hL, by simp [hoL], hn, hq⟩
    · left
      simp [hoL]
  · right
    have hne : ¬ (q₀ = L) := by omega
    refine ⟨L₀, q₀, ho, hl₀, hlt₀, by simp [ho', hne], hq₀, ?_⟩
    simp only [module.is_phi] at hphi₀ ⊢
    cases hy : m.insts[q₀]? with
    | none => simp [hy] at hphi₀
    | some y =>
      rw [hold q₀ y (hk q₀ y hy)]
      simpa [hy, instruction.replace_uses_of_with] using hphi₀

theorem rewrite_all_frame (fuel : Nat) (m₀ : module) :
    ∀ (infos : List pipe_info_t) (m m' : module),
      (∀ info ∈ infos, m₀.is_load info.load = true ∧ info.load < m₀.insts.length) →
      instructions_kept m₀ m → block_frame m₀ m → rewrite_all fuel m infos = .ok m' →
      instructions_kept m₀ m' ∧ block_frame m₀ m' := by
  intro infos
  induction infos with
  | nil =>
    intro m m' _ hk hf h
    simp only [rewrite_all, Except.ok.injEq] at h
    subst h
    exact ⟨hk, hf⟩
  | cons info rest ih =>
    intro m m' hinfos hk hf h
    unfold rewrite_all at h
    obtain ⟨m₁, hrw, h⟩ := bind_ok_inv _ _ _ h
    obtain ⟨mp, phi, hkeeps, hframe, hphi, _, hm⟩ := rewrite_shape fuel m m₁ info hrw
    obtain ⟨hload, hL⟩ := hinfos info (by simp)
    exact ih m₁ m' (fun i hi => hinfos i (by simp [hi]))
      (instructions_kept_step m₀ m mp m₁ info.load phi hk hkeeps hphi hload hL hm)
      (hf.followed hframe) h

theorem forall₂_length_eq {α : Type} (R : α → α → Prop) (l l' : List α)
    (h : List.Forall₂ R l l') : l'.length = l.length := by
  induction h with
  | nil => rfl
  | cons _ _ ih => simp [ih]

theorem forall₂_eq_of_imp {α : Type} (R : α → α → Prop) (l l' : List α)
    (h : List.Forall₂ R l l') : (∀ o ∈ l, ∀ (o' : α), R o o' → o' = o) → l' = l := by
  induction h with
  | nil => intro _; rfl
  | cons hab _ ih =>
    intro himp
    rw [himp _ (by simp) _ hab, ih (fun o ho o' hr => himp o (by simp [ho]) o' hr)]

/-- C24 (as amended): when `pipeline::run` returns, every instruction that existed
before the pass, the pipelined loads included, exists afterwards under the same
identity, with its kind, type and parent block; each of its operands is what it was,
unless it was a load of the module and now is a phi node allocated by the pass, so
that an instruction none of whose operands is a load has its original operands. No
block is added or removed, and the instruction list of every block is a sublist of
its list after the pass: nothing is removed and nothing changes its relative order. -/
theorem run_only_inserts_and_redirects (fuel : Nat) (m : module)
    (hok : (run fuel m).toOption.isSome = true) :
    ∃ (m' : module), run fuel m = .ok m' ∧
      (∀ (i : Nat) (x : instruction), m.insts[i]? = some x →
        ∃ (x' : instruction), m'.insts[i]? = some x' ∧ x'.op = x.op ∧ x'.ty = x.ty ∧
          x'.blocks = x.blocks ∧ x'.parent = x.parent ∧
          x'.ops.length = x.ops.length ∧
          (∀ (j : Nat) (o : value), x.ops[j]? = some o →
            x'.ops[j]? = some o ∨
            ∃ (L q : Nat), o = .inst L ∧ m.is_load L = true ∧
              x'.ops[j]? = some (.inst q) ∧ m.insts.length ≤ q ∧ m'.is_phi q = true) ∧
          ((∀ (L : Nat), value.inst L ∈ x.ops → m.is_load L = false) → x'.ops = x.ops)) ∧
      m'.blocks.length = m.blocks.length ∧
      ∀ (b : Nat) (bb : basic_block), m.blocks[b]? = some bb →
        ∃ (bb' : basic_block), m'.blocks[b]? = some bb' ∧ bb'.preds = bb.preds ∧
          bb.insts.Sublist bb'.insts := by
  cases hr : run fuel m with
  | error e => simp [hr, Except.toOption] at hok
  | ok m' =>
    refine ⟨m', rfl, ?_⟩
    unfold run at hr
    obtain ⟨infos, hcollect, hra⟩ := bind_ok_inv _ _ _ hr
    have hrec := collect_recorded m m.all_insts [] infos hcollect (fun i hi => by simp at hi)
    have hloads : ∀ info ∈ infos, m.is_load info.load = true ∧ info.load < m.insts.length := by
      intro info hin
      obtain ⟨⟨x, hx, hop, _⟩, _⟩ := hrec info hin
      refine ⟨?_, get_lt_of_some _ _ _ hx⟩
      rcases hop with hop | hop <;> simp [module.is_load, hx, hop]
    obtain ⟨hkept, hlen, hblocks⟩ := rewrite_all_frame fuel m infos m m' hloads
      (instructions_kept_same m) (block_frame.same m) hra
    refine ⟨?_, hlen, hblocks⟩
    intro i x hx
    obtain ⟨x', hx', hop, hty, hbl, hpar, hops⟩ := hkept i x hx
    refine ⟨x', hx', hop, hty, hbl, hpar, forall₂_length_eq _ _ _ hops, ?_, ?_⟩
    · intro j o ho
      obtain ⟨o', ho', hstep⟩ := forall₂_getElem? _ _ _ hops j o ho
      rcases hstep with he | ⟨L, q, hoL, hload, _, hoq, hq, hphi⟩
      · left
        rw [ho', he]
      · right
        exact ⟨L, q, hoL, hload, by rw [ho', hoq], hq, hphi⟩
    · intro hno
      refine forall₂_eq_of_imp _ _ _ hops ?_
      intro o ho o' hstep
      rcases hstep with he | ⟨L, q, hoL, hload, _⟩
      · exact he
      · rw [hoL] at ho
        rw [hno L ho] at hload
        cases hload

/-- Witness for C24 (as amended): `example_two_loads`, on which the pass returns; the
loop body keeps its twelve instructions in their order, the new ones standing among
them. -/
theorem run_only_inserts_and_redirects_witness :
    (run 3 example_two_loads).toOption.isSome = true ∧
    (example_two_loads.block_insts 1,
      (run 3 example_two_loads).toOption.map fun m' => m'.block_insts 1)
      = ([1, 2, 3, 4, 5, 6, 7, 8, 9, 10, 11],
         some [1, 2, 3, 22, 33, 4, 5, 6, 7, 8, 9, 10, 19, 18, 20, 21, 30, 29, 28, 31, 32, 11]) ∧
    ∃ (m' : module), run 3 example_two_loads = .ok m' ∧
      (∀ (i : Nat) (x : instruction), example_two_loads.insts[i]? = some x →
        ∃ (x' : instruction), m'.insts[i]? = some x' ∧ x'.op = x.op ∧ x'.ty = x.ty ∧
          x'.blocks = x.blocks ∧ x'.parent = x.parent ∧
          x'.ops.length = x.ops.length ∧
          (∀ (j : Nat) (o : value), x.ops[j]? = some o →
            x'.ops[j]? = some o ∨
            ∃ (L q : Nat), o = .inst L ∧ example_two_loads.is_load L = true ∧
              x'.ops[j]? = some (.inst q) ∧ example_two_loads.insts.length ≤ q ∧ m'.is_phi q = true) ∧
          ((∀ (L : Nat), value.inst L ∈ x.ops → example_two_loads.is_load L = false) → x'.ops = x.ops)) ∧
      m'.blocks.length = example_two_loads.blocks.length ∧
      ∀ (b : Nat) (bb : basic_block), example_two_loads.blocks[b]? = some bb →
        ∃ (bb' : basic_block), m'.blocks[b]? = some bb' ∧ bb'.preds = bb.preds ∧
          bb.insts.Sublist bb'.insts :=
  ⟨by decide, by decide, run_only_inserts_and_redirects 3 example_two_loads (by decide)⟩

/-- Counterexample for C24: in `example_two_loads` the pass pipelines the load 4 and
the masked load 5, whose mask operand is the load 4. After the pass the load 5 is
still instruction 5, but its mask operand is the phi node 22 created for the load 4:
the pipelined load 5 does not have its original operands. -/
theorem run_redirects_operand_of_load_counterexample :
    collect example_two_loads example_two_loads.all_insts []
      = .ok example_two_loads_worklist ∧
    example_two_loads_worklist.map (fun info => info.load) = [4, 5] ∧
    (example_two_loads.insts[5]?).map (fun x => (x.op, x.ops))
      = some (.masked_load, [.inst 2, .inst 4, .other 3 (.block (.floating 23) [4])]) ∧
    (run 3 example_two_loads).toOption.map
        (fun m' => ((m'.insts[5]?).map fun x => (x.op, x.ops), m'.is_phi 22))
      = some (some (.masked_load, [.inst 2, .inst 22, .other 3 (.block (.floating 23) [4])]),
          true) := by
  refine ⟨by decide, by decide, by decide, by decide⟩

end pipeline

end transform

end codegen

/-! ### `_recursive_clone`: the memo table, the number of clones and of calls -/

namespace codegen

namespace transform

theorem clone_ops_counted_erase
    (recC : value → clones_t → module → Except error (Nat × value × clones_t × module))
    (rec : value → clones_t → module → Except error (value × clones_t × module))
    (hrec : ∀ (op : value) (c : clones_t) (m : module),
      (recC op c m).map (fun r => r.2) = rec op c m) (ret : Nat) :
    ∀ (ops : List value) (c : clones_t) (m : module),
      (clone_ops_counted recC ret ops c m).map (fun r => r.2) = clone_ops rec ret ops c m := by
  intro ops
  induction ops with
  | nil => intro c m; rfl
  | cons op ops ih =>
    intro c m
    unfold clone_ops_counted clone_ops
    rw [← hrec op c m]
    cases recC op c m with
    | error e => rfl
    | ok r =>
      obtain ⟨k, new_op, c₁, m₁⟩ := r
      simp only [Except.map, bind, Except.bind]
      cases m₁.replace_uses_of_with ret op new_op with
      | error e => rfl
      | ok m₂ =>
        simp only []
        rw [← ih c₁ m₂]
        cases clone_ops_counted recC ret ops c₁ m₂ with
        | error e => rfl
        | ok r' => rfl

theorem _recursive_clone_counted_erase :
    ∀ (fuel : Nat) (root : value) (c : clones_t) (blk : Nat) (m : module),
      (_recursive_clone_counted fuel root c blk m).map (fun r => r.2)
        = _recursive_clone fuel root c blk m := by
  intro fuel
  induction fuel with
  | zero => intro root c blk m; rfl
  | succ f ih =>
    intro root c blk m
    unfold _recursive_clone_counted _recursive_clone
    unfold _recursive_clone_counted.body _recursive_clone.body
    cases hfind : clones_t.find c root with
    | some w => rfl
    | none =>
      cases root with
      | inst i =>
        simp only [bind, Except.bind]
        cases m.get_inst i with
        | error e => rfl
        | ok x =>
          simp only []
          by_cases hphi : x.op = .phi
          · simp only [hphi, if_true]
            cases x.find_incoming blk with
            | error e => rfl
            | ok n =>
              simp only []
              cases x.get_incoming_value n with
              | error e => rfl
              | ok ret => rfl
          · simp only [hphi, if_false]
            cases m.insert x with
            | error e => rfl
            | ok r =>
              obtain ⟨ret, m₁⟩ := r
              simp only []
              cases m₁.set_insert_point ret with
              | error e => rfl
              | ok m₂ =>
                simp only []
                rw [← clone_ops_counted_erase
                  (fun op clones m => _recursive_clone_counted f op clones blk m)
                  (fun op clones m => _recursive_clone f op clones blk m)
                  (fun op c' m' => ih op c' blk m') ret x.ops c m₂]
                cases clone_ops_counted
                  (fun op clones m => _recursive_clone_counted f op clones blk m) ret x.ops c m₂ with
                | error e => rfl
                | ok r' => rfl
      | undef ty => rfl
      | int1 w => rfl
      | other id ty => rfl

theorem _recursive_clone_counted_of_ok (fuel : Nat) (root : value) (c : clones_t) (blk : Nat)
    (m : module) (v : value) (c' : clones_t) (m' : module)
    (h : _recursive_clone fuel root c blk m = .ok (v, c', m')) :
    ∃ (k : Nat), _recursive_clone_counted fuel root c blk m = .ok (k, v, c', m') := by
  rw [← _recursive_clone_counted_erase fuel root c blk m] at h
  cases hc : _recursive_clone_counted fuel root c blk m with
  | error e => simp [hc, Except.map] at h
  | ok r =>
    obtain ⟨k, r'⟩ := r
    simp only [hc, Except.map, Except.ok.injEq] at h
    exact ⟨k, by rw [h]⟩

theorem cloneable_mono (m : module) (blk : Nat) :
    ∀ (d : Nat) (v : value), cloneable d m blk v = true → cloneable (d + 1) m blk v = true := by
  intro d
  induction d with
  | zero => intro v h; simp [cloneable] at h
  | succ d ih =>
    intro v h
    cases v with
    | inst i =>
      unfold cloneable at h ⊢
      cases hx : m.insts[i]? with
      | none => simp [hx] at h
      | some x =>
        simp only [hx] at h ⊢
        by_cases hphi : x.op = .phi
        · simpa [hphi] using h
        · simp only [hphi, if_false, List.all_eq_true] at h ⊢
          exact fun op hop => ih op (h op hop)
    | undef ty => simp [cloneable]
    | int1 w => simp [cloneable]
    | other id ty => simp [cloneable]

theorem mem_reachable_non_phi (m : module) (d : Nat) (i : Nat) (x : instruction) (j : Nat)
    (hx : m.insts[i]? = some x) (hphi : x.op ≠ .phi) :
    j ∈ reachable_non_phi (d + 1) m (.inst i) ↔
      j = i ∨ ∃ op ∈ x.ops, j ∈ reachable_non_phi d m op := by
  simp only [reachable_non_phi, hx, hphi, if_false, List.mem_cons, List.mem_flatten,
    List.mem_map]
  constructor
  · rintro (h | ⟨l, ⟨op, hop, rfl⟩, hj⟩)
    · exact Or.inl h
    · exact Or.inr ⟨op, hop, hj⟩
  · rintro (h | ⟨op, hop, hj⟩)
    · exact Or.inl h
    · exact Or.inr ⟨_, ⟨op, hop, rfl⟩, hj⟩

theorem cloneable_of_reachable (m : module) (blk : Nat) :
    ∀ (d : Nat) (v : value) (j : Nat), j ∈ reachable_non_phi d m v →
      ∀ (e : Nat), cloneable e m blk v = true → cloneable e m blk (.inst j) = true := by
  intro d
  induction d with
  | zero => intro v j hj; simp [reachable_non_phi] at hj
  | succ d ih =>
    intro v j hj e he
    cases v with
    | inst i =>
      cases hx : m.insts[i]? with
      | none => simp [reachable_non_phi, hx] at hj
      | some x =>
        by_cases hphi : x.op = .phi
        · simp [reachable_non_phi, hx, hphi] at hj
        · rcases (mem_reachable_non_phi m d i x j hx hphi).mp hj with h | ⟨op, hop, hj'⟩
          · rw [h]
            exact he
          · cases e with
            | zero => simp [cloneable] at he
            | succ e =>
              have hops : ∀ o ∈ x.ops, cloneable e m blk o = true := by
                simpa [cloneable, hx, hphi] using he
              exact cloneable_mono m blk e _ (ih op j hj' e (hops op hop))
    | undef ty => simp [reachable_non_phi] at hj
    | int1 w => simp [reachable_non_phi] at hj
    | other id ty => simp [reachable_non_phi] at hj

/-- No instruction that can be cloned is reachable from one of its own operands. -/
theorem not_reachable_from_operand (m : module) (blk : Nat) :
    ∀ (e : Nat) (i : Nat) (x : instruction) (op : value), m.insts[i]? = some x →
      x.op ≠ .phi → op ∈ x.ops → cloneable e m blk (.inst i) = true →
      ∀ (d : Nat), i ∉ reachable_non_phi d m op := by
  intro e
  induction e with
  | zero => intro i x op _ _ _ he; simp [cloneable] at he
  | succ e ih =>
    intro i x op hx hphi hop he d hmem
    have hops : ∀ o ∈ x.ops, cloneable e m blk o = true := by
      simpa [cloneable, hx, hphi] using he
    have hi := cloneable_of_reachable m blk d op i hmem e (hops op hop)
    exact ih i x op hx hphi hop hi d hmem

theorem find_insert (c : clones_t) (k k' v : value) :
    (clones_t.find (clones_t.insert c k v).2 k').isSome = true ↔
      k' = k ∨ (clones_t.find c k').isSome = true := by
  unfold clones_t.insert
  cases hf : clones_t.find c k with
  | some old =>
    simp only []
    constructor
    · exact fun h => Or.inr h
    · rintro (h | h)
      · rw [h, hf]; rfl
      · exact h
  | none =>
    simp only [clones_t.find, List.find?_cons]
    by_cases hk : k = k'
    · simp [hk]
    · have hk' : ¬ (k' = k) := fun h => hk h.symm
      simp [hk, hk']

theorem memo_of_insert_other (m₀ : module) (c : clones_t) (S : Finset Nat) (k v : value)
    (h : memo_of m₀ c S)
    (hk : ∀ (i : Nat) (x : instruction), m₀.insts[i]? = some x → x.op ≠ .phi → k ≠ .inst i) :
    memo_of m₀ (clones_t.insert c k v).2 S := by
  intro i x hx hphi
  rw [find_insert]
  constructor
  · rintro (he | hs)
    · exact absurd he.symm (hk i x hx hphi)
    · exact (h i x hx hphi).mp hs
  · exact fun hi => Or.inr ((h i x hx hphi).mpr hi)

theorem clone_effect_of_nothing (m₀ : module) (S : Finset Nat) (c' : clones_t) (m : module)
    (l : List Nat) (hk : keeps m₀ m) (hmemo : memo_of m₀ c' S)
    (hcl : closed_under_operands m₀ S) (hl : ∀ j ∈ l, j ∈ S) :
    clone_effect m₀ S (S ∪ l.toFinset) c' m m 1 1 := by
  have he : S ∪ l.toFinset = S := by
    apply Finset.union_eq_left.mpr
    intro j hj
    exact hl j (List.mem_toFinset.mp hj)
  rw [he]
  exact ⟨hmemo, hcl, hk, Finset.Subset.refl S, rfl, rfl⟩

theorem clone_ops_counted_inv (m₀ : module) (blk d : Nat)
    (recC : value → clones_t → module → Except error (Nat × value × clones_t × module))
    (hrec : ∀ (op : value) (c : clones_t) (m : module) (k : Nat) (v : value) (c' : clones_t)
      (m' : module) (S : Finset Nat), cloneable d m₀ blk op = true → keeps m₀ m →
      memo_of m₀ c S → closed_under_operands m₀ S → recC op c m = .ok (k, v, c', m') →
      clone_effect m₀ S (S ∪ (reachable_non_phi d m₀ op).toFinset) c' m m' k 1 ∧
      ∀ (d' : Nat), ∀ j ∈ reachable_non_phi d' m₀ op,
        j ∈ S ∪ (reachable_non_phi d m₀ op).toFinset)
    (ret : Nat) (hret : m₀.insts.length ≤ ret) :
    ∀ (ops : List value) (c : clones_t) (m : module) (k : Nat) (c' : clones_t) (m' : module)
      (S : Finset Nat), (∀ op ∈ ops, cloneable d m₀ blk op = true) → keeps m₀ m →
      memo_of m₀ c S → closed_under_operands m₀ S →
      clone_ops_counted recC ret ops c m = .ok (k, c', m') →
      clone_effect m₀ S (S ∪ (ops.map fun op => reachable_non_phi d m₀ op).flatten.toFinset)
        c' m m' k ops.length ∧
      ∀ op ∈ ops, ∀ (d' : Nat), ∀ j ∈ reachable_non_phi d' m₀ op,
        j ∈ S ∪ (ops.map fun op => reachable_non_phi d m₀ op).flatten.toFinset := by
  intro ops
  induction ops with
  | nil =>
    intro c m k c' m' S _ hk hmemo hcl h
    simp only [clone_ops_counted, Except.ok.injEq, Prod.mk.injEq] at h
    obtain ⟨h1, h2, h3⟩ := h
    rw [← h1, ← h2, ← h3]
    refine ⟨?_, fun op hop => by simp at hop⟩
    simp only [List.map_nil, List.flatten_nil, List.toFinset_nil, Finset.union_empty,
      List.length_nil]
    exact ⟨hmemo, hcl, hk, Finset.Subset.refl S, rfl, by simp⟩
  | cons op ops ih =>
    intro c m k c' m' S hops hk hmemo hcl h
    unfold clone_ops_counted at h
    obtain ⟨r, hr, h⟩ := bind_ok_inv _ _ _ h
    obtain ⟨k₁, new_op, c₁, m₁⟩ := r
    dsimp only at h
    obtain ⟨m₂, h2, h⟩ := bind_ok_inv _ _ _ h
    obtain ⟨r, h3, h⟩ := bind_ok_inv _ _ _ h
    obtain ⟨k₂, c₂, m₃⟩ := r
    simp only [Except.ok.injEq, Prod.mk.injEq] at h
    obtain ⟨hk', hc', hm'⟩ := h
    rw [← hk', ← hc', ← hm']
    obtain ⟨⟨e1, e2, e3, e4, e5, e6⟩, hcov₁⟩ :=
      hrec op c m k₁ new_op c₁ m₁ S (hops op (by simp)) hk hmemo hcl hr
    obtain ⟨y, hy, hset⟩ := replace_uses_of_with_inv _ _ _ _ _ h2
    have hk₂ : keeps m₀ m₂ := by
      intro i x hx
      have hi := get_lt_of_some _ _ _ hx
      have hne : ret ≠ i := by omega
      rw [hset]
      simp only [List.getElem?_set, hne, if_false]
      exact e3 i x hx
    have hlen₂ : m₂.insts.length = m₁.insts.length := by rw [hset]; simp
    obtain ⟨⟨f1, f2, f3, f4, f5, f6⟩, hcov₂⟩ :=
      ih c₁ m₂ k₂ c₂ m₃ _ (fun o ho => hops o (by simp [ho])) hk₂ e1 e2 h3
    have hT : S ∪ ((op :: ops).map fun op => reachable_non_phi d m₀ op).flatten.toFinset
        = S ∪ (reachable_non_phi d m₀ op).toFinset
          ∪ (ops.map fun op => reachable_non_phi d m₀ op).flatten.toFinset := by
      simp [List.toFinset_append, Finset.union_assoc]
    rw [hT]
    refine ⟨⟨f1, f2, f3, e4.trans f4, by omega, ?_⟩, ?_⟩
    · simp only [List.length_cons]
      omega
    · intro o ho d' j hj
      rcases List.mem_cons.mp ho with he | hin
      · subst he
        exact f4 (hcov₁ d' j hj)
      · exact hcov₂ o hin d' j hj

theorem _recursive_clone_counted_inv (m₀ : module) (blk : Nat) :
    ∀ (d fuel : Nat) (root : value) (c : clones_t) (m : module) (k : Nat) (v : value)
      (c' : clones_t) (m' : module) (S : Finset Nat), cloneable d m₀ blk root = true →
      keeps m₀ m → memo_of m₀ c S → closed_under_operands m₀ S →
      _recursive_clone_counted fuel root c blk m = .ok (k, v, c', m') →
      clone_effect m₀ S (S ∪ (reachable_non_phi d m₀ root).toFinset) c' m m' k 1 ∧
      ∀ (d' : Nat), ∀ j ∈ reachable_non_phi d' m₀ root,
        j ∈ S ∪ (reachable_non_phi d m₀ root).toFinset := by
  intro d
  induction d with
  | zero => intro fuel root c m k v c' m' S hcl; simp [cloneable] at hcl
  | succ d ih =>
    intro fuel root c m k v c' m' S hcl hk hmemo hclosed h
    cases fuel with
    | zero => simp [_recursive_clone_counted] at h
    | succ f =>
    unfold _recursive_clone_counted at h
    unfold _recursive_clone_counted.body at h
    -- a root that is no instruction, or a phi node, adds nothing to the set
    have hnothing : ∀ (c₁ : clones_t), (∀ (d' : Nat), reachable_non_phi d' m₀ root = []) →
        memo_of m₀ c₁ S → k = 1 → c' = c₁ → m' = m →
        clone_effect m₀ S (S ∪ (reachable_non_phi (d + 1) m₀ root).toFinset) c' m m' k 1 ∧
        ∀ (d' : Nat), ∀ j ∈ reachable_non_phi d' m₀ root,
          j ∈ S ∪ (reachable_non_phi (d + 1) m₀ root).toFinset := by
      intro c₁ hr hm₁ h1 h3 h4
      rw [h1, h3, h4]
      refine ⟨clone_effect_of_nothing m₀ S c₁ m _ hk hm₁ hclosed ?_, ?_⟩
      · intro j hj
        rw [hr] at hj
        simp at hj
      · intro d' j hj
        rw [hr] at hj
        simp at hj
    cases hfind : clones_t.find c root with
    | some w =>
      simp only [hfind, Except.ok.injEq, Prod.mk.injEq] at h
      obtain ⟨h1, _, h3, h4⟩ := h
      rw [← h1, ← h3, ← h4]
      have hsub : ∀ (d' : Nat), ∀ j ∈ reachable_non_phi d' m₀ root, j ∈ S := by
        intro d' j hj
        cases root with
        | inst i =>
          cases hx : m₀.insts[i]? with
          | none => cases d' <;> simp [reachable_non_phi, hx] at hj
          | some x =>
            by_cases hphi : x.op = .phi
            · cases d' <;> simp [reachable_non_phi, hx, hphi] at hj
            · have hi : i ∈ S := (hmemo i x hx hphi).mp (by simp [hfind])
              exact hclosed i hi d' j hj
        | undef ty => cases d' <;> simp [reachable_non_phi] at hj
        | int1 w' => cases d' <;> simp [reachable_non_phi] at hj
        | other id ty => cases d' <;> simp [reachable_non_phi] at hj
      refine ⟨clone_effect_of_nothing m₀ S c m _ hk hmemo hclosed (hsub (d + 1)), ?_⟩
      intro d' j hj
      exact Finset.mem_union_left _ (hsub d' j hj)
    | none =>
      simp only [hfind] at h
      cases root with
      | inst i =>
        dsimp only at h
        obtain ⟨x, hx, h⟩ := bind_ok_inv _ _ _ h
        have hx := defined_ok_inv _ _ _ hx
        cases hx₀ : m₀.insts[i]? with
        | none => simp [cloneable, hx₀] at hcl
        | some x₀ =>
        have hxx : x = x₀ := by
          have := hk i x₀ hx₀
          rw [hx] at this
          exact Option.some.inj this
        subst hxx
        by_cases hphi : x.op = .phi
        · simp only [hphi, if_true] at h
          obtain ⟨n, _, h⟩ := bind_ok_inv _ _ _ h
          obtain ⟨ret, _, h⟩ := bind_ok_inv _ _ _ h
          simp only [Except.ok.injEq, Prod.mk.injEq] at h
          refine hnothing (clones_t.insert c (.inst i) ret).2 ?_ ?_ h.1.symm h.2.2.1.symm
            h.2.2.2.symm
          · intro d'
            cases d' <;> simp [reachable_non_phi, hx₀, hphi]
          · apply memo_of_insert_other m₀ c S _ _ hmemo
            intro j y hy hyphi he
            cases he
            rw [hx₀] at hy
            cases hy
            exact hyphi hphi
        · simp only [hphi, if_false] at h
          obtain ⟨r, hins, h⟩ := bind_ok_inv _ _ _ h
          obtain ⟨ret, m₁⟩ := r
          dsimp only at h
          obtain ⟨m₂, hsip, h⟩ := bind_ok_inv _ _ _ h
          obtain ⟨r, hops, h⟩ := bind_ok_inv _ _ _ h
          obtain ⟨k₁, c₁, m₃⟩ := r
          simp only [Except.ok.injEq, Prod.mk.injEq] at h
          obtain ⟨h1, _, h3, h4⟩ := h
          rw [← h1, ← h3, ← h4]
          have hcl' : ∀ o ∈ x.ops, cloneable d m₀ blk o = true := by
            simpa [cloneable, hx₀, hphi] using hcl
          obtain ⟨hret, hlen₁, _⟩ := insert_new m x ret m₁ hins
          have hinsts₂ := set_insert_point_insts m₁ m₂ ret hsip
          have hk₂ : keeps m₀ m₂ :=
            (hk.chain (insert_keeps m x ret m₁ hins)).chain (keeps_of_insts_eq hinsts₂)
          obtain ⟨⟨e1, e2, e3, e4, e5, e6⟩, hcov⟩ :=
            clone_ops_counted_inv m₀ blk d
              (fun op clones m => _recursive_clone_counted f op clones blk m)
              (fun op c' m k v c'' m' S' h1 h2 h3 h4 h5 =>
                ih f op c' m k v c'' m' S' h1 h2 h3 h4 h5)
              ret (by rw [hret]; exact hk.grows) x.ops c m₂ k₁ c₁ m₃ S hcl' hk₂ hmemo hclosed
              hops
          -- the instruction is not met again below itself
          have hnotS : i ∉ S := by
            intro hi
            have := (hmemo i x hx₀ hphi).mpr hi
            simp [hfind] at this
          have hnot : i ∉ S ∪ (x.ops.map fun op => reachable_non_phi d m₀ op).flatten.toFinset := by
            intro hi
            rcases Finset.mem_union.mp hi with hi | hi
            · exact hnotS hi
            · simp only [List.mem_toFinset, List.mem_flatten, List.mem_map] at hi
              obtain ⟨l, ⟨op, hop, rfl⟩, hil⟩ := hi
              exact not_reachable_from_operand m₀ blk (d + 1) i x op hx₀ hphi hop hcl d hil
          have hT : S ∪ (reachable_non_phi (d + 1) m₀ (.inst i)).toFinset
              = insert i
                (S ∪ (x.ops.map fun op => reachable_non_phi d m₀ op).flatten.toFinset) := by
            simp only [reachable_non_phi, hx₀, hphi, if_false, List.toFinset_cons]
            ext j
            simp only [Finset.mem_union, Finset.mem_insert]
            tauto
          rw [hT]
          have hlen₂ : m₂.insts.length = m₁.insts.length := by rw [hinsts₂]
          refine ⟨⟨?_, ?_, e3, (e4.trans (Finset.subset_insert _ _)), ?_, ?_⟩, ?_⟩
          · intro j y hy hyphi
            rw [find_insert, Finset.mem_insert, e1 j y hy hyphi]
            constructor
            · rintro (he | hs)
              · left
                cases he
                rfl
              · exact Or.inr hs
            · rintro (he | hs)
              · left
                rw [he]
              · exact Or.inr hs
          · intro j hj d' j' hj'
            rcases Finset.mem_insert.mp hj with he | hj
            · subst he
              cases d' with
              | zero => simp [reachable_non_phi] at hj'
              | succ d' =>
                rcases (mem_reachable_non_phi m₀ d' j x j' hx₀ hphi).mp hj' with h' | ⟨op, hop, h'⟩
                · rw [h']
                  exact Finset.mem_insert_self _ _
                · exact Finset.mem_insert_of_mem (hcov op hop d' j' h')
            · exact Finset.mem_insert_of_mem (e2 j hj d' j' hj')
          · rw [Finset.card_insert_of_not_mem hnot]
            omega
          · have hsum : Finset.sum
                (insert i
                  (S ∪ (x.ops.map fun op => reachable_non_phi d m₀ op).flatten.toFinset))
                m₀.operand_count
                = m₀.operand_count i + Finset.sum
                  (S ∪ (x.ops.map fun op => reachable_non_phi d m₀ op).flatten.toFinset)
                  m₀.operand_count := Finset.sum_insert hnot
            have hcount : m₀.operand_count i = x.ops.length := by
              simp [module.operand_count, hx₀]
            rw [hsum]
            omega
          · intro d' j hj
            cases d' with
            | zero => simp [reachable_non_phi] at hj
            | succ d' =>
              rcases (mem_reachable_non_phi m₀ d' i x j hx₀ hphi).mp hj with h' | ⟨op, hop, h'⟩
              · rw [h']
                exact Finset.mem_insert_self _ _
              · exact Finset.mem_insert_of_mem (hcov op hop d' j h')
      | undef ty =>
        simp only [Except.ok.injEq, Prod.mk.injEq] at h
        refine hnothing (clones_t.insert c (.undef ty) (.undef ty)).2 ?_ ?_ h.1.symm h.2.2.1.symm
          h.2.2.2.symm
        · intro d'; cases d' <;> simp [reachable_non_phi]
        · exact memo_of_insert_other m₀ c S _ _ hmemo (fun _ _ _ _ he => by cases he)
      | int1 w =>
        simp only [Except.ok.injEq, Prod.mk.injEq] at h
        refine hnothing (clones_t.insert c (.int1 w) (.int1 w)).2 ?_ ?_ h.1.symm h.2.2.1.symm
          h.2.2.2.symm
        · intro d'; cases d' <;> simp [reachable_non_phi]
        · exact memo_of_insert_other m₀ c S _ _ hmemo (fun _ _ _ _ he => by cases he)
      | other id ty =>
        simp only [Except.ok.injEq, Prod.mk.injEq] at h
        refine hnothing (clones_t.insert c (.other id ty) (.other id ty)).2 ?_ ?_ h.1.symm h.2.2.1.symm
          h.2.2.2.symm
        · intro d'; cases d' <;> simp [reachable_non_phi]
        · exact memo_of_insert_other m₀ c S _ _ hmemo (fun _ _ _ _ he => by cases he)

theorem memo_of_empty (m₀ : module) : memo_of m₀ [] ∅ := by
  intro i x _ _
  simp [clones_t.find]

theorem closed_under_operands_empty (m₀ : module) : closed_under_operands m₀ ∅ := by
  intro i hi
  simp at hi

/-- A call of `_recursive_clone` with an empty map, when it returns: the number of
instructions inserted and the number of calls made. -/
theorem _recursive_clone_counted_from_empty (d fuel : Nat) (root : value) (blk : Nat)
    (m : module) (k : Nat) (v : value) (c' : clones_t) (m' : module)
    (hcl : cloneable d m blk root = true)
    (h : _recursive_clone_counted fuel root [] blk m = .ok (k, v, c', m')) :
    m'.insts.length = m.insts.length + (reachable_non_phi d m root).dedup.length ∧
    k = 1 + operand_edges d m root ∧
    (∀ (d' : Nat), ∀ j ∈ reachable_non_phi d' m root, j ∈ reachable_non_phi d m root) ∧
    ∀ (i : Nat) (x : instruction), m.insts[i]? = some x → x.op ≠ .phi →
      ((clones_t.find c' (.inst i)).isSome = true ↔ i ∈ reachable_non_phi d m root) := by
  obtain ⟨⟨e1, _, _, _, e5, e6⟩, hcov⟩ :=
    _recursive_clone_counted_inv m blk d fuel root [] m k v c' m' ∅ hcl (keeps.of_self m)
      (memo_of_empty m) (closed_under_operands_empty m) h
  simp only [Finset.empty_union, Finset.card_empty, Finset.sum_empty, Nat.add_zero] at e1 e5 e6 hcov
  have hdedup : (reachable_non_phi d m root).toFinset
      = (reachable_non_phi d m root).dedup.toFinset := by
    ext j
    simp
  refine ⟨?_, ?_, ?_, ?_⟩
  · rw [e5, List.card_toFinset]
  · rw [e6, hdedup, List.sum_toFinset _ (List.nodup_dedup _)]
    rfl
  · intro d' j hj
    exact List.mem_toFinset.mp (hcov d' j hj)
  · intro i x hx hphi
    rw [e1 i x hx hphi, List.mem_toFinset]

theorem self_operand_out_of_fuel (blk : Nat) (i : Nat) (x : instruction) (rest : List value)
    (hphi : x.op ≠ .phi) (hops : x.ops = .inst i :: rest) :
    ∀ (fuel : Nat) (c : clones_t) (m : module), m.insts[i]? = some x → m.cursor_ok →
      clones_t.find c (.inst i) = none →
      _recursive_clone fuel (.inst i) c blk m = .error .out_of_fuel := by
  intro fuel
  induction fuel with
  | zero => intro c m _ _ _; rfl
  | succ f ih =>
    intro c m hx hc hfind
    obtain ⟨ret, m₁, hins⟩ := insert_succeeds m x hc
    obtain ⟨b, hblt, hnew, _, pos, hip⟩ := insert_get_new m x ret m₁ hins
    have hsip := set_insert_point_spec m₁ ret _ hnew
    have hlen₁ := insert_blocks_length m x ret m₁ hins
    have hrec := ih c { m₁ with insert_point := some (b, some ret) }
      (insert_old m x ret m₁ hins i x hx) ⟨b, some ret, rfl, by simpa [hlen₁] using hblt⟩ hfind
    simp only [_recursive_clone, _recursive_clone.body, hfind, module.get_inst, hx, defined,
      bind, Except.bind, hphi, if_false, hins, hsip, hops, clone_ops, hrec]

end transform

end codegen

/-! ### `_recursive_clone`: what the entries of the map name -/

namespace codegen

namespace transform

theorem find_insert_self (c : clones_t) (k v : value) :
    clones_t.find (clones_t.insert c k v).2 k = some (clones_t.insert c k v).1 := by
  unfold clones_t.insert
  cases hf : clones_t.find c k with
  | some old => simpa using hf
  | none => simp [clones_t.find]

theorem find_insert_ne (c : clones_t) (k k' v : value) (h : k' ≠ k) :
    clones_t.find (clones_t.insert c k v).2 k' = clones_t.find c k' := by
  unfold clones_t.insert
  cases hf : clones_t.find c k with
  | some old => rfl
  | none =>
    have hk : ¬ (k = k') := fun e => h e.symm
    simp [clones_t.find, List.find?_cons, hk]

theorem map_extends_insert (c : clones_t) (k v : value) :
    map_extends c (clones_t.insert c k v).2 := by
  intro k' w hw
  by_cases hk : k' = k
  · rw [hk] at hw ⊢
    unfold clones_t.insert
    rw [hw]
    exact hw
  · rw [find_insert_ne c k k' v hk]
    exact hw

theorem map_extends_of_self (c : clones_t) : map_extends c c := fun _ _ h => h

theorem map_extends_chain {c c₁ c₂ : clones_t} (h₁ : map_extends c c₁)
    (h₂ : map_extends c₁ c₂) : map_extends c c₂ := fun k w h => h₂ k w (h₁ k w h)

theorem cloneable_inst_lt (m : module) (blk d a : Nat)
    (h : cloneable d m blk (.inst a) = true) : a < m.insts.length := by
  cases d with
  | zero => simp [cloneable] at h
  | succ d =>
    cases hx : m.insts[a]? with
    | none => simp [cloneable, hx] at h
    | some x => exact get_lt_of_some _ _ _ hx

theorem clone_entry_mono (m₀ : module) (c c' : clones_t) (m m' : module) (x : instruction)
    (w : value) (h : clone_entry m₀ c m x w) (hext : map_extends c c')
    (hm : ∀ (ci : Nat) (y : instruction), w = .inst ci → m.insts[ci]? = some y →
      m'.insts[ci]? = some y) :
    clone_entry m₀ c' m' x w := by
  obtain ⟨ci, y, hw, hci, hy, hop, hops⟩ := h
  refine ⟨ci, y, hw, hci, hm ci y hw hy, hop, ?_⟩
  intro p u xu hp hu hphi
  obtain ⟨cu, hf, hyp⟩ := hops p u xu hp hu hphi
  exact ⟨cu, hext _ _ hf, hyp⟩

theorem clone_entries_empty (m₀ m : module) : clone_entries m₀ [] m := by
  intro i x w _ _ hf
  simp [clones_t.find] at hf

theorem entries_injective_empty (m₀ : module) : entries_injective m₀ [] := by
  intro i j x y w _ _ _ _ hf
  simp [clones_t.find] at hf

theorem entries_injective_insert (m₀ : module) (c : clones_t) (k v : value)
    (h : entries_injective m₀ c)
    (hv : ∀ (i : Nat) (x : instruction) (w : value), m₀.insts[i]? = some x → x.op ≠ .phi →
      clones_t.find c (.inst i) = some w → w ≠ v) :
    entries_injective m₀ (clones_t.insert c k v).2 := by
  -- an entry the map did not hold is the entry added, for the key `k` with the value `v`
  have hnew : ∀ (i : Nat) (w : value), clones_t.find c (.inst i) = none →
      clones_t.find (clones_t.insert c k v).2 (.inst i) = some w → .inst i = k ∧ w = v := by
    intro i w hnone hf
    have hik : value.inst i = k := by
      by_contra hne
      rw [find_insert_ne c k (.inst i) v hne, hnone] at hf
      cases hf
    refine ⟨hik, ?_⟩
    rw [hik] at hnone hf
    rw [find_insert_self] at hf
    simp only [clones_t.insert, hnone] at hf
    exact (Option.some.inj hf).symm
  have hold : ∀ (i : Nat) (w w₁ : value), clones_t.find c (.inst i) = some w₁ →
      clones_t.find (clones_t.insert c k v).2 (.inst i) = some w → w = w₁ := by
    intro i w w₁ h₁ hf
    have := map_extends_insert c k v _ _ h₁
    rw [hf] at this
    exact Option.some.inj this
  intro i j x y w hx hxphi hy hyphi hfi hfj
  cases hi : clones_t.find c (.inst i) with
  | some wi =>
    have hwi := hold i w wi hi hfi
    cases hj : clones_t.find c (.inst j) with
    | some wj =>
      have hwj := hold j w wj hj hfj
      exact h i j x y w hx hxphi hy hyphi (by rw [hi, hwi]) (by rw [hj, hwj])
    | none =>
      have hwv := (hnew j w hj hfj).2
      exact absurd hwv (by rw [hwi]; exact hv i x wi hx hxphi hi)
  | none =>
    have hwv := (hnew i w hi hfi).2
    cases hj : clones_t.find c (.inst j) with
    | some wj =>
      have hwj := hold j w wj hj hfj
      exact absurd hwv (by rw [hwj]; exact hv j y wj hy hyphi hj)
    | none =>
      have e1 := (hnew i w hi hfi).1
      have e2 := (hnew j w hj hfj).1
      exact value.inst.inj (e1.trans e2.symm)

theorem clone_ops_entries (m₀ : module) (blk d : Nat)
    (rec : value → clones_t → module → Except error (value × clones_t × module))
    (hrec : ∀ (op : value) (c : clones_t) (m : module) (v : value) (c' : clones_t)
      (m' : module), cloneable d m₀ blk op = true → keeps m₀ m → clone_entries m₀ c m →
      entries_injective m₀ c → rec op c m = .ok (v, c', m') →
      clone_entries m₀ c' m' ∧ map_extends c c' ∧ clones_t.find c' op = some v ∧
      new_entries_from m₀ c c' m.insts.length ∧ keeps m m' ∧ entries_injective m₀ c')
    (x : instruction) (ret : Nat) (hret : m₀.insts.length ≤ ret)
    (hall : ∀ op ∈ x.ops, cloneable d m₀ blk op = true) :
    ∀ (ops done : List value) (c : clones_t) (m : module) (c' : clones_t) (m' : module),
      x.ops = done ++ ops → keeps m₀ m → clone_entries m₀ c m → no_entry_names m₀ c ret →
      operands_rebound m₀ x ret done c m → entries_injective m₀ c →
      clone_ops rec ret ops c m = .ok (c', m') →
      clone_entries m₀ c' m' ∧ map_extends c c' ∧ keeps m₀ m' ∧
      operands_rebound m₀ x ret x.ops c' m' ∧ new_entries_from m₀ c c' (ret + 1) ∧
      entries_injective m₀ c' := by
  intro ops
  induction ops with
  | nil =>
    intro done c m c' m' hsplit hk hent _ hreb hinj h
    simp only [clone_ops, Except.ok.injEq, Prod.mk.injEq] at h
    obtain ⟨h1, h2⟩ := h
    rw [← h1, ← h2]
    have hd : x.ops = done := by simpa using hsplit
    rw [hd]
    exact ⟨hent, map_extends_of_self c, hk, hreb, fun i y w _ _ hf => Or.inl hf, hinj⟩
  | cons op ops ih =>
    intro done c m c' m' hsplit hk hent hno hreb hinj h
    unfold clone_ops at h
    obtain ⟨r, hr, h⟩ := bind_ok_inv _ _ _ h
    obtain ⟨new_op, c₁, m₁⟩ := r
    dsimp only at h
    obtain ⟨m₂, h2, h3⟩ := bind_ok_inv _ _ _ h
    have hopmem : op ∈ x.ops := by rw [hsplit]; simp
    obtain ⟨E1, X1, F1, N1, K1, I1⟩ :=
      hrec op c m new_op c₁ m₁ (hall op hopmem) hk hent hinj hr
    obtain ⟨y, hy, hyop, hslots⟩ := hreb
    have hretlt : ret < m.insts.length := get_lt_of_some _ _ _ hy
    obtain ⟨y', hy', hset⟩ := replace_uses_of_with_inv _ _ _ _ _ h2
    have hyy : y' = y := by
      have := K1 ret y hy
      rw [hy'] at this
      exact Option.some.inj this
    rw [hyy] at hset
    have hretlt₁ : ret < m₁.insts.length := get_lt_of_some _ _ _ (K1 ret y hy)
    have hk₂ : keeps m₀ m₂ := by
      intro i z hz
      have hi := get_lt_of_some _ _ _ hz
      have hne : ret ≠ i := by omega
      rw [hset]
      simp only [List.getElem?_set, hne, if_false]
      exact K1 i z (hk i z hz)
    have hno₁ : no_entry_names m₀ c₁ ret := by
      intro i z w hz hphi hf
      rcases N1 i z w hz hphi hf with hold | ⟨ci, hw, hci⟩
      · exact hno i z w hz hphi hold
      · rw [hw]
        intro he
        cases he
        omega
    have hent₂ : clone_entries m₀ c₁ m₂ := by
      intro i z w hz hphi hf
      refine clone_entry_mono m₀ c₁ c₁ m₁ m₂ z w (E1 i z w hz hphi hf)
        (map_extends_of_self c₁) ?_
      intro ci yy hw hyy'
      have hne : ret ≠ ci := by
        intro he
        exact hno₁ i z w hz hphi hf (by rw [hw, he])
      rw [hset]
      simp only [List.getElem?_set, hne, if_false]
      exact hyy'
    have hreb₂ : operands_rebound m₀ x ret (done ++ [op]) c₁ m₂ := by
      refine ⟨y.replace_uses_of_with op new_op, ?_, hyop, ?_⟩
      · rw [hset]
        simp [List.getElem?_set, hretlt₁]
      · intro p o hp
        obtain ⟨hA, hB⟩ := hslots p o hp
        have hmap : (y.replace_uses_of_with op new_op).ops[p]?
            = (y.ops[p]?).map fun o' => if o' = op then new_op else o' := by
          simp [instruction.replace_uses_of_with, List.getElem?_map]
        constructor
        · intro hnot
          have hnd : o ∉ done := fun hd => hnot (by simp [hd])
          have hne : ¬ (o = op) := fun he => hnot (by simp [he])
          rw [hmap, hA hnd]
          simp [hne]
        · intro hin u xu hou hu hphi
          by_cases hd : o ∈ done
          · obtain ⟨cu, hf, hyp⟩ := hB hd u xu hou hu hphi
            obtain ⟨ci, _, hw, hci, _⟩ := hent u xu (.inst cu) hu hphi hf
            have hne : ¬ ((value.inst cu) = op) := by
              intro he
              have hlt := cloneable_inst_lt m₀ blk d cu (by rw [he]; exact hall op hopmem)
              cases hw
              omega
            refine ⟨cu, X1 _ _ hf, ?_⟩
            rw [hmap, hyp]
            simp [hne]
          · have hoop : o = op := by
              rcases List.mem_append.mp hin with h' | h'
              · exact absurd h' hd
              · simpa using h'
            have hfu : clones_t.find c₁ (.inst u) = some new_op := by
              rw [← hou, hoop]
              exact F1
            obtain ⟨ci, _, hw, _⟩ := E1 u xu new_op hu hphi hfu
            refine ⟨ci, by rw [hfu, hw], ?_⟩
            rw [hmap, hA hd, hoop]
            simp [hw]
    obtain ⟨E2, X2, K2, R2, N2, I2⟩ :=
      ih (done ++ [op]) c₁ m₂ c' m' (by rw [hsplit]; simp) hk₂ hent₂ hno₁ hreb₂ I1 h3
    refine ⟨E2, map_extends_chain X1 X2, K2, R2, ?_, I2⟩
    intro i z w hz hphi hf
    rcases N2 i z w hz hphi hf with hold | hnew
    · rcases N1 i z w hz hphi hold with hold' | ⟨ci, hw, hci⟩
      · exact Or.inl hold'
      · exact Or.inr ⟨ci, hw, by omega⟩
    · exact Or.inr hnew

theorem _recursive_clone_entries (m₀ : module) (blk : Nat) :
    ∀ (d fuel : Nat) (root : value) (c : clones_t) (m : module) (v : value) (c' : clones_t)
      (m' : module), cloneable d m₀ blk root = true → keeps m₀ m → clone_entries m₀ c m →
      entries_injective m₀ c → _recursive_clone fuel root c blk m = .ok (v, c', m') →
      clone_entries m₀ c' m' ∧ map_extends c c' ∧ clones_t.find c' root = some v ∧
      new_entries_from m₀ c c' m.insts.length ∧ keeps m m' ∧ entries_injective m₀ c' := by
  intro d
  induction d with
  | zero => intro fuel root c m v c' m' hcl; simp [cloneable] at hcl
  | succ d ih =>
    intro fuel root c m v c' m' hcl hk hent hinj h
    have hkeeps := _recursive_clone_keeps fuel root c blk m v c' m' h
    cases fuel with
    | zero => simp [_recursive_clone] at h
    | succ f =>
    unfold _recursive_clone at h
    unfold _recursive_clone.body at h
    -- an entry that is not for a non-phi instruction leaves the other entries as they are
    have hother : ∀ (w : value),
        (∀ (i : Nat) (x : instruction), m₀.insts[i]? = some x → x.op ≠ .phi →
          root ≠ .inst i) →
        v = (clones_t.insert c root w).1 → c' = (clones_t.insert c root w).2 → m' = m →
        clone_entries m₀ c' m' ∧ map_extends c c' ∧ clones_t.find c' root = some v ∧
        new_entries_from m₀ c c' m.insts.length ∧ keeps m m' ∧ entries_injective m₀ c' := by
      intro w hroot h1 h2 h3
      rw [h1, h2, h3]
      refine ⟨?_, map_extends_insert c root w, find_insert_self c root w, ?_, keeps.of_self m,
        ?_⟩
      · intro i x w' hx hphi hf
        rw [find_insert_ne c root (.inst i) w (fun he => hroot i x hx hphi he.symm)] at hf
        exact clone_entry_mono m₀ c _ m m x w' (hent i x w' hx hphi hf)
          (map_extends_insert c root w) (fun _ _ _ hy => hy)
      · intro i x w' hx hphi hf
        rw [find_insert_ne c root (.inst i) w (fun he => hroot i x hx hphi he.symm)] at hf
        exact Or.inl hf
      · intro i j x y w' hx hxphi hy hyphi hfi hfj
        rw [find_insert_ne c root (.inst i) w (fun he => hroot i x hx hxphi he.symm)] at hfi
        rw [find_insert_ne c root (.inst j) w (fun he => hroot j y hy hyphi he.symm)] at hfj
        exact hinj i j x y w' hx hxphi hy hyphi hfi hfj
    cases hfind : clones_t.find c root with
    | some w =>
      simp only [hfind, Except.ok.injEq, Prod.mk.injEq] at h
      obtain ⟨h1, h3, h4⟩ := h
      rw [← h1, ← h3, ← h4]
      exact ⟨hent, map_extends_of_self c, hfind, fun i x w' _ _ hf => Or.inl hf, keeps.of_self m,
        hinj⟩
    | none =>
      simp only [hfind] at h
      cases root with
      | inst i =>
        dsimp only at h
        obtain ⟨x, hx, h⟩ := bind_ok_inv _ _ _ h
        have hx := defined_ok_inv _ _ _ hx
        cases hx₀ : m₀.insts[i]? with
        | none => simp [cloneable, hx₀] at hcl
        | some x₀ =>
        have hxx : x = x₀ := by
          have := hk i x₀ hx₀
          rw [hx] at this
          exact Option.some.inj this
        subst hxx
        by_cases hphi : x.op = .phi
        · simp only [hphi, if_true] at h
          obtain ⟨n, _, h⟩ := bind_ok_inv _ _ _ h
          obtain ⟨ret, _, h⟩ := bind_ok_inv _ _ _ h
          simp only [Except.ok.injEq, Prod.mk.injEq] at h
          refine hother ret ?_ h.1.symm h.2.1.symm h.2.2.symm
          intro j y hy hyphi he
          cases he
          rw [hx₀] at hy
          cases hy
          exact hyphi hphi
        · simp only [hphi, if_false] at h
          obtain ⟨r, hins, h⟩ := bind_ok_inv _ _ _ h
          obtain ⟨ret, m₁⟩ := r
          dsimp only at h
          obtain ⟨m₂, hsip, h⟩ := bind_ok_inv _ _ _ h
          obtain ⟨r, hops, h⟩ := bind_ok_inv _ _ _ h
          obtain ⟨c₁, m₃⟩ := r
          simp only [Except.ok.injEq, Prod.mk.injEq] at h
          obtain ⟨h1, h3, h4⟩ := h
          have hcl' : ∀ o ∈ x.ops, cloneable d m₀ blk o = true := by
            simpa [cloneable, hx₀, hphi] using hcl
          obtain ⟨hret, hlen₁, b, hnew⟩ := insert_new m x ret m₁ hins
          have hinsts₂ := set_insert_point_insts m₁ m₂ ret hsip
          have hmm₂ : keeps m m₂ :=
            (insert_keeps m x ret m₁ hins).chain (keeps_of_insts_eq hinsts₂)
          have hk₂ : keeps m₀ m₂ := hk.chain hmm₂
          have hretge : m₀.insts.length ≤ ret := by rw [hret]; exact hk.grows
          have hent₂ : clone_entries m₀ c m₂ := by
            intro j y w hy hyphi hf
            exact clone_entry_mono m₀ c c m m₂ y w (hent j y w hy hyphi hf)
              (map_extends_of_self c) (fun ci z _ hz => hmm₂ ci z hz)
          have hno : no_entry_names m₀ c ret := by
            intro j y w hy hyphi hf he
            obtain ⟨ci, z, hw, _, hz, _⟩ := hent j y w hy hyphi hf
            have hlt := get_lt_of_some _ _ _ hz
            rw [hw] at he
            cases he
            omega
          have hreb : operands_rebound m₀ x ret [] c m₂ := by
            refine ⟨{ x with parent := b }, by rw [hinsts₂]; exact hnew, rfl, ?_⟩
            intro p o hp
            exact ⟨fun _ => hp, fun hin => by simp at hin⟩
          obtain ⟨E, X, K, R, N, I⟩ :=
            clone_ops_entries m₀ blk d
              (fun op clones m => _recursive_clone f op clones blk m)
              (fun op c₀ m v c'' m' e1 e2 e3 e4 e5 => ih f op c₀ m v c'' m' e1 e2 e3 e4 e5)
              x ret hretge hcl' x.ops [] c m₂ c₁ m₃ (by simp) hk₂ hent₂ hno hreb hinj hops
          have hno₁ : ∀ (j : Nat) (y : instruction) (w : value), m₀.insts[j]? = some y →
              y.op ≠ .phi → clones_t.find c₁ (.inst j) = some w → w ≠ .inst ret := by
            intro j y w hy hyphi hf
            rcases N j y w hy hyphi hf with hold | ⟨ci, hw, hci⟩
            · exact hno j y w hy hyphi hold
            · rw [hw]
              intro he
              cases he
              omega
          rw [← h1, ← h3, ← h4]
          refine ⟨?_, map_extends_chain X (map_extends_insert c₁ _ _),
            find_insert_self c₁ _ _, ?_, by rw [h4]; exact hkeeps,
            entries_injective_insert m₀ c₁ _ _ I hno₁⟩
          · intro j y w hy hyphi hf
            cases hf₁ : clones_t.find c₁ (.inst j) with
            | some w₁ =>
              have hw : w = w₁ := by
                have := map_extends_insert c₁ (.inst i) (.inst ret) _ _ hf₁
                rw [hf] at this
                exact Option.some.inj this
              rw [hw]
              exact clone_entry_mono m₀ c₁ _ m₃ m₃ y w₁ (E j y w₁ hy hyphi hf₁)
                (map_extends_insert c₁ _ _) (fun _ _ _ hz => hz)
            | none =>
              have hji : j = i := by
                by_contra hne
                rw [find_insert_ne c₁ (.inst i) (.inst j) (.inst ret)
                  (fun he => hne (value.inst.inj he)), hf₁] at hf
                cases hf
              subst hji
              have hyx : y = x := by
                rw [hx₀] at hy
                exact (Option.some.inj hy).symm
              subst hyx
              have hw : w = .inst ret := by
                rw [find_insert_self] at hf
                simp only [clones_t.insert, hf₁] at hf
                exact (Option.some.inj hf).symm
              obtain ⟨z, hz, hzop, hslots⟩ := R
              refine ⟨ret, z, hw, hretge, hz, hzop, ?_⟩
              intro p u xu hp hu huphi
              obtain ⟨cu, hfu, hzp⟩ :=
                (hslots p (.inst u) hp).2 (List.getElem?_mem hp) u xu rfl hu huphi
              exact ⟨cu, map_extends_insert c₁ _ _ _ _ hfu, hzp⟩
          · intro j y w hy hyphi hf
            cases hf₁ : clones_t.find c₁ (.inst j) with
            | some w₁ =>
              have hw : w = w₁ := by
                have := map_extends_insert c₁ (.inst i) (.inst ret) _ _ hf₁
                rw [hf] at this
                exact Option.some.inj this
              rw [hw]
              rcases N j y w₁ hy hyphi hf₁ with hold | ⟨ci, hci, hge⟩
              · exact Or.inl hold
              · exact Or.inr ⟨ci, hci, by omega⟩
            | none =>
              have hji : j = i := by
                by_contra hne
                rw [find_insert_ne c₁ (.inst i) (.inst j) (.inst ret)
                  (fun he => hne (value.inst.inj he)), hf₁] at hf
                cases hf
              subst hji
              have hw : w = .inst ret := by
                rw [find_insert_self] at hf
                simp only [clones_t.insert, hf₁] at hf
                exact (Option.some.inj hf).symm
              exact Or.inr ⟨ret, hw, by omega⟩
      | undef ty =>
        simp only [Except.ok.injEq, Prod.mk.injEq] at h
        exact hother (.undef ty) (fun _ _ _ _ he => by cases he) h.1.symm h.2.1.symm h.2.2.symm
      | int1 w =>
        simp only [Except.ok.injEq, Prod.mk.injEq] at h
        exact hother (.int1 w) (fun _ _ _ _ he => by cases he) h.1.symm h.2.1.symm h.2.2.symm
      | other id ty =>
        simp only [Except.ok.injEq, Prod.mk.injEq] at h
        exact hother (.other id ty) (fun _ _ _ _ he => by cases he) h.1.symm h.2.1.symm
          h.2.2.symm

end transform

end codegen

/-! ### `recursive_clone`: one clone for each instruction reached -/

namespace codegen

namespace transform

/-- C21: on a root that can be cloned, with enough fuel, `recursive_clone` returns
and has inserted as many instructions as there are distinct non-phi instructions
reachable from the root without passing through a phi node. The map of
`_recursive_clone` then has an entry for exactly these instructions, so an
instruction met on several operand paths has one entry; the entry names a clone of
the instruction, allocated by the call, whose operand is the entry of the map
wherever the operand of the original is a non-phi instruction, so every cloned user
of an instruction refers to the one clone of it; and no two instructions have the
same clone. The instructions there were are left as they were. -/
theorem recursive_clone_clones_once (d fuel : Nat) (root : value) (blk : Nat) (m : module)
    (hfuel : d ≤ fuel) (hcl : cloneable d m blk root = true) (hl : m.listed)
    (hc : m.cursor_ok) :
    ∃ (v : value) (clones' : clones_t) (m' : module),
      _recursive_clone fuel root [] blk m = .ok (v, clones', m') ∧
      recursive_clone fuel root blk m = .ok (v, m') ∧
      m'.insts.length = m.insts.length + (reachable_non_phi d m root).dedup.length ∧
      (∀ (d' : Nat), ∀ j ∈ reachable_non_phi d' m root, j ∈ reachable_non_phi d m root) ∧
      (∀ (i : Nat) (x : instruction), m.insts[i]? = some x → m'.insts[i]? = some x) ∧
      (∀ (i : Nat) (x : instruction), m.insts[i]? = some x → x.op ≠ .phi →
        ((clones_t.find clones' (.inst i)).isSome = true ↔
          i ∈ reachable_non_phi d m root)) ∧
      clone_entries m clones' m' ∧ entries_injective m clones' := by
  obtain ⟨v, m', h, _, _, _⟩ := recursive_clone_succeeds d fuel root blk m hfuel hcl hl hc
  have hkeeps := recursive_clone_keeps fuel root blk m v m' h
  have h' := h
  unfold recursive_clone at h'
  obtain ⟨r, hr, h'⟩ := bind_ok_inv _ _ _ h'
  obtain ⟨w, c, m₁⟩ := r
  simp only [Except.ok.injEq, Prod.mk.injEq] at h'
  obtain ⟨hw, hm⟩ := h'
  rw [hw, hm] at hr
  obtain ⟨k, hk⟩ := _recursive_clone_counted_of_ok fuel root [] blk m v c m' hr
  obtain ⟨h1, _, h3, h4⟩ := _recursive_clone_counted_from_empty d fuel root blk m k v c m' hcl hk
  obtain ⟨E, _, _, _, _, I⟩ :=
    _recursive_clone_entries m blk d fuel root [] m v c m' hcl (keeps.of_self m)
      (clone_entries_empty m m) (entries_injective_empty m) hr
  exact ⟨v, c, m', hr, h, h1, h3, hkeeps, h4, E, I⟩

/-- Witness for C21: `example_diamond`, where the instruction 2 is reached from the
root 5 through 3 and through 4: four instructions are inserted, the one clone 9 of
the instruction 2 is the operand of the clone 8 of 3 and of the clone 10 of 4. -/
theorem recursive_clone_clones_once_witness :
    reachable_non_phi 4 example_diamond (.inst 5) = [5, 3, 2, 4, 2] ∧
    (recursive_clone 4 (.inst 5) 1 example_diamond).toOption.map
        (fun r => (r.2.insts.length, [8, 9, 10].map fun i =>
          (r.2.insts[i]?).map fun x => (x.op, x.ops)))
      = some (11, [some (.other 3, [.inst 9, .other 2 (.scalar (.integer 32))]),
          some (.other 2, [.inst 2, .other 1 (.scalar (.integer 32))]),
          some (.other 4, [.inst 9, .other 3 (.scalar (.integer 32))])]) ∧
    (_recursive_clone 4 (.inst 5) [] 1 example_diamond).toOption.map
        (fun r => [2, 3, 4, 5].map fun i => clones_t.find r.2.1 (.inst i))
      = some [some (.inst 9), some (.inst 8), some (.inst 10), some (.inst 7)] ∧
    ∃ (v : value) (clones' : clones_t) (m' : module),
      _recursive_clone 4 (.inst 5) [] 1 example_diamond = .ok (v, clones', m') ∧
      recursive_clone 4 (.inst 5) 1 example_diamond = .ok (v, m') ∧
      m'.insts.length = example_diamond.insts.length
        + (reachable_non_phi 4 example_diamond (.inst 5)).dedup.length ∧
      (∀ (d' : Nat), ∀ j ∈ reachable_non_phi d' example_diamond (.inst 5),
        j ∈ reachable_non_phi 4 example_diamond (.inst 5)) ∧
      (∀ (i : Nat) (x : instruction), example_diamond.insts[i]? = some x →
        m'.insts[i]? = some x) ∧
      (∀ (i : Nat) (x : instruction), example_diamond.insts[i]? = some x → x.op ≠ .phi →
        ((clones_t.find clones' (.inst i)).isSome = true ↔
          i ∈ reachable_non_phi 4 example_diamond (.inst 5))) ∧
      clone_entries example_diamond clones' m' ∧ entries_injective example_diamond clones' :=
  ⟨by decide, by decide, by decide,
   recursive_clone_clones_once 4 4 (.inst 5) 1 example_diamond (by decide) (by decide)
    (by decide) ⟨1, some 6, rfl, by decide⟩⟩

end transform

end codegen

/-! ### Walks of `_recursive_clone`: cycles broken by phi nodes -/

namespace codegen

theorem operand_edge_inv (m : module) (i j : Nat) (h : operand_edge m i j = true) :
    ∃ (x y : instruction), m.insts[i]? = some x ∧ x.op ≠ .phi ∧ value.inst j ∈ x.ops ∧
      m.insts[j]? = some y ∧ y.op ≠ .phi := by
  unfold operand_edge at h
  cases hx : m.insts[i]? with
  | none => simp [hx] at h
  | some x =>
    cases hy : m.insts[j]? with
    | none => simp [hx, hy] at h
    | some y =>
      simp only [hx, hy, Bool.and_eq_true, decide_eq_true_eq] at h
      exact ⟨x, y, rfl, h.1.1, h.2, rfl, h.1.2⟩

theorem operand_edge_of (m : module) (i j : Nat) (x y : instruction)
    (hx : m.insts[i]? = some x) (hxphi : x.op ≠ .phi) (hj : value.inst j ∈ x.ops)
    (hy : m.insts[j]? = some y) (hyphi : y.op ≠ .phi) : operand_edge m i j = true := by
  simp [operand_edge, hx, hy, hxphi, hyphi, hj]

theorem chain_snoc {α : Type} (R : α → α → Prop) (j : α) :
    ∀ (l : List α) (r i : α), List.Chain R r l → (r :: l).getLast? = some i → R i j →
      List.Chain R r (l ++ [j]) := by
  intro l
  induction l with
  | nil =>
    intro r i _ hlast hR
    simp only [List.getLast?_singleton, Option.some.injEq] at hlast
    rw [← hlast] at hR
    exact List.Chain.cons hR List.Chain.nil
  | cons a l ih =>
    intro r i hch hlast hR
    rw [List.chain_cons] at hch
    rw [List.getLast?_cons_cons] at hlast
    exact List.Chain.cons hch.1 (ih a i hch.2 hlast hR)

theorem getLast?_snoc {α : Type} (l : List α) (r j : α) :
    (r :: (l ++ [j])).getLast? = some j := by
  rw [← List.cons_append, List.getLast?_append]
  simp

theorem chain_lt (m : module) :
    ∀ (l : List Nat) (r : Nat), List.Chain (fun i j => operand_edge m i j = true) r l →
      ∀ j ∈ l, j < m.insts.length := by
  intro l
  induction l with
  | nil => intro r _ j hj; simp at hj
  | cons a l ih =>
    intro r hch j hj
    rw [List.chain_cons] at hch
    rcases List.mem_cons.mp hj with he | hin
    · obtain ⟨_, y, _, _, _, hy, _⟩ := operand_edge_inv m r a hch.1
      rw [he]
      exact get_lt_of_some _ _ _ hy
    · exact ih a hch.2 j hin

theorem nodup_length_le (l : List Nat) (n : Nat) (hn : l.Nodup) (hlt : ∀ j ∈ l, j < n) :
    l.length ≤ n := by
  have hsub : l.toFinset ⊆ Finset.range n := by
    intro j hj
    exact Finset.mem_range.mpr (hlt j (List.mem_toFinset.mp hj))
  calc l.length = l.toFinset.card := (List.toFinset_card_of_nodup hn).symm
    _ ≤ (Finset.range n).card := Finset.card_le_card hsub
    _ = n := Finset.card_range n

theorem cloneable_of_resolvable_phi (m : module) (blk k j : Nat) (y : instruction)
    (hy : m.insts[j]? = some y) (hphi : y.op = .phi)
    (h : resolvable m blk (.inst j) = true) : cloneable (k + 1) m blk (.inst j) = true := by
  simpa [resolvable, cloneable, hy, hphi] using h

/-- On a walk that meets no instruction twice the depth left suffices: the walk so far
and the depth left add up to the number of instructions of the module. -/
theorem cloneable_of_walk (m : module) (blk : Nat) (r : Nat)
    (hac : phi_breaks_cycles m (.inst r)) (hwf : walk_resolvable m blk (.inst r))
    (hr : r < m.insts.length) :
    ∀ (k : Nat) (l : List Nat) (i : Nat) (x : instruction),
      List.Chain (fun i j => operand_edge m i j = true) r l → (r :: l).getLast? = some i →
      m.insts[i]? = some x → x.op ≠ .phi → m.insts.length ≤ (r :: l).length + k →
      cloneable (k + 2) m blk (.inst i) = true := by
  have hbody : ∀ (k : Nat) (l : List Nat) (i : Nat) (x : instruction),
      List.Chain (fun i j => operand_edge m i j = true) r l → (r :: l).getLast? = some i →
      m.insts[i]? = some x → x.op ≠ .phi →
      (∀ (j : Nat) (y : instruction), value.inst j ∈ x.ops → m.insts[j]? = some y →
        y.op ≠ .phi → cloneable (k + 1) m blk (.inst j) = true) →
      cloneable (k + 2) m blk (.inst i) = true := by
    intro k l i x hch hlast hx hphi hnext
    have hgoal : ∀ o ∈ x.ops, cloneable (k + 1) m blk o = true := by
      intro o ho
      have hres := hwf.2 r l i x rfl hch hlast hx hphi o ho
      cases o with
      | inst j =>
        cases hy : m.insts[j]? with
        | none => simp [resolvable, hy] at hres
        | some y =>
          by_cases hyphi : y.op = .phi
          · exact cloneable_of_resolvable_phi m blk k j y hy hyphi hres
          · exact hnext j y ho hy hyphi
      | undef ty => simp [cloneable]
      | int1 w => simp [cloneable]
      | other id ty => simp [cloneable]
    simpa [cloneable, hx, hphi] using hgoal
  have hlonger : ∀ (l : List Nat) (i j : Nat) (x y : instruction),
      List.Chain (fun i j => operand_edge m i j = true) r l → (r :: l).getLast? = some i →
      m.insts[i]? = some x → x.op ≠ .phi → value.inst j ∈ x.ops → m.insts[j]? = some y →
      y.op ≠ .phi →
      List.Chain (fun i j => operand_edge m i j = true) r (l ++ [j]) ∧
        (r :: (l ++ [j])).length ≤ m.insts.length := by
    intro l i j x y hch hlast hx hphi hj hy hyphi
    have hch' := chain_snoc (fun i j => operand_edge m i j = true) j l r i hch hlast
      (operand_edge_of m i j x y hx hphi hj hy hyphi)
    refine ⟨hch', nodup_length_le _ _ (hac r (l ++ [j]) rfl hch') ?_⟩
    intro a ha
    rcases List.mem_cons.mp ha with he | hin
    · rw [he]; exact hr
    · exact chain_lt m _ r hch' a hin
  intro k
  induction k with
  | zero =>
    intro l i x hch hlast hx hphi hlen
    apply hbody 0 l i x hch hlast hx hphi
    intro j y hj hy hyphi
    have := (hlonger l i j x y hch hlast hx hphi hj hy hyphi).2
    simp only [List.length_cons, List.length_append, List.length_nil] at this hlen
    omega
  | succ k ih =>
    intro l i x hch hlast hx hphi hlen
    apply hbody (k + 1) l i x hch hlast hx hphi
    intro j y hj hy hyphi
    obtain ⟨hch', _⟩ := hlonger l i j x y hch hlast hx hphi hj hy hyphi
    apply ih (l ++ [j]) j y hch' (getLast?_snoc l r j) hy hyphi
    simp only [List.length_cons, List.length_append, List.length_nil] at hlen ⊢
    omega

/-- A root from which every cycle passes through a phi node, and whose walk meets
only values that can be resolved, can be cloned within the depth of the number of
instructions of the module. -/
theorem cloneable_of_phi_breaks_cycles (m : module) (blk : Nat) (root : value)
    (hac : phi_breaks_cycles m root) (hwf : walk_resolvable m blk root) :
    cloneable (m.insts.length + 1) m blk root = true := by
  cases root with
  | inst r =>
    have hres := hwf.1
    cases hx : m.insts[r]? with
    | none => simp [resolvable, hx] at hres
    | some x =>
      have hr := get_lt_of_some _ _ _ hx
      by_cases hphi : x.op = .phi
      · exact cloneable_of_resolvable_phi m blk _ r x hx hphi hres
      · have h := cloneable_of_walk m blk r hac hwf hr (m.insts.length - 1) [] r x
          List.Chain.nil rfl hx hphi (by simp only [List.length_cons, List.length_nil]; omega)
        have he : m.insts.length - 1 + 2 = m.insts.length + 1 := by omega
        rw [he] at h
        exact h
  | undef ty => simp [cloneable]
  | int1 w => simp [cloneable]
  | other id ty => simp [cloneable]

theorem cloneable_along_walk (m : module) (blk : Nat) :
    ∀ (l : List Nat) (i e : Nat), cloneable e m blk (.inst i) = true →
      List.Chain (fun i j => operand_edge m i j = true) i l →
      ∀ j ∈ l, ∃ (e' : Nat), e' < e ∧ cloneable e' m blk (.inst j) = true := by
  intro l
  induction l with
  | nil => intro i e _ _ j hj; simp at hj
  | cons a l ih =>
    intro i e he hch j hj
    rw [List.chain_cons] at hch
    obtain ⟨x, y, hx, hxphi, ha, _, _⟩ := operand_edge_inv m i a hch.1
    cases e with
    | zero => simp [cloneable] at he
    | succ e₀ =>
      have hops : ∀ o ∈ x.ops, cloneable e₀ m blk o = true := by
        simpa [cloneable, hx, hxphi] using he
      have hca := hops _ ha
      rcases List.mem_cons.mp hj with hja | hin
      · exact ⟨e₀, by omega, by rw [hja]; exact hca⟩
      · obtain ⟨e', hlt, hc⟩ := ih a e₀ hca hch.2 j hin
        exact ⟨e', by omega, hc⟩

theorem not_mem_walk_of_cloneable (m : module) (blk : Nat) (l : List Nat) (i : Nat)
    (hch : List.Chain (fun i j => operand_edge m i j = true) i l) :
    ∀ (e : Nat), cloneable e m blk (.inst i) = true → i ∉ l := by
  intro e
  induction e using Nat.strong_induction_on with
  | _ e ih =>
    intro he hin
    obtain ⟨e', hlt, hc⟩ := cloneable_along_walk m blk l i e he hch i hin
    exact ih e' hlt hc hin

theorem nodup_walk_of_cloneable (m : module) (blk : Nat) :
    ∀ (l : List Nat) (i e : Nat), cloneable e m blk (.inst i) = true →
      List.Chain (fun i j => operand_edge m i j = true) i l → (i :: l).Nodup := by
  intro l
  induction l with
  | nil => intro i e _ _; simp
  | cons a l ih =>
    intro i e he hch
    rw [List.nodup_cons]
    refine ⟨not_mem_walk_of_cloneable m blk _ i hch e he, ?_⟩
    obtain ⟨e', _, hc⟩ := cloneable_along_walk m blk _ i e he hch a (by simp)
    exact ih a e' hc (List.chain_cons.mp hch).2

/-- A root that can be cloned within some depth: every cycle reachable from it
passes through a phi node, and its walk meets only values that can be resolved. -/
theorem phi_breaks_cycles_of_cloneable (m : module) (blk d : Nat) (root : value)
    (h : cloneable d m blk root = true) :
    phi_breaks_cycles m root ∧ walk_resolvable m blk root := by
  have hres : ∀ (e : Nat) (o : value), cloneable e m blk o = true →
      resolvable m blk o = true := by
    intro e o ho
    cases e with
    | zero => simp [cloneable] at ho
    | succ e =>
      cases o with
      | inst j =>
        cases hy : m.insts[j]? with
        | none => simp [cloneable, hy] at ho
        | some y =>
          by_cases hyphi : y.op = .phi
          · simpa [resolvable, cloneable, hy, hyphi] using ho
          · simp [resolvable, hy, hyphi]
      | undef ty => rfl
      | int1 w => rfl
      | other id ty => rfl
  refine ⟨?_, hres d root h, ?_⟩
  · intro r l hroot hch
    rw [hroot] at h
    exact nodup_walk_of_cloneable m blk l r d h hch
  · intro r l i x hroot hch hlast hx hphi o ho
    rw [hroot] at h
    have hi : ∃ (e : Nat), cloneable e m blk (.inst i) = true := by
      cases l with
      | nil =>
        simp only [List.getLast?_singleton, Option.some.injEq] at hlast
        rw [← hlast]
        exact ⟨d, h⟩
      | cons a l' =>
        have hmem : i ∈ a :: l' := by
          rw [List.getLast?_cons_cons] at hlast
          exact List.mem_of_getLast?_eq_some hlast
        obtain ⟨e', _, hc⟩ := cloneable_along_walk m blk _ r d h hch i hmem
        exact ⟨e', hc⟩
    obtain ⟨e, he⟩ := hi
    cases e with
    | zero => simp [cloneable] at he
    | succ e₀ =>
      have hops : ∀ o ∈ x.ops, cloneable e₀ m blk o = true := by
        simpa [cloneable, hx, hphi] using he
      exact hres e₀ o (hops o ho)

end codegen

/-! ### `_recursive_clone`: termination and the number of calls -/

namespace codegen

namespace transform

/-- C26: `_recursive_clone` returns on every root from which every cycle of the
operand graph passes through a phi node (`phi_breaks_cycles`) and whose walk meets
only instructions of the module and phi nodes with an incoming value for the block
(`walk_resolvable`): it returns for every fuel above the number of instructions of
the module. Such roots are those the walk of which has bounded depth (`cloneable`),
and on them it returns for every fuel from that depth on. The counted function is
`_recursive_clone` with a count of its calls; called with an empty map it makes,
besides the outermost call, one call for every operand edge reachable from the root:
one for each operand of each distinct non-phi instruction reachable. The map does not
stop a cycle: an instruction that is no phi node and is its own first operand has no
entry in the map while its operands are processed, and on it the function returns for
no fuel. -/
theorem _recursive_clone_terminates_on_acyclic_roots :
    (∀ (fuel : Nat) (root : value) (clones : clones_t) (blk : Nat) (m : module),
      m.insts.length + 1 ≤ fuel → phi_breaks_cycles m root → walk_resolvable m blk root →
      m.listed → m.cursor_ok →
      ∃ (r : value × clones_t × module), _recursive_clone fuel root clones blk m = .ok r) ∧
    (∀ (root : value) (blk : Nat) (m : module),
      (∃ (d : Nat), cloneable d m blk root = true) ↔
        (phi_breaks_cycles m root ∧ walk_resolvable m blk root)) ∧
    (∀ (d fuel : Nat) (root : value) (clones : clones_t) (blk : Nat) (m : module),
      d ≤ fuel → cloneable d m blk root = true → m.listed → m.cursor_ok →
      ∃ (r : value × clones_t × module), _recursive_clone fuel root clones blk m = .ok r) ∧
    (∀ (fuel : Nat) (root : value) (clones : clones_t) (blk : Nat) (m : module),
      (_recursive_clone_counted fuel root clones blk m).map (fun r => r.2)
        = _recursive_clone fuel root clones blk m) ∧
    (∀ (d fuel : Nat) (root : value) (blk : Nat) (m : module) (k : Nat) (v : value)
        (clones' : clones_t) (m' : module), cloneable d m blk root = true →
      _recursive_clone_counted fuel root [] blk m = .ok (k, v, clones', m') →
      k = 1 + operand_edges d m root) ∧
    (∀ (fuel : Nat) (clones : clones_t) (blk : Nat) (m : module) (i : Nat) (x : instruction)
        (rest : List value), m.insts[i]? = some x → x.op ≠ .phi → x.ops = .inst i :: rest →
      m.cursor_ok → clones_t.find clones (.inst i) = none →
      _recursive_clone fuel (.inst i) clones blk m = .error .out_of_fuel) ∧
    (operand_edges 4 example_diamond (.inst 5) = 8 ∧
      (_recursive_clone_counted 4 (.inst 5) [] 1 example_diamond).toOption.map (fun r => r.1)
        = some 9) := by
  have hreturns : ∀ (d fuel : Nat) (root : value) (clones : clones_t) (blk : Nat)
      (m : module), d ≤ fuel → cloneable d m blk root = true → m.listed → m.cursor_ok →
      ∃ (r : value × clones_t × module), _recursive_clone fuel root clones blk m = .ok r := by
    intro d fuel root clones blk m hfuel hcl hl hc
    obtain ⟨v, c', m', h, _⟩ := _recursive_clone_succeeds d fuel root clones blk m hfuel hcl hl hc
    exact ⟨_, h⟩
  refine ⟨?_, ?_, hreturns, _recursive_clone_counted_erase, ?_, ?_, by decide, by decide⟩
  · intro fuel root clones blk m hfuel hac hwf hl hc
    exact hreturns (m.insts.length + 1) fuel root clones blk m hfuel
      (cloneable_of_phi_breaks_cycles m blk root hac hwf) hl hc
  · intro root blk m
    constructor
    · rintro ⟨d, hd⟩
      exact phi_breaks_cycles_of_cloneable m blk d root hd
    · rintro ⟨hac, hwf⟩
      exact ⟨_, cloneable_of_phi_breaks_cycles m blk root hac hwf⟩
  · intro d fuel root blk m k v clones' m' hcl h
    exact (_recursive_clone_counted_from_empty d fuel root blk m k v clones' m' hcl h).2.1
  · intro fuel clones blk m i x rest hx hphi hops hc hfind
    exact self_operand_out_of_fuel blk i x rest hphi hops fuel clones m hx hc hfind

/-- Witness for C26: the walk from the root 5 of `example_diamond`, a module of seven
instructions, returns with fuel 8 and with fuel 4, the depth of the walk; on
`example_self_operand`, whose instruction 0 is its own operand, the function returns
for no fuel. -/
theorem _recursive_clone_terminates_on_acyclic_roots_witness :
    (∃ (r : value × clones_t × module),
      _recursive_clone 8 (.inst 5) [] 1 example_diamond = .ok r) ∧
    (∃ (r : value × clones_t × module),
      _recursive_clone 4 (.inst 5) [] 1 example_diamond = .ok r) ∧
    (∀ (fuel : Nat),
      _recursive_clone fuel (.inst 0) [] 0 example_self_operand = .error .out_of_fuel) ∧
    (_recursive_clone 6 (.inst 0) [] 0 example_self_operand = .error .out_of_fuel) :=
  ⟨_recursive_clone_terminates_on_acyclic_roots.1 8 (.inst 5) [] 1 example_diamond
      (by decide)
      (phi_breaks_cycles_of_cloneable example_diamond 1 4 (.inst 5) (by decide)).1
      (phi_breaks_cycles_of_cloneable example_diamond 1 4 (.inst 5) (by decide)).2
      (by decide) ⟨1, some 6, rfl, by decide⟩,
   _recursive_clone_terminates_on_acyclic_roots.2.2.1 4 4 (.inst 5) [] 1 example_diamond
      (by decide) (by decide) (by decide) ⟨1, some 6, rfl, by decide⟩,
   fun fuel => _recursive_clone_terminates_on_acyclic_roots.2.2.2.2.2.1 fuel [] 0
      example_self_operand 0
      { op := .other 1, ty := .scalar (.integer 32),
        ops := [.inst 0, .other 0 (.scalar (.integer 32))], blocks := [], parent := 0 }
      [.other 0 (.scalar (.integer 32))] rfl (by decide) rfl ⟨0, some 1, rfl, by decide⟩ rfl,
   by decide⟩

end transform

end codegen

/-! ### The pipelining pass with its local variables: the same pass -/

namespace codegen

namespace transform

namespace pipeline

theorem merge_traced_erase (m : module) (ty : ir.type) (load fl nl header block : Nat) :
    (merge_traced m ty load fl nl header block).map (fun r => r.2)
      = merge m ty load fl nl header block := by
  unfold merge_traced merge
  simp only [bind, Except.bind]
  repeat' split
  all_goals rfl

theorem rewrite_traced_erase (fuel : Nat) (m : module) (info : pipe_info_t) :
    (rewrite_traced fuel m info).map (fun r => r.2) = rewrite fuel m info := by
  unfold rewrite_traced rewrite
  simp only [bind, Except.bind]
  repeat' split
  all_goals first | rfl | simp only [← merge_traced_erase, *, Except.map]

theorem rewrite_all_traced_erase (fuel : Nat) :
    ∀ (infos : List pipe_info_t) (m : module),
      (rewrite_all_traced fuel m infos).map (fun r => r.2) = rewrite_all fuel m infos := by
  intro infos
  induction infos with
  | nil => intro m; rfl
  | cons info rest ih =>
    intro m
    unfold rewrite_all_traced rewrite_all
    rw [← rewrite_traced_erase fuel m info]
    cases rewrite_traced fuel m info with
    | error e => rfl
    | ok r =>
      obtain ⟨t, m₁⟩ := r
      simp only [bind, Except.bind, Except.map]
      rw [← ih m₁]
      cases rewrite_all_traced fuel m₁ rest with
      | error e => rfl
      | ok r' => rfl

/-- The pass with its local variables is the pass: `run_traced` returns the module
`run` returns, and fails where `run` fails. -/
theorem run_traced_erase (fuel : Nat) (m : module) :
    (run_traced fuel m).map (fun r => r.2) = run fuel m := by
  unfold run_traced run
  cases collect m m.all_insts [] with
  | error e => rfl
  | ok infos => exact rewrite_all_traced_erase fuel infos m

end pipeline

end transform

end codegen

/-! ### The pipelining pass: the phi nodes at the head of the blocks -/

namespace codegen

theorem terminated_iff (m : module) :
    m.terminated = true ↔ ∀ (b : Nat) (bb : basic_block), m.blocks[b]? = some bb →
      ∃ (t : Nat), bb.insts.getLast? = some t ∧ m.is_phi t = false := by
  unfold module.terminated
  rw [List.all_eq_true]
  constructor
  · intro h b bb hb
    have := h bb (List.getElem?_mem hb)
    cases hl : bb.insts.getLast? with
    | none => simp [hl] at this
    | some t => exact ⟨t, rfl, by simpa [hl] using this⟩
  · intro h bb hbb
    obtain ⟨b, hb, hget⟩ := List.getElem_of_mem hbb
    obtain ⟨t, ht, hp⟩ := h b bb (by rw [List.getElem?_eq_getElem hb, hget])
    simp [ht, hp]

theorem phi_frame.of_same (m : module) : phi_frame m m :=
  ⟨fun _ => rfl, fun _ => rfl, fun h => h⟩

theorem phi_frame.followed_by {m₁ m₂ m₃ : module} (h₁ : phi_frame m₁ m₂) (h₂ : phi_frame m₂ m₃) :
    phi_frame m₁ m₃ :=
  ⟨fun i => (h₂.1 i).trans (h₁.1 i), fun b => (h₂.2.1 b).trans (h₁.2.1 b),
    fun h => h₂.2.2 (h₁.2.2 h)⟩

theorem phi_frame_of_eq {m m' : module} (hi : m'.insts = m.insts) (hb : m'.blocks = m.blocks) :
    phi_frame m m' := by
  have hphi : ∀ (i : Nat), m'.is_phi i = m.is_phi i := by
    intro i
    simp [module.is_phi, hi]
  refine ⟨hphi, ?_, ?_⟩
  · intro b
    have hf : m'.is_phi = m.is_phi := funext hphi
    simp [module.leading_phis, module.block_insts, hb, hf]
  · intro h
    have hf : m'.is_phi = m.is_phi := funext hphi
    simpa [module.terminated, hb, hf] using h

theorem takeWhile_insert_at (p : Nat → Bool) (n : Nat) (pos : Option Nat) (hn : p n = false)
    (hpos : ∀ (q : Nat), pos = some q → p q = false) :
    ∀ (l : List Nat), (insert_at n pos l).takeWhile p = l.takeWhile p := by
  intro l
  cases pos with
  | none =>
    induction l with
    | nil => simp [insert_at, List.takeWhile, hn]
    | cons a l ih =>
      simp only [insert_at, List.cons_append, List.takeWhile_cons] at ih ⊢
      cases p a <;> simp [ih]
  | some q =>
    have hq := hpos q rfl
    induction l with
    | nil => simp [insert_at, List.takeWhile, hn]
    | cons a l ih =>
      unfold insert_at
      by_cases ha : a = q
      · simp [ha, List.takeWhile_cons, hn, hq]
      · simp only [ha, if_false, List.takeWhile_cons]
        cases p a <;> simp [ih]

theorem getLast?_insert_at (n : Nat) (pos : Option Nat) :
    ∀ (l : List Nat), (insert_at n pos l).getLast? = l.getLast? ∨
      (insert_at n pos l).getLast? = some n := by
  intro l
  cases pos with
  | none => right; simp [insert_at]
  | some q =>
    induction l with
    | nil => right; simp [insert_at]
    | cons a l ih =>
      unfold insert_at
      by_cases ha : a = q
      · left
        simp [ha, List.getLast?_cons_cons]
      · simp only [ha, if_false]
        cases hl : insert_at n (some q) l with
        | nil =>
          cases l with
          | nil => simp [insert_at] at hl
          | cons c l' =>
            unfold insert_at at hl
            by_cases hc : c = q
            · simp [hc] at hl
            · simp [hc] at hl
        | cons c l' =>
          rw [List.getLast?_cons_cons, ← hl]
          cases l with
          | nil =>
            right
            simp [insert_at]
          | cons c' l'' =>
            rw [List.getLast?_cons_cons]
            exact ih

theorem insert_phi_frame (m : module) (x : instruction) (n : Nat) (m₁ : module)
    (h : m.insert x = .ok (n, m₁)) (hx : x.op ≠ .phi) (hc : m.cursor_non_phi) :
    phi_frame m m₁ ∧ m₁.cursor_non_phi := by
  obtain ⟨b, pos, bb, hip, hb, hn, hi, hbl, hip'⟩ := insert_inv m x n m₁ h
  have hblt : b < m.blocks.length := get_lt_of_some _ _ _ hb
  have hphi : ∀ (i : Nat), m₁.is_phi i = m.is_phi i := by
    intro i
    simp only [module.is_phi, hi]
    rcases Nat.lt_trichotomy i m.insts.length with hlt | heq | hgt
    · rw [List.getElem?_append_left hlt]
    · rw [heq, List.getElem?_concat_length, List.getElem?_eq_none (le_refl _)]
      simp [hx]
    · rw [List.getElem?_eq_none (by simp; omega), List.getElem?_eq_none (by omega)]
  have hf : m₁.is_phi = m.is_phi := funext hphi
  have hnphi : m.is_phi n = false := by
    rw [hn]
    exact is_phi_of_length_le m _ (le_refl _)
  have hpos : ∀ (q : Nat), pos = some q → m.is_phi q = false := by
    intro q hq
    exact hc b q (by rw [hip, hq])
  refine ⟨⟨hphi, ?_, ?_⟩, ?_⟩
  · intro b'
    simp only [module.leading_phis, module.block_insts, hf, hbl, List.getElem?_set]
    by_cases hbb' : b = b'
    · subst hbb'
      simp only [if_true, hblt, hb]
      exact takeWhile_insert_at m.is_phi n pos hnphi hpos bb.insts
    · simp [hbb']
  · intro ht
    rw [terminated_iff] at ht ⊢
    intro b' bb' hb'
    rw [hbl, List.getElem?_set] at hb'
    by_cases hbb' : b = b'
    · subst hbb'
      simp only [if_true, hblt, Option.some.injEq] at hb'
      rw [← hb']
      obtain ⟨t, ht', htp⟩ := ht b bb hb
      rcases getLast?_insert_at n pos bb.insts with hl | hl
      · exact ⟨t, by simp only [hl, ht'], by rw [hphi]; exact htp⟩
      · exact ⟨n, hl, by rw [hphi]; exact hnphi⟩
    · simp only [hbb', if_false] at hb'
      obtain ⟨t, ht', htp⟩ := ht b' bb' hb'
      exact ⟨t, ht', by rw [hphi]; exact htp⟩
  · intro b' p hp
    rw [hphi]
    exact hc b' p (by rw [← hip', hp])

theorem set_insert_point_phi_frame (m m' : module) (i : Nat)
    (h : m.set_insert_point i = .ok m') (hi : m.is_phi i = false) :
    phi_frame m m' ∧ m'.cursor_non_phi := by
  have hf := phi_frame_of_eq (set_insert_point_insts m m' i h) (set_insert_point_blocks m m' i h)
  refine ⟨hf, ?_⟩
  unfold module.set_insert_point at h
  obtain ⟨x, _, h⟩ := bind_ok_inv _ _ _ h
  simp only [Except.ok.injEq] at h
  intro b p hp
  rw [← h] at hp
  simp only [Option.some.injEq, Prod.mk.injEq] at hp
  rw [hf.1, ← hp.2]
  exact hi

theorem replace_uses_of_with_phi_frame (m m' : module) (u : Nat) (a b : value)
    (h : m.replace_uses_of_with u a b = .ok m') (hc : m.cursor_non_phi) :
    phi_frame m m' ∧ m'.cursor_non_phi := by
  have hbl := replace_uses_of_with_blocks m m' u a b h
  obtain ⟨x, hx, hset⟩ := replace_uses_of_with_inv m m' u a b h
  have hphi : ∀ (i : Nat), m'.is_phi i = m.is_phi i := by
    intro i
    simp only [module.is_phi, hset, List.getElem?_set]
    by_cases hui : u = i
    · subst hui
      simp [hx, get_lt_of_some _ _ _ hx, instruction.replace_uses_of_with]
    · simp [hui]
  have hf : m'.is_phi = m.is_phi := funext hphi
  have hip : m'.insert_point = m.insert_point := by
    unfold module.replace_uses_of_with at h
    obtain ⟨y, _, h⟩ := bind_ok_inv _ _ _ h
    simp only [Except.ok.injEq] at h
    rw [← h]
  refine ⟨⟨hphi, ?_, ?_⟩, ?_⟩
  · intro b'
    simp [module.leading_phis, module.block_insts, hbl, hf]
  · intro ht
    simpa [module.terminated, hbl, hf] using ht
  · intro b' p hp
    rw [hphi]
    exact hc b' p (by rw [← hip, hp])

namespace transform

theorem clone_ops_phi_frame
    (rec : value → clones_t → module → Except error (value × clones_t × module))
    (hrec : ∀ (op : value) (c : clones_t) (m : module) (v : value) (c' : clones_t)
      (m' : module), m.cursor_non_phi → rec op c m = .ok (v, c', m') →
      phi_frame m m' ∧ m'.cursor_non_phi)
    (ret : Nat) :
    ∀ (ops : List value) (clones : clones_t) (m : module) (c' : clones_t) (m' : module),
      m.cursor_non_phi → clone_ops rec ret ops clones m = .ok (c', m') →
      phi_frame m m' ∧ m'.cursor_non_phi := by
  intro ops
  induction ops with
  | nil =>
    intro clones m c' m' hc h
    simp only [clone_ops, Except.ok.injEq, Prod.mk.injEq] at h
    rw [← h.2]
    exact ⟨phi_frame.of_same m, hc⟩
  | cons op ops ih =>
    intro clones m c' m' hc h
    unfold clone_ops at h
    obtain ⟨r, hr, h⟩ := bind_ok_inv _ _ _ h
    obtain ⟨new_op, c₁, m₁⟩ := r
    dsimp only at h
    obtain ⟨m₂, h2, h⟩ := bind_ok_inv _ _ _ h
    obtain ⟨f₁, hc₁⟩ := hrec op clones m new_op c₁ m₁ hc hr
    obtain ⟨f₂, hc₂⟩ := replace_uses_of_with_phi_frame m₁ m₂ ret op new_op h2 hc₁
    obtain ⟨f₃, hc₃⟩ := ih c₁ m₂ c' m' hc₂ h
    exact ⟨(f₁.followed_by f₂).followed_by f₃, hc₃⟩

theorem _recursive_clone_phi_frame :
    ∀ (fuel : Nat) (root : value) (clones : clones_t) (blk : Nat) (m : module) (v : value)
      (c' : clones_t) (m' : module), m.cursor_non_phi →
      _recursive_clone fuel root clones blk m = .ok (v, c', m') →
      phi_frame m m' ∧ m'.cursor_non_phi := by
  intro fuel
  induction fuel with
  | zero => intro root clones blk m v c' m' _ h; simp [_recursive_clone] at h
  | succ f ih =>
    intro root clones blk m v c' m' hc h
    unfold _recursive_clone at h
    unfold _recursive_clone.body at h
    cases hfind : clones_t.find clones root with
    | some w =>
      simp only [hfind, Except.ok.injEq, Prod.mk.injEq] at h
      rw [← h.2.2]
      exact ⟨phi_frame.of_same m, hc⟩
    | none =>
      simp only [hfind] at h
      cases root with
      | inst i =>
        dsimp only at h
        obtain ⟨x, hx, h⟩ := bind_ok_inv _ _ _ h
        by_cases hphi : x.op = .phi
        · simp only [hphi, if_true] at h
          obtain ⟨n, _, h⟩ := bind_ok_inv _ _ _ h
          obtain ⟨ret, _, h⟩ := bind_ok_inv _ _ _ h
          simp only [Except.ok.injEq, Prod.mk.injEq] at h
          rw [← h.2.2]
          exact ⟨phi_frame.of_same m, hc⟩
        · simp only [hphi, if_false] at h
          obtain ⟨r, hins, h⟩ := bind_ok_inv _ _ _ h
          obtain ⟨ret, m₁⟩ := r
          dsimp only at h
          obtain ⟨m₂, hsip, h⟩ := bind_ok_inv _ _ _ h
          obtain ⟨r, hops, h⟩ := bind_ok_inv _ _ _ h
          obtain ⟨c₁, m₃⟩ := r
          simp only [Except.ok.injEq, Prod.mk.injEq] at h
          rw [← h.2.2]
          obtain ⟨f₁, hc₁⟩ := insert_phi_frame m x ret m₁ hins hphi hc
          obtain ⟨_, _, b, hnew⟩ := insert_new m x ret m₁ hins
          have hret : m₁.is_phi ret = false := by
            simp [module.is_phi, hnew, hphi]
          obtain ⟨f₂, hc₂⟩ := set_insert_point_phi_frame m₁ m₂ ret hsip hret
          obtain ⟨f₃, hc₃⟩ :=
            clone_ops_phi_frame (fun op clones m => _recursive_clone f op clones blk m)
              (fun op c mk w c'' mk' hck hrec => ih op c blk mk w c'' mk' hck hrec)
              ret x.ops clones m₂ c₁ m₃ hc₂ hops
          exact ⟨(f₁.followed_by f₂).followed_by f₃, hc₃⟩
      | undef ty =>
        simp only [Except.ok.injEq, Prod.mk.injEq] at h
        rw [← h.2.2]
        exact ⟨phi_frame.of_same m, hc⟩
      | int1 w =>
        simp only [Except.ok.injEq, Prod.mk.injEq] at h
        rw [← h.2.2]
        exact ⟨phi_frame.of_same m, hc⟩
      | other id ty =>
        simp only [Except.ok.injEq, Prod.mk.injEq] at h
        rw [← h.2.2]
        exact ⟨phi_frame.of_same m, hc⟩

theorem recursive_clone_phi_frame (fuel : Nat) (root : value) (blk : Nat) (m : module)
    (v : value) (m' : module) (hc : m.cursor_non_phi)
    (h : recursive_clone fuel root blk m = .ok (v, m')) :
    phi_frame m m' ∧ m'.cursor_non_phi := by
  unfold recursive_clone at h
  obtain ⟨r, hr, h⟩ := bind_ok_inv _ _ _ h
  obtain ⟨w, c, m₁⟩ := r
  simp only [Except.ok.injEq, Prod.mk.injEq] at h
  rw [← h.2]
  exact _recursive_clone_phi_frame fuel root [] blk m w c m₁ hc hr

namespace pipeline

theorem set_insert_point_back_phi_frame (m m' : module) (b : Nat)
    (h : set_insert_point_back m b = .ok m') (ht : m.terminated = true) :
    phi_frame m m' ∧ m'.cursor_non_phi := by
  unfold set_insert_point_back at h
  obtain ⟨bb, hbb, h⟩ := bind_ok_inv _ _ _ h
  obtain ⟨t, hlast, h⟩ := bind_ok_inv _ _ _ h
  have hbb := defined_ok_inv _ _ _ hbb
  have hlast := defined_ok_inv _ _ _ hlast
  obtain ⟨t', ht', hp⟩ := (terminated_iff m).mp ht b bb hbb
  rw [hlast] at ht'
  cases ht'
  exact set_insert_point_phi_frame m m' t h hp

theorem and_mask_phi_frame (m m' : module) (v v' : value) (mask : Option value)
    (h : and_mask m v mask = .ok (v', m')) (hc : m.cursor_non_phi) :
    phi_frame m m' ∧ m'.cursor_non_phi := by
  cases mask with
  | none =>
    simp only [and_mask, Except.ok.injEq, Prod.mk.injEq] at h
    rw [← h.2]
    exact ⟨phi_frame.of_same m, hc⟩
  | some k =>
    unfold and_mask at h
    obtain ⟨r, hr, h⟩ := bind_ok_inv _ _ _ h
    obtain ⟨a, m₁⟩ := r
    simp only [Except.ok.injEq, Prod.mk.injEq] at h
    rw [← h.2]
    exact insert_phi_frame m _ a m₁ hr (by simp) hc

theorem make_false_value_phi_frame (m m' : module) (ty : ir.type) (fv : Option value)
    (v' : value) (h : make_false_value m ty fv = .ok (v', m')) (hc : m.cursor_non_phi) :
    phi_frame m m' ∧ m'.cursor_non_phi := by
  cases fv with
  | some k =>
    simp only [make_false_value, Except.ok.injEq, Prod.mk.injEq] at h
    rw [← h.2]
    exact ⟨phi_frame.of_same m, hc⟩
  | none =>
    unfold make_false_value at h
    obtain ⟨shapes, _, h⟩ := bind_ok_inv _ _ _ h
    obtain ⟨r, hr, h⟩ := bind_ok_inv _ _ _ h
    obtain ⟨s, m₁⟩ := r
    simp only [Except.ok.injEq, Prod.mk.injEq] at h
    rw [← h.2]
    exact insert_phi_frame m _ s m₁ hr (by simp) hc

theorem prefetch_phi_frame (m m' : module) (ty : ir.type) (ptr fv : value) (f : Nat)
    (h : prefetch m ty ptr fv = .ok (f, m')) (hc : m.cursor_non_phi) :
    phi_frame m m' ∧ m'.cursor_non_phi := by
  unfold prefetch at h
  obtain ⟨shapes, _, h⟩ := bind_ok_inv _ _ _ h
  obtain ⟨r, hr, h⟩ := bind_ok_inv _ _ _ h
  obtain ⟨k, m₁⟩ := r
  dsimp only at h
  obtain ⟨f₁, hc₁⟩ := insert_phi_frame m _ k m₁ hr (by simp) hc
  obtain ⟨f₂, hc₂⟩ := insert_phi_frame m₁ _ f m' h (by simp) hc₁
  exact ⟨f₁.followed_by f₂, hc₂⟩

end pipeline

end transform

end codegen

/-! ### The pipelining pass: the values it does not use -/

namespace codegen

theorem unused_of_insts_eq {m m' : module} (v : value) (h : m'.insts = m.insts)
    (hu : m.unused v) : m'.unused v := by
  intro x hx
  rw [h] at hx
  exact hu x hx

theorem insert_unused (m : module) (x : instruction) (n : Nat) (m₁ : module) (v : value)
    (h : m.insert x = .ok (n, m₁)) (hu : m.unused v) (hx : v ∉ x.ops) : m₁.unused v := by
  obtain ⟨b, pos, bb, _, _, _, hi, _, _⟩ := insert_inv m x n m₁ h
  intro y hy
  rw [hi, List.mem_append] at hy
  rcases hy with hy | hy
  · exact hu y hy
  · simp only [List.mem_singleton] at hy
    rw [hy]
    exact hx

theorem replace_uses_of_with_unused (m m' : module) (u : Nat) (a b v : value)
    (h : m.replace_uses_of_with u a b = .ok m') (hu : m.unused v) (hb : b ≠ v) :
    m'.unused v := by
  obtain ⟨x, hx, hset⟩ := replace_uses_of_with_inv m m' u a b h
  intro y hy
  rw [hset] at hy
  rcases List.mem_or_eq_of_mem_set hy with hy | hy
  · exact hu y hy
  · rw [hy]
    simp only [instruction.replace_uses_of_with, List.mem_map, not_exists, not_and]
    intro o ho hov
    by_cases hoa : o = a
    · simp only [hoa, if_true] at hov
      exact hb hov
    · simp only [hoa, if_false] at hov
      rw [hov] at ho
      exact hu x (List.getElem?_mem hx) ho

namespace transform

theorem insert_values (c : clones_t) (k w : value) (P : value → Prop)
    (hc : ∀ (k' w' : value), clones_t.find c k' = some w' → P w') (hw : P w) :
    P (clones_t.insert c k w).1 ∧
      ∀ (k' w' : value), clones_t.find (clones_t.insert c k w).2 k' = some w' → P w' := by
  cases hf : clones_t.find c k with
  | some old =>
    simp only [clones_t.insert, hf]
    exact ⟨hc k old hf, hc⟩
  | none =>
    refine ⟨by simp only [clones_t.insert, hf]; exact hw, ?_⟩
    intro k' w' hf'
    by_cases hk : k' = k
    · rw [hk, find_insert_self] at hf'
      simp only [clones_t.insert, hf, Option.some.injEq] at hf'
      rw [← hf']
      exact hw
    · rw [find_insert_ne c k k' w hk] at hf'
      exact hc k' w' hf'

theorem clone_ops_unused (a : Nat)
    (rec : value → clones_t → module → Except error (value × clones_t × module))
    (hrec : ∀ (op : value) (c : clones_t) (m : module) (v : value) (c' : clones_t)
      (m' : module), a < m.insts.length → m.unused (.inst a) →
      (∀ (k w : value), clones_t.find c k = some w → w ≠ .inst a) →
      rec op c m = .ok (v, c', m') →
      m'.unused (.inst a) ∧ v ≠ .inst a ∧
        (∀ (k w : value), clones_t.find c' k = some w → w ≠ .inst a) ∧
        m.insts.length ≤ m'.insts.length)
    (ret : Nat) :
    ∀ (ops : List value) (clones : clones_t) (m : module) (c' : clones_t) (m' : module),
      a < m.insts.length → m.unused (.inst a) →
      (∀ (k w : value), clones_t.find clones k = some w → w ≠ .inst a) →
      clone_ops rec ret ops clones m = .ok (c', m') →
      m'.unused (.inst a) ∧ (∀ (k w : value), clones_t.find c' k = some w → w ≠ .inst a) ∧
        m.insts.length ≤ m'.insts.length := by
  intro ops
  induction ops with
  | nil =>
    intro clones m c' m' _ hu hc h
    simp only [clone_ops, Except.ok.injEq, Prod.mk.injEq] at h
    rw [← h.1, ← h.2]
    exact ⟨hu, hc, le_refl _⟩
  | cons op ops ih =>
    intro clones m c' m' ha hu hc h
    unfold clone_ops at h
    obtain ⟨r, hr, h⟩ := bind_ok_inv _ _ _ h
    obtain ⟨new_op, c₁, m₁⟩ := r
    dsimp only at h
    obtain ⟨m₂, h2, h⟩ := bind_ok_inv _ _ _ h
    obtain ⟨hu₁, hv₁, hc₁, hlen₁⟩ := hrec op clones m new_op c₁ m₁ ha hu hc hr
    have hu₂ := replace_uses_of_with_unused m₁ m₂ ret op new_op (.inst a) h2 hu₁ hv₁
    obtain ⟨y, _, hset⟩ := replace_uses_of_with_inv _ _ _ _ _ h2
    have hlen₂ : m₂.insts.length = m₁.insts.length := by rw [hset]; simp
    obtain ⟨hu₃, hc₃, hlen₃⟩ := ih c₁ m₂ c' m' (by omega) hu₂ hc₁ h
    exact ⟨hu₃, hc₃, by omega⟩

theorem _recursive_clone_unused (a : Nat) :
    ∀ (fuel : Nat) (root : value) (clones : clones_t) (blk : Nat) (m : module) (v : value)
      (c' : clones_t) (m' : module), a < m.insts.length → m.unused (.inst a) →
      (∀ (k w : value), clones_t.find clones k = some w → w ≠ .inst a) →
      _recursive_clone fuel root clones blk m = .ok (v, c', m') →
      m'.unused (.inst a) ∧ v ≠ .inst a ∧
        (∀ (k w : value), clones_t.find c' k = some w → w ≠ .inst a) ∧
        m.insts.length ≤ m'.insts.length := by
  intro fuel
  induction fuel with
  | zero => intro root clones blk m v c' m' _ _ _ h; simp [_recursive_clone] at h
  | succ f ih =>
    intro root clones blk m v c' m' ha hu hc h
    unfold _recursive_clone at h
    unfold _recursive_clone.body at h
    have hins : ∀ (w : value), w ≠ .inst a → v = (clones_t.insert clones root w).1 →
        c' = (clones_t.insert clones root w).2 → m' = m →
        m'.unused (.inst a) ∧ v ≠ .inst a ∧
          (∀ (k w : value), clones_t.find c' k = some w → w ≠ .inst a) ∧
          m.insts.length ≤ m'.insts.length := by
      intro w hw h1 h2 h3
      obtain ⟨e1, e2⟩ := insert_values clones root w (fun w => w ≠ .inst a) hc hw
      rw [h1, h2, h3]
      exact ⟨hu, e1, e2, le_refl _⟩
    cases hfind : clones_t.find clones root with
    | some w =>
      simp only [hfind, Except.ok.injEq, Prod.mk.injEq] at h
      rw [← h.1, ← h.2.1, ← h.2.2]
      exact ⟨hu, hc root w hfind, hc, le_refl _⟩
    | none =>
      simp only [hfind] at h
      cases root with
      | inst i =>
        dsimp only at h
        obtain ⟨x, hx, h⟩ := bind_ok_inv _ _ _ h
        have hx := defined_ok_inv _ _ _ hx
        by_cases hphi : x.op = .phi
        · simp only [hphi, if_true] at h
          obtain ⟨n, _, h⟩ := bind_ok_inv _ _ _ h
          obtain ⟨ret, hret, h⟩ := bind_ok_inv _ _ _ h
          have hret := defined_ok_inv _ _ _ hret
          simp only [Except.ok.injEq, Prod.mk.injEq] at h
          refine hins ret ?_ h.1.symm h.2.1.symm h.2.2.symm
          intro he
          rw [he] at hret
          exact hu x (List.getElem?_mem hx) (List.getElem?_mem hret)
        · simp only [hphi, if_false] at h
          obtain ⟨r, hinsert, h⟩ := bind_ok_inv _ _ _ h
          obtain ⟨ret, m₁⟩ := r
          dsimp only at h
          obtain ⟨m₂, hsip, h⟩ := bind_ok_inv _ _ _ h
          obtain ⟨r, hops, h⟩ := bind_ok_inv _ _ _ h
          obtain ⟨c₁, m₃⟩ := r
          simp only [Except.ok.injEq, Prod.mk.injEq] at h
          obtain ⟨hn, hlen₁, _⟩ := insert_new m x ret m₁ hinsert
          have hu₁ := insert_unused m x ret m₁ (.inst a) hinsert hu
            (hu x (List.getElem?_mem hx))
          have hi₂ := set_insert_point_insts m₁ m₂ ret hsip
          have hu₂ := unused_of_insts_eq (.inst a) hi₂ hu₁
          have hlen₂ : m₂.insts.length = m₁.insts.length := by rw [hi₂]
          obtain ⟨hu₃, hc₃, hlen₃⟩ :=
            clone_ops_unused a (fun op clones m => _recursive_clone f op clones blk m)
              (fun op c mk w c'' mk' e1 e2 e3 e4 => ih op c blk mk w c'' mk' e1 e2 e3 e4)
              ret x.ops clones m₂ c₁ m₃ (by omega) hu₂ hc hops
          have hne : value.inst ret ≠ .inst a := by
            intro he
            cases he
            omega
          obtain ⟨e1, e2⟩ := insert_values c₁ (.inst i) (.inst ret) (fun w => w ≠ .inst a) hc₃ hne
          rw [← h.1, ← h.2.1, ← h.2.2]
          exact ⟨hu₃, e1, e2, by omega⟩
      | undef ty =>
        simp only [Except.ok.injEq, Prod.mk.injEq] at h
        exact hins (.undef ty) (by simp) h.1.symm h.2.1.symm h.2.2.symm
      | int1 w =>
        simp only [Except.ok.injEq, Prod.mk.injEq] at h
        exact hins (.int1 w) (by simp) h.1.symm h.2.1.symm h.2.2.symm
      | other id ty =>
        simp only [Except.ok.injEq, Prod.mk.injEq] at h
        exact hins (.other id ty) (by simp) h.1.symm h.2.1.symm h.2.2.symm

theorem recursive_clone_unused (a fuel : Nat) (root : value) (blk : Nat) (m : module)
    (v : value) (m' : module) (ha : a < m.insts.length) (hu : m.unused (.inst a))
    (h : recursive_clone fuel root blk m = .ok (v, m')) :
    m'.unused (.inst a) ∧ v ≠ .inst a := by
  unfold recursive_clone at h
  obtain ⟨r, hr, h⟩ := bind_ok_inv _ _ _ h
  obtain ⟨w, c, m₁⟩ := r
  simp only [Except.ok.injEq, Prod.mk.injEq] at h
  obtain ⟨e1, e2, _, _⟩ := _recursive_clone_unused a fuel root [] blk m w c m₁ ha hu
    (fun k w' hf => by simp [clones_t.find] at hf) hr
  rw [← h.1, ← h.2]
  exact ⟨e1, e2⟩

namespace pipeline

theorem and_mask_unused (a : Nat) (m m' : module) (v v' : value) (mask : Option value)
    (hu : m.unused (.inst a)) (hv : v ≠ .inst a) (hmask : mask ≠ some (.inst a))
    (h : and_mask m v mask = .ok (v', m')) : m'.unused (.inst a) := by
  cases mask with
  | none =>
    simp only [and_mask, Except.ok.injEq, Prod.mk.injEq] at h
    rw [← h.2]
    exact hu
  | some k =>
    unfold and_mask at h
    obtain ⟨r, hr, h⟩ := bind_ok_inv _ _ _ h
    obtain ⟨n, m₁⟩ := r
    simp only [Except.ok.injEq, Prod.mk.injEq] at h
    rw [← h.2]
    refine insert_unused m _ n m₁ (.inst a) hr hu ?_
    simp only [List.mem_cons, List.mem_singleton, List.not_mem_nil, or_false, not_or]
    exact ⟨fun he => hv he.symm, fun he => hmask (by rw [he])⟩

theorem make_false_value_unused (a : Nat) (m m' : module) (ty : ir.type) (fv : Option value)
    (v' : value) (ha : a < m.insts.length) (hu : m.unused (.inst a))
    (hfv : fv ≠ some (.inst a)) (h : make_false_value m ty fv = .ok (v', m')) :
    m'.unused (.inst a) ∧ v' ≠ .inst a := by
  cases fv with
  | some k =>
    simp only [make_false_value, Except.ok.injEq, Prod.mk.injEq] at h
    rw [← h.2, ← h.1]
    exact ⟨hu, fun he => hfv (by rw [he])⟩
  | none =>
    unfold make_false_value at h
    obtain ⟨shapes, _, h⟩ := bind_ok_inv _ _ _ h
    obtain ⟨r, hr, h⟩ := bind_ok_inv _ _ _ h
    obtain ⟨s, m₁⟩ := r
    simp only [Except.ok.injEq, Prod.mk.injEq] at h
    obtain ⟨hn, _, _⟩ := insert_new m _ s m₁ hr
    rw [← h.2, ← h.1]
    refine ⟨insert_unused m _ s m₁ (.inst a) hr hu (by simp), ?_⟩
    intro he
    cases he
    omega

theorem prefetch_unused (a : Nat) (m m' : module) (ty : ir.type) (ptr fv : value) (f : Nat)
    (ha : a < m.insts.length) (hu : m.unused (.inst a)) (hptr : ptr ≠ .inst a)
    (hfv : fv ≠ .inst a) (h : prefetch m ty ptr fv = .ok (f, m')) : m'.unused (.inst a) := by
  unfold prefetch at h
  obtain ⟨shapes, _, h⟩ := bind_ok_inv _ _ _ h
  obtain ⟨r, hr, h⟩ := bind_ok_inv _ _ _ h
  obtain ⟨k, m₁⟩ := r
  dsimp only at h
  obtain ⟨hk, _, _⟩ := insert_new m _ k m₁ hr
  have hu₁ := insert_unused m _ k m₁ (.inst a) hr hu (by simp)
  refine insert_unused m₁ _ f m' (.inst a) h hu₁ ?_
  simp only [List.mem_cons, List.mem_singleton, List.not_mem_nil, or_false, not_or]
  refine ⟨fun he => hptr he.symm, ?_, fun he => hfv he.symm⟩
  intro he
  cases he
  omega

end pipeline

end transform

end codegen

/-! ### The pipelining pass: what the first half records -/

namespace codegen

theorem loop_of_inv (m : module) (L : Nat) (lp : loop_t) (h : m.loop_of L = some lp) :
    ∃ (x px brx : instruction) (bb : basic_block),
      m.insts[L]? = some x ∧ x.ops[0]? = some (.inst lp.ptr) ∧
      m.insts[lp.ptr]? = some px ∧ px.op = .phi ∧ px.parent = lp.block ∧
      lp.block ∈ px.blocks ∧ m.blocks[lp.block]? = some bb ∧
      bb.insts.getLast? = some lp.back_edge ∧ bb.preds[0]? = some lp.header ∧
      m.insts[lp.back_edge]? = some brx ∧ brx.op = .cond_branch ∧
      brx.ops[0]? = some lp.cond := by
  unfold module.loop_of at h
  cases hx : m.insts[L]? with
  | none => simp [hx] at h
  | some x =>
    simp only [hx] at h
    cases hp : x.ops[0]? with
    | none => simp [hp] at h
    | some o =>
      cases o with
      | inst p =>
        simp only [hp] at h
        cases hpx : m.insts[p]? with
        | none => simp [hpx] at h
        | some px =>
          simp only [hpx] at h
          by_cases hphi : px.op = .phi ∧ px.parent ∈ px.blocks
          · simp only [hphi, and_self, if_true] at h
            cases hbb : m.blocks[px.parent]? with
            | none => simp [hbb] at h
            | some bb =>
              simp only [hbb] at h
              cases hl : bb.insts.getLast? with
              | none => simp [hl] at h
              | some t =>
                cases hh : bb.preds[0]? with
                | none => simp [hl, hh] at h
                | some hd =>
                  simp only [hl, hh] at h
                  cases ht : m.insts[t]? with
                  | none => simp [ht] at h
                  | some tx =>
                    simp only [ht] at h
                    by_cases hcb : tx.op = .cond_branch
                    · simp only [hcb, if_true, Option.map_eq_some'] at h
                      obtain ⟨c, hc, hlp⟩ := h
                      rw [← hlp]
                      exact ⟨x, px, tx, bb, rfl, hp, hpx, hphi.1, rfl, hphi.2, hbb, hl, hh, ht,
                        hcb, hc⟩
                    · simp [hcb] at h
          · simp [hphi] at h
      | undef ty => simp [hp] at h
      | int1 w => simp [hp] at h
      | other id ty => simp [hp] at h

theorem well_formed_inv (m : module) (h : m.well_formed = true) :
    m.listed ∧ m.closed = true ∧ m.all_insts.Nodup ∧ m.terminated = true ∧
    (∀ (i : Nat) (x : instruction), m.insts[i]? = some x →
      (x.op = .masked_load → 3 ≤ x.ops.length) ∧
      (x.op = .phi → ∀ b ∈ x.blocks, b < m.blocks.length)) := by
  simp only [module.well_formed, Bool.and_eq_true, decide_eq_true_eq, List.all_eq_true] at h
  obtain ⟨⟨⟨⟨h1, h2⟩, h3⟩, h4⟩, h5⟩ := h
  exact ⟨h1, h2, h3, h4, fun i x hx => h5 x (List.getElem?_mem hx)⟩

theorem block_insts_ne_nil (m : module) (ht : m.terminated = true) (b : Nat)
    (hb : b < m.blocks.length) : m.block_insts b ≠ [] := by
  have hbb : m.blocks[b]? = some (m.blocks[b]) := List.getElem?_eq_getElem hb
  obtain ⟨t, hl, _⟩ := (terminated_iff m).mp ht b _ hbb
  simp only [module.block_insts, hbb]
  intro he
  simp [he] at hl

namespace transform

namespace pipeline

theorem visit_ready (m : module) (hwf : m.well_formed = true) (acc : List pipe_info_t)
    (L : Nat) (info : pipe_info_t) (hload : m.is_load L = true)
    (hinfo : m.info_of L = some info) :
    visit m acc L = .ok (acc ++ [info]) := by
  obtain ⟨_, _, _, hterm, harity⟩ := well_formed_inv m hwf
  unfold module.info_of at hinfo
  cases hlp : m.loop_of L with
  | none => simp [hlp] at hinfo
  | some lp =>
    obtain ⟨x, px, brx, bb, hx, hptr, hpx, hphi, hparent, hback, hbb, hlast, hH, hbr, hcb, hcond⟩ :=
      loop_of_inv m L lp hlp
    simp only [hlp, hx, Option.some.injEq] at hinfo
    rw [← hinfo]
    exact visit_load m acc L lp.ptr lp.block lp.header lp.back_edge x px brx bb hx hload hptr
      (harity L x hx).1 hpx hphi hparent hback
      (fun b hb => block_insts_ne_nil m hterm b ((harity lp.ptr px hpx).2 hphi b hb))
      hbb hlast hbr hcb hH

theorem collect_ready (m : module) (hwf : m.well_formed = true) :
    ∀ (l : List Nat) (acc : List pipe_info_t),
      (∀ i ∈ l, ∃ (x : instruction), m.insts[i]? = some x) →
      (∀ L ∈ l.filter m.is_load, (m.info_of L).isSome = true) →
      ∃ (infos : List pipe_info_t), collect m l acc = .ok (acc ++ infos) ∧
        List.Forall₂ (fun L info => m.info_of L = some info) (l.filter m.is_load) infos := by
  intro l
  induction l with
  | nil => intro acc _ _; exact ⟨[], by simp [collect], by simp⟩
  | cons i l ih =>
    intro acc hv hr
    obtain ⟨x, hx⟩ := hv i (by simp)
    have hv' : ∀ j ∈ l, ∃ (x : instruction), m.insts[j]? = some x :=
      fun j hj => hv j (by simp [hj])
    by_cases hil : m.is_load i = true
    · have hi : (m.info_of i).isSome = true := hr i (by simp [List.filter, hil])
      obtain ⟨info, hinfo⟩ := Option.isSome_iff_exists.mp hi
      obtain ⟨infos, hc, hf⟩ := ih (acc ++ [info]) hv'
        (fun L hL => hr L (by simp only [List.filter, hil]; exact List.mem_cons_of_mem _ hL))
      refine ⟨info :: infos, ?_, ?_⟩
      · simp only [collect, visit_ready m hwf acc i info hil hinfo, bind, Except.bind, hc]
        simp
      · simp only [List.filter, hil]
        exact List.Forall₂.cons hinfo hf
    · simp only [Bool.not_eq_true] at hil
      obtain ⟨infos, hc, hf⟩ := ih acc hv'
        (fun L hL => hr L (by simpa [List.filter, hil] using hL))
      refine ⟨infos, ?_, ?_⟩
      · simp only [collect, visit_not_load m acc i x hx hil, bind, Except.bind, hc]
      · simpa [List.filter, hil] using hf

end pipeline

end transform

end codegen

/-! ### Cloning in a module whose loads were redirected -/

namespace codegen

namespace transform

theorem cloneable_mono_le (m : module) (blk : Nat) (v : value) (d : Nat) :
    ∀ (e : Nat), d ≤ e → cloneable d m blk v = true → cloneable e m blk v = true := by
  intro e
  induction e with
  | zero =>
    intro hle h
    have : d = 0 := by omega
    rw [this] at h
    exact h
  | succ e ih =>
    intro hle h
    rcases Nat.eq_or_lt_of_le hle with he | hlt
    · rw [← he]
      exact h
    · exact cloneable_mono m blk e v (ih (by omega) h)

/-- A value that can be cloned in `m₀` can be cloned, once redirected, in a module
`m` whose instructions are those of `m₀` with redirected operands, if the
redirections on the walk lead to values that can be resolved. -/
theorem cloneable_redirected (m₀ m : module) (blk : Nat) (rd : value → value)
    (hold : ∀ (i : Nat) (x : instruction), m₀.insts[i]? = some x →
      m.insts[i]? = some { x with ops := x.ops.map rd })
    (hother : ∀ (o : value),
      (∀ (a : Nat), o = .inst a → ∃ (x : instruction), m₀.insts[a]? = some x ∧ x.op = .phi) →
      rd o = o) :
    ∀ (d : Nat) (root : value), cloneable d m₀ blk root = true →
      (∀ a ∈ reachable_non_phi d m₀ root, rd (.inst a) = .inst a ∨
        cloneable 1 m blk (rd (.inst a)) = true) →
      cloneable d m blk (rd root) = true := by
  intro d
  induction d with
  | zero => intro root h; simp [cloneable] at h
  | succ d ih =>
    intro root hcl hrd
    cases root with
    | inst i =>
      cases hx : m₀.insts[i]? with
      | none => simp [cloneable, hx] at hcl
      | some x =>
        by_cases hphi : x.op = .phi
        · rw [hother (.inst i) (fun a ha => by cases ha; exact ⟨x, hx, hphi⟩)]
          simp only [cloneable, hx, hphi, if_true] at hcl
          simpa [cloneable, hold i x hx, hphi] using hcl
        · have hops : ∀ o ∈ x.ops, cloneable d m₀ blk o = true := by
            simpa [cloneable, hx, hphi] using hcl
          have hmem : i ∈ reachable_non_phi (d + 1) m₀ (.inst i) :=
            (mem_reachable_non_phi m₀ d i x i hx hphi).mpr (Or.inl rfl)
          rcases hrd i hmem with hsame | hq
          · rw [hsame]
            have hgoal : ∀ o ∈ x.ops, cloneable d m blk (rd o) = true := by
              intro o ho
              refine ih o (hops o ho) ?_
              intro a ha
              exact hrd a ((mem_reachable_non_phi m₀ d i x a hx hphi).mpr (Or.inr ⟨o, ho, ha⟩))
            simpa [cloneable, hold i x hx, hphi] using hgoal
          · exact cloneable_mono_le m blk _ 1 (d + 1) (by omega) hq
    | undef ty =>
      rw [hother (.undef ty) (fun a ha => by cases ha)]
      simp [cloneable]
    | int1 w =>
      rw [hother (.int1 w) (fun a ha => by cases ha)]
      simp [cloneable]
    | other id ty =>
      rw [hother (.other id ty) (fun a ha => by cases ha)]
      simp [cloneable]

end transform

end codegen

/-! ### The loop body of the pass before the phi node -/

namespace codegen

namespace transform

namespace pipeline

/-- The loop body of `pipeline::run` is its statements before the phi node followed
by the statements of the phi node. -/
theorem rewrite_traced_of_prefetched (fuel : Nat) (m m' : module) (info : pipe_info_t)
    (L P B H br fl nl : Nat) (load brx : instruction) (cond : value)
    (hinfo_h : info.header = some H) (hinfo_b : info.block = some B)
    (hinfo_l : info.load = L) (hinfo_p : info.ptr = some P)
    (hinfo_e : info.back_edge = some br)
    (hL : m.insts[L]? = some load) (hbr : m.insts[br]? = some brx)
    (hcond : brx.ops[0]? = some cond)
    (h : prefetched fuel m info.mask info.false_value load.ty P cond H B fl nl m') :
    rewrite_traced fuel m info =
      (merge_traced m' load.ty L fl nl H B).map
        (fun r => ({ load := L, header := H, block := B, first_load := fl, next_load := nl,
                     new_load := r.1 }, r.2)) ∧
    rewrite fuel m info = merge m' load.ty L fl nl H B := by
  obtain ⟨m₁, m₂, m₃, m₄, m₅, m₆, m₇, m₈, m₉, m₁₀, m₁₁, m₁₂, first_ptr, first_mask, fm,
    false_value, next_ptr, next_mask, nm, h1, h2, h3, h4, h5, h6, h7, h8, h9, h10, h11, h12,
    h13⟩ := h
  constructor
  · simp only [rewrite_traced, hinfo_h, hinfo_b, hinfo_l, hinfo_p, hinfo_e, defined,
      module.get_inst, hbr, hcond, hL, bind, Except.bind, h1, h2, h3, h4, h5, h6, h7, h8, h9,
      h10, h11, h12, h13]
    cases merge_traced m' load.ty L fl nl H B with
    | error e => rfl
    | ok r => rfl
  · simp only [rewrite, hinfo_h, hinfo_b, hinfo_l, hinfo_p, hinfo_e, defined,
      module.get_inst, hbr, hcond, hL, bind, Except.bind, h1, h2, h3, h4, h5, h6, h7, h8, h9,
      h10, h11, h12, h13]

/-- The statements before the phi node create no phi node and move none. -/
theorem prefetched_phi_frame (fuel : Nat) (m m' : module) (mask fvo : Option value)
    (ty : ir.type) (P : Nat) (cond : value) (H B fl nl : Nat) (ht : m.terminated = true)
    (h : prefetched fuel m mask fvo ty P cond H B fl nl m') : phi_frame m m' := by
  obtain ⟨m₁, m₂, m₃, m₄, m₅, m₆, m₇, m₈, m₉, m₁₀, m₁₁, m₁₂, first_ptr, first_mask, fm,
    false_value, next_ptr, next_mask, nm, h1, h2, h3, h4, h5, h6, h7, h8, h9, h10, h11, h12,
    h13⟩ := h
  obtain ⟨f₁, c₁⟩ := set_insert_point_back_phi_frame m m₁ H h1 ht
  obtain ⟨f₂, c₂⟩ := recursive_clone_phi_frame fuel _ H m₁ first_ptr m₂ c₁ h2
  obtain ⟨f₃, c₃⟩ := recursive_clone_phi_frame fuel cond H m₂ first_mask m₃ c₂ h3
  obtain ⟨f₄, c₄⟩ := and_mask_phi_frame m₃ m₄ first_mask fm mask h4 c₃
  obtain ⟨f₅, c₅⟩ := make_false_value_phi_frame m₄ m₅ ty fvo false_value h5 c₄
  have g₅ : phi_frame m m₅ := (((f₁.followed_by f₂).followed_by f₃).followed_by f₄).followed_by f₅
  obtain ⟨f₆, c₆⟩ := set_insert_point_back_phi_frame m₅ m₆ H h6 (g₅.2.2 ht)
  obtain ⟨f₇, c₇⟩ := prefetch_phi_frame m₆ m₇ ty first_ptr false_value fl h7 c₆
  have g₇ : phi_frame m m₇ := (g₅.followed_by f₆).followed_by f₇
  obtain ⟨f₈, c₈⟩ := set_insert_point_back_phi_frame m₇ m₈ B h8 (g₇.2.2 ht)
  obtain ⟨f₉, c₉⟩ := recursive_clone_phi_frame fuel _ B m₈ next_ptr m₉ c₈ h9
  obtain ⟨f₁₀, c₁₀⟩ := recursive_clone_phi_frame fuel cond B m₉ next_mask m₁₀ c₉ h10
  obtain ⟨f₁₁, c₁₁⟩ := and_mask_phi_frame m₁₀ m₁₁ next_mask nm mask h11 c₁₀
  have g₁₁ : phi_frame m m₁₁ := (((g₇.followed_by f₈).followed_by f₉).followed_by f₁₀).followed_by f₁₁
  obtain ⟨f₁₂, c₁₂⟩ := set_insert_point_back_phi_frame m₁₁ m₁₂ B h12 (g₁₁.2.2 ht)
  obtain ⟨f₁₃, _⟩ := prefetch_phi_frame m₁₂ m' ty next_ptr false_value nl h13 c₁₂
  exact (g₁₁.followed_by f₁₂).followed_by f₁₃

/-- The statements before the phi node make no use of an instruction that was not
used, unless it is the recorded mask or the recorded fallback. -/
theorem prefetched_unused (a fuel : Nat) (m m' : module) (mask fvo : Option value)
    (ty : ir.type) (P : Nat) (cond : value) (H B fl nl : Nat) (ha : a < m.insts.length)
    (hu : m.unused (.inst a)) (hmask : mask ≠ some (.inst a)) (hfvo : fvo ≠ some (.inst a))
    (h : prefetched fuel m mask fvo ty P cond H B fl nl m') : m'.unused (.inst a) := by
  obtain ⟨m₁, m₂, m₃, m₄, m₅, m₆, m₇, m₈, m₉, m₁₀, m₁₁, m₁₂, first_ptr, first_mask, fm,
    false_value, next_ptr, next_mask, nm, h1, h2, h3, h4, h5, h6, h7, h8, h9, h10, h11, h12,
    h13⟩ := h
  have i₁ := set_insert_point_back_insts m m₁ H h1
  have u₁ := unused_of_insts_eq (.inst a) i₁ hu
  have a₁ : a < m₁.insts.length := by rw [i₁]; exact ha
  obtain ⟨u₂, v₂⟩ := recursive_clone_unused a fuel _ H m₁ first_ptr m₂ a₁ u₁ h2
  have a₂ := lt_of_lt_of_le a₁ (recursive_clone_keeps fuel _ H m₁ first_ptr m₂ h2).grows
  obtain ⟨u₃, v₃⟩ := recursive_clone_unused a fuel cond H m₂ first_mask m₃ a₂ u₂ h3
  have a₃ := lt_of_lt_of_le a₂ (recursive_clone_keeps fuel cond H m₂ first_mask m₃ h3).grows
  have u₄ := and_mask_unused a m₃ m₄ first_mask fm mask u₃ v₃ hmask h4
  have a₄ := lt_of_lt_of_le a₃ (and_mask_keeps m₃ m₄ first_mask fm mask h4).grows
  obtain ⟨u₅, v₅⟩ := make_false_value_unused a m₄ m₅ ty fvo false_value a₄ u₄ hfvo h5
  have a₅ := lt_of_lt_of_le a₄ (make_false_value_inv m₄ m₅ ty fvo false_value h5).1.grows
  have i₆ := set_insert_point_back_insts m₅ m₆ H h6
  have u₆ := unused_of_insts_eq (.inst a) i₆ u₅
  have a₆ : a < m₆.insts.length := by rw [i₆]; exact a₅
  have u₇ := prefetch_unused a m₆ m₇ ty first_ptr false_value fl a₆ u₆ v₂ v₅ h7
  obtain ⟨_, _, _, _, k₇, _⟩ := prefetch_inv m₆ m₇ ty first_ptr false_value fl h7
  have a₇ := lt_of_lt_of_le a₆ k₇.grows
  have i₈ := set_insert_point_back_insts m₇ m₈ B h8
  have u₈ := unused_of_insts_eq (.inst a) i₈ u₇
  have a₈ : a < m₈.insts.length := by rw [i₈]; exact a₇
  obtain ⟨u₉, v₉⟩ := recursive_clone_unused a fuel _ B m₈ next_ptr m₉ a₈ u₈ h9
  have a₉ := lt_of_lt_of_le a₈ (recursive_clone_keeps fuel _ B m₈ next_ptr m₉ h9).grows
  obtain ⟨u₁₀, v₁₀⟩ := recursive_clone_unused a fuel cond B m₉ next_mask m₁₀ a₉ u₉ h10
  have a₁₀ := lt_of_lt_of_le a₉ (recursive_clone_keeps fuel cond B m₉ next_mask m₁₀ h10).grows
  have u₁₁ := and_mask_unused a m₁₀ m₁₁ next_mask nm mask u₁₀ v₁₀ hmask h11
  have a₁₁ := lt_of_lt_of_le a₁₀ (and_mask_keeps m₁₀ m₁₁ next_mask nm mask h11).grows
  have i₁₂ := set_insert_point_back_insts m₁₁ m₁₂ B h12
  have u₁₂ := unused_of_insts_eq (.inst a) i₁₂ u₁₁
  have a₁₂ : a < m₁₂.insts.length := by rw [i₁₂]; exact a₁₁
  exact prefetch_unused a m₁₂ m' ty next_ptr false_value nl a₁₂ u₁₂ v₉ v₅ h13

/-- The statements before the phi node return on a module in which the pointer phi
node and the branch condition can be cloned: both prefetch loads are emitted and the
module only grows. -/
theorem prefetched_forward (fuel d : Nat) (m : module) (mask fv : Option value)
    (ty : ir.type) (P B H : Nat) (hb bb : basic_block) (cond : value) (shapes : List Nat)
    (hlisted : m.listed) (hty : ty.get_block_shapes = some shapes)
    (hH : m.blocks[H]? = some hb) (hHne : hb.insts ≠ [])
    (hB : m.blocks[B]? = some bb) (hBne : bb.insts ≠ [])
    (hc1 : cloneable d m H (.inst P) = true) (hc2 : cloneable d m H cond = true)
    (hc3 : cloneable d m B (.inst P) = true) (hc4 : cloneable d m B cond = true)
    (hfuel : d ≤ fuel) :
    ∃ (m' : module) (first_load next_load : Nat),
      prefetched fuel m mask fv ty P cond H B first_load next_load m' ∧
      extends_module m m' ∧ m'.listed ∧
      m.insts.length ≤ first_load ∧ m.insts.length ≤ next_load ∧
      (∃ (x : instruction), m'.insts[first_load]? = some x ∧ x.op = .masked_load ∧
        x.parent = H) ∧
      (∃ (x : instruction), m'.insts[next_load]? = some x ∧ x.op = .masked_load ∧
        x.parent = B) := by
  have e₀ := extends_module.rfl' m
  -- for first pre-fetching
  obtain ⟨t₁, h1⟩ := set_insert_point_back_step m m H hb e₀ hlisted hH hHne
  have hHlt : H < m.blocks.length := get_lt_of_some _ _ _ hH
  have hBlt : B < m.blocks.length := get_lt_of_some _ _ _ hB
  obtain ⟨first_ptr, m₂, h2, e₂, l₂, c₂⟩ :=
    recursive_clone_succeeds d fuel (.inst P) H { m with insert_point := some (H, some t₁) }
      hfuel (cloneable_extends d m _ H _ ⟨e₀.old, e₀.fresh, e₀.blocks⟩ hc1) hlisted
      ⟨H, some t₁, rfl, hHlt⟩
  have e₂' : extends_module m m₂ := ⟨e₂.old, e₂.fresh, e₂.blocks⟩
  obtain ⟨first_mask, m₃, h3, e₃, l₃, c₃⟩ :=
    recursive_clone_succeeds d fuel cond H m₂ hfuel (cloneable_extends d m _ H _ e₂' hc2) l₂ c₂
  obtain ⟨fm, m₄, h4, e₄, l₄, c₄⟩ := and_mask_step m₃ first_mask mask c₃ l₃
  obtain ⟨false_value, m₅, h5, e₅, l₅, c₅⟩ :=
    make_false_value_step m₄ ty shapes fv hty c₄ l₄
  have e₅' : extends_module m m₅ := ((e₂'.trans e₃).trans e₄).trans e₅
  obtain ⟨t₆, h6⟩ := set_insert_point_back_step m m₅ H hb e₅' l₅ hH hHne
  obtain ⟨first_load, m₇, h7, e₇, l₇, c₇, hfl, x₁, hx₁, hx₁op, hx₁p, _⟩ :=
    prefetch_step { m₅ with insert_point := some (H, some t₆) } ty shapes first_ptr
      false_value H (some t₆) hty rfl (block_lt_of_extends m m₅ H hb e₅' hH) l₅
  have e₇' : extends_module m m₇ := e₅'.trans ⟨e₇.old, e₇.fresh, e₇.blocks⟩
  -- for next pre-fetching
  obtain ⟨t₈, h8⟩ := set_insert_point_back_step m m₇ B bb e₇' l₇ hB hBne
  obtain ⟨next_ptr, m₉, h9, e₉, l₉, c₉⟩ :=
    recursive_clone_succeeds d fuel (.inst P) B { m₇ with insert_point := some (B, some t₈) }
      hfuel (cloneable_extends d m _ B _ ⟨e₇'.old, e₇'.fresh, e₇'.blocks⟩ hc3) l₇
      ⟨B, some t₈, rfl, block_lt_of_extends m m₇ B bb e₇' hB⟩
  have e₉' : extends_module m m₉ := e₇'.trans ⟨e₉.old, e₉.fresh, e₉.blocks⟩
  obtain ⟨next_mask, m₁₀, h10, e₁₀, l₁₀, c₁₀⟩ :=
    recursive_clone_succeeds d fuel cond B m₉ hfuel (cloneable_extends d m _ B _ e₉' hc4) l₉ c₉
  obtain ⟨nm, m₁₁, h11, e₁₁, l₁₁, c₁₁⟩ := and_mask_step m₁₀ next_mask mask c₁₀ l₁₀
  have e₁₁' : extends_module m m₁₁ := (e₉'.trans e₁₀).trans e₁₁
  obtain ⟨t₁₂, h12⟩ := set_insert_point_back_step m m₁₁ B bb e₁₁' l₁₁ hB hBne
  obtain ⟨next_load, m₁₃, h13, e₁₃, l₁₃, c₁₃, hnl, x₂, hx₂, hx₂op, hx₂p, _⟩ :=
    prefetch_step { m₁₁ with insert_point := some (B, some t₁₂) } ty shapes next_ptr
      false_value B (some t₁₂) hty rfl (block_lt_of_extends m m₁₁ B bb e₁₁' hB) l₁₁
  have e₁₃' : extends_module m m₁₃ := e₁₁'.trans ⟨e₁₃.old, e₁₃.fresh, e₁₃.blocks⟩
  have e₇₁₃ : extends_module m₇ m₁₃ :=
    (((⟨e₉.old, e₉.fresh, e₉.blocks⟩ : extends_module m₇ m₉).trans e₁₀).trans e₁₁).trans
      ⟨e₁₃.old, e₁₃.fresh, e₁₃.blocks⟩
  refine ⟨m₁₃, first_load, next_load, ?_, e₁₃', l₁₃, ?_, ?_,
    ⟨x₁, e₇₁₃.old _ _ hx₁, hx₁op, hx₁p⟩, ⟨x₂, hx₂, hx₂op, hx₂p⟩⟩
  · exact ⟨_, m₂, m₃, m₄, m₅, _, m₇, _, m₉, m₁₀, m₁₁, _, first_ptr, first_mask, fm,
      false_value, next_ptr, next_mask, nm, h1, h2, h3, h4, h5, h6, h7, h8, h9, h10, h11, h12,
      h13⟩
  · exact le_trans e₅'.length_le hfl
  · exact le_trans e₁₁'.length_le hnl

/-- The statements of the phi node, on a module whose block `B` has an instruction
that is no phi node: the phi node is allocated last, stands right before the first
instruction of `B` that is no phi node, and every use of the load reads it. -/
theorem merge_traced_spec (m : module) (ty : ir.type) (L fl nl H B : Nat) (bb : basic_block)
    (hl : m.listed) (hbb : m.blocks[B]? = some bb)
    (hnp : ∃ t ∈ bb.insts, m.is_phi t = false) :
    ∃ (phis rest : List Nat) (f : Nat),
      bb.insts = phis ++ f :: rest ∧ (∀ i ∈ phis, m.is_phi i = true) ∧ m.is_phi f = false ∧
      merge_traced m ty L fl nl H B = .ok (m.insts.length,
        module.mk
          ((m.insts ++ [instruction.mk .phi ty [.inst fl, .inst nl] [H, B] B]).map
            (fun (x : instruction) => x.replace_uses_of_with (.inst L) (.inst m.insts.length)))
          (m.blocks.set B (basic_block.mk (phis ++ m.insts.length :: f :: rest) bb.preds))
          (some (B, some f))) := by
  have hsome : (m.get_first_non_phi bb).isSome := by
    obtain ⟨t, ht, hpt⟩ := hnp
    simp only [module.get_first_non_phi, List.find?_isSome]
    exact ⟨t, ht, by simp [hpt]⟩
  obtain ⟨f, hf⟩ := Option.isSome_iff_exists.mp hsome
  have hfind := hf
  simp only [module.get_first_non_phi] at hfind
  obtain ⟨hpf, phis, rest, hsplit, hphis⟩ := List.find?_eq_some.mp hfind
  have hpf' : m.is_phi f = false := by simpa using hpf
  have hphis' : ∀ i ∈ phis, m.is_phi i = true := by
    intro i hi
    simpa using hphis i hi
  have hfnot : f ∉ phis := by
    intro h
    have := hphis' f h
    rw [hpf'] at this
    cases this
  have hfm : f ∈ bb.insts := by rw [hsplit]; simp
  obtain ⟨x, hx, hp⟩ := (listed_iff m).mp hl B bb hbb f hfm
  have hsip := set_insert_point_spec m f x hx
  have hins := insert_spec { m with insert_point := some (x.parent, some f) }
    { op := .phi, ty := ty, ops := [], blocks := [], parent := 0 } B (some f) bb
    (by rw [hp]) hbb
  refine ⟨phis, rest, f, hsplit, hphis', hpf', ?_⟩
  simp only [merge_traced, module.get_block, hbb, defined, hf, bind, Except.bind, hsip,
    module.create_phi, hins, module.add_incoming, module.get_inst,
    module.replace_all_uses_with]
  simp [hsplit, insert_at_split _ f phis rest hfnot, hp]

end pipeline

end transform

end codegen

/-! ### The module after the statements of the phi node -/

namespace codegen

namespace transform

namespace pipeline

theorem merged_old (m : module) (ty : ir.type) (L fl nl H B : Nat) (phis rest : List Nat)
    (f : Nat) (preds : List Nat) (i : Nat) (y : instruction) (hy : m.insts[i]? = some y) :
    (merged m ty L fl nl H B phis rest f preds).insts[i]?
      = some (y.replace_uses_of_with (.inst L) (.inst m.insts.length)) := by
  simp only [merged, List.getElem?_map]
  rw [List.getElem?_append_left (get_lt_of_some _ _ _ hy), hy]
  rfl

theorem merged_new (m : module) (ty : ir.type) (L fl nl H B : Nat) (phis rest : List Nat)
    (f : Nat) (preds : List Nat) (hfl : fl ≠ L) (hnl : nl ≠ L) :
    (merged m ty L fl nl H B phis rest f preds).insts[m.insts.length]?
      = some (instruction.mk .phi ty [.inst fl, .inst nl] [H, B] B) := by
  simp [merged, List.getElem?_map, List.getElem?_concat_length,
    instruction.replace_uses_of_with, hfl, hnl]

theorem merged_is_phi (m : module) (ty : ir.type) (L fl nl H B : Nat) (phis rest : List Nat)
    (f : Nat) (preds : List Nat) (i : Nat) :
    (merged m ty L fl nl H B phis rest f preds).is_phi i
      = (m.is_phi i || decide (i = m.insts.length)) := by
  simp only [module.is_phi, merged, List.getElem?_map]
  rcases Nat.lt_trichotomy i m.insts.length with hlt | heq | hgt
  · rw [List.getElem?_append_left hlt]
    have hne : ¬ (i = m.insts.length) := by omega
    cases m.insts[i]? <;> simp [instruction.replace_uses_of_with, hne]
  · rw [heq, List.getElem?_concat_length, List.getElem?_eq_none (le_refl _)]
    simp [instruction.replace_uses_of_with]
  · have hne : ¬ (i = m.insts.length) := by omega
    rw [List.getElem?_eq_none (by simp; omega), List.getElem?_eq_none (by omega)]
    simp [hne]

theorem merged_blocks (m : module) (ty : ir.type) (L fl nl H B : Nat) (phis rest : List Nat)
    (f : Nat) (bb : basic_block) (hbb : m.blocks[B]? = some bb) (b : Nat) :
    (merged m ty L fl nl H B phis rest f bb.preds).blocks[b]?
      = if b = B then some (basic_block.mk (phis ++ m.insts.length :: f :: rest) bb.preds)
        else m.blocks[b]? := by
  have hB := get_lt_of_some _ _ _ hbb
  simp only [merged, List.getElem?_set]
  by_cases h : B = b
  · subst h
    simp [hB]
  · have h' : ¬ (b = B) := fun e => h e.symm
    simp [h, h']

theorem merged_listed (m : module) (ty : ir.type) (L fl nl H B : Nat) (phis rest : List Nat)
    (f : Nat) (bb : basic_block) (hl : m.listed) (hbb : m.blocks[B]? = some bb)
    (hsplit : bb.insts = phis ++ f :: rest) (hfl : fl ≠ L) (hnl : nl ≠ L) :
    (merged m ty L fl nl H B phis rest f bb.preds).listed := by
  rw [listed_iff] at hl ⊢
  intro b bb' hb' i hi
  rw [merged_blocks m ty L fl nl H B phis rest f bb hbb b] at hb'
  by_cases hbB : b = B
  · simp only [hbB, if_true, Option.some.injEq] at hb'
    rw [← hb'] at hi
    simp only [List.mem_append, List.mem_cons] at hi
    have hold : i ∈ bb.insts → ∃ (x : instruction),
        (merged m ty L fl nl H B phis rest f bb.preds).insts[i]? = some x ∧ x.parent = b := by
      intro hin
      obtain ⟨y, hy, hp⟩ := hl B bb hbb i hin
      exact ⟨_, merged_old m ty L fl nl H B phis rest f bb.preds i y hy, by rw [hbB]; exact hp⟩
    rcases hi with hi | hi | hi | hi
    · exact hold (by rw [hsplit]; simp [hi])
    · rw [hi]
      exact ⟨_, merged_new m ty L fl nl H B phis rest f bb.preds hfl hnl, hbB.symm⟩
    · exact hold (by rw [hsplit]; simp [hi])
    · exact hold (by rw [hsplit]; simp [hi])
  · simp only [hbB, if_false] at hb'
    obtain ⟨y, hy, hp⟩ := hl b bb' hb' i hi
    exact ⟨_, merged_old m ty L fl nl H B phis rest f bb.preds i y hy, hp⟩

theorem listed_lt (m : module) (hl : m.listed) (b : Nat) (bb : basic_block)
    (hbb : m.blocks[b]? = some bb) (i : Nat) (hi : i ∈ bb.insts) : i < m.insts.length := by
  obtain ⟨y, hy, _⟩ := (listed_iff m).mp hl b bb hbb i hi
  exact get_lt_of_some _ _ _ hy

theorem merged_terminated (m : module) (ty : ir.type) (L fl nl H B : Nat)
    (phis rest : List Nat) (f : Nat) (bb : basic_block) (hl : m.listed)
    (ht : m.terminated = true) (hbb : m.blocks[B]? = some bb)
    (hsplit : bb.insts = phis ++ f :: rest) :
    (merged m ty L fl nl H B phis rest f bb.preds).terminated = true := by
  rw [terminated_iff] at ht ⊢
  intro b bb' hb'
  rw [merged_blocks m ty L fl nl H B phis rest f bb hbb b] at hb'
  have hkeep : ∀ (t : Nat) (c : Nat) (cb : basic_block), m.blocks[c]? = some cb →
      t ∈ cb.insts → m.is_phi t = false →
      (merged m ty L fl nl H B phis rest f bb.preds).is_phi t = false := by
    intro t c cb hcb htin hp
    have hlt := listed_lt m hl c cb hcb t htin
    have hne : ¬ (t = m.insts.length) := by omega
    rw [merged_is_phi, hp]
    simp [hne]
  by_cases hbB : b = B
  · simp only [hbB, if_true, Option.some.injEq] at hb'
    obtain ⟨t, hlast, hp⟩ := ht B bb hbb
    refine ⟨t, ?_, hkeep t B bb hbb (List.mem_of_getLast?_eq_some hlast) hp⟩
    rw [← hb']
    rw [hsplit] at hlast
    simp only [List.getLast?_append, List.getLast?_cons_cons] at hlast ⊢
    exact hlast
  · simp only [hbB, if_false] at hb'
    obtain ⟨t, hlast, hp⟩ := ht b bb' hb'
    exact ⟨t, hlast, hkeep t b bb' hb' (List.mem_of_getLast?_eq_some hlast) hp⟩

theorem takeWhile_congr_mem (p p' : Nat → Bool) (l : List Nat)
    (h : ∀ i ∈ l, p' i = p i) : l.takeWhile p' = l.takeWhile p := by
  induction l with
  | nil => rfl
  | cons a l ih =>
    have ha := h a (by simp)
    have ih' := ih (fun i hi => h i (by simp [hi]))
    simp only [List.takeWhile_cons, ha, ih']

theorem merged_leading_phis (m : module) (ty : ir.type) (L fl nl H B : Nat)
    (phis rest : List Nat) (f : Nat) (bb : basic_block) (hl : m.listed)
    (hbb : m.blocks[B]? = some bb) (hsplit : bb.insts = phis ++ f :: rest)
    (hphis : ∀ i ∈ phis, m.is_phi i = true) (hf : m.is_phi f = false) (b : Nat) :
    (merged m ty L fl nl H B phis rest f bb.preds).leading_phis b
      = m.leading_phis b ++ (if b = B then [m.insts.length] else []) := by
  have hsame : ∀ (c : Nat) (cb : basic_block), m.blocks[c]? = some cb → ∀ i ∈ cb.insts,
      (merged m ty L fl nl H B phis rest f bb.preds).is_phi i = m.is_phi i := by
    intro c cb hcb i hi
    have hlt := listed_lt m hl c cb hcb i hi
    have hne : ¬ (i = m.insts.length) := by omega
    rw [merged_is_phi]
    simp [hne]
  simp only [module.leading_phis, module.block_insts]
  rw [merged_blocks m ty L fl nl H B phis rest f bb hbb b]
  by_cases hbB : b = B
  · simp only [hbB, if_true, hbb, hsplit]
    have hphis' : ∀ i ∈ phis,
        (merged m ty L fl nl H B phis rest f bb.preds).is_phi i = true := by
      intro i hi
      rw [hsame B bb hbb i (by rw [hsplit]; simp [hi])]
      exact hphis i hi
    have hf' : (merged m ty L fl nl H B phis rest f bb.preds).is_phi f = false := by
      rw [hsame B bb hbb f (by rw [hsplit]; simp)]
      exact hf
    have hq : (merged m ty L fl nl H B phis rest f bb.preds).is_phi m.insts.length = true := by
      rw [merged_is_phi]
      simp
    rw [List.takeWhile_append_of_pos hphis', List.takeWhile_append_of_pos hphis]
    simp [List.takeWhile_cons, hq, hf', hf]
  · simp only [hbB, if_false, List.append_nil]
    cases hcb : m.blocks[b]? with
    | none => rfl
    | some cb => exact takeWhile_congr_mem _ _ _ (hsame b cb hcb)

theorem merged_unused (m : module) (ty : ir.type) (L fl nl H B : Nat) (phis rest : List Nat)
    (f : Nat) (preds : List Nat) (a : Nat)
    (hfl : fl ≠ a) (hnl : nl ≠ a) (ha : a < m.insts.length)
    (hu : m.unused (.inst a) ∨ a = L) :
    (merged m ty L fl nl H B phis rest f preds).unused (.inst a) := by
  intro x hx
  simp only [merged, List.mem_map] at hx
  obtain ⟨y, hy, rfl⟩ := hx
  simp only [instruction.replace_uses_of_with, List.mem_map, not_exists, not_and]
  intro o ho hov
  by_cases hoL : o = .inst L
  · simp only [hoL, if_true, value.inst.injEq] at hov
    omega
  · simp only [hoL, if_false] at hov
    rw [hov] at ho hoL
    rcases List.mem_append.mp hy with hy | hy
    · rcases hu with hu | hu
      · exact hu y hy ho
      · exact hoL (by rw [hu])
    · simp only [List.mem_singleton] at hy
      rw [hy] at ho
      simp only [List.mem_cons, value.inst.injEq, List.mem_singleton, List.not_mem_nil,
        or_false] at ho
      rcases ho with ho | ho
      · exact hfl ho.symm
      · exact hnl ho.symm

end pipeline

end transform

end codegen

/-! ### One iteration of the loop of the pass -/

namespace codegen

theorem redirect_snoc (done : List transform.pipelined_t) (r : transform.pipelined_t)
    (hne : ∀ r' ∈ done, r'.new_load ≠ r.load) (o : value) :
    (if redirect done o = .inst r.load then .inst r.new_load else redirect done o)
      = redirect (done ++ [r]) o := by
  cases o with
  | inst a =>
    simp only [redirect, List.find?_append]
    cases hf : done.find? (fun r' => decide (r'.load = a)) with
    | some r' =>
      have hmem := List.mem_of_find?_eq_some hf
      have := hne r' hmem
      simp [this]
    | none =>
      by_cases ha : r.load = a
      · simp [List.find?, ha]
      · have ha' : ¬ (a = r.load) := fun e => ha e.symm
        simp [List.find?, ha, ha']
  | undef ty => simp [redirect]
  | int1 w => simp [redirect]
  | other id ty => simp [redirect]

theorem redirect_of_not_load (done : List transform.pipelined_t) (o : value)
    (h : ∀ r ∈ done, o ≠ .inst r.load) : redirect done o = o := by
  cases o with
  | inst a =>
    simp only [redirect]
    cases hf : done.find? (fun r' => decide (r'.load = a)) with
    | some r' =>
      have hmem := List.mem_of_find?_eq_some hf
      have hl := List.find?_some hf
      simp only [decide_eq_true_eq] at hl
      exact absurd (by rw [hl]) (h r' hmem)
    | none => rfl
  | undef ty => rfl
  | int1 w => rfl
  | other id ty => rfl

theorem redirect_cases (done : List transform.pipelined_t) (a : Nat) :
    redirect done (.inst a) = .inst a ∨
      ∃ r ∈ done, r.load = a ∧ redirect done (.inst a) = .inst r.new_load := by
  simp only [redirect]
  cases hf : done.find? (fun r' => decide (r'.load = a)) with
  | some r' =>
    right
    have hl := List.find?_some hf
    simp only [decide_eq_true_eq] at hl
    exact ⟨r', List.mem_of_find?_eq_some hf, hl, rfl⟩
  | none => left; rfl

namespace transform

namespace pipeline

/-- One rewrite of `pipeline::run`, when it returns: the instructions there were
evolve, the phi node is the instruction allocated last, and the two loads it merges
have forced masks. -/
theorem rewrite_step_pinned (fuel n : Nat) (m m' : module) (info : pipe_info_t) (p : Nat)
    (px : instruction) (hn : n ≤ m.insts.length) (hL : info.load < n)
    (hptr : info.ptr = some p) (hpn : p < n) (hp : m.insts[p]? = some px)
    (hphi : px.op = .phi)
    (hfv : ∀ (v : value), info.false_value = some v → v.below n = true)
    (hold : m.old_operands_ok n) (h : rewrite fuel m info = .ok m') :
    evolves n m m' ∧
    ∃ (load qx : instruction) (shapes : List Nat) (fl nl : Nat),
      m.insts[info.load]? = some load ∧ load.ty.get_block_shapes = some shapes ∧
      m'.insts.getLast? = some qx ∧ qx.ops = [.inst fl, .inst nl] ∧
      m'.forced_prefetch n shapes fl ∧ m'.forced_prefetch n shapes nl := by
  obtain ⟨m₁, load, fx, nx, s₁, s₂, shapes, H, B, fl, nl, k₁, k₂, b, p₁, p₂, fv, hload, hshapes,
    hH, hB, hk, hm, ⟨hfl, hfx, hfxop, hfxops, hk₁, hs₁, hs₁op, hs₁ops, hs₁ty⟩,
    ⟨hnl, hnx, hnxop, hnxops, hk₂, hs₂, hs₂op, hs₂ops, hs₂ty⟩, hp₁, hp₂, hfvc⟩ :=
    rewrite_inv fuel m m' info p px hptr hp hphi h
  have hn₁ : n ≤ m₁.insts.length := le_trans hn hk.grows
  have hev₁ : evolves n m₁ m' :=
    replaced_evolves n m₁ m' info.load _ hL hn₁ (by simp) hm
  have hfvok : m₁.not_new_and n fv := by
    rcases hfvc with hsome | ⟨s, y, hs, _, hy, hyop⟩
    · exact not_new_and_of_below n m₁ fv (hfv fv hsome)
    · intro a ha _
      rw [hs] at ha
      cases ha
      exact ⟨y, hy, by rw [hyop]; simp⟩
  have hptrok : ∀ o ∈ px.ops, m₁.not_new_and n o :=
    fun o ho => not_new_and_keeps n m m₁ o hk (hold p px hpn hp o ho)
  have hsplat : ∀ (k : Nat) (s : instruction), m₁.insts[k]? = some s → s.op = .splat →
      m₁.not_new_and n (.inst k) := by
    intro k s hs hsop a ha _
    cases ha
    exact ⟨s, hs, by rw [hsop]; simp⟩
  have hf₁ : m₁.forced_prefetch n shapes fl := by
    refine ⟨le_trans hn hfl, fx, s₁, k₁, hfx, hfxop, by rw [hfxops]; rfl, le_trans hn hk₁, hs₁,
      hs₁op, hs₁ops, hs₁ty, ?_⟩
    intro o ho
    rw [hfxops] at ho
    simp only [List.mem_cons, List.mem_singleton, List.not_mem_nil, or_false] at ho
    rcases ho with ho | ho | ho
    · rw [ho]; exact hptrok p₁ hp₁
    · rw [ho]; exact hsplat k₁ s₁ hs₁ hs₁op
    · rw [ho]; exact hfvok
  have hf₂ : m₁.forced_prefetch n shapes nl := by
    refine ⟨le_trans hn hnl, nx, s₂, k₂, hnx, hnxop, by rw [hnxops]; rfl, le_trans hn hk₂, hs₂,
      hs₂op, hs₂ops, hs₂ty, ?_⟩
    intro o ho
    rw [hnxops] at ho
    simp only [List.mem_cons, List.mem_singleton, List.not_mem_nil, or_false] at ho
    rcases ho with ho | ho | ho
    · rw [ho]; exact hptrok p₂ hp₂
    · rw [ho]; exact hsplat k₂ s₂ hs₂ hs₂op
    · rw [ho]; exact hfvok
  refine ⟨evolves_of_keeps n m m₁ m' hk hev₁, load,
    (instruction.mk .phi load.ty [.inst fl, .inst nl] [H, B] b).replace_uses_of_with
      (.inst info.load) (.inst m₁.insts.length), shapes, fl, nl, hload, hshapes, ?_, ?_,
    forced_prefetch_evolves n m₁ m' shapes fl hev₁ hf₁,
    forced_prefetch_evolves n m₁ m' shapes nl hev₁ hf₂⟩
  · rw [hm]
    simp [List.getLast?_map]
  · have h1 : ¬ (fl = info.load) := by omega
    have h2 : ¬ (nl = info.load) := by omega
    simp [instruction.replace_uses_of_with, h1, h2]

theorem cloneable_new_phi (m : module) (q : Nat) (ty : ir.type) (fl nl H B b blk : Nat)
    (hq : m.insts[q]? = some (instruction.mk .phi ty [.inst fl, .inst nl] [H, B] b))
    (hblk : blk = H ∨ blk = B) : cloneable 1 m blk (.inst q) = true := by
  simp only [cloneable, hq, if_true, Bool.and_eq_true, decide_eq_true_eq]
  rcases hblk with h | h
  · subst h
    simp [List.indexOf_cons]
  · subst h
    by_cases hHB : H = blk
    · simp [List.indexOf_cons, hHB]
    · simp [List.indexOf_cons, hHB]

theorem feeds_false_inv (m : module) (a L : Nat) (x : instruction)
    (hx : m.insts[L]? = some x) (h : m.feeds a L = false) :
    (if x.op = .masked_load then x.ops[1]? else none) ≠ some (.inst a) ∧
    (if x.op = .masked_load then x.ops[2]? else none) ≠ some (.inst a) := by
  simp only [module.feeds, hx, Bool.and_eq_false_iff, Bool.or_eq_false_iff,
    decide_eq_false_iff_not] at h
  by_cases hm : x.op = .masked_load
  · simp only [hm, if_true]
    rcases h with h | h
    · exact absurd hm h
    · exact h
  · simp [hm]

theorem pass_state_length (m₀ m : module) (done : List pipelined_t)
    (hst : pass_state m₀ done m) : m₀.insts.length ≤ m.insts.length := by
  by_contra hlt
  push_neg at hlt
  have hx : m₀.insts[m.insts.length]? = some (m₀.insts[m.insts.length]) :=
    List.getElem?_eq_getElem hlt
  have := hst.old _ _ hx
  simp at this

/-- One iteration of the loop of `pipeline::run`, for a load that is ready, on the
module the iterations before it reached: the iteration returns and the state of the
loop holds again. -/
theorem rewrite_traced_step (fuel d : Nat) (m₀ m : module) (done : List pipelined_t)
    (L : Nat) (info : pipe_info_t)
    (hwf : m₀.well_formed = true) (hst : pass_state m₀ done m)
    (hload : m₀.is_load L = true)
    (hinfo : m₀.info_of L = some info) (hready : m₀.ready_load d L = true)
    (hmet : ∀ r ∈ done, m₀.same_loop_if_met d r.load L = true)
    (hfuel : d ≤ fuel) :
    ∃ (r : pipelined_t) (m' : module), rewrite_traced fuel m info = .ok (r, m') ∧
      r.load = L ∧ pass_state m₀ (done ++ [r]) m' := by
  obtain ⟨hlisted₀, hclosed₀, hnodup₀, hterm₀, harity₀⟩ := well_formed_inv m₀ hwf
  have hn := pass_state_length m₀ m done hst
  -- the entry recorded for the load
  unfold module.info_of at hinfo
  cases hlp : m₀.loop_of L with
  | none => simp [hlp] at hinfo
  | some lp =>
  obtain ⟨x₀, px₀, brx₀, bb₀, hx₀, hptr₀, hpx₀, hphi₀, hparent₀, hback₀, hbb₀, hlast₀, hH₀,
    hbr₀, hcb₀, hcond₀⟩ := loop_of_inv m₀ L lp hlp
  simp only [hlp, hx₀, Option.some.injEq] at hinfo
  simp only [module.ready_load, hlp, hx₀, Bool.and_eq_true] at hready
  obtain ⟨⟨⟨⟨hblock, hc1⟩, hc2⟩, hc3⟩, hc4⟩ := hready
  obtain ⟨shapes, hshapes⟩ : ∃ (shapes : List Nat), x₀.ty.get_block_shapes = some shapes := by
    cases hty : x₀.ty with
    | scalar t => simp [hty, ir.type.is_block_ty] at hblock
    | block t sh => exact ⟨sh, rfl⟩
  -- the instructions of the loop in the module reached
  have hx := hst.old L x₀ hx₀
  have hbr := hst.old lp.back_edge brx₀ hbr₀
  have hpx := hst.old lp.ptr px₀ hpx₀
  have hLlt : L < m₀.insts.length := get_lt_of_some _ _ _ hx₀
  have hPlt : lp.ptr < m₀.insts.length := get_lt_of_some _ _ _ hpx₀
  -- the blocks
  have hHin : lp.header ∈ px₀.blocks := by
    cases d with
    | zero => simp [cloneable] at hc1
    | succ d =>
      simp only [cloneable, hpx₀, hphi₀, if_true, Bool.and_eq_true, decide_eq_true_eq] at hc1
      exact List.indexOf_lt_length.mp hc1.1
  have hHlt : lp.header < m₀.blocks.length := (harity₀ lp.ptr px₀ hpx₀).2 hphi₀ _ hHin
  obtain ⟨hb, hHb, _, _⟩ := hst.frame.2 lp.header _ (List.getElem?_eq_getElem hHlt)
  obtain ⟨bb, hBb, hBpreds, hBsub⟩ := hst.frame.2 lp.block bb₀ hbb₀
  have hHne : hb.insts ≠ [] := by
    obtain ⟨t, ht, _⟩ := (terminated_iff m).mp hst.terminated _ _ hHb
    intro he
    simp [he] at ht
  have hBne : bb.insts ≠ [] := by
    obtain ⟨t, ht, _⟩ := (terminated_iff m).mp hst.terminated _ _ hBb
    intro he
    simp [he] at ht
  -- cloning in the module reached
  have hother : ∀ (o : value),
      (∀ (a : Nat), o = .inst a → ∃ (x : instruction), m₀.insts[a]? = some x ∧ x.op = .phi) →
      redirect done o = o := by
    intro o ho
    apply redirect_of_not_load
    intro r hr he
    obtain ⟨_, _, _, _, lx, hlx, hlxop, _⟩ := hst.new_phi r hr
    obtain ⟨x, hx', hxphi⟩ := ho r.load he
    rw [hlx] at hx'
    cases hx'
    exact hlxop hxphi
  have hPsame : redirect done (.inst lp.ptr) = .inst lp.ptr :=
    hother _ (fun a ha => by cases ha; exact ⟨px₀, hpx₀, hphi₀⟩)
  have hclP : ∀ (blk : Nat), cloneable d m₀ blk (.inst lp.ptr) = true →
      cloneable d m blk (.inst lp.ptr) = true := by
    intro blk hcl
    rw [← hPsame]
    refine cloneable_redirected m₀ m blk (redirect done) hst.old hother d _ hcl ?_
    intro a ha
    cases d <;> simp [reachable_non_phi, hpx₀, hphi₀] at ha
  have hclC : ∀ (blk : Nat), blk = lp.header ∨ blk = lp.block →
      cloneable d m₀ blk lp.cond = true →
      cloneable d m blk (redirect done lp.cond) = true := by
    intro blk hblk hcl
    refine cloneable_redirected m₀ m blk (redirect done) hst.old hother d _ hcl ?_
    intro a ha
    rcases redirect_cases done a with hsame | ⟨r, hr, hra, hred⟩
    · exact Or.inl hsame
    · right
      rw [hred]
      obtain ⟨lp', hlp', hrh, hrb⟩ := hst.loops r hr
      obtain ⟨_, _, _, _, lx, hlx, hlxop, hq⟩ := hst.new_phi r hr
      have hm := hmet r hr
      rw [← hra] at ha
      simp only [module.same_loop_if_met, hlp', hlp, ha, decide_True, Bool.not_true,
        Bool.false_or, Bool.and_eq_true, decide_eq_true_eq] at hm
      rw [hrh, hrb, hm.1, hm.2] at hq
      exact cloneable_new_phi m r.new_load lx.ty _ _ _ _ _ blk hq hblk
  -- the statements before the phi node
  obtain ⟨m₁, fl, nl, hpre, hext, hl₁, hfl, hnl, hflx, hnlx⟩ :=
    prefetched_forward fuel d m (if x₀.op = .masked_load then x₀.ops[1]? else none)
      (if x₀.op = .masked_load then x₀.ops[2]? else none) x₀.ty lp.ptr lp.block lp.header hb bb
      (redirect done lp.cond) shapes hst.listed hshapes hHb hHne hBb hBne (hclP _ hc1)
      (hclC _ (Or.inl rfl) hc2) (hclP _ hc3) (hclC _ (Or.inr rfl) hc4) hfuel
  -- the statements of the phi node
  obtain ⟨bb₁, hbb₁, hpreds₁, hsub₁⟩ := hext.blocks lp.block bb hBb
  have hbrmem : lp.back_edge ∈ bb₁.insts :=
    hsub₁ _ (hBsub.subset (List.mem_of_getLast?_eq_some hlast₀))
  have hbrnp : m₁.is_phi lp.back_edge = false := by
    simp [module.is_phi, hext.old _ _ hbr, hcb₀]
  obtain ⟨phis, rest, f, hsplit, hphis, hf, hmerge⟩ :=
    merge_traced_spec m₁ x₀.ty L fl nl lp.header lp.block bb₁ hl₁ hbb₁ ⟨_, hbrmem, hbrnp⟩
  have hmerge' : merge_traced m₁ x₀.ty L fl nl lp.header lp.block
      = .ok (m₁.insts.length,
          merged m₁ x₀.ty L fl nl lp.header lp.block phis rest f bb₁.preds) := hmerge
  obtain ⟨htr, hrw⟩ := rewrite_traced_of_prefetched fuel m m₁ info L lp.ptr lp.block lp.header
    lp.back_edge fl nl _ _ (redirect done lp.cond) (by rw [← hinfo]) (by rw [← hinfo])
    (by rw [← hinfo]) (by rw [← hinfo]) (by rw [← hinfo]) hx hbr
    (by simp [hcond₀]) (by rw [← hinfo]; exact hpre)
  rw [hmerge'] at htr
  simp only [Except.map] at htr
  have herase := merge_traced_erase m₁ x₀.ty L fl nl lp.header lp.block
  rw [hmerge'] at herase
  simp only [Except.map] at herase
  rw [← herase] at hrw
  refine ⟨_, _, htr, rfl, ?_⟩
  -- what the statements before the phi node keep
  have hpf := prefetched_phi_frame fuel m m₁ _ _ _ _ _ _ _ _ _ hst.terminated hpre
  have hn₁ : m.insts.length ≤ m₁.insts.length := by
    by_contra hc
    push_neg at hc
    have h1 : m.insts[m₁.insts.length]? = some (m.insts[m₁.insts.length]) :=
      List.getElem?_eq_getElem hc
    have h2 := get_lt_of_some _ _ _ (hext.old _ _ h1)
    omega
  have hflL : fl ≠ L := by omega
  have hnlL : nl ≠ L := by omega
  have hxop : x₀.op ≠ .phi := by
    simp only [module.is_load, hx₀, Bool.or_eq_true, decide_eq_true_eq] at hload
    rcases hload with h | h <;> simp [h]
  have hne : ∀ r' ∈ done, r'.new_load ≠ L := by
    intro r' hr'
    have := (hst.new_phi r' hr').2.2.2.1
    omega
  have hfv : ∀ (v : value), info.false_value = some v → v.below m₀.insts.length = true := by
    intro v hv
    rw [← hinfo] at hv
    by_cases hm : x₀.op = .masked_load
    · simp only [hm, if_true] at hv
      exact closed_below m₀ L x₀ v hclosed₀ hx₀ (List.getElem?_mem hv)
    · simp [hm] at hv
  obtain ⟨hev, load', qx, shapes', fl', nl', hload', hshapes', hlastq, hqops, hforced₁,
    hforced₂⟩ := rewrite_step_pinned fuel m₀.insts.length m _ info lp.ptr _ hn
      (by rw [← hinfo]; exact hLlt) (by rw [← hinfo]) hPlt hpx hphi₀ hfv hst.old_ok hrw
  obtain ⟨_, _, _, hbf, _, _, _⟩ := rewrite_shape fuel m _ info hrw
  have hinl : info.load = L := by rw [← hinfo]
  rw [hinl, hx] at hload'
  cases hload'
  have hsh : shapes' = shapes := by
    have : some shapes' = some shapes := by rw [← hshapes', ← hshapes]
    exact Option.some.inj this
  subst hsh
  have hqx : qx.ops = [.inst fl, .inst nl] := by
    have : (merged m₁ x₀.ty L fl nl lp.header lp.block phis rest f bb₁.preds).insts.getLast?
        = some (instruction.mk .phi x₀.ty [.inst fl, .inst nl] [lp.header, lp.block]
            lp.block) := by
      simp [merged, instruction.replace_uses_of_with, hflL, hnlL]
    rw [this] at hlastq
    cases hlastq
    rfl
  rw [hqx] at hqops
  have hfl' : fl' = fl := by
    have := (List.cons.inj hqops).1
    exact (value.inst.inj this).symm
  have hnl' : nl' = nl := by
    have := (List.cons.inj (List.cons.inj hqops).2).1
    exact (value.inst.inj this).symm
  subst hfl' hnl'
  refine ⟨?_, ?_, ?_, ?_, ?_, ?_, ?_, ?_, ?_, ?_, ?_, ?_, ?_⟩
  · exact merged_listed m₁ x₀.ty L fl' nl' _ _ phis rest f bb₁ hl₁ hbb₁ hsplit hflL hnlL
  · exact merged_terminated m₁ x₀.ty L fl' nl' _ _ phis rest f bb₁ hl₁
      (hpf.2.2 hst.terminated) hbb₁ hsplit
  · exact hst.frame.followed hbf
  · intro i x hxi
    rw [merged_old m₁ x₀.ty L fl' nl' _ _ phis rest f bb₁.preds i _
      (hext.old _ _ (hst.old i x hxi))]
    refine congrArg some ?_
    simp only [instruction.replace_uses_of_with, List.map_map]
    congr 1
    apply List.map_congr_left
    intro o _
    exact redirect_snoc done (pipelined_t.mk L lp.header lp.block fl' nl' m₁.insts.length)
      hne o
  · intro r' hr'
    rcases List.mem_append.mp hr' with hr' | hr'
    · exact hst.loops r' hr'
    · rw [List.mem_singleton.mp hr']
      exact ⟨lp, hlp, rfl, rfl⟩
  · intro r' hr'
    rcases List.mem_append.mp hr' with hr' | hr'
    · obtain ⟨h1, h2, h3, h4, lx, hlx, hlxop, hq⟩ := hst.new_phi r' hr'
      refine ⟨h1, h2, h3, h4, lx, hlx, hlxop, ?_⟩
      rw [merged_old m₁ x₀.ty L fl' nl' _ _ phis rest f bb₁.preds _ _ (hext.old _ _ hq)]
      have h5 : r'.first_load ≠ L := by omega
      have h6 : r'.next_load ≠ L := by omega
      simp [instruction.replace_uses_of_with, h5, h6]
    · rw [List.mem_singleton.mp hr']
      dsimp only
      refine ⟨hLlt, by omega, by omega, by omega, x₀, hx₀, hxop, ?_⟩
      exact merged_new m₁ x₀.ty L fl' nl' _ _ phis rest f bb₁.preds hflL hnlL
  · intro r' hr'
    rcases List.mem_append.mp hr' with hr' | hr'
    · obtain ⟨⟨x, hx1, hx2, hx3⟩, ⟨y, hy1, hy2, hy3⟩⟩ := hst.prefetches r' hr'
      exact ⟨⟨_, merged_old m₁ x₀.ty L fl' nl' _ _ phis rest f bb₁.preds _ _
          (hext.old _ _ hx1), hx2, hx3⟩,
        ⟨_, merged_old m₁ x₀.ty L fl' nl' _ _ phis rest f bb₁.preds _ _
          (hext.old _ _ hy1), hy2, hy3⟩⟩
    · rw [List.mem_singleton.mp hr']
      obtain ⟨x, hx1, hx2, hx3⟩ := hflx
      obtain ⟨y, hy1, hy2, hy3⟩ := hnlx
      exact ⟨⟨_, merged_old m₁ x₀.ty L fl' nl' _ _ phis rest f bb₁.preds _ _ hx1, hx2, hx3⟩,
        ⟨_, merged_old m₁ x₀.ty L fl' nl' _ _ phis rest f bb₁.preds _ _ hy1, hy2, hy3⟩⟩
  · intro r' hr'
    rcases List.mem_append.mp hr' with hr' | hr'
    · obtain ⟨lx, sh, hlx, hsh, hf1, hf2⟩ := hst.forced r' hr'
      exact ⟨lx, sh, hlx, hsh, forced_prefetch_evolves _ m _ sh _ hev hf1,
        forced_prefetch_evolves _ m _ sh _ hev hf2⟩
    · rw [List.mem_singleton.mp hr']
      exact ⟨x₀, shapes', hx₀, hshapes, hforced₁, hforced₂⟩
  · exact old_operands_ok_evolves _ m _ hev hn hst.old_ok
  · intro i hi
    rw [merged_is_phi, hpf.1 i, List.map_append, List.mem_append, ← hst.phis i hi]
    simp
  · intro b
    rw [merged_leading_phis m₁ x₀.ty L fl' nl' _ _ phis rest f bb₁ hl₁ hbb₁ hsplit hphis hf b,
      hpf.2.1 b, hst.heads b, List.filter_append, List.map_append, List.append_assoc]
    congr 1
    by_cases hb : b = lp.block
    · subst hb
      simp
    · have hb' : ¬ lp.block = b := fun h => hb h.symm
      simp [hb, hb']
  · intro j r' hj hfeed
    rcases Nat.lt_trichotomy j done.length with hlt | heq | hgt
    · rw [List.getElem?_append_left hlt] at hj
      have hu := hst.unused j r' hj (fun j' r'' hjj hj' => hfeed j' r'' hjj (by
        have hlt' := get_lt_of_some _ _ _ hj'
        rw [List.getElem?_append_left hlt']
        exact hj'))
      have hfd := hfeed done.length (pipelined_t.mk L lp.header lp.block fl' nl'
        m₁.insts.length) hlt (by simp)
      obtain ⟨hmk, hfb⟩ := feeds_false_inv m₀ r'.load L x₀ hx₀ hfd
      obtain ⟨h1, h2, h3, h4, _⟩ := hst.new_phi r' (List.getElem?_mem hj)
      have hu₁ := prefetched_unused r'.load fuel m m₁ _ _ _ _ _ _ _ _ _ (by omega) hu hmk hfb
        hpre
      exact merged_unused m₁ x₀.ty L fl' nl' _ _ phis rest f bb₁.preds r'.load (by omega)
        (by omega) (by omega) (Or.inl hu₁)
    · subst heq
      simp only [List.getElem?_concat_length, Option.some.injEq] at hj
      rw [← hj]
      exact merged_unused m₁ x₀.ty L fl' nl' _ _ phis rest f bb₁.preds L hflL hnlL
        (by omega) (Or.inr rfl)
    · have := get_lt_of_some _ _ _ hj
      simp at this
      omega
  · rw [List.map_append, List.nodup_append]
    refine ⟨hst.distinct, by simp, ?_⟩
    intro a ha hb
    simp only [List.map_cons, List.map_nil, List.mem_singleton] at hb
    obtain ⟨r', hr', hra⟩ := List.mem_map.mp ha
    obtain ⟨_, _, _, _, _, _, _, hq⟩ := hst.new_phi r' hr'
    have := get_lt_of_some _ _ _ hq
    omega

theorem pass_state_start (m₀ : module) (hwf : m₀.well_formed = true) :
    pass_state m₀ [] m₀ := by
  obtain ⟨hlisted₀, hclosed₀, hnodup₀, hterm₀, harity₀⟩ := well_formed_inv m₀ hwf
  have hred : ∀ (o : value), redirect [] o = o := by
    intro o
    cases o <;> simp [redirect]
  refine ⟨hlisted₀, hterm₀, block_frame.same m₀, ?_, ?_, ?_, ?_, ?_,
    closed_old_operands_ok m₀ hclosed₀, ?_, ?_, ?_, by simp⟩
  · intro i x hx
    rw [hx]
    have : x.ops.map (redirect []) = x.ops := by
      rw [List.map_congr_left (fun o _ => hred o), List.map_id']
    rw [this]
  · intro r hr
    simp at hr
  · intro r hr
    simp at hr
  · intro r hr
    simp at hr
  · intro r hr
    simp at hr
  · intro i hi
    simp [is_phi_of_length_le m₀ i hi]
  · intro b
    simp
  · intro j r hj
    simp at hj

theorem rewrite_all_traced_forward (fuel d : Nat) (m₀ : module)
    (hwf : m₀.well_formed = true) (hfuel : d ≤ fuel) :
    ∀ (loads : List Nat) (infos : List pipe_info_t) (done : List pipelined_t) (m : module),
      List.Forall₂ (fun L info => m₀.info_of L = some info) loads infos →
      (∀ L ∈ loads, m₀.is_load L = true ∧ m₀.ready_load d L = true) →
      (∀ r ∈ done, ∀ L ∈ loads, m₀.same_loop_if_met d r.load L = true) →
      loads.Pairwise (fun L' L => m₀.same_loop_if_met d L' L = true) →
      pass_state m₀ done m →
      ∃ (trace : List pipelined_t) (m' : module),
        rewrite_all_traced fuel m infos = .ok (trace, m') ∧
        (trace.map fun r => r.load) = loads ∧ pass_state m₀ (done ++ trace) m' := by
  intro loads
  induction loads with
  | nil =>
    intro infos done m hf _ _ _ hst
    cases hf
    exact ⟨[], m, rfl, rfl, by simpa using hst⟩
  | cons L loads ih =>
    intro infos done m hf hready hmet hpw hst
    obtain ⟨info, rest, hinfo, hrest, rfl⟩ := List.forall₂_cons_left_iff.mp hf
    obtain ⟨hload, hrd⟩ := hready L (by simp)
    obtain ⟨r, m₁, hrw, hrl, hst₁⟩ := rewrite_traced_step fuel d m₀ m done L info hwf hst
      hload hinfo hrd (fun r hr => hmet r hr L (by simp)) hfuel
    obtain ⟨hpwL, hpw'⟩ := List.pairwise_cons.mp hpw
    obtain ⟨trace, m', hall, hloads, hst'⟩ := ih rest (done ++ [r]) m₁ hrest
      (fun L' hL' => hready L' (List.mem_cons_of_mem _ hL'))
      (by
        intro r' hr' L' hL'
        rcases List.mem_append.mp hr' with h | h
        · exact hmet r' h L' (List.mem_cons_of_mem _ hL')
        · rw [List.mem_singleton.mp h, hrl]
          exact hpwL L' hL')
      hpw' hst₁
    refine ⟨r :: trace, m', ?_, ?_, ?_⟩
    · simp only [rewrite_all_traced, hrw, hall, bind, Except.bind]
    · simp [hrl, hloads]
    · simpa using hst'

theorem run_traced_forward (fuel d : Nat) (m : module) (h : m.pipelinable d = true)
    (hfuel : d ≤ fuel) :
    ∃ (trace : List pipelined_t) (m' : module),
      run_traced fuel m = .ok (trace, m') ∧ run fuel m = .ok m' ∧
      (trace.map fun r => r.load) = m.loads ∧ pass_state m trace m' := by
  simp only [module.pipelinable, Bool.and_eq_true, decide_eq_true_eq, List.all_eq_true] at h
  obtain ⟨⟨hwf, hready⟩, hpw⟩ := h
  obtain ⟨hlisted, _, _, _, _⟩ := well_formed_inv m hwf
  obtain ⟨infos, hcollect, hf⟩ := collect_ready m hwf m.all_insts [] (all_insts_valid m hlisted)
    (by
      intro L hL
      have := hready L hL
      simp only [module.ready_load] at this
      simp only [module.info_of]
      cases hlp : m.loop_of L with
      | none => simp [hlp] at this
      | some lp =>
        cases hx : m.insts[L]? with
        | none => simp [hlp, hx] at this
        | some x => simp)
  obtain ⟨trace, m', hall, hloads, hst⟩ := rewrite_all_traced_forward fuel d m hwf hfuel
    m.loads infos [] m hf
    (fun L hL => ⟨(List.mem_filter.mp hL).2, hready L hL⟩)
    (fun r hr => by simp at hr) hpw (pass_state_start m hwf)
  have htr : run_traced fuel m = .ok (trace, m') := by
    simp only [run_traced, hcollect, bind, Except.bind, List.nil_append]
    exact hall
  refine ⟨trace, m', htr, ?_, hloads, by simpa using hst⟩
  rw [← run_traced_erase, htr]
  rfl

end pipeline

end transform

end codegen

/-! ### The pipelining pass: what a returning run has recorded -/

namespace codegen

namespace transform

namespace pipeline

theorem merge_traced_inv (m m' : module) (ty : ir.type) (L fl nl H B q : Nat)
    (h : merge_traced m ty L fl nl H B = .ok (q, m')) :
    q = m.insts.length ∧ merge m ty L fl nl H B = .ok m' := by
  constructor
  · unfold merge_traced at h
    obtain ⟨bb, _, h⟩ := bind_ok_inv _ _ _ h
    obtain ⟨first_non_phi, _, h⟩ := bind_ok_inv _ _ _ h
    obtain ⟨m₁, h1, h⟩ := bind_ok_inv _ _ _ h
    obtain ⟨r, h2, h⟩ := bind_ok_inv _ _ _ h
    obtain ⟨q', m₂⟩ := r
    dsimp only at h
    obtain ⟨m₃, h3, h⟩ := bind_ok_inv _ _ _ h
    obtain ⟨m₄, h4, h⟩ := bind_ok_inv _ _ _ h
    have e₁ := set_insert_point_insts m m₁ _ h1
    obtain ⟨b, pos, bb₂, _, _, hq, e₂, _, _⟩ := insert_inv m₁ _ q' m₂ h2
    simp only [Except.ok.injEq, Prod.mk.injEq] at h
    rw [← h.1, hq, e₁]
  · have he := merge_traced_erase m ty L fl nl H B
    rw [h] at he
    exact he.symm

theorem rewrite_traced_tie (fuel : Nat) (m m' : module) (info : pipe_info_t)
    (r : pipelined_t) (h : rewrite_traced fuel m info = .ok (r, m')) :
    rewrite fuel m info = .ok m' ∧ r.load = info.load ∧ info.header = some r.header ∧
    info.block = some r.block ∧
    ∃ (load : instruction) (b : Nat), m.insts[info.load]? = some load ∧
      m'.insts.length = r.new_load + 1 ∧
      m'.insts[r.new_load]? = some
        ((instruction.mk .phi load.ty [.inst r.first_load, .inst r.next_load]
          [r.header, r.block] b).replace_uses_of_with (.inst info.load) (.inst r.new_load)) := by
  constructor
  · have he := rewrite_traced_erase fuel m info
    rw [h] at he
    exact he.symm
  unfold rewrite_traced at h
  obtain ⟨back_edge, _, h⟩ := bind_ok_inv _ _ _ h
  obtain ⟨header, hheader, h⟩ := bind_ok_inv _ _ _ h
  obtain ⟨block, hblock, h⟩ := bind_ok_inv _ _ _ h
  obtain ⟨ptr, _, h⟩ := bind_ok_inv _ _ _ h
  obtain ⟨br, _, h⟩ := bind_ok_inv _ _ _ h
  obtain ⟨cond, _, h⟩ := bind_ok_inv _ _ _ h
  obtain ⟨load, hload, h⟩ := bind_ok_inv _ _ _ h
  dsimp only at h
  have hload := defined_ok_inv _ _ _ hload
  obtain ⟨m₁, h1, h⟩ := bind_ok_inv _ _ _ h
  obtain ⟨r₂, h2, h⟩ := bind_ok_inv _ _ _ h
  obtain ⟨first_ptr, m₂⟩ := r₂
  dsimp only at h
  obtain ⟨r₃, h3, h⟩ := bind_ok_inv _ _ _ h
  obtain ⟨first_mask, m₃⟩ := r₃
  dsimp only at h
  obtain ⟨r₄, h4, h⟩ := bind_ok_inv _ _ _ h
  obtain ⟨fm, m₄⟩ := r₄
  dsimp only at h
  obtain ⟨r₅, h5, h⟩ := bind_ok_inv _ _ _ h
  obtain ⟨fv, m₅⟩ := r₅
  dsimp only at h
  obtain ⟨m₆, h6, h⟩ := bind_ok_inv _ _ _ h
  obtain ⟨r₇, h7, h⟩ := bind_ok_inv _ _ _ h
  obtain ⟨fl, m₇⟩ := r₇
  dsimp only at h
  obtain ⟨m₈, h8, h⟩ := bind_ok_inv _ _ _ h
  obtain ⟨r₉, h9, h⟩ := bind_ok_inv _ _ _ h
  obtain ⟨next_ptr, m₉⟩ := r₉
  dsimp only at h
  obtain ⟨r₁₀, h10, h⟩ := bind_ok_inv _ _ _ h
  obtain ⟨next_mask, m₁₀⟩ := r₁₀
  dsimp only at h
  obtain ⟨r₁₁, h11, h⟩ := bind_ok_inv _ _ _ h
  obtain ⟨nm, m₁₁⟩ := r₁₁
  dsimp only at h
  obtain ⟨m₁₂, h12, h⟩ := bind_ok_inv _ _ _ h
  obtain ⟨r₁₃, h13, h⟩ := bind_ok_inv _ _ _ h
  obtain ⟨nl, m₁₃⟩ := r₁₃
  dsimp only at h
  obtain ⟨r₁₄, h14, h⟩ := bind_ok_inv _ _ _ h
  obtain ⟨q, m₁₄⟩ := r₁₄
  dsimp only at h
  simp only [Except.ok.injEq, Prod.mk.injEq] at h
  obtain ⟨hr, hm⟩ := h
  rw [← hr, ← hm]
  obtain ⟨hq, hmerge⟩ := merge_traced_inv m₁₃ m₁₄ load.ty info.load fl nl header block q h14
  obtain ⟨b, hinsts⟩ := merge_inv m₁₃ m₁₄ load.ty info.load fl nl header block hmerge
  refine ⟨rfl, defined_ok_inv _ _ _ hheader, defined_ok_inv _ _ _ hblock, load, b, hload, ?_, ?_⟩
  · simp [hinsts, hq]
  · dsimp only
    rw [hinsts, hq, List.getElem?_map, List.getElem?_concat_length]
    rfl

theorem pipelined_as_evolves (n : Nat) (m m' : module) (ty : ir.type) (shapes : List Nat)
    (r : pipelined_t) (h : evolves n m m') (hp : m.pipelined_as n ty shapes r) :
    m'.pipelined_as n ty shapes r := by
  obtain ⟨hq, qx, hqx, hqop, hqty, hqops, hqb, hfl, hnl⟩ := hp
  obtain ⟨qx', hqx', hqop', hqty', hqb', hqops'⟩ := h r.new_load qx hqx
  refine ⟨hq, qx', hqx', by rw [hqop', hqop], by rw [hqty', hqty], ?_,
    by rw [hqb', hqb], forced_prefetch_evolves n m m' shapes _ h hfl,
    forced_prefetch_evolves n m m' shapes _ h hnl⟩
  rw [hqops] at hqops'
  obtain ⟨b, l, hab, htl, hl⟩ := List.forall₂_cons_left_iff.mp hqops'
  obtain ⟨b', l', hab', htl', hl'⟩ := List.forall₂_cons_left_iff.mp htl
  rw [hl, hl', List.forall₂_nil_left_iff.mp htl', operand_step_new n m' _ _ hfl.1 hab,
    operand_step_new n m' _ _ hnl.1 hab']

/-- One traced rewrite of `pipeline::run`, when it returns: the instructions there
were evolve, and what the iteration recorded is the phi node of the load and its two
prefetch loads with forced masks. -/
theorem rewrite_traced_step_inv (fuel n : Nat) (m m' : module) (info : pipe_info_t)
    (r : pipelined_t) (p : Nat) (px : instruction) (hn : n ≤ m.insts.length)
    (hL : info.load < n) (hptr : info.ptr = some p) (hpn : p < n)
    (hp : m.insts[p]? = some px) (hphi : px.op = .phi)
    (hfv : ∀ (v : value), info.false_value = some v → v.below n = true)
    (hold : m.old_operands_ok n) (h : rewrite_traced fuel m info = .ok (r, m')) :
    evolves n m m' ∧ r.load = info.load ∧ info.header = some r.header ∧
    info.block = some r.block ∧
    ∃ (load : instruction) (shapes : List Nat),
      m.insts[info.load]? = some load ∧ load.ty.get_block_shapes = some shapes ∧
      m'.pipelined_as n load.ty shapes r := by
  obtain ⟨hrw, hrl, hrh, hrb, load, b, hload, hlen, hq⟩ := rewrite_traced_tie fuel m m' info r h
  obtain ⟨hev, load', qx, shapes, fl, nl, hload', hshapes, hlast, hqops, hf₁, hf₂⟩ :=
    rewrite_step_pinned fuel n m m' info p px hn hL hptr hpn hp hphi hfv hold hrw
  rw [hload] at hload'
  cases hload'
  have hlast' : m'.insts.getLast? = m'.insts[r.new_load]? := by
    rw [List.getLast?_eq_getElem?, hlen]
    rfl
  rw [hlast', hq] at hlast
  have hqx := Option.some.inj hlast
  have hnew : n ≤ r.new_load := by
    obtain ⟨m₁, phi, hk, _, _, _, hins⟩ := rewrite_shape fuel m m' info hrw
    have h1 := hk.grows
    have h2 : m'.insts.length = m₁.insts.length + 1 := by
      rw [hins]
      simp
    omega
  -- the last instruction is a phi node, so no prefetch load
  have hne : ∀ (f : Nat), m'.forced_prefetch n shapes f → f ≠ r.new_load := by
    intro f hf he
    obtain ⟨_, x, _, _, hx, hxop, _⟩ := hf
    rw [he, hq] at hx
    rw [← Option.some.inj hx] at hxop
    simp [instruction.replace_uses_of_with] at hxop
  have hops : [value.inst fl, value.inst nl]
      = [if value.inst r.first_load = value.inst info.load then value.inst r.new_load
           else value.inst r.first_load,
         if value.inst r.next_load = value.inst info.load then value.inst r.new_load
           else value.inst r.next_load] := by
    rw [← hqops, ← hqx]
    rfl
  have hfl : fl = r.first_load := by
    have h1 := (List.cons.inj hops).1
    by_cases hc : value.inst r.first_load = value.inst info.load
    · rw [if_pos hc] at h1
      exact absurd (value.inst.inj h1) (hne fl hf₁)
    · rw [if_neg hc] at h1
      exact value.inst.inj h1
  have hnl : nl = r.next_load := by
    have h1 := (List.cons.inj (List.cons.inj hops).2).1
    by_cases hc : value.inst r.next_load = value.inst info.load
    · rw [if_pos hc] at h1
      exact absurd (value.inst.inj h1) (hne nl hf₂)
    · rw [if_neg hc] at h1
      exact value.inst.inj h1
  subst hfl hnl
  refine ⟨hev, hrl, hrh, hrb, load, shapes, hload, hshapes, hnew, _, hq, rfl, rfl, ?_, rfl,
    hf₁, hf₂⟩
  rw [hqx]
  exact hqops

/-- The traced loop of `pipeline::run` over `to_pipeline`, when it returns: what an
earlier iteration recorded stays as described, and each entry of the list has its
iteration in the trace, in the same order. The module `m₀` is the module the list
was collected from. -/
theorem rewrite_all_traced_inv (fuel : Nat) (m₀ : module) (hclosed : m₀.closed = true) :
    ∀ (infos : List pipe_info_t) (m m' : module) (trace : List pipelined_t),
      (∀ info ∈ infos, recorded m₀ info) →
      (∀ (i : Nat) (x : instruction), m₀.insts[i]? = some x →
        ∃ (x' : instruction), m.insts[i]? = some x' ∧ x'.op = x.op ∧ x'.ty = x.ty) →
      m.old_operands_ok m₀.insts.length →
      rewrite_all_traced fuel m infos = .ok (trace, m') →
      (∀ (ty : ir.type) (shapes : List Nat) (r : pipelined_t),
        m.pipelined_as m₀.insts.length ty shapes r →
        m'.pipelined_as m₀.insts.length ty shapes r) ∧
      List.Forall₂ (fun (info : pipe_info_t) (r : pipelined_t) =>
        r.load = info.load ∧ info.header = some r.header ∧ info.block = some r.block ∧
        ∃ (lx : instruction) (shapes : List Nat), m₀.insts[r.load]? = some lx ∧
          (lx.op = .load ∨ lx.op = .masked_load) ∧ lx.ty.get_block_shapes = some shapes ∧
          m'.pipelined_as m₀.insts.length lx.ty shapes r) infos trace := by
  intro infos
  induction infos with
  | nil =>
    intro m m' trace _ _ _ h
    simp only [rewrite_all_traced, Except.ok.injEq, Prod.mk.injEq] at h
    obtain ⟨ht, hm⟩ := h
    subst ht hm
    exact ⟨fun _ _ _ hp => hp, List.Forall₂.nil⟩
  | cons info rest ih =>
    intro m m' trace hrec hsame hold h
    unfold rewrite_all_traced at h
    obtain ⟨r₁, hrw, h⟩ := bind_ok_inv _ _ _ h
    obtain ⟨r, m₁⟩ := r₁
    dsimp only at h
    obtain ⟨r₂, hall, h⟩ := bind_ok_inv _ _ _ h
    obtain ⟨rs, m₂⟩ := r₂
    dsimp only at h
    simp only [Except.ok.injEq, Prod.mk.injEq] at h
    obtain ⟨ht, hm⟩ := h
    subst ht hm
    obtain ⟨⟨lx, hlx, hlop, hfvin⟩, hptrphi⟩ := hrec info (by simp)
    obtain ⟨hrw', _⟩ := rewrite_traced_tie fuel m m₁ info r hrw
    obtain ⟨p, hptr⟩ := rewrite_ptr_some fuel m m₁ info hrw'
    obtain ⟨px₀, hpx₀, hphi₀⟩ := hptrphi p hptr
    obtain ⟨px, hpx, hpxop, _⟩ := hsame p px₀ hpx₀
    have hn := length_le_of_same_kinds m₀ m hsame
    obtain ⟨hev, hrl, hrh, hrb, load, shapes, hload, hshapes, hpip⟩ :=
      rewrite_traced_step_inv fuel m₀.insts.length m m₁ info r p px hn
        (get_lt_of_some _ _ _ hlx) hptr (get_lt_of_some _ _ _ hpx₀) hpx (by rw [hpxop, hphi₀])
        (fun v hv => closed_below m₀ _ lx v hclosed hlx (hfvin v hv)) hold hrw
    obtain ⟨lx', hlx', _, hty⟩ := hsame _ lx hlx
    rw [hload] at hlx'
    cases hlx'
    have hsame₁ : ∀ (i : Nat) (x : instruction), m₀.insts[i]? = some x →
        ∃ (x' : instruction), m₁.insts[i]? = some x' ∧ x'.op = x.op ∧ x'.ty = x.ty := by
      intro i x hx
      obtain ⟨x', hx', hop', hty'⟩ := hsame i x hx
      obtain ⟨x'', hx'', hop'', hty'', _⟩ := hev i x' hx'
      exact ⟨x'', hx'', by rw [hop'', hop'], by rw [hty'', hty']⟩
    obtain ⟨hpres, hrest⟩ := ih m₁ m₂ rs (fun i hi => hrec i (by simp [hi])) hsame₁
      (old_operands_ok_evolves _ m m₁ hev hn hold) hall
    refine ⟨fun ty sh r' hp =>
      hpres ty sh r' (pipelined_as_evolves _ m m₁ ty sh r' hev hp), ?_⟩
    refine List.Forall₂.cons ⟨hrl, hrh, hrb, lx, shapes, ?_, hlop, ?_, ?_⟩ hrest
    · rw [hrl]
      exact hlx
    · rw [← hty]
      exact hshapes
    · rw [← hty]
      exact hpres _ _ _ hpip

/-- The traced pass, when it returns on a module whose operands name instructions of
the module: the trace has one entry for each entry of `to_pipeline`, in the same
order, and what each iteration recorded is the phi node of its load and the two
prefetch loads with forced masks. -/
theorem run_traced_inv (fuel : Nat) (m m' : module) (trace : List pipelined_t)
    (hclosed : m.closed = true) (h : run_traced fuel m = .ok (trace, m')) :
    run fuel m = .ok m' ∧
    ∃ (infos : List pipe_info_t), collect m m.all_insts [] = .ok infos ∧
      List.Forall₂ (fun (info : pipe_info_t) (r : pipelined_t) =>
        r.load = info.load ∧ info.header = some r.header ∧ info.block = some r.block ∧
        ∃ (lx : instruction) (shapes : List Nat), m.insts[r.load]? = some lx ∧
          (lx.op = .load ∨ lx.op = .masked_load) ∧ lx.ty.get_block_shapes = some shapes ∧
          m'.pipelined_as m.insts.length lx.ty shapes r) infos trace := by
  constructor
  · have he := run_traced_erase fuel m
    rw [h] at he
    exact he.symm
  · unfold run_traced at h
    obtain ⟨infos, hcollect, h⟩ := bind_ok_inv _ _ _ h
    have hrec := collect_recorded m m.all_insts [] infos hcollect (fun i hi => by simp at hi)
    exact ⟨infos, hcollect, (rewrite_all_traced_inv fuel m hclosed infos m m' trace hrec
      (fun i x hx => ⟨x, hx, rfl, rfl⟩) (closed_old_operands_ok m hclosed) h).2⟩

end pipeline

end transform

end codegen

/-! ### The pipelining pass on several loads -/

namespace codegen

namespace transform

namespace pipeline

/-- C19: for every load that `pipeline::run` pipelines, whatever its mask and whatever
the condition of the back-edge branch, the two prefetch loads its iteration emits have
a forced mask. The iterations are those of the traced pass, which returns the module
of `pipeline::run` and, for each load, the instructions `first_load`, `next_load` and
`new_load` its iteration created. First part: on a module the pass is written for
(`pipelinable`) the pass returns, given enough fuel, with one iteration for each load
of the module, in the order of the loads; the iteration `r` of a load of tile shape
`shapes` leaves the masked load `r.first_load` in the header and the masked load
`r.next_load` in the loop body, both allocated by the pass, each with a mask operand
that is a splat, allocated by the pass, of the constant true to `shapes`, neither with
an operand that is an `and` allocated by the pass (so neither conjunction of a cloned
condition with the original mask is an operand), and the phi node `r.new_load` merges
the two. Second part: whenever the pass returns on a module whose operands name
instructions of the module, it has one iteration for each entry of `to_pipeline`, in
the same order, and each iteration has left the same. Third part: the traced pass and
`pipeline::run` return the same module or fail alike. -/
theorem run_forces_masks_of_prefetches (fuel : Nat) (m : module) :
    (∀ (d : Nat), m.pipelinable d = true → d ≤ fuel →
      ∃ (tr : List pipelined_t) (m' : module),
        run_traced fuel m = .ok (tr, m') ∧ run fuel m = .ok m' ∧
        (tr.map fun r => r.load) = m.loads ∧
        ∀ r ∈ tr, ∃ (lx : instruction) (shapes : List Nat),
          m.insts[r.load]? = some lx ∧ (lx.op = .load ∨ lx.op = .masked_load) ∧
          lx.ty.get_block_shapes = some shapes ∧
          m'.pipelined_as m.insts.length lx.ty shapes r ∧
          (∃ (x : instruction), m'.insts[r.first_load]? = some x ∧ x.parent = r.header) ∧
          (∃ (x : instruction), m'.insts[r.next_load]? = some x ∧ x.parent = r.block)) ∧
    (∀ (tr : List pipelined_t) (m' : module), m.closed = true →
      run_traced fuel m = .ok (tr, m') →
      run fuel m = .ok m' ∧
      ∃ (infos : List pipe_info_t), collect m m.all_insts [] = .ok infos ∧
        List.Forall₂ (fun (info : pipe_info_t) (r : pipelined_t) =>
          r.load = info.load ∧ info.header = some r.header ∧ info.block = some r.block ∧
          ∃ (lx : instruction) (shapes : List Nat), m.insts[r.load]? = some lx ∧
            (lx.op = .load ∨ lx.op = .masked_load) ∧
            lx.ty.get_block_shapes = some shapes ∧
            m'.pipelined_as m.insts.length lx.ty shapes r) infos tr) ∧
    (run_traced fuel m).map (fun r => r.2) = run fuel m := by
  refine ⟨?_, fun tr m' hclosed h => run_traced_inv fuel m m' tr hclosed h,
    run_traced_erase fuel m⟩
  intro d hm hfuel
  obtain ⟨tr, m', htr, hrun, hmap, hst⟩ := run_traced_forward fuel d m hm hfuel
  refine ⟨tr, m', htr, hrun, hmap, ?_⟩
  intro r hr
  obtain ⟨_, _, _, hnew, lx, hlx, _, hq⟩ := hst.new_phi r hr
  obtain ⟨lx', shapes, hlx', hshapes, hf₁, hf₂⟩ := hst.forced r hr
  rw [hlx] at hlx'
  cases hlx'
  obtain ⟨⟨x₁, hx₁, _, hp₁⟩, ⟨x₂, hx₂, _, hp₂⟩⟩ := hst.prefetches r hr
  have hload : m.is_load r.load = true := by
    have : r.load ∈ m.loads := by
      rw [← hmap]
      exact List.mem_map.mpr ⟨r, hr, rfl⟩
    exact (List.mem_filter.mp this).2
  simp only [module.is_load, hlx, Bool.or_eq_true, decide_eq_true_eq] at hload
  exact ⟨lx, shapes, hlx, hload, hshapes, ⟨hnew, _, hq, rfl, rfl, rfl, rfl, hf₁, hf₂⟩,
    ⟨x₁, hx₁, hp₁⟩, ⟨x₂, hx₂, hp₂⟩⟩

/-- Witness for C19: `example_two_loads`, where the pass pipelines the load 4 and the
masked load 5, whose mask is the load 4. The iteration of the load 4 emits the
prefetch loads 17 and 21, that of the load 5 the prefetch loads 27 and 32; the pass
allocates the conjunctions 25 and 30 of a cloned condition with the mask of the load
5, and the four prefetch loads have the splats 16, 20, 26 and 31 of the constant true
as mask operand. -/
theorem run_forces_masks_of_prefetches_witness :
    example_two_loads.pipelinable 3 = true ∧ example_two_loads.closed = true ∧
    (run_traced 3 example_two_loads).toOption.map (fun r => r.1)
      = some [{ load := 4, header := 0, block := 1, first_load := 17, next_load := 21,
                new_load := 22 },
              { load := 5, header := 0, block := 1, first_load := 27, next_load := 32,
                new_load := 33 }] ∧
    (run 3 example_two_loads).toOption.map
        (fun m' => [25, 30, 27, 32, 17, 21].map fun i =>
          (m'.insts[i]?).map fun x => (x.op, x.ops))
      = some [some (.and, [.inst 23, .inst 4]), some (.and, [.inst 28, .inst 4]),
          some (.masked_load, [.other 1 (.block (.pointer (.floating 23)) [4]), .inst 26,
            .other 3 (.block (.floating 23) [4])]),
          some (.masked_load, [.inst 7, .inst 31, .other 3 (.block (.floating 23) [4])]),
          some (.masked_load, [.other 0 (.block (.pointer (.integer 1)) [4]), .inst 16,
            .inst 15]),
          some (.masked_load, [.inst 6, .inst 20, .inst 15])] ∧
    ∃ (tr : List pipelined_t) (m' : module),
      run_traced 3 example_two_loads = .ok (tr, m') ∧ run 3 example_two_loads = .ok m' ∧
      (tr.map fun r => r.load) = example_two_loads.loads ∧
      (∀ r ∈ tr, ∃ (lx : instruction) (shapes : List Nat),
        example_two_loads.insts[r.load]? = some lx ∧
        (lx.op = .load ∨ lx.op = .masked_load) ∧
        lx.ty.get_block_shapes = some shapes ∧
        m'.pipelined_as example_two_loads.insts.length lx.ty shapes r ∧
        (∃ (x : instruction), m'.insts[r.first_load]? = some x ∧ x.parent = r.header) ∧
        (∃ (x : instruction), m'.insts[r.next_load]? = some x ∧ x.parent = r.block)) ∧
      ∃ (infos : List pipe_info_t),
        collect example_two_loads example_two_loads.all_insts [] = .ok infos ∧
        List.Forall₂ (fun (info : pipe_info_t) (r : pipelined_t) =>
          r.load = info.load ∧ info.header = some r.header ∧ info.block = some r.block ∧
          ∃ (lx : instruction) (shapes : List Nat),
            example_two_loads.insts[r.load]? = some lx ∧
            (lx.op = .load ∨ lx.op = .masked_load) ∧
            lx.ty.get_block_shapes = some shapes ∧
            m'.pipelined_as example_two_loads.insts.length lx.ty shapes r) infos tr := by
  obtain ⟨tr, m', htr, hrun, hmap, hall⟩ :=
    (run_forces_masks_of_prefetches 3 example_two_loads).1 3 (by decide) (le_refl 3)
  exact ⟨by decide, by decide, by decide, by decide, tr, m', htr, hrun, hmap, hall,
    ((run_forces_masks_of_prefetches 3 example_two_loads).2.1 tr m' (by decide) htr).2⟩

end pipeline

end transform

end codegen

end triton
